import Mathlib

/-!
# PennOS: a shallow embedding of the FAT file system and of the kernel file API

The development follows the C sources of the repository:

* `src/pennfat/fat.c`        : the FAT allocator and the directory engine,
* `src/filesystem/filesystem.c` : the open-files table and `f_open`, `f_read`,
  `f_write`, `f_close`, `f_unlink`, `f_lseek`,
* `src/kernel/PCB.c`, `src/kernel/kernel-functions.c`,
  `src/kernel/puser-functions.c` : the PCB registry and `p_spawn`, `p_kill`, `p_exit`.

Conventions of the embedding.

* Global variables of the C program are fields of explicit state records
  (`Image` for `fat` and the host file behind `fs_fd`, `Kernel` for the rest).
* A function returns `none` where the C execution has no defined result: an
  access outside an array, a dereference of `NULL`, a use of an uninitialised
  variable, a loop that does not terminate, or a host call whose failure makes
  the wrapper of `safe.c` leave the process.
* `int` values are `Int`; values of the unsigned fields of a directory entry are
  reduced modulo `2 ^ w` where they are stored.
* Bytes are natural numbers, reduced modulo 256 when they go to or come from
  the host file.
* Pointers to PCBs are represented by the PID, which `createPCB` makes unique.
* `time(0)` is the argument `now` of the operations that call it.
-/

namespace PennOS

/-! ## Constants of `fat.c`, `fat.h`, `filesystem.h`, `PCB.h` and `globals.h` -/

def DIR_ENTRY_SIZE : Nat := 64
def ROOTDIR : Nat := 1
def LASTBLOCK : Nat := 0xFFFF
def BITS_PER_BYTE : Nat := 8
def BYTE_SIZE : Nat := 256

def FILETYPE_UNKNOWN : Nat := 0
def FILETYPE_FILE : Nat := 1
def FILETYPE_DIRECTORY : Nat := 2
def FILETYPE_LINK : Nat := 4

def FILENAME_ENDDIR : Nat := 0
def FILENAME_DEL_UNUSED : Nat := 1
def FILENAME_DEL_INUSE : Nat := 2

def FILEPERM_NONE : Nat := 0
def FILEPERM_RD : Nat := 4
def FILEPERM_WR : Nat := 2
def FILEPERM_EX : Nat := 1

def F_STDIN : Int := 0
def F_STDOUT : Int := 1
def F_STDERR : Int := 2

def F_WRITE : Int := 0
def F_READ : Int := 1
def F_APPEND : Int := 2

def F_SEEK_SET : Int := 0
def F_SEEK_CURR : Int := 1
def F_SEEK_END : Int := 2

def MAX_FDS : Nat := 1024
def MAX_CHILDREN : Nat := 10000
def NOFILE : Int := -1
def STDIN_ID : Int := -2
def STDOUT_ID : Int := -3
def STDERR_ID : Int := -4

def S_SIGSTOP : Int := 123
def S_SIGCONT : Int := 456
def S_SIGTERM : Int := 789
def S_SIGCHLD : Int := 812

def T_RUNNING : Int := 111
def T_STOPPED : Int := 222
def T_BLOCKED : Int := 333
def T_ZOMBIED : Int := 444
def T_WAITED : Int := 555

def ERR_NONE : Int := 0
def ERR_FS_FILE_NOT_FOUND : Int := 1000
def ERR_F_OPEN_INVALID_PERMS : Int := 1010
def ERR_F_OPEN_WRITE_INUSE : Int := 1011
def ERR_F_OPEN_CREATE_READ : Int := 1012
def ERR_F_OPEN_INVALID_MODE : Int := 1013
def ERR_F_READ_TERM_OUT : Int := 1020
def ERR_F_WRITE_TERM_IN : Int := 1030
def ERR_F_WRITE_RONLY : Int := 1031
def ERR_F_CLOSE_TERMINAL : Int := 1040
def ERR_F_UNLINK_NOT_FOUND : Int := 1050
def ERR_F_LSEEK_TERMINAL : Int := 1060
def ERR_F_LSEEK_OOB : Int := 1061
def ERR_P_SPAWN_NULL_CHILD : Int := 2000
def ERR_P_SPAWN_NULL_STACK : Int := 2001
def ERR_P_WAITPID_NULL_CHILD : Int := 2010
def ERR_P_KILL_NULL_PROCESS : Int := 2020
def ERR_P_NICE_NULL_PROCESS : Int := 2030

/-! ## Machine integers -/

/-- Largest value of the C type `int`. -/
def INT_MAX : Int := 2147483647

/-- Smallest value of the C type `int`. -/
def INT_MIN : Int := -2147483648

/-- Result of a signed `int` computation: `none` when the mathematical value
does not fit, which is undefined behaviour in C. -/
def int_chk (x : Int) : Option Int :=
  if INT_MIN ≤ x ∧ x ≤ INT_MAX then some x else none

/-- Conversion of an `int` to `uint32_t` (the usual arithmetic conversion that
C applies when an `int` meets the `uint32_t` field `size`). -/
def to_u32 (x : Int) : Nat := (x % 4294967296).toNat

/-- Conversion of a `uint32_t` value to `int` (two's complement). -/
def u32_to_int (x : Nat) : Int :=
  if x % 4294967296 < 2147483648 then ((x % 4294967296 : Nat) : Int)
  else ((x % 4294967296 : Nat) : Int) - 4294967296

/-- Value of a `char` holding byte `b` (the type `char` is signed on the
platform of the program). -/
def schar (b : Nat) : Int := if b % 256 < 128 then ((b % 256 : Nat) : Int) else ((b % 256 : Nat) : Int) - 256

/-! ## Strings and little-endian fields -/

/-- Characters of the C string that starts at the head of `l`: the bytes
before the first zero byte. -/
def c_str : List Nat → List Nat
  | [] => []
  | b :: bs => if b = 0 then [] else b :: c_str bs

/-- Library function `strlen` on a buffer whose bytes are `l`, followed by a terminator. -/
def strlen (l : List Nat) : Nat := (c_str l).length

/-- The `k` bytes of the little-endian representation of `v`. -/
def le_bytes (v : Nat) : Nat → List Nat
  | 0 => []
  | k + 1 => (v % 256) :: le_bytes (v / 256) k

/-- Value of a little-endian byte sequence. -/
def le_value : List Nat → Nat
  | [] => 0
  | b :: bs => b % 256 + 256 * le_value bs

/-! ## The mounted image -/

/-- The mounted file system: `fat` is the memory-mapped array of 16-bit cells
(global `fat`), `disk` gives the byte at each absolute position of the host
file behind the global descriptor `fs_fd`. -/
structure Image where
  fat : List Nat
  disk : Nat → Nat

/-- Macro `FAT_BLOCKS`: the high byte of the metadata cell. -/
def FAT_BLOCKS (x : Nat) : Nat := x / 2 ^ BITS_PER_BYTE

/-- Macro `BLOCK_SIZE`: `BYTE_SIZE << (x & 0xFF)`, an `int`; a shift that leaves
the range of `int` is undefined. -/
def BLOCK_SIZE (x : Nat) : Option Nat :=
  if x % 256 < 23 then some (BYTE_SIZE * 2 ^ (x % 256)) else none

/-- Function `mem_idx` of `fat.c`: position in the host file of block
`block_idx`, that is `block_size*fat_blocks + block_size*(block_idx-1)`. The
result is `none` when the metadata cannot be read or the C value is negative
(the `lseek` that receives it fails and `safe_lseek` leaves the process). -/
def mem_idx (fat : List Nat) (block_idx : Nat) : Option Nat := do
  let metadata ← fat[0]?
  let fat_blocks := FAT_BLOCKS metadata
  let block_size ← BLOCK_SIZE metadata
  if block_size * fat_blocks + block_size * block_idx < block_size then none
  else some (block_size * fat_blocks + block_size * block_idx - block_size)

/-- Whether `count` bytes at position `addr` lie in the data region of the
image, the blocks `1 .. N-1` where `N` is the number of mapped cells. -/
def in_data_region (fat : List Nat) (addr count : Nat) : Option Bool := do
  let metadata ← fat[0]?
  let block_size ← BLOCK_SIZE metadata
  some (decide (block_size * FAT_BLOCKS metadata ≤ addr ∧
    addr + count ≤ block_size * FAT_BLOCKS metadata + block_size * (fat.length - 1)))

/-- Bytes `addr .. addr+count-1` of the host file. -/
def disk_read (disk : Nat → Nat) (addr count : Nat) : List Nat :=
  (List.range count).map (fun i => disk (addr + i) % 256)

/-- Host file after `bytes` have been stored from position `addr` on. -/
def disk_write (disk : Nat → Nat) (addr : Nat) (bytes : List Nat) : Nat → Nat :=
  fun a => if addr ≤ a ∧ a < addr + bytes.length then bytes.getD (a - addr) 0 % 256 else disk a

/-- The pair `safe_lseek(fs_fd, addr, SEEK_SET); safe_read(fs_fd, buf, count)`.
Positions outside the data region are not part of the model. -/
def seek_read (img : Image) (addr count : Nat) : Option (List Nat) := do
  let ok ← in_data_region img.fat addr count
  if ok then some (disk_read img.disk addr count) else none

/-- The pair `safe_lseek(fs_fd, addr, SEEK_SET); safe_write(fs_fd, bytes, count)`.
Positions outside the data region are not part of the model. -/
def seek_write (img : Image) (addr : Nat) (bytes : List Nat) : Option Image := do
  let ok ← in_data_region img.fat addr bytes.length
  if ok then some { img with disk := disk_write img.disk addr bytes } else none

/-- Assignment `fat[i] = v` followed by `safe_msync`; `none` outside the mapping. -/
def fat_set (fat : List Nat) (i v : Nat) : Option (List Nat) :=
  if i < fat.length then some (fat.set i (v % 65536)) else none

/-! ## Directory entries -/

/-- Structure `dir_entry_t` of `fat.h`: 64 bytes on disk. -/
structure dir_entry_t where
  name : List Nat
  size : Nat
  firstBlock : Nat
  type : Nat
  perm : Nat
  mtime : Nat
  _BUFFER_ : List Nat
deriving DecidableEq, Repr

/-- Structure `point_t` of `fat.h`: directory block and entry index. -/
structure point_t where
  first : Nat
  second : Nat
deriving DecidableEq, Repr

/-- The 64 bytes of a directory entry as `safe_write(fs_fd, &entry, 64)` stores them. -/
def dir_entry_t.encode (e : dir_entry_t) : List Nat :=
  (List.range 32).map (fun i => e.name.getD i 0 % 256)
    ++ le_bytes e.size 4 ++ le_bytes e.firstBlock 2 ++ [e.type % 256, e.perm % 256]
    ++ le_bytes e.mtime 8 ++ (List.range 16).map (fun i => e._BUFFER_.getD i 0 % 256)

/-- The directory entry that `safe_read(fs_fd, &entry, 64)` builds from 64 bytes. -/
def dir_entry_t.decode (l : List Nat) : dir_entry_t :=
  { name := (List.range 32).map (fun i => l.getD i 0 % 256)
    size := le_value ((l.drop 32).take 4)
    firstBlock := le_value ((l.drop 36).take 2)
    type := l.getD 38 0 % 256
    perm := l.getD 39 0 % 256
    mtime := le_value ((l.drop 40).take 8)
    _BUFFER_ := (List.range 16).map (fun i => l.getD (48 + i) 0 % 256) }

/-- Test `strcmp(filename, entry.name) == 0` against the 32-byte field `name`;
`none` when the comparison would run past the end of the field. -/
def strcmp_name (filename name : List Nat) : Option Bool :=
  if (c_str filename).length < name.length then
    some (decide (name.take ((c_str filename).length + 1) = c_str filename ++ [0]))
  else if name = (c_str filename).take name.length then none
  else some false

/-- Call `strcpy(entry.name, filename)` on the 32-byte field `name`; `none`
when the string with its terminator does not fit. -/
def strcpy_name (name filename : List Nat) : Option (List Nat) :=
  if (c_str filename).length < 32 then
    some (c_str filename ++ [0] ++ name.drop ((c_str filename).length + 1))
  else none

/-! ## The FAT allocator (`fat.c`) -/

/-- Loop of `get_free_block`: `for (i = ...; i < size; i++) if (fat[i] == 0) return i;`
with `k` iterations left, then `return 0`. A read outside the mapping is `none`. -/
def get_free_block_loop (fat : List Nat) : Nat → Nat → Option Nat
  | 0, _ => some 0
  | k + 1, i =>
    match fat[i]? with
    | none => none
    | some v => if v = 0 then some i else get_free_block_loop fat k (i + 1)

/-- Function `get_free_block` of `fat.c`: the scan runs over `i = 1 .. n_blocks * block_size - 1`. -/
def get_free_block (fat : List Nat) : Option Nat := do
  let metadata ← fat[0]?
  let n_blocks := FAT_BLOCKS metadata
  let block_size ← BLOCK_SIZE metadata
  get_free_block_loop fat (n_blocks * block_size - 1) 1

/-- Loop of `delete_chain`: `while (curr != LASTBLOCK) { next = fat[curr]; fat[curr] = 0; curr = next; }`.
The fuel bounds the number of iterations; a walk that outlives it never ends. -/
def delete_chain_loop : Nat → List Nat → Nat → Option (List Nat)
  | 0, _, _ => none
  | fuel + 1, fat, curr =>
    if curr = LASTBLOCK then some fat
    else do
      let next ← fat[curr]?
      let fat1 ← fat_set fat curr 0
      delete_chain_loop fuel fat1 next

/-- Function `delete_chain` of `fat.c`. -/
def delete_chain (fat : List Nat) (head : Nat) : Option (List Nat) := do
  let metadata ← fat[0]?
  let _ ← BLOCK_SIZE metadata
  delete_chain_loop (fat.length + 2) fat head

/-- Recursion of `build_chain`; `data` holds the `n_bytes` bytes to store and the
fuel bounds the depth (the length of `data` is always enough). -/
def build_chain_rec : Nat → Image → Nat → List Nat → Option Image
  | 0, img, _, data => if data.length = 0 then some img else none
  | fuel + 1, img, curr_block, data =>
    if data.length = 0 then some img
    else do
      let metadata ← img.fat[0]?
      let block_size ← BLOCK_SIZE metadata
      let fat1 ← fat_set img.fat curr_block LASTBLOCK
      if data.length ≤ block_size then do
        let addr ← mem_idx fat1 curr_block
        seek_write { img with fat := fat1 } addr data
      else do
        let next ← get_free_block fat1
        let img2 ← build_chain_rec fuel { img with fat := fat1 } next (data.drop block_size)
        let fat3 ← fat_set img2.fat curr_block next
        let addr ← mem_idx fat3 curr_block
        seek_write { img2 with fat := fat3 } addr (data.take block_size)

/-- Function `build_chain` of `fat.c`, called with the buffer `data` and `n_bytes = data.length`. -/
def build_chain (img : Image) (curr_block : Nat) (data : List Nat) : Option Image :=
  build_chain_rec data.length img curr_block data

/-- Recursion of `read_chain`: the bytes that the call stores in `buffer`, in order.
The call stores nothing when `head` is `LASTBLOCK`. -/
def read_chain_rec (img : Image) : Nat → Nat → Nat → Option (List Nat)
  | 0, _, _ => some []
  | fuel + 1, head, chain_bytes =>
    if head = LASTBLOCK then some []
    else if chain_bytes = 0 then some []
    else do
      let metadata ← img.fat[0]?
      let block_size ← BLOCK_SIZE metadata
      let addr ← mem_idx img.fat head
      if chain_bytes ≤ block_size then seek_read img addr chain_bytes
      else do
        let blk ← seek_read img addr block_size
        let next ← img.fat[head]?
        let rest ← read_chain_rec img fuel next (chain_bytes - block_size)
        some (blk ++ rest)

/-- Function `read_chain` of `fat.c`. -/
def read_chain (img : Image) (head chain_bytes : Nat) : Option (List Nat) :=
  read_chain_rec img chain_bytes head chain_bytes

/-- Recursion of `fill_chain`: the image after the write and the number of bytes written. -/
def fill_chain_rec (buffer : List Nat) : Nat → Image → Nat → Nat → Option (Image × Nat)
  | 0, _, _, _ => none
  | fuel + 1, img, head, chain_size =>
    if head = LASTBLOCK then none
    else if buffer.length = 0 then some (img, 0)
    else do
      let metadata ← img.fat[0]?
      let block_size ← BLOCK_SIZE metadata
      if chain_size ≤ block_size then
        if chain_size = block_size then some (img, 0)
        else if block_size - chain_size ≤ buffer.length then do
          let addr ← mem_idx img.fat head
          let img1 ← seek_write img (addr + chain_size) (buffer.take (block_size - chain_size))
          some (img1, block_size - chain_size)
        else do
          let addr ← mem_idx img.fat head
          let img1 ← seek_write img (addr + chain_size) buffer
          some (img1, buffer.length)
      else do
        let next ← img.fat[head]?
        fill_chain_rec buffer fuel img next (chain_size - block_size)

/-- Function `fill_chain` of `fat.c`; `head == LASTBLOCK` makes the function leave the process. -/
def fill_chain (img : Image) (head chain_size : Nat) (buffer : List Nat) : Option (Image × Nat) :=
  fill_chain_rec buffer (chain_size + 1) img head chain_size

/-! ## The directory engine (`fat.c`) -/

/-- Inner loop of `find_file`: the entries `i, i+1, ...` of the block at `addr`, `k` of them. -/
def find_in_block (img : Image) (filename : List Nat) (curr_block addr : Nat) :
    Nat → Nat → Option (Option (point_t × dir_entry_t))
  | 0, _ => some none
  | k + 1, i => do
    let bytes ← seek_read img (addr + i * DIR_ENTRY_SIZE) DIR_ENTRY_SIZE
    let entry := dir_entry_t.decode bytes
    if schar (entry.name.getD 0 0) < FILENAME_DEL_INUSE then
      find_in_block img filename curr_block addr k (i + 1)
    else do
      let same ← strcmp_name filename entry.name
      if same then some (some ({ first := curr_block, second := i }, entry))
      else find_in_block img filename curr_block addr k (i + 1)

/-- Outer loop of `find_file`: `while (curr_block != LASTBLOCK)`. -/
def find_file_loop (img : Image) (filename : List Nat) (block_size : Nat) :
    Nat → Nat → Option (Option (point_t × dir_entry_t))
  | 0, _ => none
  | fuel + 1, curr_block =>
    if curr_block = LASTBLOCK then some none
    else do
      let addr ← mem_idx img.fat curr_block
      let r ← find_in_block img filename curr_block addr (block_size / DIR_ENTRY_SIZE) 0
      match r with
      | some hit => some (some hit)
      | none => do
        let next ← img.fat[curr_block]?
        find_file_loop img filename block_size fuel next

/-- Function `find_file` of `fat.c`: `some (loc, entry)` when the function returns
`true`, `none` inside the result when it returns `false`. -/
def find_file (img : Image) (dir_head : Nat) (filename : List Nat) :
    Option (Option (point_t × dir_entry_t)) := do
  let metadata ← img.fat[0]?
  let block_size ← BLOCK_SIZE metadata
  find_file_loop img filename block_size (img.fat.length + 1) dir_head

/-- Function `write_file` of `fat.c`. -/
def write_file (img : Image) (location : point_t) (entry : dir_entry_t) : Option Image := do
  let addr ← mem_idx img.fat location.first
  seek_write img (addr + location.second * DIR_ENTRY_SIZE) entry.encode

/-- The entry that `add_file` writes over the slot `old`. -/
def new_entry (old : dir_entry_t) (filename : List Nat) (now : Nat) : Option dir_entry_t := do
  let name ← strcpy_name old.name filename
  some { old with
    name := name
    mtime := now % 2 ^ 64
    size := 0
    type := FILETYPE_FILE
    perm := FILEPERM_RD + FILEPERM_WR
    firstBlock := LASTBLOCK }

/-- Inner loop of `add_file`: look for a slot whose first name byte is
`FILENAME_ENDDIR` or `FILENAME_DEL_UNUSED` and write the new entry there. The
result is `some img` when the entry was written, `none` inside when the block has no such slot. -/
def add_in_block (img : Image) (filename : List Nat) (now addr : Nat) :
    Nat → Nat → Option (Option Image)
  | 0, _ => some none
  | k + 1, i => do
    let bytes ← seek_read img (addr + i * DIR_ENTRY_SIZE) DIR_ENTRY_SIZE
    let entry := dir_entry_t.decode bytes
    if entry.name.getD 0 0 = FILENAME_ENDDIR ∨ entry.name.getD 0 0 = FILENAME_DEL_UNUSED then do
      let e ← new_entry entry filename now
      let img1 ← seek_write img (addr + i * DIR_ENTRY_SIZE) e.encode
      some (some img1)
    else add_in_block img filename now addr k (i + 1)

/-- A directory entry all of whose bytes are zero. -/
def zero_entry : dir_entry_t :=
  { name := List.replicate 32 0, size := 0, firstBlock := 0, type := 0, perm := 0,
    mtime := 0, _BUFFER_ := List.replicate 16 0 }

/-- Loop `while (true)` of `add_file` and the code after it, which links and
fills a new directory block. The bytes of the local `entry` that the code
leaves uninitialised in that case are taken to be zero. -/
def add_file_loop (filename : List Nat) (now block_size : Nat) :
    Nat → Image → Nat → Option Image
  | 0, _, _ => none
  | fuel + 1, img, curr_block => do
    let addr ← mem_idx img.fat curr_block
    let r ← add_in_block img filename now addr (block_size / DIR_ENTRY_SIZE) 0
    match r with
    | some img1 => some img1
    | none => do
      let link ← img.fat[curr_block]?
      if link = LASTBLOCK then do
        let new_block ← get_free_block img.fat
        let fat1 ← fat_set img.fat curr_block new_block
        let fat2 ← fat_set fat1 new_block LASTBLOCK
        let addr2 ← mem_idx fat2 new_block
        let img2 ← seek_write { img with fat := fat2 } addr2 (List.replicate block_size 0)
        let e ← new_entry zero_entry filename now
        let addr3 ← mem_idx img2.fat new_block
        seek_write img2 addr3 e.encode
      else add_file_loop filename now block_size fuel img link

/-- Function `add_file` of `fat.c`. -/
def add_file (img : Image) (dir_head : Nat) (filename : List Nat) (now : Nat) : Option Image := do
  let metadata ← img.fat[0]?
  let block_size ← BLOCK_SIZE metadata
  add_file_loop filename now block_size (img.fat.length + 1) img dir_head

/-- Function `fs_touch` of `fat.c`: the image and the returned flag (`true` when a file was created). -/
def fs_touch (img : Image) (target : List Nat) (now : Nat) : Option (Image × Bool) := do
  let r ← find_file img ROOTDIR target
  match r with
  | some (location, entry) => do
    let img1 ← write_file img location { entry with mtime := now % 2 ^ 64 }
    some (img1, false)
  | none => do
    let img1 ← add_file img ROOTDIR target now
    some (img1, true)

/-- Function `fs_mark_deleted` of `fat.c`. -/
def fs_mark_deleted (img : Image) (target : List Nat) (now : Nat) : Option (Image × Bool) := do
  let r ← find_file img ROOTDIR target
  match r with
  | none => some (img, false)
  | some (location, entry) => do
    let img1 ← write_file img location
      { entry with name := entry.name.set 0 FILENAME_DEL_INUSE, mtime := now % 2 ^ 64 }
    some (img1, true)

/-- Function `fs_rm` of `fat.c`. -/
def fs_rm (img : Image) (target : List Nat) : Option (Image × Bool) := do
  let r ← find_file img ROOTDIR target
  match r with
  | none => some (img, false)
  | some (location, entry) => do
    let fat1 ← delete_chain img.fat entry.firstBlock
    let img1 ← write_file { img with fat := fat1 } location
      { entry with name := entry.name.set 0 FILENAME_DEL_UNUSED }
    some (img1, true)

/-- Function `fs_mv` of `fat.c`. -/
def fs_mv (img : Image) (old_name new_name : List Nat) (now : Nat) : Option (Image × Bool) := do
  let r ← find_file img ROOTDIR old_name
  match r with
  | none => some (img, false)
  | some (location, entry) => do
    let r2 ← find_file img ROOTDIR new_name
    match r2 with
    | some _ => some (img, false)
    | none => do
      let name ← strcpy_name entry.name new_name
      let img1 ← write_file img location { entry with name := name, mtime := now % 2 ^ 64 }
      some (img1, true)

/-- Function `fs_chmod` of `fat.c`: the image and the old permissions. The
function does not test whether the file was found. -/
def fs_chmod (img : Image) (target : List Nat) (permissions now : Nat) : Option (Image × Nat) := do
  let r ← find_file img ROOTDIR target
  let (location, entry) ← r
  let img1 ← write_file img location
    { entry with perm := permissions % 256, mtime := now % 2 ^ 64 }
  some (img1, entry.perm)

/-- First part of `fs_cat` for `input_mode != 0`: the concatenated contents of the
input files. The function does not test whether a file was found, and a chain
shorter than the size leaves bytes of `output` uninitialised. -/
def cat_inputs (img : Image) : List (List Nat) → Option (List Nat)
  | [] => some []
  | target :: rest => do
    let r ← find_file img ROOTDIR target
    let (_, entry) ← r
    let bytes ← read_chain img entry.firstBlock entry.size
    if bytes.length = entry.size then do
      let tail ← cat_inputs img rest
      some (bytes ++ tail)
    else none

/-- Loop `while (fat[last] != LASTBLOCK) last = fat[last];` of `fs_cat`. -/
def last_block_loop (fat : List Nat) : Nat → Nat → Option Nat
  | 0, _ => none
  | fuel + 1, last => do
    let v ← fat[last]?
    if v = LASTBLOCK then some last else last_block_loop fat fuel v

/-- Lookup of the output file in `fs_cat`: `find_file`, and when the file is
missing `add_file` followed by a second `find_file` whose result is not tested. -/
def find_or_add (img : Image) (output_file : List Nat) (now : Nat) :
    Option (Image × point_t × dir_entry_t) := do
  let r ← find_file img ROOTDIR output_file
  match r with
  | some (location, entry) => some (img, location, entry)
  | none => do
    let img1 ← add_file img ROOTDIR output_file now
    let r2 ← find_file img1 ROOTDIR output_file
    let (location, entry) ← r2
    some (img1, location, entry)

/-- Output part of `fs_cat` for `output_mode == 1`: delete the chain of the file and rebuild it. -/
def cat_overwrite (img : Image) (output : List Nat) (output_file : List Nat) (now : Nat) :
    Option Image := do
  let (img1, location, entry) ← find_or_add img output_file now
  let fat2 ← delete_chain img1.fat entry.firstBlock
  let new_head ← get_free_block fat2
  let img3 ← build_chain { img1 with fat := fat2 } new_head (output ++ [0])
  write_file img3 location
    { entry with
      firstBlock := new_head % 65536
      mtime := now % 2 ^ 64
      size := output.length % 2 ^ 32 }

/-- Output part of `fs_cat` for the append mode (the last `else`). -/
def cat_append (img : Image) (output : List Nat) (output_file : List Nat) (now : Nat) :
    Option Image := do
  let (img1, location, entry) ← find_or_add img output_file now
  if entry.firstBlock = LASTBLOCK then do
    let new_head ← get_free_block img1.fat
    let img2 ← build_chain img1 new_head output
    write_file img2 location
      { entry with
        firstBlock := new_head % 65536
        mtime := now % 2 ^ 64
        size := output.length % 2 ^ 32 }
  else do
    let (img2, buffer_offset) ← fill_chain img1 entry.firstBlock entry.size output
    if buffer_offset = output.length then
      write_file img2 location
        { entry with mtime := now % 2 ^ 64, size := (entry.size + output.length) % 2 ^ 32 }
    else do
      let new_head ← get_free_block img2.fat
      let img3 ← build_chain img2 new_head (output.drop buffer_offset)
      let last ← last_block_loop img3.fat (img3.fat.length + 1) entry.firstBlock
      let fat4 ← fat_set img3.fat last new_head
      let metadata ← fat4[0]?
      let _ ← BLOCK_SIZE metadata
      write_file { img3 with fat := fat4 } location
        { entry with mtime := now % 2 ^ 64, size := (entry.size + output.length) % 2 ^ 32 }

/-- Function `fs_cat` of `fat.c`. The input is `input_str` (a C string) when
`input_mode` is 0 and the first `input_mode` names of `input_files` otherwise.
The result is the image and, for `output_mode == 0`, the returned buffer. -/
def fs_cat (img : Image) (input_mode : Nat) (output_mode : Int) (input_str : List Nat)
    (input_files : List (List Nat)) (output_file : List Nat) (now : Nat) :
    Option (Image × Option (List Nat)) := do
  let output ←
    if input_mode = 0 then some (c_str input_str)
    else if input_mode ≤ input_files.length then cat_inputs img (input_files.take input_mode)
    else none
  if output_mode = 0 then some (img, some output)
  else if output_mode = 1 then do
    let img1 ← cat_overwrite img output output_file now
    some (img1, none)
  else do
    let img1 ← cat_append img output output_file now
    some (img1, none)

/-! ## The open-files table (`filesystem.h`, `filesystem.c`) -/

/-- Structure `fileptr_t`: the offset `ptr` of process `pid` in one open file. -/
structure fileptr_t where
  pid : Int
  ptr : Int
deriving DecidableEq, Repr

/-- Structure `file_t`: an entry of the list `open_files`; `filename` holds the
characters of the C string and `fileptr_head` the linked list of offsets. -/
structure file_t where
  filename : List Nat
  file_id : Int
  wr_pid : Int
  fileptr_head : List fileptr_t
deriving DecidableEq, Repr

/-- Structure `PCB` of `PCB.h`, without the name and the execution context;
`children` holds the first `numChildren` elements of the array. -/
structure PCB where
  parent_pid : Int
  pid : Int
  children : List Int
  fileDescriptors : List Int
  priority : Int
  status : Int
deriving DecidableEq, Repr

/-- The global variables of the kernel and of the file API: `pcb_list` (the
circular list, from its head), `current_pcb` (`none` for `NULL`), `next_pid`,
`open_files`, `next_file_id`, `ERRNO`, and the mounted image. -/
structure Kernel where
  pcb_list : List PCB
  current_pcb : Option Int
  next_pid : Int
  open_files : List file_t
  next_file_id : Int
  ERRNO : Int
  img : Image

/-- Function `create_fileptr`: insertion at the head of the list. -/
def create_fileptr (fileptr_head : List fileptr_t) (pid ptr : Int) : List fileptr_t :=
  { pid := pid, ptr := ptr } :: fileptr_head

/-- Function `delete_fileptr`: removal of the first node of `pid`. -/
def delete_fileptr : List fileptr_t → Int → List fileptr_t
  | [], _ => []
  | x :: xs, pid => if x.pid = pid then xs else x :: delete_fileptr xs pid

/-- Function `get_fileptr`: the first node of `pid`, `none` for `NULL`. -/
def get_fileptr : List fileptr_t → Int → Option fileptr_t
  | [], _ => none
  | x :: xs, pid => if pid = x.pid then some x else get_fileptr xs pid

/-- Function `get_fileptr_ptr`. -/
def get_fileptr_ptr (fileptr_head : List fileptr_t) (pid : Int) : Int :=
  match get_fileptr fileptr_head pid with
  | none => -1
  | some fileptr => fileptr.ptr

/-- Assignment `fp_struct->ptr = ptr` through the pointer that `get_fileptr` returned for `pid`. -/
def set_fileptr : List fileptr_t → Int → Int → List fileptr_t
  | [], _, _ => []
  | x :: xs, pid, ptr =>
    if pid = x.pid then { x with ptr := ptr } :: xs else x :: set_fileptr xs pid ptr

/-- Function `find_file_entry_by_file_id`. -/
def find_file_entry_by_file_id : List file_t → Int → Option file_t
  | [], _ => none
  | x :: xs, file_id => if x.file_id = file_id then some x else find_file_entry_by_file_id xs file_id

/-- Function `find_file_entry_by_filename`; `strcmp` compares the C strings. -/
def find_file_entry_by_filename : List file_t → List Nat → Option file_t
  | [], _ => none
  | x :: xs, filename =>
    if x.filename = c_str filename then some x else find_file_entry_by_filename xs filename

/-- Update through the pointer that `find_file_entry_by_file_id` returned. -/
def update_file_entry (f : file_t → file_t) : List file_t → Int → List file_t
  | [], _ => []
  | x :: xs, file_id =>
    if x.file_id = file_id then f x :: xs else x :: update_file_entry f xs file_id

/-- Update through the pointer that `find_file_entry_by_filename` returned. -/
def update_file_entry_by_filename (f : file_t → file_t) : List file_t → List Nat → List file_t
  | [], _ => []
  | x :: xs, filename =>
    if x.filename = c_str filename then f x :: xs
    else x :: update_file_entry_by_filename f xs filename

/-- Function `delete_file_entry`: removal of the first entry with `file_id`. -/
def delete_file_entry : List file_t → Int → List file_t
  | [], _ => []
  | x :: xs, file_id => if x.file_id = file_id then xs else x :: delete_file_entry xs file_id

/-- Macros `F_HASPERM`, `F_CANREAD`, `F_CANWRITE` and function `valid_perm`. -/
def F_HASPERM (perm mask : Nat) : Bool := (perm &&& mask) != 0

def F_CANREAD (perm : Nat) : Bool := F_HASPERM perm FILEPERM_RD

def F_CANWRITE (perm : Nat) : Bool := F_HASPERM perm FILEPERM_WR && F_CANREAD perm

def valid_perm (perm : Nat) (mode : Int) : Bool :=
  (decide (mode = F_WRITE) && F_CANWRITE perm) ||
  (decide (mode = F_READ) && F_CANREAD perm) ||
  (decide (mode = F_APPEND) && F_CANWRITE perm)

/-! ## The PCB registry (`PCB.c`) -/

/-- Function `findPCBByPID`: the first PCB of the circular list with `pid`. -/
def findPCBByPID : List PCB → Int → Option PCB
  | [], _ => none
  | x :: xs, pid => if x.pid = pid then some x else findPCBByPID xs pid

/-- Update through a pointer to the PCB `pid`. -/
def update_pcb (f : PCB → PCB) : List PCB → Int → List PCB
  | [], _ => []
  | x :: xs, pid => if x.pid = pid then f x :: xs else x :: update_pcb f xs pid

/-- The PCB that `current_pcb` points to. -/
def cur_pcb (k : Kernel) : Option PCB := do
  let pid ← k.current_pcb
  findPCBByPID k.pcb_list pid

/-- Read of `pcb->fileDescriptors[fd]`; `none` outside the array. -/
def fd_get (pcb : PCB) (fd : Int) : Option Int :=
  if 0 ≤ fd ∧ fd < MAX_FDS then pcb.fileDescriptors[fd.toNat]? else none

/-- Assignment `pcb->fileDescriptors[fd] = v`; `none` outside the array. -/
def fd_set (pcb : PCB) (fd v : Int) : Option PCB :=
  if 0 ≤ fd ∧ fd < MAX_FDS ∧ fd.toNat < pcb.fileDescriptors.length then
    some { pcb with fileDescriptors := pcb.fileDescriptors.set fd.toNat v }
  else none

/-- Loop of `find_unused_fd`, `k` iterations from index `i`, then `return -1`. -/
def find_unused_fd_loop (fds : List Int) : Nat → Nat → Option Int
  | 0, _ => some (-1)
  | k + 1, i =>
    match fds[i]? with
    | none => none
    | some v => if v = NOFILE then some (i : Int) else find_unused_fd_loop fds k (i + 1)

/-- Function `find_unused_fd`: `for (int i = 3; i < MAX_FDS; i++)`. -/
def find_unused_fd (pcb : PCB) : Option Int :=
  find_unused_fd_loop pcb.fileDescriptors (MAX_FDS - 3) 3

/-- Loop of `is_duplicate_fd`. -/
def is_duplicate_fd_loop (fds : List Int) (file_id : Int) : Nat → Nat → Option Bool
  | 0, _ => some false
  | k + 1, i =>
    match fds[i]? with
    | none => none
    | some v => if v = file_id then some true else is_duplicate_fd_loop fds file_id k (i + 1)

/-- Function `is_duplicate_fd`: `for (int i = 3; i < MAX_FDS; i++)`. -/
def is_duplicate_fd (pcb : PCB) (file_id : Int) : Option Bool :=
  is_duplicate_fd_loop pcb.fileDescriptors file_id (MAX_FDS - 3) 3

/-- Function `f_isatty`: the test is on the descriptor number. -/
def f_isatty (fd : Int) : Bool :=
  decide (fd = F_STDIN) || decide (fd = F_STDOUT) || decide (fd = F_STDERR)

/-- Constant `IOBUFFER_SIZE` of `util.c`. -/
def IOBUFFER_SIZE : Int := 10000

/-- Function `addPCBToList`: the PCB becomes the tail of the circular list. -/
def addPCBToList (list : List PCB) (pcb : PCB) : List PCB := list ++ [pcb]

/-- Removal of the first PCB with `pid` from the list. -/
def unlink_pcb : List PCB → Int → List PCB
  | [], _ => []
  | x :: xs, pid => if x.pid = pid then xs else x :: unlink_pcb xs pid

/-- Loop `for (i < pcb->numChildren) { child = findPCBByPID(...); child->parent_pid = -1; }`. -/
def orphan_children : List Int → List PCB → Option (List PCB)
  | [], list => some list
  | c :: cs, list => do
    let _ ← findPCBByPID list c
    orphan_children cs (update_pcb (fun p => { p with parent_pid := -1 }) list c)

/-- Loop of `removePCBFromList` that looks for `pid` among the children of the parent:
the last index `i < numChildren` with `children[i] == pid`, starting from `index = -1`. -/
def child_index (children : List Int) (pid : Int) : Int :=
  (List.range children.length).foldl
    (fun index i => if children.getD i 0 = pid then (i : Int) else index) (-1)

/-- Function `removePCBFromList` applied to `&pcb_list` and a pointer to the PCB
`pid` of the list. A zombie is freed after its children were orphaned and its
entry in the array of its parent was overwritten with the last child. -/
def removePCBFromList (list : List PCB) (pid : Int) : Option (List PCB) :=
  match list with
  | [] => some []
  | _ :: _ => do
    let pcb ← findPCBByPID list pid
    let list1 := unlink_pcb list pid
    if list1 = [] then some list1
    else if pcb.status = T_ZOMBIED then do
      let list2 ← orphan_children pcb.children list1
      if pcb.parent_pid ≠ 0 then do
        let parent ← findPCBByPID list2 pcb.parent_pid
        let index := child_index parent.children pcb.pid
        if index < 0 then none
        else
          let last := parent.children.getD (parent.children.length - 1) 0
          some (update_pcb
            (fun p => { p with children := (p.children.set index.toNat last).take (p.children.length - 1) })
            list2 pcb.parent_pid)
      else some list2
    else some list1

/-- Function `createPCB`: the new PCB (not yet in the list) and the kernel in which
`next_pid` has advanced and the parent has the new child. Allocation is taken to succeed. -/
def createPCB (k : Kernel) (Parent : Option PCB) : Option (Kernel × PCB) :=
  match Parent with
  | some parent =>
    if parent.children.length < MAX_CHILDREN then
      some ({ k with
              next_pid := k.next_pid + 1
              pcb_list := update_pcb (fun p => { p with children := p.children ++ [k.next_pid] })
                k.pcb_list parent.pid },
            { parent_pid := parent.pid
              pid := k.next_pid
              children := []
              fileDescriptors := parent.fileDescriptors
              priority := 0
              status := T_RUNNING })
    else none
  | none =>
    some ({ k with next_pid := k.next_pid + 1 },
          { parent_pid := 0
            pid := k.next_pid
            children := []
            fileDescriptors := [STDIN_ID, STDOUT_ID, STDERR_ID] ++ List.replicate (MAX_FDS - 3) NOFILE
            priority := 0
            status := T_RUNNING })

/-- Function `k_process_create` of `kernel-functions.c`. -/
def k_process_create (k : Kernel) (parent : Option PCB) : Option (Kernel × PCB) := do
  let (k1, child) ← createPCB k parent
  some ({ k1 with pcb_list := addPCBToList k1.pcb_list child }, child)

/-- Loop of `k_process_kill` and of `p_exit` that logs an orphan event for each
child: it dereferences the result of `findPCBByPID`. -/
def log_orphans : List Int → List PCB → Option Unit
  | [], _ => some ()
  | c :: cs, list => do
    let _ ← findPCBByPID list c
    log_orphans cs list

/-- Function `k_process_kill` of `kernel-functions.c` on a pointer to the PCB
`pid`: the new list and the returned value. -/
def k_process_kill (list : List PCB) (pid : Int) (signal : Int) : Option (List PCB × Int) := do
  let process ← findPCBByPID list pid
  if signal = S_SIGTERM then do
    let list1 := update_pcb (fun p => { p with status := T_ZOMBIED }) list pid
    let _ ← log_orphans process.children list1
    some (list1, 0)
  else if signal = S_SIGSTOP then
    some (update_pcb (fun p => { p with status := T_STOPPED }) list pid, 0)
  else if signal = S_SIGCONT then
    some (update_pcb (fun p => { p with status := T_RUNNING }) list pid, 0)
  else if signal = S_SIGCHLD then
    some (update_pcb (fun p => { p with status := T_RUNNING }) list pid, 0)
  else some (list, -1)

/-! ## File pointers of a process (`filesystem.c`) -/

/-- The slots `3 .. MAX_FDS-1` of the descriptor table. -/
def fds_from3 (pcb : PCB) : Option (List Int) :=
  if pcb.fileDescriptors.length = MAX_FDS then some (pcb.fileDescriptors.drop 3) else none

/-- First loop of `process_create_fileptrs`: `unique_file_ptrs[file_id] = fileptr_ptr`
for the descriptors in order; a `file_id` outside the array is an access out of bounds. -/
def mark_file_ptrs (open_files : List file_t) (parent_pid : Int) :
    List Int → List Int → Option (List Int)
  | [], arr => some arr
  | file_id :: rest, arr =>
    if file_id ≥ 0 then
      match find_file_entry_by_file_id open_files file_id with
      | none => mark_file_ptrs open_files parent_pid rest arr
      | some file_entry =>
        if file_id.toNat < arr.length then
          mark_file_ptrs open_files parent_pid rest
            (arr.set file_id.toNat (get_fileptr_ptr file_entry.fileptr_head parent_pid))
        else none
    else mark_file_ptrs open_files parent_pid rest arr

/-- Second loop of `process_create_fileptrs`, over `fid = i, i+1, ...` and the rest of the array. -/
def add_file_ptrs (pid : Int) : List Int → Nat → List file_t → Option (List file_t)
  | [], _, open_files => some open_files
  | v :: rest, fid, open_files =>
    if v = -1 then add_file_ptrs pid rest (fid + 1) open_files
    else do
      let _ ← find_file_entry_by_file_id open_files fid
      add_file_ptrs pid rest (fid + 1)
        (update_file_entry
          (fun e => { e with fileptr_head := create_fileptr e.fileptr_head pid v })
          open_files fid)

/-- Function `process_create_fileptrs`. -/
def process_create_fileptrs (k : Kernel) (pcb : PCB) : Option Kernel :=
  if k.next_file_id = 0 then some k
  else do
    let fds ← fds_from3 pcb
    let arr ← mark_file_ptrs k.open_files pcb.parent_pid fds
      (List.replicate k.next_file_id.toNat (-1))
    let open_files ← add_file_ptrs pcb.pid arr 0 k.open_files
    some { k with open_files := open_files }

/-- Second loop of `process_delete_fileptrs` over the given values of `fid`;
`marked` holds the descriptors that the first loop has seen. -/
def delete_file_ptrs (pid : Int) (marked : List Int) : List Nat → List file_t → Option (List file_t)
  | [], open_files => some open_files
  | fid :: rest, open_files =>
    if ((fid : Nat) : Int) ∈ marked then do
      let _ ← find_file_entry_by_file_id open_files fid
      delete_file_ptrs pid marked rest
        (update_file_entry
          (fun e => { e with
            fileptr_head := delete_fileptr e.fileptr_head pid
            wr_pid := if e.wr_pid = pid then -1 else e.wr_pid })
          open_files fid)
    else delete_file_ptrs pid marked rest open_files

/-- Function `process_delete_fileptrs`. -/
def process_delete_fileptrs (k : Kernel) (pcb : PCB) : Option Kernel :=
  if k.next_file_id = 0 then some k
  else do
    let fds ← fds_from3 pcb
    let open_files ← delete_file_ptrs pcb.pid fds (List.range k.next_file_id.toNat) k.open_files
    some { k with open_files := open_files }

/-- Function `create_file_entry`: the new table and the new `file_id`. The size of
the directory entry is read only for `F_APPEND`; `dir_entry` is `none` when the
variable of the caller is uninitialised. A mode outside the three leaves
`wr_pid` uninitialised. -/
def create_file_entry (k : Kernel) (pid : Int) (filename : List Nat) (mode : Int)
    (dir_entry : Option dir_entry_t) : Option (Kernel × Int) :=
  if (c_str filename).length < 32 then
    if mode = F_WRITE then
      some ({ k with
              next_file_id := k.next_file_id + 1
              open_files :=
                { filename := c_str filename, file_id := k.next_file_id, wr_pid := pid,
                  fileptr_head := create_fileptr [] pid 0 } :: k.open_files }, k.next_file_id)
    else if mode = F_READ then
      some ({ k with
              next_file_id := k.next_file_id + 1
              open_files :=
                { filename := c_str filename, file_id := k.next_file_id, wr_pid := -1,
                  fileptr_head := create_fileptr [] pid 0 } :: k.open_files }, k.next_file_id)
    else if mode = F_APPEND then do
      let e ← dir_entry
      some ({ k with
              next_file_id := k.next_file_id + 1
              open_files :=
                { filename := c_str filename, file_id := k.next_file_id, wr_pid := pid,
                  fileptr_head := create_fileptr [] pid (u32_to_int e.size) } :: k.open_files },
            k.next_file_id)
    else none
  else none

/-! ## The file API (`filesystem.c`) -/

/-- Function `f_open` of `filesystem.c`: the new state and the returned value.
The local `dir_entry` is uninitialised when `find_file` returns `false`. -/
def f_open (k : Kernel) (fname : List Nat) (mode : Int) (now : Nat) : Option (Kernel × Int) := do
  let found ← find_file k.img ROOTDIR fname
  match find_file_entry_by_filename k.open_files fname with
  | some file_entry => do
    let (_, dir_entry) ← found
    if !valid_perm dir_entry.perm mode then
      some ({ k with ERRNO := ERR_F_OPEN_INVALID_PERMS }, -1)
    else do
      let pcb ← cur_pcb k
      if mode = F_WRITE ∧ file_entry.wr_pid ≠ pcb.pid ∧ file_entry.wr_pid ≠ -1 then
        some ({ k with ERRNO := ERR_F_OPEN_WRITE_INUSE }, -1)
      else if mode ≠ F_WRITE ∧ mode ≠ F_READ ∧ mode ≠ F_APPEND then
        some ({ k with ERRNO := ERR_F_OPEN_INVALID_MODE }, -1)
      else do
        let (img1, _) ← fs_touch k.img fname now
        let new_fileptr : Int := if mode = F_APPEND then u32_to_int dir_entry.size else 0
        let wr_pid : Int := if mode = F_READ then file_entry.wr_pid else pcb.pid
        let dup ← is_duplicate_fd pcb file_entry.file_id
        let fileptr_head ←
          if dup then do
            let _ ← get_fileptr file_entry.fileptr_head pcb.pid
            some (set_fileptr file_entry.fileptr_head pcb.pid new_fileptr)
          else some (create_fileptr file_entry.fileptr_head pcb.pid new_fileptr)
        let fd ← find_unused_fd pcb
        let pcb1 ← fd_set pcb fd file_entry.file_id
        some ({ k with
                img := img1
                open_files := update_file_entry_by_filename
                  (fun e => { e with wr_pid := wr_pid, fileptr_head := fileptr_head })
                  k.open_files fname
                pcb_list := update_pcb (fun _ => pcb1) k.pcb_list pcb.pid }, fd)
  | none =>
    if found = none ∧ mode = F_READ then
      some ({ k with ERRNO := ERR_F_OPEN_CREATE_READ }, -1)
    else do
      let (img1, _) ← fs_touch k.img fname now
      let pcb ← cur_pcb k
      let fd ← find_unused_fd pcb
      let (k1, file_id) ← create_file_entry k pcb.pid fname mode (found.map (fun r => r.2))
      let pcb1 ← fd_set pcb fd file_id
      some ({ k1 with
              img := img1
              pcb_list := update_pcb (fun _ => pcb1) k1.pcb_list pcb.pid }, fd)

/-- Function `find_file_entry` of `filesystem.c`: the `file_id` of the slot and a
copy of the entry; the function dereferences the result of the lookup. -/
def find_file_entry (k : Kernel) (fd : Int) : Option (Int × file_t) := do
  let pcb ← cur_pcb k
  let file_id ← fd_get pcb fd
  let file_entry ← find_file_entry_by_file_id k.open_files file_id
  some (file_id, file_entry)

/-- Assignment `fp_struct->ptr = ptr`, where `fp_struct` points into the list of
the entry `file_id` of `open_files`. -/
def store_ptr (k : Kernel) (file_id pid ptr : Int) : Kernel :=
  { k with
    open_files := update_file_entry
      (fun e => { e with fileptr_head := set_fileptr e.fileptr_head pid ptr })
      k.open_files file_id }

/-- Function `f_read` of `filesystem.c` for a descriptor that is not the terminal
input: the new state, the returned value and the bytes stored in `buf[0 ..]` by
the copy loop (the function then stores a zero byte at `buf[bytes_to_read]`).
The read of the terminal is not part of the model. -/
def f_read (k : Kernel) (fd : Int) (n : Int) : Option (Kernel × Int × List Nat) := do
  let pcb ← cur_pcb k
  let slot ← fd_get pcb fd
  if slot = STDIN_ID then none
  else if slot = STDOUT_ID ∨ slot = STDERR_ID then
    some ({ k with ERRNO := ERR_F_READ_TERM_OUT }, -1, [])
  else do
    let (file_id, file_entry) ← find_file_entry k fd
    let found ← find_file k.img ROOTDIR file_entry.filename
    let (_, entry) ← found
    let temp_buf ← read_chain k.img entry.firstBlock entry.size
    let fp_struct ← get_fileptr file_entry.fileptr_head pcb.pid
    let sum ← int_chk (fp_struct.ptr + n)
    let bytes_to_read : Int :=
      if to_u32 sum > entry.size then u32_to_int (entry.size + 4294967296 - to_u32 fp_struct.ptr)
      else n
    let data ←
      if bytes_to_read ≤ 0 then some []
      else if 0 ≤ fp_struct.ptr ∧ fp_struct.ptr + bytes_to_read ≤ temp_buf.length then
        some ((temp_buf.drop fp_struct.ptr.toNat).take bytes_to_read.toNat)
      else none
    let ptr ← int_chk (fp_struct.ptr + bytes_to_read)
    some (store_ptr k file_id pcb.pid ptr, bytes_to_read, data)

/-- Buffer `temp_buf` of `f_write` after the three loops: `capacity` zero bytes,
then the `bytes` of the file, then `src` from index `ptr` on. -/
def splice (capacity : Nat) (bytes : List Nat) (ptr : Nat) (src : List Nat) : List Nat :=
  let zeroed := bytes ++ List.replicate (capacity - bytes.length) 0
  zeroed.take ptr ++ src ++ zeroed.drop (ptr + src.length)

/-- Store `buf[i] = 0`. -/
def terminate_at (buf : List Nat) (i : Nat) : List Nat :=
  buf.take i ++ [0] ++ buf.drop (i + 1)

/-- Function `f_write` of `filesystem.c`: the new state and the returned value;
`str` holds the bytes that can be read from the pointer `str`. The buffer
`temp_buf` has `new_file_size + 1` bytes. The copy loop reads `bytes_to_write`
bytes of `str`, and the terminator is stored at the index
`ptr + bytes_to_write`. In the branch that extends the file that index is
`new_file_size + 1`, outside the buffer: the call has no defined result. -/
def f_write (k : Kernel) (fd : Int) (str : List Nat) (n : Int) (now : Nat) :
    Option (Kernel × Int) := do
  let pcb ← cur_pcb k
  let slot ← fd_get pcb fd
  if slot = STDOUT_ID ∨ slot = STDERR_ID then
    let bytes_to_write : Int := if n < IOBUFFER_SIZE then n else IOBUFFER_SIZE
    if 0 ≤ bytes_to_write ∧ bytes_to_write ≤ str.length then some (k, bytes_to_write) else none
  else if slot = STDIN_ID then some ({ k with ERRNO := ERR_F_WRITE_TERM_IN }, -1)
  else do
    let (file_id, file_entry) ← find_file_entry k fd
    if file_entry.wr_pid ≠ pcb.pid then some ({ k with ERRNO := ERR_F_WRITE_RONLY }, -1)
    else do
      let found ← find_file k.img ROOTDIR file_entry.filename
      let (_, entry) ← found
      let fp_struct ← get_fileptr file_entry.fileptr_head pcb.pid
      let sum ← int_chk (fp_struct.ptr + n)
      let grows : Bool := decide (to_u32 sum > entry.size)
      let new_file_size : Int := if grows then sum else u32_to_int entry.size
      let bytes_to_write ← if grows then int_chk (n + 1) else some n
      if new_file_size < 0 ∨ fp_struct.ptr < 0 ∨ bytes_to_write < 0 then none
      else do
        let bytes ← read_chain k.img entry.firstBlock entry.size
        if (new_file_size.toNat + 1 < bytes.length) ∨ (str.length < bytes_to_write.toNat) ∨
            (new_file_size.toNat + 1 ≤ fp_struct.ptr.toNat + bytes_to_write.toNat) then none
        else do
          let temp_buf := terminate_at
            (splice (new_file_size.toNat + 1) bytes fp_struct.ptr.toNat (str.take bytes_to_write.toNat))
            (fp_struct.ptr.toNat + bytes_to_write.toNat)
          let (img1, _) ← fs_cat k.img 0 1 temp_buf [] file_entry.filename now
          let ptr ← int_chk (fp_struct.ptr + bytes_to_write)
          some (store_ptr { k with img := img1 } file_id pcb.pid ptr, bytes_to_write)

/-- Function `f_close` of `filesystem.c`. The function works on a copy of the
entry: the writer slot of the table is never cleared, a node that is not the
head of the list is unlinked from the shared list, and the entry is removed
from the table when the list of the copy is empty. When the node of the caller is
the head and other nodes remain, the table keeps a pointer to the freed node: no
state is given for that case. -/
def f_close (k : Kernel) (fd : Int) : Option (Kernel × Int) :=
  if f_isatty fd then some ({ k with ERRNO := ERR_F_CLOSE_TERMINAL }, -1)
  else do
    let (file_id, file_entry) ← find_file_entry k fd
    let pcb ← cur_pcb k
    let pcb1 ← fd_set pcb fd NOFILE
    let dup ← is_duplicate_fd pcb1 file_id
    let last_fd_instance := !dup
    let local_head :=
      if last_fd_instance then delete_fileptr file_entry.fileptr_head pcb.pid
      else file_entry.fileptr_head
    let head_freed : Bool :=
      last_fd_instance && (match file_entry.fileptr_head with
        | [] => false
        | x :: _ => decide (x.pid = pcb.pid))
    if head_freed ∧ local_head ≠ [] then none
    else
      let open_files1 :=
        if last_fd_instance ∧ ¬ head_freed then
          update_file_entry
            (fun e => { e with fileptr_head := delete_fileptr e.fileptr_head pcb.pid })
            k.open_files file_id
        else k.open_files
      let open_files2 :=
        if local_head = [] then delete_file_entry open_files1 file_id else open_files1
      some ({ k with
              open_files := open_files2
              pcb_list := update_pcb (fun _ => pcb1) k.pcb_list pcb.pid }, 0)

/-- Function `f_unlink` of `filesystem.c`. -/
def f_unlink (k : Kernel) (fname : List Nat) (now : Nat) : Option (Kernel × Int) :=
  match find_file_entry_by_filename k.open_files fname with
  | none => some ({ k with ERRNO := ERR_F_UNLINK_NOT_FOUND }, -1)
  | some file_entry => do
    let pcb ← cur_pcb k
    let entry1 : file_t :=
      match get_fileptr file_entry.fileptr_head pcb.pid with
      | some _ =>
        { file_entry with
          fileptr_head := delete_fileptr file_entry.fileptr_head pcb.pid
          wr_pid := if file_entry.wr_pid = pcb.pid then -1 else file_entry.wr_pid }
      | none => file_entry
    let open_files1 := update_file_entry_by_filename (fun _ => entry1) k.open_files fname
    if entry1.fileptr_head = [] then do
      let (img1, _) ← fs_rm k.img fname
      some ({ k with open_files := delete_file_entry open_files1 entry1.file_id, img := img1 }, 0)
    else do
      let (img1, _) ← fs_mark_deleted k.img fname now
      some ({ k with open_files := open_files1, img := img1 }, 0)

/-- Function `f_lseek` of `filesystem.c`. -/
def f_lseek (k : Kernel) (fd : Int) (offset : Int) (whence : Int) : Option (Kernel × Int) :=
  if f_isatty fd then some ({ k with ERRNO := ERR_F_LSEEK_TERMINAL }, -1)
  else do
    let (file_id, file_entry) ← find_file_entry k fd
    let found ← find_file k.img ROOTDIR file_entry.filename
    let (_, dir_entry) ← found
    let pcb ← cur_pcb k
    let fp_struct ← get_fileptr file_entry.fileptr_head pcb.pid
    let new_offset ←
      if whence = F_SEEK_CURR then int_chk (fp_struct.ptr + offset)
      else if whence = F_SEEK_END then some (u32_to_int (dir_entry.size + to_u32 offset))
      else if whence = F_SEEK_SET then some offset
      else some fp_struct.ptr
    if ¬ (new_offset ≥ 0 ∧ to_u32 new_offset ≤ dir_entry.size) then
      some ({ k with ERRNO := ERR_F_LSEEK_OOB }, -1)
    else some (store_ptr k file_id pcb.pid new_offset, new_offset)

/-! ## Process primitives (`puser-functions.c`) -/

/-- Function `p_spawn` of `puser-functions.c`, without the execution context and
the name: the new state and the PID of the child. -/
def p_spawn (k : Kernel) (fd0 fd1 : Int) : Option (Kernel × Int) := do
  let parent ←
    match k.current_pcb with
    | none => some none
    | some pid => (findPCBByPID k.pcb_list pid).map some
  let (k1, child) ← k_process_create k parent
  let v0 ← fd_get child fd0
  let child1 ← fd_set child F_STDIN v0
  let v1 ← fd_get child1 fd1
  let child2 ← fd_set child1 F_STDOUT v1
  let output_fid ← fd_get child2 F_STDOUT
  let open_files1 ←
    if output_fid ≥ 0 then do
      let _ ← find_file_entry_by_file_id k1.open_files output_fid
      some (update_file_entry (fun e => { e with wr_pid := child2.pid }) k1.open_files output_fid)
    else some k1.open_files
  let k2 := { k1 with
    open_files := open_files1
    pcb_list := update_pcb (fun _ => child2) k1.pcb_list child2.pid }
  let k3 ← process_create_fileptrs k2 child2
  some (k3, child2.pid)

/-- Function `p_kill` of `puser-functions.c`. -/
def p_kill (k : Kernel) (pid : Int) (sig : Int) : Option (Kernel × Int) :=
  match findPCBByPID k.pcb_list pid with
  | none => some ({ k with ERRNO := ERR_P_KILL_NULL_PROCESS }, -1)
  | some process => do
    let k1 ← process_delete_fileptrs k process
    let (list, _) ← k_process_kill k1.pcb_list pid sig
    some ({ k1 with pcb_list := list }, 0)

/-- Function `p_exit` of `puser-functions.c`. -/
def p_exit (k : Kernel) : Option Kernel := do
  let pcb ← cur_pcb k
  let k1 ← process_delete_fileptrs k pcb
  let list1 := update_pcb (fun p => { p with status := T_ZOMBIED }) k1.pcb_list pcb.pid
  let _ ← log_orphans pcb.children list1
  match findPCBByPID list1 pcb.parent_pid with
  | none => do
    let list2 ← removePCBFromList list1 pcb.pid
    some { k1 with pcb_list := list2 }
  | some parent_pcb =>
    if parent_pcb.status = T_WAITED then
      some { k1 with
        pcb_list := update_pcb (fun p => { p with status := T_RUNNING }) list1 pcb.parent_pid }
    else some { k1 with pcb_list := list1 }

/-- Outcome of the first part of `p_waitpid`: the call returns `pid`, after it has
stored `wstatus` through the pointer of the caller (`none` when nothing is
stored), or it reaches `swapcontext` and gives the processor to the scheduler. -/
inductive wait_result where
  | returned (pid : Int) (wstatus : Option Int)
  | yielded
deriving DecidableEq, Repr

/-- Loop `for (i < numChildren)` of `p_waitpid`: the first child that
`findPCBByPID` finds and whose status is `T_ZOMBIED`. -/
def first_zombie (list : List PCB) : List Int → Option PCB
  | [] => none
  | c :: cs =>
    match findPCBByPID list c with
    | some curr => if curr.status = T_ZOMBIED then some curr else first_zombie list cs
    | none => first_zombie list cs

/-- Body of the `if` in the loops of `p_waitpid`: store the status, remove the PCB
from the list and return its PID. -/
def reap (k : Kernel) (curr : PCB) : Option (Kernel × wait_result) := do
  let list ← removePCBFromList k.pcb_list curr.pid
  some ({ k with pcb_list := list }, wait_result.returned curr.pid (some curr.status))

/-- Function `p_waitpid` of `puser-functions.c` up to its return or to the call of
`swapcontext`. -/
def p_waitpid (k : Kernel) (pid : Int) (nohang : Bool) : Option (Kernel × wait_result) :=
  if pid = -1 then do
    let pcb ← cur_pcb k
    if !nohang then
      let k1 := { k with
        pcb_list := update_pcb (fun p => { p with status := T_WAITED }) k.pcb_list pcb.pid }
      if pcb.children.length = 0 then some (k1, wait_result.returned (-1) none)
      else
        match first_zombie k1.pcb_list pcb.children with
        | some curr => reap k1 curr
        | none => some (k1, wait_result.yielded)
    else
      if pcb.children.length = 0 then some (k, wait_result.returned (-1) none)
      else
        match first_zombie k.pcb_list pcb.children with
        | some curr => reap k curr
        | none => some (k, wait_result.returned 0 none)
  else
    match findPCBByPID k.pcb_list pid with
    | none => some ({ k with ERRNO := ERR_P_WAITPID_NULL_CHILD }, wait_result.returned (-1) none)
    | some child =>
      if nohang then
        if child.status = T_ZOMBIED then reap k child
        else some (k, wait_result.returned 0 none)
      else do
        let pcb ← cur_pcb k
        let k1 := { k with
          pcb_list := update_pcb (fun p => { p with status := T_WAITED }) k.pcb_list pcb.pid }
        let child1 ← findPCBByPID k1.pcb_list pid
        if child1.status = T_ZOMBIED then reap k1 child1
        else some (k1, wait_result.yielded)

/-- Function `p_waitpid` of `puser-functions.c` from the return of `swapcontext` on:
the new state, the returned value and the status stored through `wstatus`. -/
def p_waitpid_resume (k : Kernel) (pid : Int) : Option (Kernel × Int × Option Int) :=
  if pid = -1 then do
    let pcb ← cur_pcb k
    match first_zombie k.pcb_list pcb.children with
    | some curr => do
      let list ← removePCBFromList k.pcb_list curr.pid
      some ({ k with pcb_list := list }, curr.pid, some curr.status)
    | none => some (k, -1, none)
  else do
    let child ← findPCBByPID k.pcb_list pid
    if child.status = T_ZOMBIED then do
      let list ← removePCBFromList k.pcb_list child.pid
      some ({ k with pcb_list := list }, child.pid, some child.status)
    else some (k, 0, none)


/-! ## Notions used in the statements -/

/-- Offset that the open-files table holds for process `pid` in the entry
`file_id`; `none` when there is no such entry or no offset of that process. -/
def offset_of (k : Kernel) (file_id pid : Int) : Option Int := do
  let file_entry ← find_file_entry_by_file_id k.open_files file_id
  let fileptr ← get_fileptr file_entry.fileptr_head pid
  some fileptr.ptr

/-! ## Example states

An image made by `mkfs` with one FAT block of 256 bytes (128 cells), which holds
the file `foo` with the two bytes `hi` in block 2, and a kernel in which process
1 has opened `foo` for writing through descriptor 3. -/

/-- The name `foo`. -/
def foo : List Nat := [102, 111, 111]

/-- The name `bar`. -/
def bar : List Nat := [98, 97, 114]

/-- Directory entry of the example file, with permission bits `perm`. -/
def example_entry (perm : Nat) : dir_entry_t :=
  { name := foo ++ List.replicate 29 0, size := 2, firstBlock := 2, type := FILETYPE_FILE,
    perm := perm, mtime := 7, _BUFFER_ := List.replicate 16 0 }

/-- FAT of the example: metadata `0x0100`, the root directory in block 1, the file in block 2. -/
def example_fat : List Nat := [256, LASTBLOCK, LASTBLOCK] ++ List.replicate 125 0

/-- Example image; the directory entry of `foo` has the permission bits `perm`. -/
def example_image (perm : Nat) : Image :=
  { fat := example_fat
    disk := disk_write (disk_write (fun _ => 0) 256 (example_entry perm).encode) 512 [104, 105, 0] }

/-- Descriptor table whose slots from 3 on hold the given values, completed with `NOFILE`. -/
def example_fds (slots : List Int) : List Int :=
  [STDIN_ID, STDOUT_ID, STDERR_ID] ++ slots ++ List.replicate (MAX_FDS - 3 - slots.length) NOFILE

/-- A running top-level process. -/
def example_pcb (pid : Int) (slots : List Int) : PCB :=
  { parent_pid := 0, pid := pid, children := [], fileDescriptors := example_fds slots,
    priority := 0, status := T_RUNNING }

/-- Example kernel: processes 1 and 2; process 1 holds `foo` (file_id 0) through
descriptor 3, is its writer and has the offset `ptr`; process `current` runs;
the directory entry of `foo` has the permission bits `perm`. -/
def example_kernel (current : Int) (ptr : Int) (perm : Nat) : Kernel :=
  { pcb_list := [example_pcb 1 [0], example_pcb 2 []]
    current_pcb := some current
    next_pid := 3
    open_files := [{ filename := foo, file_id := 0, wr_pid := 1,
                     fileptr_head := [{ pid := 1, ptr := ptr }] }]
    next_file_id := 1
    ERRNO := ERR_NONE
    img := example_image perm }

/-- State at the start of the program: no PCB, no open file, image `img`. -/
def boot (img : Image) : Kernel :=
  { pcb_list := [], current_pcb := none, next_pid := 1, open_files := [], next_file_id := 0,
    ERRNO := ERR_NONE, img := img }

/-- Example kernel in which no file is open: processes 1 and 2, process `current`
runs, and the directory entry of `foo` has the permission bits `perm`. -/
def example_kernel_closed (current : Int) (perm : Nat) : Kernel :=
  { pcb_list := [example_pcb 1 [], example_pcb 2 []]
    current_pcb := some current
    next_pid := 3
    open_files := []
    next_file_id := 0
    ERRNO := ERR_NONE
    img := example_image perm }

/-- Example kernel in which every slot `3 .. MAX_FDS-1` of process 1 is bound to `foo`. -/
def example_kernel_full : Kernel :=
  { pcb_list := [example_pcb 1 (List.replicate (MAX_FDS - 3) 0), example_pcb 2 []]
    current_pcb := some 1
    next_pid := 3
    open_files := [{ filename := foo, file_id := 0, wr_pid := 1,
                     fileptr_head := [{ pid := 1, ptr := 0 }] }]
    next_file_id := 1
    ERRNO := ERR_NONE
    img := example_image 6 }

/-- File name, size and content that the image holds for `name`, read through
`find_file` and `read_chain`. -/
def file_content (img : Image) (name : List Nat) : Option (Nat × List Nat) := do
  let found ← find_file img ROOTDIR name
  let (_, entry) ← found
  let bytes ← read_chain img entry.firstBlock entry.size
  some (entry.size, bytes)

/-- Example image in which the directory entry of `foo` is marked deleted while in
use: the first byte of its name is `FILENAME_DEL_INUSE`. -/
def example_image_pinned : Image :=
  { fat := example_fat
    disk := disk_write (disk_write (fun _ => 0) 256
      (dir_entry_t.encode
        { example_entry 6 with name := (example_entry 6).name.set 0 FILENAME_DEL_INUSE }))
      512 [104, 105, 0] }

/-- Example kernel in which process 1 still holds `foo` open and the directory entry
of `foo` is marked deleted while in use; process `current` runs. -/
def example_kernel_pinned (current : Int) : Kernel :=
  { example_kernel current 0 6 with img := example_image_pinned }

/-- States that the kernel reaches from the start of the program, where no file is
open, by the scheduler giving the processor to a process of the registry and by
calls of `f_open`, `f_close`, `f_unlink`, `p_spawn`, `p_kill` and `p_exit` that
have a defined result. -/
inductive Reachable : Kernel → Prop
  | start (img : Image) : Reachable (boot img)
  | schedule (k : Kernel) (pcb : PCB) :
      Reachable k → pcb ∈ k.pcb_list → Reachable { k with current_pcb := some pcb.pid }
  | by_open (k k1 : Kernel) (fname : List Nat) (mode : Int) (now : Nat) (r : Int) :
      Reachable k → f_open k fname mode now = some (k1, r) → Reachable k1
  | by_close (k k1 : Kernel) (fd r : Int) :
      Reachable k → f_close k fd = some (k1, r) → Reachable k1
  | by_unlink (k k1 : Kernel) (fname : List Nat) (now : Nat) (r : Int) :
      Reachable k → f_unlink k fname now = some (k1, r) → Reachable k1
  | by_spawn (k k1 : Kernel) (fd0 fd1 r : Int) :
      Reachable k → p_spawn k fd0 fd1 = some (k1, r) → Reachable k1
  | by_kill (k k1 : Kernel) (pid sig r : Int) :
      Reachable k → p_kill k pid sig = some (k1, r) → Reachable k1
  | by_exit (k k1 : Kernel) :
      Reachable k → p_exit k = some k1 → Reachable k1

/-- Offset uniqueness: no entry of the open-files table holds two offsets of the same process. -/
def offsets_unique (open_files : List file_t) : Prop :=
  ∀ e ∈ open_files, (e.fileptr_head.map fileptr_t.pid).Nodup

/-- Invariant of the reachable states that carries offset uniqueness: a process of the
registry that has an offset in an entry has a descriptor `>= 3` bound to that entry;
offsets belong to PIDs already given out; file identifiers and PIDs are distinct and
below the next identifier; descriptor tables have `MAX_FDS` slots. -/
structure table_inv (k : Kernel) : Prop where
  uniq : offsets_unique k.open_files
  slot : ∀ e ∈ k.open_files, ∀ fp ∈ e.fileptr_head, ∀ pcb ∈ k.pcb_list,
    pcb.pid = fp.pid → e.file_id ∈ pcb.fileDescriptors.drop 3
  fp_lt : ∀ e ∈ k.open_files, ∀ fp ∈ e.fileptr_head, fp.pid < k.next_pid
  ids : (k.open_files.map file_t.file_id).Nodup
  ids_lt : ∀ e ∈ k.open_files, 0 ≤ e.file_id ∧ e.file_id < k.next_file_id
  next_id : 0 ≤ k.next_file_id
  pids : (k.pcb_list.map PCB.pid).Nodup
  pids_lt : ∀ pcb ∈ k.pcb_list, pcb.pid < k.next_pid
  fds_len : ∀ pcb ∈ k.pcb_list, pcb.fileDescriptors.length = MAX_FDS

/-! ## Further example states -/

/-- Example kernel in which `foo` is shared: process 1 opened it for writing and
process 2 opened it afterwards for reading, so that the offset of process 2 is the
head of the list; both hold it through descriptor 3; process `current` runs. -/
def example_kernel_shared (current : Int) : Kernel :=
  { pcb_list := [example_pcb 1 [0], example_pcb 2 [0]]
    current_pcb := some current
    next_pid := 3
    open_files := [{ filename := foo, file_id := 0, wr_pid := 1,
                     fileptr_head := [{ pid := 2, ptr := 0 }, { pid := 1, ptr := 0 }] }]
    next_file_id := 1
    ERRNO := ERR_NONE
    img := example_image 6 }

/-- Example registry with three generations: process 1 runs and has the child 2,
which is a zombie and has the child 3. No file is open. -/
def example_kernel_family : Kernel :=
  { pcb_list := [{ example_pcb 1 [] with children := [2] },
                 { example_pcb 2 [] with parent_pid := 1, children := [3], status := T_ZOMBIED },
                 { example_pcb 3 [] with parent_pid := 2 }]
    current_pcb := some 1
    next_pid := 4
    open_files := []
    next_file_id := 0
    ERRNO := ERR_NONE
    img := example_image 6 }

/-- The fields of a PCB other than its descriptor table. -/
def PCB.summary (p : PCB) : Int × Int × List Int × Int :=
  (p.pid, p.parent_pid, p.children, p.status)

/-- The state in which process `pid` has the processor. -/
def run_as (k : Kernel) (pid : Int) : Kernel := { k with current_pcb := some pid }

/-- The open-files table `l1` holds entries of `l` only, each with offsets of the
same processes or of fewer. -/
def files_sub (l1 l : List file_t) : Prop :=
  (l1.map file_t.file_id).Sublist (l.map file_t.file_id) ∧
  ∀ e1 ∈ l1, ∃ e ∈ l, e1.file_id = e.file_id ∧
    (e1.fileptr_head.map fileptr_t.pid).Sublist (e.fileptr_head.map fileptr_t.pid)

/-- The registry `l1` holds PCBs of `l` only, with the same descriptor tables. -/
def pcbs_sub (l1 l : List PCB) : Prop :=
  (l1.map PCB.pid).Sublist (l.map PCB.pid) ∧
  ∀ p1 ∈ l1, ∃ p ∈ l, p1.pid = p.pid ∧ p1.fileDescriptors = p.fileDescriptors

/-- Entry `e` after the second loop of `process_create_fileptrs` for the process `pid`
over the array `arr`, whose first element belongs to the identifier `s`: the entry
has a new offset when the array holds a value other than `-1` for its identifier. -/
def add_ptr (pid : Int) (arr : List Int) (s : Nat) (e : file_t) : file_t :=
  if (s : Int) ≤ e.file_id then
    match arr[(e.file_id - (s : Int)).toNat]? with
    | some v =>
      if v = -1 then e else { e with fileptr_head := create_fileptr e.fileptr_head pid v }
    | none => e
  else e

/-- Entry `e` after `process_create_fileptrs` for the new process `child`: when a slot
from 3 on of the child holds the identifier of the entry and the offset of the
parent is not `-1`, the entry has a new offset of the child with that value. -/
def inherit_ptr (child : PCB) (e : file_t) : file_t :=
  if e.file_id ∈ child.fileDescriptors.drop 3 ∧
      get_fileptr_ptr e.fileptr_head child.parent_pid ≠ -1 then
    { e with
      fileptr_head := create_fileptr e.fileptr_head child.pid
        (get_fileptr_ptr e.fileptr_head child.parent_pid) }
  else e


/-- The blocks of the chain of the FAT that starts at `head`, in order: each block
is at least 1 and is not `LASTBLOCK`, its cell holds the next block, and the chain
ends with the link `LASTBLOCK`. -/
def is_chain (fat : List Nat) : Nat → List Nat → Prop
  | head, [] => head = LASTBLOCK
  | head, b :: rest =>
    head = b ∧ b ≠ LASTBLOCK ∧ 1 ≤ b ∧ ∃ next, fat[b]? = some next ∧ is_chain fat next rest

/-- The two images have the same metadata cell and the same number of cells. -/
def same_geometry (img img1 : Image) : Prop :=
  img1.fat[0]? = img.fat[0]? ∧ img1.fat.length = img.fat.length

/-- The cell of block `b` and the bytes of block `b` are the same in the two images. -/
def same_block (img img1 : Image) (b : Nat) : Prop :=
  img1.fat[b]? = img.fat[b]? ∧
  ∀ m bs addr, img.fat[0]? = some m → BLOCK_SIZE m = some bs → mem_idx img.fat b = some addr →
    ∀ a, addr ≤ a → a < addr + bs → img1.disk a = img.disk a

/-! ## Priorities and the scheduler (`puser-functions.c`, `PCB.c`, `scheduler.c`) -/

/-- Function `p_nice` of `puser-functions.c`. The priority is read through
`process` before the test for `NULL`, so an unknown PID has no defined result;
a zombie that `removePCBFromList` has freed is linked again, which has no
defined result either. -/
def p_nice (k : Kernel) (pid : Int) (priority : Int) : Option (Kernel × Int) := do
  let process ← findPCBByPID k.pcb_list pid
  let list1 ← removePCBFromList k.pcb_list pid
  if list1 ≠ [] ∧ process.status = T_ZOMBIED then none
  else some ({ k with pcb_list := addPCBToList list1 { process with priority := priority } }, 0)

/-- Function `count_running` of `PCB.c`: one pass over the circular list. -/
def count_running : List PCB → Nat
  | [] => 0
  | x :: xs => (if x.status = T_RUNNING then 1 else 0) + count_running xs

/-- Function `count_running_priority` of `PCB.c`: one pass over the circular list. -/
def count_running_priority : List PCB → Int → Nat
  | [], _ => 0
  | x :: xs, prio =>
    (if x.status = T_RUNNING ∧ x.priority = prio then 1 else 0) + count_running_priority xs prio

/-- First choice of the level in `scheduler` from `roulette = rand() % (9 + 6 + 4)`. -/
def roulette_priority (roulette : Nat) : Int :=
  if roulette < 9 then -1 else if roulette < 9 + 6 then 0 else 1

/-- Loop `while (count_running_priority(pcb_list, priority) == 0) priority = ((priority + 2) % 3) - 1;`
of `scheduler`, the fuel bounding the number of tests. The loop changes nothing but
`priority`, which comes back to its first value after three steps, so a loop that
outlives three tests never ends. -/
def choose_level (list : List PCB) : Nat → Int → Option Int
  | 0, _ => none
  | fuel + 1, priority =>
    if count_running_priority list priority = 0 then
      choose_level list fuel (Int.tmod (priority + 2) 3 - 1)
    else some priority

/-- Loop `while (true)` of `scheduler`: the head of the circular list moves on until
`visited > target`; the result is the list from its new head. -/
def select_loop (priority : Int) (target : Nat) : Nat → List PCB → Nat → Option (List PCB)
  | 0, _, _ => none
  | fuel + 1, list, visited =>
    match list with
    | [] => none
    | head :: rest =>
      if head.status = T_RUNNING ∧ head.priority = priority then
        if visited + 1 > target then some (head :: rest)
        else select_loop priority target fuel (rest ++ [head]) (visited + 1)
      else select_loop priority target fuel (rest ++ [head]) visited

/-- Outcome of `scheduler`: the process ends with `exit(code)`, or the context of
the new `current_pcb` is installed in the state `k`. -/
inductive sched_result where
  | exited (code : Int)
  | switched (k : Kernel)

/-- Function `scheduler` of `scheduler.c` up to `setcontext`; `r1` and `r2` are the
values of the two calls of `rand()`. -/
def scheduler (k : Kernel) (r1 r2 : Nat) : Option sched_result :=
  if count_running k.pcb_list = 0 then some (sched_result.exited 12)
  else do
    let priority ← choose_level k.pcb_list 3 (roulette_priority (r1 % (9 + 6 + 4)))
    let target := r2 % count_running_priority k.pcb_list priority
    let list ← select_loop priority target (k.pcb_list.length * (target + 1)) k.pcb_list 0
    let head ← list.head?
    some (sched_result.switched { k with pcb_list := list, current_pcb := some head.pid })

/-- PID, priority and status of a PCB. -/
def PCB.level (p : PCB) : Int × Int × Int := (p.pid, p.priority, p.status)

/-- PIDs, priorities and statuses of the registry and the PID of `current_pcb`
after `scheduler`; `none` when the process ends. -/
def sched_result.levels : sched_result → Option (List (Int × Int × Int) × Option Int)
  | sched_result.exited _ => none
  | sched_result.switched k => some (k.pcb_list.map PCB.level, k.current_pcb)

/-- Example registry with three generations in which every process runs: process 1
has the child 2, which has the child 3; process `current` has the processor. -/
def example_kernel_tree (current : Int) : Kernel :=
  { pcb_list := [{ example_pcb 1 [] with children := [2] },
                 { example_pcb 2 [] with parent_pid := 1, children := [3] },
                 { example_pcb 3 [] with parent_pid := 2 }]
    current_pcb := some current
    next_pid := 4
    open_files := []
    next_file_id := 0
    ERRNO := ERR_NONE
    img := example_image 6 }

/-- States reached from the start of the program by calls of `p_spawn` and of
`p_nice` with a priority among `-1`, `0`, `1` that have a defined result, and by the
scheduler giving the processor to a process. -/
inductive NiceReachable : Kernel → Prop
  | start (img : Image) : NiceReachable (boot img)
  | schedule (k : Kernel) (pid : Int) : NiceReachable k → NiceReachable (run_as k pid)
  | by_spawn (k k1 : Kernel) (fd0 fd1 r : Int) :
      NiceReachable k → p_spawn k fd0 fd1 = some (k1, r) → NiceReachable k1
  | by_nice (k k1 : Kernel) (pid q r : Int) :
      NiceReachable k → (q = -1 ∨ q = 0 ∨ q = 1) → p_nice k pid q = some (k1, r) →
      NiceReachable k1

/-! ## Copy inside the image, free cells, further example images -/

/-- Function `fs_cp` of `fat.c`, that is `fs_cp_mode` with `host_in` and `host_out`
false: the image and the returned flag. The size of the source becomes an `int`; a
chain shorter than the size leaves bytes of `buffer` uninitialised. The result of
the second `find_file` is not tested. -/
def fs_cp (img : Image) (source dest : List Nat) (now : Nat) : Option (Image × Bool) := do
  let r ← find_file img ROOTDIR source
  match r with
  | none => some (img, false)
  | some (_, source_ent) =>
    if 2147483647 < source_ent.size then none
    else do
      let buffer ← read_chain img source_ent.firstBlock source_ent.size
      if buffer.length = source_ent.size then do
        let (img1, dest_loc, dest_ent) ← find_or_add img dest now
        let fat2 ← delete_chain img1.fat dest_ent.firstBlock
        let new_head ← get_free_block fat2
        let img3 ← build_chain { img1 with fat := fat2 } new_head buffer
        let img4 ← write_file img3 dest_loc
          { dest_ent with
            firstBlock := new_head % 65536
            mtime := now % 2 ^ 64
            size := buffer.length % 2 ^ 32 }
        some (img4, true)
      else none

/-- Number of free cells of the FAT: the cells other than cell 0 that hold 0. -/
def free_cells (fat : List Nat) : Nat := fat.tail.count 0

/-- The name `baz`. -/
def baz : List Nat := [98, 97, 122]

/-- Example image whose FAT has no free cell: the image of the example with the
cells 3 to 127 allocated. -/
def example_image_full : Image :=
  { example_image 6 with fat := [256] ++ List.replicate 127 LASTBLOCK }

/-- Example image whose FAT has one free cell, cell 3. -/
def example_image_one_free : Image :=
  { example_image 6 with fat := [256, LASTBLOCK, LASTBLOCK, 0] ++ List.replicate 124 LASTBLOCK }

/-- Image of the largest geometry, 32 FAT blocks of 4096 bytes, as formatted: the
FAT has 65536 cells, the root directory is empty and every other cell is free. -/
def example_image_max : Image :=
  { fat := [8196, LASTBLOCK] ++ List.replicate 65534 0, disk := fun _ => 0 }

/-- First block, cell of the first block and size of the entry that `find_file`
returns for `name`. -/
def entry_head (img : Image) (name : List Nat) : Option (Option (Nat × Option Nat × Nat)) :=
  (find_file img ROOTDIR name).map
    (fun r => r.map (fun le => (le.2.firstBlock, img.fat[le.2.firstBlock]?, le.2.size)))

/-! ## Slots of the directory -/

/-- The entry that the 64 bytes of slot `i` of block `b` hold. -/
def entry_at (img : Image) (b i : Nat) : Option dir_entry_t := do
  let addr ← mem_idx img.fat b
  some (dir_entry_t.decode (disk_read img.disk (addr + i * DIR_ENTRY_SIZE) DIR_ENTRY_SIZE))

/-- Number of slots of a directory block, `block_size / DIR_ENTRY_SIZE`. -/
def slots_per_block (img : Image) : Nat :=
  match (img.fat[0]?).bind BLOCK_SIZE with
  | some bs => bs / DIR_ENTRY_SIZE
  | none => 0

/-- Whether the loop of `find_file` for `name` passes over slot `i` of block `b`:
the first byte of the name marks the end of the directory or a deleted entry, or
the entry has another name. -/
def slot_passed (img : Image) (name : List Nat) (b i : Nat) : Bool :=
  match entry_at img b i with
  | some e =>
    decide (schar (e.name.getD 0 0) < FILENAME_DEL_INUSE) || (strcmp_name name e.name == some false)
  | none => false

/-- No slot of the directory blocks `D` other than `loc` holds a live entry with the
name `name`. -/
def no_other_entry (img : Image) (D : List Nat) (name : List Nat) (loc : point_t) : Prop :=
  ∀ b ∈ D, ∀ i, i < slots_per_block img →
    (b = loc.first ∧ i = loc.second) ∨ slot_passed img name b i = true

/-! ## The command `mkfs` (`pennfat.c`) and the mount -/

/-- Array `fat_region` of the command `mkfs` when it is written to the host file:
`n_fat_entries` cells, all zero but the metadata cell and the cell of the root
directory. -/
def mkfs_fat_region (blocks_in_fat block_size_config : Nat) : List Nat :=
  let block_size_bytes := BYTE_SIZE <<< block_size_config
  let fat_size := blocks_in_fat * block_size_bytes
  let n_fat_entries := fat_size / 2
  ((List.replicate n_fat_entries 0).set 0
    (((blocks_in_fat <<< BITS_PER_BYTE) ||| block_size_config) % 65536)).set 1 LASTBLOCK

/-- Command `mkfs FS_NAME BLOCKS_IN_FAT BLOCK_SIZE_CONFIG` of `pennfat.c`: the bytes
of the host file after the command, the cells in the byte order of the host (low
byte first). The result is `none` when the command refuses an argument and writes
nothing. -/
def mkfs (blocks_in_fat block_size_config : Int) : Option (List Nat) :=
  if blocks_in_fat < 1 ∨ blocks_in_fat > 32 then none
  else if block_size_config < 0 ∨ block_size_config > 4 then none
  else
    let block_size_bytes := BYTE_SIZE <<< block_size_config.toNat
    let fat_size := blocks_in_fat.toNat * block_size_bytes
    let n_fat_entries := fat_size / 2
    let data_region_size := block_size_bytes * (n_fat_entries - 1)
    let fat_region := mkfs_fat_region blocks_in_fat.toNat block_size_config.toNat
    let block := List.replicate block_size_bytes 0
    some ((fat_region.map (fun c => le_bytes c 2)).flatten ++
      (List.replicate (data_region_size / block_size_bytes) block).flatten)

/-- Function `fs_mount` of `fat.c` on a host file with the bytes `file`: the first
`n_blocks * block_size` bytes are mapped as the array of cells. A mapping that
is longer than the file is not part of the model. -/
def fs_mount (file : List Nat) : Option Image := do
  let metadata := le_value (file.take 2)
  let n_blocks := FAT_BLOCKS metadata
  let block_size ← BLOCK_SIZE metadata
  if file.length < n_blocks * block_size ∨ file.length < 2 then none
  else
    let cells := (List.range (n_blocks * block_size / 2)).map
      (fun i => le_value ((file.drop (2 * i)).take 2))
    some (Image.mk cells (fun a => file.getD a 0))

/-- Modelled from the spec: the number of bytes that `fill_chain` is said to write
and return, `min(buffer_len, S - (chain_bytes mod S))`. -/
def fill_chain_count_spec (block_size chain_bytes buffer_len : Nat) : Nat :=
  min buffer_len (block_size - chain_bytes % block_size)

/-- Example FAT in the largest geometry, 32 blocks of 4096 bytes, hence 65536 cells:
every block but the last one holds a chain of one block, the last cell is free. -/
def example_fat_last_free : List Nat := [8196] ++ List.replicate 65534 LASTBLOCK ++ [0]

set_option maxRecDepth 1000000

/-! ## Lemmas on the open-files table -/

theorem get_fileptr_set_fileptr (l : List fileptr_t) (pid v : Int) (fp : fileptr_t)
    (h : get_fileptr l pid = some fp) :
    get_fileptr (set_fileptr l pid v) pid = some { fp with ptr := v } := by
  induction l with
  | nil => simp [get_fileptr] at h
  | cons x xs ih =>
    simp only [get_fileptr, set_fileptr] at h ⊢
    by_cases hx : pid = x.pid
    · simp only [hx, if_true] at h ⊢
      simp only [get_fileptr, if_true]
      cases h; rfl
    · simp only [hx, if_false] at h ⊢
      simp only [get_fileptr, hx, if_false]
      exact ih h

theorem get_fileptr_pid (l : List fileptr_t) (pid : Int) (fp : fileptr_t)
    (h : get_fileptr l pid = some fp) : fp.pid = pid := by
  induction l with
  | nil => simp [get_fileptr] at h
  | cons x xs ih =>
    simp only [get_fileptr] at h
    by_cases hx : pid = x.pid
    · simp only [hx, if_true] at h
      cases h; exact hx.symm ▸ rfl
    · simp only [hx, if_false] at h
      exact ih h

theorem find_update_file_entry (f : file_t → file_t) (l : List file_t) (id : Int) (fe : file_t)
    (hf : ∀ x, (f x).file_id = x.file_id)
    (h : find_file_entry_by_file_id l id = some fe) :
    find_file_entry_by_file_id (update_file_entry f l id) id = some (f fe) := by
  induction l with
  | nil => simp [find_file_entry_by_file_id] at h
  | cons x xs ih =>
    simp only [find_file_entry_by_file_id, update_file_entry] at h ⊢
    by_cases hx : x.file_id = id
    · simp only [hx, if_true] at h ⊢
      simp only [find_file_entry_by_file_id, hf, hx, if_true]
      cases h; rfl
    · simp only [hx, if_false] at h ⊢
      simp only [find_file_entry_by_file_id, hx, if_false]
      exact ih h

theorem offset_of_store_ptr (k : Kernel) (id pid v : Int) (fe : file_t) (fp : fileptr_t)
    (hent : find_file_entry_by_file_id k.open_files id = some fe)
    (hoff : get_fileptr fe.fileptr_head pid = some fp) :
    offset_of (store_ptr k id pid v) id pid = some v := by
  unfold offset_of store_ptr
  simp only []
  rw [find_update_file_entry
    (fun e => { e with fileptr_head := set_fileptr e.fileptr_head pid v }) _ _ fe (fun _ => rfl) hent]
  simp [get_fileptr_set_fileptr _ _ _ fp hoff]

theorem u32_to_int_wrap (x : Int) (h1 : INT_MIN ≤ x) (h2 : x ≤ INT_MAX) :
    u32_to_int (to_u32 x) = x := by
  unfold u32_to_int to_u32 INT_MIN INT_MAX at *
  have h3 : ((x % 4294967296).toNat : Int) = x % 4294967296 :=
    Int.toNat_of_nonneg (Int.emod_nonneg _ (by norm_num))
  have h4 : (x % 4294967296).toNat % 4294967296 = (x % 4294967296).toNat := by
    apply Nat.mod_eq_of_lt
    have := Int.emod_lt_of_pos x (show (0:Int) < 4294967296 by norm_num)
    omega
  rw [h4]
  split
  · rename_i h
    rw [h3]; omega
  · rename_i h
    rw [h3]; omega

theorem to_u32_of_nonneg (x : Int) (h0 : 0 ≤ x) (h1 : x ≤ INT_MAX) : (to_u32 x : Int) = x := by
  unfold to_u32 INT_MAX at *
  rw [Int.toNat_of_nonneg (Int.emod_nonneg _ (by norm_num))]
  omega

theorem seek_end_value (size : Nat) (offset : Int) (hsize : (size : Int) ≤ INT_MAX)
    (h1 : INT_MIN ≤ offset) (h2 : offset ≤ INT_MAX) :
    (0 ≤ (size : Int) + offset ∧ (size : Int) + offset ≤ size →
      u32_to_int (size + to_u32 offset) = size + offset) ∧
    (¬ (0 ≤ (size : Int) + offset ∧ (size : Int) + offset ≤ size) →
      ¬ (u32_to_int (size + to_u32 offset) ≥ 0 ∧
        to_u32 (u32_to_int (size + to_u32 offset)) ≤ size)) := by
  unfold u32_to_int to_u32 INT_MIN INT_MAX at *
  have h3 : ((offset % 4294967296).toNat : Int) = offset % 4294967296 :=
    Int.toNat_of_nonneg (Int.emod_nonneg _ (by norm_num))
  constructor
  · intro h
    split <;> omega
  · intro h
    split
    · rename_i hlt
      intro hc
      have h5 := hc.2
      have h6 : (((((size + (offset % 4294967296).toNat) % 4294967296 : Nat) : Int)
          % 4294967296).toNat : Int) = (((size + (offset % 4294967296).toNat) % 4294967296 : Nat) : Int)
          % 4294967296 := Int.toNat_of_nonneg (Int.emod_nonneg _ (by norm_num))
      omega
    · omega

theorem find_file_entry_eq (k : Kernel) (pcb : PCB) (fe : file_t) (fd : Int)
    (hcur : cur_pcb k = some pcb)
    (hslot : fd_get pcb fd = some fe.file_id)
    (hent : find_file_entry_by_file_id k.open_files fe.file_id = some fe) :
    find_file_entry k fd = some (fe.file_id, fe) := by
  simp [find_file_entry, hcur, hslot, hent]

/-! ## Lemmas on the image -/

theorem le_bytes_length (v k : Nat) : (le_bytes v k).length = k := by
  induction k generalizing v with
  | zero => rfl
  | succ k ih => simp [le_bytes, ih]

theorem encode_length (e : dir_entry_t) : e.encode.length = DIR_ENTRY_SIZE := by
  simp [dir_entry_t.encode, le_bytes_length, DIR_ENTRY_SIZE]

theorem seek_read_some (img : Image) (addr count : Nat) (l : List Nat)
    (h : seek_read img addr count = some l) :
    in_data_region img.fat addr count = some true ∧ l = disk_read img.disk addr count := by
  unfold seek_read at h
  cases hr : in_data_region img.fat addr count with
  | none => simp [hr] at h
  | some b =>
    cases b with
    | false => simp [hr] at h
    | true => simp [hr] at h; exact ⟨rfl, h.symm⟩

theorem seek_write_of_region (img : Image) (addr : Nat) (bytes : List Nat)
    (h : in_data_region img.fat addr bytes.length = some true) :
    seek_write img addr bytes = some { img with disk := disk_write img.disk addr bytes } := by
  simp [seek_write, h]

theorem find_in_block_found (img : Image) (name : List Nat) (blk addr : Nat) :
    ∀ (k i : Nat) (loc : point_t) (e : dir_entry_t),
      find_in_block img name blk addr k i = some (some (loc, e)) →
      loc.first = blk ∧ i ≤ loc.second ∧ loc.second < i + k ∧
      seek_read img (addr + loc.second * DIR_ENTRY_SIZE) DIR_ENTRY_SIZE
        = some (disk_read img.disk (addr + loc.second * DIR_ENTRY_SIZE) DIR_ENTRY_SIZE) ∧
      e = dir_entry_t.decode (disk_read img.disk (addr + loc.second * DIR_ENTRY_SIZE) DIR_ENTRY_SIZE) ∧
      ¬ (schar (e.name.getD 0 0) < FILENAME_DEL_INUSE) ∧
      strcmp_name name e.name = some true := by
  intro k
  induction k with
  | zero => intro i loc e h; simp [find_in_block] at h
  | succ k ih =>
    intro i loc e h
    unfold find_in_block at h
    cases hr : seek_read img (addr + i * DIR_ENTRY_SIZE) DIR_ENTRY_SIZE with
    | none => simp [hr] at h
    | some bytes =>
      have hb := (seek_read_some _ _ _ _ hr).2
      simp only [hr, Option.bind_eq_bind, Option.some_bind] at h
      by_cases hs : schar ((dir_entry_t.decode bytes).name.getD 0 0) < FILENAME_DEL_INUSE
      · simp only [hs, if_true] at h
        have := ih (i + 1) loc e h
        refine ⟨this.1, by omega, by omega, this.2.2.2⟩
      · simp only [hs, if_false] at h
        cases hc : strcmp_name name (dir_entry_t.decode bytes).name with
        | none => simp [hc] at h
        | some same =>
          cases same with
          | false =>
            simp only [hc, Option.some_bind] at h
            have := ih (i + 1) loc e (by simpa using h)
            refine ⟨this.1, by omega, by omega, this.2.2.2⟩
          | true =>
            simp only [hc, Option.some_bind, if_true] at h
            injection h with h
            injection h with h
            injection h with h1 h2
            subst h1; subst h2
            refine ⟨rfl, le_refl _, by simp, ?_, ?_, hs, hc⟩
            · simp only [hr, hb]
            · simp only [hb]

theorem find_file_loop_found (img : Image) (name : List Nat) (bs : Nat) :
    ∀ (fuel cur : Nat) (loc : point_t) (e : dir_entry_t),
      find_file_loop img name bs fuel cur = some (some (loc, e)) →
      ∃ addr, mem_idx img.fat loc.first = some addr ∧
        loc.second < bs / DIR_ENTRY_SIZE ∧
        seek_read img (addr + loc.second * DIR_ENTRY_SIZE) DIR_ENTRY_SIZE
          = some (disk_read img.disk (addr + loc.second * DIR_ENTRY_SIZE) DIR_ENTRY_SIZE) ∧
        e = dir_entry_t.decode (disk_read img.disk (addr + loc.second * DIR_ENTRY_SIZE) DIR_ENTRY_SIZE) ∧
        ¬ (schar (e.name.getD 0 0) < FILENAME_DEL_INUSE) ∧
        strcmp_name name e.name = some true := by
  intro fuel
  induction fuel with
  | zero => intro cur loc e h; simp [find_file_loop] at h
  | succ fuel ih =>
    intro cur loc e h
    unfold find_file_loop at h
    by_cases hl : cur = LASTBLOCK
    · simp [hl] at h
    · simp only [hl, if_false] at h
      cases hm : mem_idx img.fat cur with
      | none => simp [hm] at h
      | some addr =>
        simp only [hm, Option.bind_eq_bind, Option.some_bind] at h
        cases hf : find_in_block img name cur addr (bs / DIR_ENTRY_SIZE) 0 with
        | none => simp [hf] at h
        | some r =>
          simp only [hf, Option.some_bind] at h
          cases r with
          | some hit =>
            simp only at h
            injection h with h
            injection h with h
            subst h
            have := find_in_block_found img name cur addr _ _ loc e hf
            refine ⟨addr, ?_, by omega, this.2.2.2⟩
            rw [this.1]; exact hm
          | none =>
            simp only at h
            cases hn : img.fat[cur]? with
            | none => simp [hn] at h
            | some next =>
              simp only [hn, Option.some_bind] at h
              exact ih next loc e h

theorem find_file_found (img : Image) (name : List Nat) (loc : point_t) (e : dir_entry_t)
    (h : find_file img ROOTDIR name = some (some (loc, e))) :
    ∃ addr, mem_idx img.fat loc.first = some addr ∧
      in_data_region img.fat (addr + loc.second * DIR_ENTRY_SIZE) DIR_ENTRY_SIZE = some true ∧
      e = dir_entry_t.decode (disk_read img.disk (addr + loc.second * DIR_ENTRY_SIZE) DIR_ENTRY_SIZE) ∧
      ¬ (schar (e.name.getD 0 0) < FILENAME_DEL_INUSE) ∧
      strcmp_name name e.name = some true := by
  unfold find_file at h
  cases hm : img.fat[0]? with
  | none => simp [hm] at h
  | some m =>
    simp only [hm, Option.bind_eq_bind, Option.some_bind] at h
    cases hb : BLOCK_SIZE m with
    | none => simp [hb] at h
    | some bs =>
      simp only [hb, Option.some_bind] at h
      obtain ⟨addr, h1, _, h3, h4, h5, h6⟩ := find_file_loop_found img name bs _ _ loc e h
      exact ⟨addr, h1, (seek_read_some _ _ _ _ h3).1, h4, h5, h6⟩

theorem write_file_found (img : Image) (name : List Nat) (loc : point_t) (e e1 : dir_entry_t)
    (h : find_file img ROOTDIR name = some (some (loc, e))) :
    ∃ addr, mem_idx img.fat loc.first = some addr ∧
      write_file img loc e1 = some { img with
        disk := disk_write img.disk (addr + loc.second * DIR_ENTRY_SIZE) e1.encode } := by
  obtain ⟨addr, h1, h2, _⟩ := find_file_found img name loc e h
  refine ⟨addr, h1, ?_⟩
  unfold write_file
  simp only [h1, Option.bind_eq_bind, Option.some_bind]
  apply seek_write_of_region
  rw [encode_length]; exact h2

theorem fs_touch_found (img : Image) (name : List Nat) (loc : point_t) (e : dir_entry_t)
    (now : Nat) (h : find_file img ROOTDIR name = some (some (loc, e))) :
    ∃ img1, fs_touch img name now = some (img1, false) ∧ img1.fat = img.fat := by
  obtain ⟨addr, _, h2⟩ := write_file_found img name loc e { e with mtime := now % 2 ^ 64 } h
  refine ⟨Image.mk img.fat (disk_write img.disk (addr + loc.second * DIR_ENTRY_SIZE)
      (dir_entry_t.encode { e with mtime := now % 2 ^ 64 })), ?_, rfl⟩
  unfold fs_touch
  simp only [h, Option.bind_eq_bind, Option.some_bind, h2]

/-! ## Lemmas on descriptor tables and the registry -/

theorem find_unused_fd_loop_spec (fds : List Int) :
    ∀ (k i : Nat) (r : Int), find_unused_fd_loop fds k i = some r →
      (r = -1 ∧ ∀ j, i ≤ j → j < i + k → fds[j]? ≠ some NOFILE) ∨
      (∃ j : Nat, r = (j : Int) ∧ i ≤ j ∧ j < i + k ∧ fds[j]? = some NOFILE ∧
        ∀ j', i ≤ j' → j' < j → fds[j']? ≠ some NOFILE) := by
  intro k
  induction k with
  | zero =>
    intro i r h
    simp only [find_unused_fd_loop] at h
    left
    injection h with h
    exact ⟨h.symm, fun j h1 h2 => by omega⟩
  | succ k ih =>
    intro i r h
    unfold find_unused_fd_loop at h
    cases hv : fds[i]? with
    | none => simp [hv] at h
    | some v =>
      simp only [hv] at h
      by_cases hn : v = NOFILE
      · simp only [hn, if_true] at h
        injection h with h
        right
        exact ⟨i, h.symm, le_refl _, by omega, by rw [hv, hn], fun j' h1 h2 => by omega⟩
      · simp only [hn, if_false] at h
        rcases ih (i + 1) r h with ⟨h1, h2⟩ | ⟨j, h1, h2, h3, h4, h5⟩
        · left
          refine ⟨h1, fun j hj1 hj2 => ?_⟩
          by_cases hji : j = i
          · subst hji; rw [hv]; intro hc; injection hc with hc; exact hn hc
          · exact h2 j (by omega) (by omega)
        · right
          refine ⟨j, h1, by omega, by omega, h4, fun j' hj1 hj2 => ?_⟩
          by_cases hji : j' = i
          · subst hji; rw [hv]; intro hc; injection hc with hc; exact hn hc
          · exact h5 j' (by omega) hj2

theorem find_unused_fd_loop_total (fds : List Int) :
    ∀ (k i : Nat), i + k ≤ fds.length → ∃ r, find_unused_fd_loop fds k i = some r := by
  intro k
  induction k with
  | zero => intro i _; exact ⟨-1, rfl⟩
  | succ k ih =>
    intro i h
    unfold find_unused_fd_loop
    have hi : i < fds.length := by omega
    rw [List.getElem?_eq_getElem hi]
    simp only
    by_cases hn : fds[i] = NOFILE
    · simp [hn]
    · simp only [hn, if_false]
      exact ih (i + 1) (by omega)

theorem is_duplicate_fd_loop_spec (fds : List Int) (id : Int) :
    ∀ (k i : Nat), i + k ≤ fds.length →
      ∃ b, is_duplicate_fd_loop fds id k i = some b ∧
        (b = true ↔ ∃ j, i ≤ j ∧ j < i + k ∧ fds[j]? = some id) := by
  intro k
  induction k with
  | zero =>
    intro i _
    refine ⟨false, rfl, ?_⟩
    simp only [Bool.false_eq_true, false_iff]
    rintro ⟨j, h1, h2, _⟩
    omega
  | succ k ih =>
    intro i h
    unfold is_duplicate_fd_loop
    have hi : i < fds.length := by omega
    rw [List.getElem?_eq_getElem hi]
    simp only
    by_cases hn : fds[i] = id
    · refine ⟨true, by simp [hn], ?_⟩
      simp only [true_iff]
      exact ⟨i, le_refl _, by omega, by rw [List.getElem?_eq_getElem hi, hn]⟩
    · simp only [hn, if_false]
      obtain ⟨b, hb1, hb2⟩ := ih (i + 1) (by omega)
      refine ⟨b, hb1, ?_⟩
      rw [hb2]
      constructor
      · rintro ⟨j, h1, h2, h3⟩
        exact ⟨j, by omega, by omega, h3⟩
      · rintro ⟨j, h1, h2, h3⟩
        by_cases hji : j = i
        · subst hji
          rw [List.getElem?_eq_getElem hi] at h3
          injection h3 with h3
          exact absurd h3 hn
        · exact ⟨j, by omega, by omega, h3⟩

theorem findPCBByPID_pid (l : List PCB) (pid : Int) (pcb : PCB)
    (h : findPCBByPID l pid = some pcb) : pcb.pid = pid := by
  induction l with
  | nil => simp [findPCBByPID] at h
  | cons x xs ih =>
    simp only [findPCBByPID] at h
    by_cases hx : x.pid = pid
    · simp only [hx, if_true] at h
      injection h with h
      rw [← h]; exact hx
    · simp only [hx, if_false] at h
      exact ih h

theorem findPCBByPID_update (l : List PCB) (pid : Int) (pcb pcb1 : PCB)
    (h : findPCBByPID l pid = some pcb) (h1 : pcb1.pid = pid) :
    findPCBByPID (update_pcb (fun _ => pcb1) l pid) pid = some pcb1 := by
  induction l with
  | nil => simp [findPCBByPID] at h
  | cons x xs ih =>
    simp only [findPCBByPID, update_pcb] at h ⊢
    by_cases hx : x.pid = pid
    · simp only [hx, if_true] at h ⊢
      simp [findPCBByPID, h1]
    · simp only [hx, if_false] at h ⊢
      simp only [findPCBByPID, hx, if_false]
      exact ih h

theorem cur_pcb_pid (k : Kernel) (pcb : PCB) (h : cur_pcb k = some pcb) :
    k.current_pcb = some pcb.pid ∧ findPCBByPID k.pcb_list pcb.pid = some pcb := by
  unfold cur_pcb at h
  cases hc : k.current_pcb with
  | none => simp [hc] at h
  | some pid =>
    simp only [hc, Option.bind_eq_bind, Option.some_bind] at h
    have := findPCBByPID_pid _ _ _ h
    subst this
    exact ⟨rfl, h⟩

theorem find_update_by_filename (f : file_t → file_t) (l : List file_t) (name : List Nat)
    (fe : file_t) (hf : ∀ x, (f x).filename = x.filename)
    (h : find_file_entry_by_filename l name = some fe) :
    find_file_entry_by_filename (update_file_entry_by_filename f l name) name = some (f fe) := by
  induction l with
  | nil => simp [find_file_entry_by_filename] at h
  | cons x xs ih =>
    simp only [find_file_entry_by_filename, update_file_entry_by_filename] at h ⊢
    by_cases hx : x.filename = c_str name
    · simp only [hx, if_true] at h ⊢
      simp only [find_file_entry_by_filename, hf, hx, if_true]
      cases h; rfl
    · simp only [hx, if_false] at h ⊢
      simp only [find_file_entry_by_filename, hx, if_false]
      exact ih h

theorem get_fileptr_set_fileptr_ne (l : List fileptr_t) (pid q v : Int) (h : q ≠ pid) :
    get_fileptr (set_fileptr l pid v) q = get_fileptr l q := by
  induction l with
  | nil => rfl
  | cons x xs ih =>
    simp only [set_fileptr]
    by_cases hx : pid = x.pid
    · have hq : q ≠ x.pid := hx ▸ h
      simp only [hx, if_true, get_fileptr, hq, if_false]
    · simp only [hx, if_false, get_fileptr, ih]

theorem get_fileptr_create_fileptr_ne (l : List fileptr_t) (pid q v : Int) (h : q ≠ pid) :
    get_fileptr (create_fileptr l pid v) q = get_fileptr l q := by
  simp [create_fileptr, get_fileptr, h]

theorem get_fileptr_create_fileptr (l : List fileptr_t) (pid v : Int) :
    get_fileptr (create_fileptr l pid v) pid = some { pid := pid, ptr := v } := by
  simp [create_fileptr, get_fileptr]

/-- The first unused slot: `f_open` returns the least index `i >= 3` whose slot holds
`NOFILE` whenever the table of the caller has such a slot. -/
theorem find_unused_fd_least (pcb : PCB) (hlen : pcb.fileDescriptors.length = MAX_FDS)
    (hfree : ∃ i, 3 ≤ i ∧ i < MAX_FDS ∧ pcb.fileDescriptors[i]? = some NOFILE) :
    ∃ j : Nat, find_unused_fd pcb = some (j : Int) ∧ 3 ≤ j ∧ j < MAX_FDS ∧
      pcb.fileDescriptors[j]? = some NOFILE ∧
      ∀ j', 3 ≤ j' → j' < j → pcb.fileDescriptors[j']? ≠ some NOFILE := by
  obtain ⟨r, hr⟩ := find_unused_fd_loop_total pcb.fileDescriptors (MAX_FDS - 3) 3
    (by rw [hlen]; decide)
  rcases find_unused_fd_loop_spec _ _ _ _ hr with ⟨_, h2⟩ | ⟨j, h1, h2, h3, h4, h5⟩
  · obtain ⟨i, hi1, hi2, hi3⟩ := hfree
    exact absurd hi3 (h2 i hi1 (by unfold MAX_FDS at *; omega))
  · refine ⟨j, ?_, h2, by unfold MAX_FDS at *; omega, h4, h5⟩
    unfold find_unused_fd
    rw [hr, h1]

theorem fd_set_of_lt (pcb : PCB) (j : Nat) (v : Int) (hlen : pcb.fileDescriptors.length = MAX_FDS)
    (hj : j < MAX_FDS) :
    fd_set pcb (j : Int) v = some { pcb with fileDescriptors := pcb.fileDescriptors.set j v } := by
  unfold fd_set
  have h1 : (0 : Int) ≤ (j : Int) := Int.ofNat_nonneg j
  have h2 : (j : Int) < (MAX_FDS : Int) := by exact_mod_cast hj
  simp [h2, hlen, hj]

theorem mem_drop_of_getElem? (l : List Int) (n j : Nat) (v : Int) (hj : n ≤ j)
    (h : l[j]? = some v) : v ∈ l.drop n := by
  have h1 : (l.drop n)[j - n]? = some v := by
    rw [List.getElem?_drop]
    have : n + (j - n) = j := by omega
    rw [this]; exact h
  exact List.getElem?_mem h1

theorem is_duplicate_fd_false (pcb : PCB) (id : Int)
    (hlen : pcb.fileDescriptors.length = MAX_FDS)
    (h : ∀ v ∈ pcb.fileDescriptors.drop 3, v ≠ id) :
    is_duplicate_fd pcb id = some false := by
  obtain ⟨b, hb, hiff⟩ := is_duplicate_fd_loop_spec pcb.fileDescriptors id (MAX_FDS - 3) 3
    (by rw [hlen]; decide)
  cases b with
  | false => exact hb
  | true =>
    obtain ⟨j, h1, _, h3⟩ := hiff.1 rfl
    exact absurd rfl (h id (mem_drop_of_getElem? _ 3 j id h1 h3))

theorem find_unused_fd_full (pcb : PCB)
    (hlen : pcb.fileDescriptors.length = MAX_FDS)
    (h : ∀ v ∈ pcb.fileDescriptors.drop 3, v ≠ NOFILE) :
    find_unused_fd pcb = some (-1) := by
  obtain ⟨r, hr⟩ := find_unused_fd_loop_total pcb.fileDescriptors (MAX_FDS - 3) 3
    (by rw [hlen]; decide)
  rcases find_unused_fd_loop_spec _ _ _ _ hr with ⟨h1, _⟩ | ⟨j, _, h2, _, h4, _⟩
  · unfold find_unused_fd
    rw [hr, h1]
  · exact absurd rfl (h NOFILE (mem_drop_of_getElem? _ 3 j NOFILE h2 h4))

theorem example_fds_length (slots : List Int) (h : slots.length ≤ MAX_FDS - 3) :
    (example_fds slots).length = MAX_FDS := by
  unfold MAX_FDS at *
  simp [example_fds, MAX_FDS]
  omega

theorem example_fds_drop (slots : List Int) :
    (example_fds slots).drop 3 = slots ++ List.replicate (MAX_FDS - 3 - slots.length) NOFILE := by
  simp [example_fds]

theorem example_fds_mem (slots : List Int) (v : Int) (h : v ∈ (example_fds slots).drop 3) :
    v ∈ slots ∨ v = NOFILE := by
  rw [example_fds_drop, List.mem_append] at h
  rcases h with h | h
  · exact Or.inl h
  · exact Or.inr (List.eq_of_mem_replicate h)

theorem example_fds_set (s v : Int) (rest : List Int) :
    (example_fds (s :: rest)).set 3 v = example_fds (v :: rest) := by
  simp [example_fds]

/-! ## Lemmas on machine integers -/
theorem to_u32_gt_iff (x : Int) (size : Nat) (h0 : 0 ≤ x) (h1 : x ≤ INT_MAX) :
    to_u32 x > size ↔ x > (size : Int) := by
  have := to_u32_of_nonneg x h0 h1
  omega

theorem int_chk_some (x y : Int) (h : int_chk x = some y) :
    y = x ∧ INT_MIN ≤ x ∧ x ≤ INT_MAX := by
  unfold int_chk at h
  split at h
  · rename_i hr
    injection h with h
    exact ⟨h.symm, hr.1, hr.2⟩
  · cases h

theorem to_u32_neg_ge (x : Int) (h0 : x < 0) (h1 : INT_MIN ≤ x) : 2147483648 ≤ to_u32 x := by
  unfold to_u32 INT_MIN at *
  have h3 : ((x % 4294967296).toNat : Int) = x % 4294967296 :=
    Int.toNat_of_nonneg (Int.emod_nonneg _ (by norm_num))
  omega

theorem u32_to_int_neg (size : Nat) (h : 2147483648 ≤ size) (h2 : size < 4294967296) :
    u32_to_int size < 0 := by
  unfold u32_to_int
  split <;> omega

/-! ## Claim C5: `f_lseek` -/

/-- Function `f_lseek` on a descriptor `fd` other than 0, 1, 2 of the current process
that is bound to the open file `fe`, whose directory entry `e` has size `s = e.size` and in
which the process has the offset `p = fp.ptr`, `f_lseek(fd, offset, whence)` computes
`t = offset` (`F_SEEK_SET`), `p + offset` (`F_SEEK_CURR`) or `s + offset` (`F_SEEK_END`);
if `0 <= t <= s` it stores `t` as the offset of the caller and returns `t`, otherwise it
returns `-1`, sets `ERRNO` to `ERR_F_LSEEK_OOB` and changes nothing else, so that the
offset is still `p`. The values are C integers: `offset` and `s` are in the range of `int`,
and so is `p + offset` for `F_SEEK_CURR`. -/
theorem f_lseek_spec (k : Kernel) (pcb : PCB) (fe : file_t) (loc : point_t) (e : dir_entry_t)
    (fp : fileptr_t) (fd offset whence : Int)
    (hfd : f_isatty fd = false)
    (hcur : cur_pcb k = some pcb)
    (hslot : fd_get pcb fd = some fe.file_id)
    (hent : find_file_entry_by_file_id k.open_files fe.file_id = some fe)
    (hdir : find_file k.img ROOTDIR fe.filename = some (some (loc, e)))
    (hoff : get_fileptr fe.fileptr_head pcb.pid = some fp)
    (hw : whence = F_SEEK_SET ∨ whence = F_SEEK_CURR ∨ whence = F_SEEK_END)
    (hsize : (e.size : Int) ≤ INT_MAX)
    (hoffset : INT_MIN ≤ offset ∧ offset ≤ INT_MAX)
    (hcurr : whence = F_SEEK_CURR → INT_MIN ≤ fp.ptr + offset ∧ fp.ptr + offset ≤ INT_MAX) :
    (∀ t : Int,
      t = (if whence = F_SEEK_SET then offset
           else if whence = F_SEEK_CURR then fp.ptr + offset else (e.size : Int) + offset) →
      (0 ≤ t ∧ t ≤ e.size →
        f_lseek k fd offset whence = some (store_ptr k fe.file_id pcb.pid t, t) ∧
        offset_of (store_ptr k fe.file_id pcb.pid t) fe.file_id pcb.pid = some t) ∧
      (¬ (0 ≤ t ∧ t ≤ e.size) →
        f_lseek k fd offset whence = some ({ k with ERRNO := ERR_F_LSEEK_OOB }, -1) ∧
        offset_of { k with ERRNO := ERR_F_LSEEK_OOB } fe.file_id pcb.pid = some fp.ptr)) := by
  intro t ht
  have hfe := find_file_entry_eq k pcb fe fd hcur hslot hent
  have hlt : ∀ v : Int, 0 ≤ v → v ≤ INT_MAX → (to_u32 v ≤ e.size ↔ v ≤ e.size) := by
    intro v h0 h1
    have := to_u32_of_nonneg v h0 h1
    omega
  have hback : offset_of { k with ERRNO := ERR_F_LSEEK_OOB } fe.file_id pcb.pid = some fp.ptr := by
    simp [offset_of, hent, hoff]
  have hmax : INT_MAX = 2147483647 := rfl
  rcases hw with hw | hw | hw
  · -- F_SEEK_SET
    have ht' : t = offset := by simp [ht, hw]
    subst ht'
    constructor
    · intro hin
      refine ⟨?_, offset_of_store_ptr k _ _ _ fe fp hent hoff⟩
      have hc : t ≥ 0 ∧ to_u32 t ≤ e.size := ⟨hin.1, (hlt t hin.1 hoffset.2).2 hin.2⟩
      simp [f_lseek, hfd, hfe, hdir, hcur, hoff, hw, F_SEEK_SET, F_SEEK_CURR, F_SEEK_END, hc]
    · intro hout
      refine ⟨?_, hback⟩
      have hc : ¬ (t ≥ 0 ∧ to_u32 t ≤ e.size) := by
        intro hc
        exact hout ⟨hc.1, (hlt t hc.1 hoffset.2).1 hc.2⟩
      simp [f_lseek, hfd, hfe, hdir, hcur, hoff, hw, F_SEEK_SET, F_SEEK_CURR, F_SEEK_END, hc]
  · -- F_SEEK_CURR
    have ht' : t = fp.ptr + offset := by simp [ht, hw, F_SEEK_SET, F_SEEK_CURR]
    have hr := hcurr hw
    have hchk : int_chk (fp.ptr + offset) = some (fp.ptr + offset) := by
      simp [int_chk, hr]
    rw [← ht'] at hchk hr
    constructor
    · intro hin
      refine ⟨?_, offset_of_store_ptr k _ _ _ fe fp hent hoff⟩
      have hc : t ≥ 0 ∧ to_u32 t ≤ e.size := ⟨hin.1, (hlt t hin.1 hr.2).2 hin.2⟩
      simp [f_lseek, hfd, hfe, hdir, hcur, hoff, hw, F_SEEK_SET, F_SEEK_CURR, F_SEEK_END, hc,
        ← ht', hchk]
    · intro hout
      refine ⟨?_, hback⟩
      have hc : ¬ (t ≥ 0 ∧ to_u32 t ≤ e.size) := by
        intro hc
        exact hout ⟨hc.1, (hlt t hc.1 hr.2).1 hc.2⟩
      simp [f_lseek, hfd, hfe, hdir, hcur, hoff, hw, F_SEEK_SET, F_SEEK_CURR, F_SEEK_END, hc,
        ← ht', hchk]
  · -- F_SEEK_END
    have ht' : t = (e.size : Int) + offset := by simp [ht, hw, F_SEEK_SET, F_SEEK_CURR, F_SEEK_END]
    have hv := seek_end_value e.size offset hsize hoffset.1 hoffset.2
    rw [← ht'] at hv
    constructor
    · intro hin
      refine ⟨?_, offset_of_store_ptr k _ _ _ fe fp hent hoff⟩
      have hval := hv.1 hin
      have hc : t ≥ 0 ∧ to_u32 t ≤ e.size := ⟨hin.1, (hlt t hin.1 (by omega)).2 hin.2⟩
      simp [f_lseek, hfd, hfe, hdir, hcur, hoff, hw, F_SEEK_SET, F_SEEK_CURR, F_SEEK_END, hval, hc]
    · intro hout
      refine ⟨?_, hback⟩
      have hc := hv.2 hout
      simp only [ge_iff_le] at hc
      simp [f_lseek, hfd, hfe, hdir, hcur, hoff, hw, F_SEEK_SET, F_SEEK_CURR, F_SEEK_END, hc]

/-- Example on the example kernel: process 1 seeks to position 1 of `foo` through
descriptor 3. -/
theorem f_lseek_spec_witness :
    f_lseek (example_kernel 1 0 6) 3 1 F_SEEK_SET
        = some (store_ptr (example_kernel 1 0 6) 0 1 1, 1) ∧
      offset_of (store_ptr (example_kernel 1 0 6) 0 1 1) 0 1 = some 1 :=
  (f_lseek_spec (example_kernel 1 0 6) (example_pcb 1 [0])
    { filename := foo, file_id := 0, wr_pid := 1, fileptr_head := [{ pid := 1, ptr := 0 }] }
    { first := 1, second := 0 } (example_entry 6) { pid := 1, ptr := 0 } 3 1 F_SEEK_SET
    (by decide) (by decide) (by decide) (by decide) (by decide) (by decide)
    (Or.inl rfl) (by decide) (by decide) (by decide) 1 (by decide)).1 (by decide)

/-! ## Claim C2: value returned by `f_write` -/

/-- Claim C2 at a failing input: on the example kernel process 1, the writer of the
two-byte file `foo`, stands at offset 2 and writes one byte of the buffer that holds
`!` and a terminator. The write extends the file: `f_write` adds 1 to
`bytes_to_write`, the count that it returns and adds to the offset, and it stores
the terminator at `temp_buf[new_file_size + 1]`, one byte after the buffer of
`new_file_size + 1` bytes. The call has no defined result, where the claim requires
the value 1 and the offset 3. The same call at offset 0, inside the file, returns 1
and moves the offset to 1. -/
theorem f_write_extending_undefined :
    file_content (example_kernel 1 2 6).img foo = some (2, [104, 105]) ∧
    offset_of (example_kernel 1 2 6) 0 1 = some 2 ∧
    (f_write (example_kernel 1 2 6) 3 [33, 0] 1 9).isNone = true ∧
    (f_write (example_kernel 1 0 6) 3 [33, 0] 1 9).map (fun r => (r.2, offset_of r.1 0 1))
      = some (1, some 1) := by
  decide

/-- A call `f_write(fd, str, n)` with `n >= 0` by the writer on a descriptor bound to
the open file `fe`, whose directory entry `e` has the size `e.size` and in which the
caller has the offset `fp.ptr`: when the call has a defined result, the write stays
inside the current size, the call returns `n` and the offset advances by `n`. -/
theorem f_write_returns (k k1 : Kernel) (pcb : PCB) (fe : file_t) (loc : point_t)
    (e : dir_entry_t) (fp : fileptr_t) (fd n r : Int) (str : List Nat) (now : Nat)
    (hcur : cur_pcb k = some pcb)
    (hslot : fd_get pcb fd = some fe.file_id)
    (hid : 0 ≤ fe.file_id)
    (hent : find_file_entry_by_file_id k.open_files fe.file_id = some fe)
    (hwr : fe.wr_pid = pcb.pid)
    (hdir : find_file k.img ROOTDIR fe.filename = some (some (loc, e)))
    (hoff : get_fileptr fe.fileptr_head pcb.pid = some fp)
    (hn : 0 ≤ n)
    (hok : f_write k fd str n now = some (k1, r)) :
    fp.ptr + n ≤ e.size ∧ r = n ∧ offset_of k1 fe.file_id pcb.pid = some (fp.ptr + n) := by
  have hfe := find_file_entry_eq k pcb fe fd hcur hslot hent
  have h1 : ¬ (fe.file_id = STDOUT_ID ∨ fe.file_id = STDERR_ID) := by
    unfold STDOUT_ID STDERR_ID; omega
  have h2 : ¬ (fe.file_id = STDIN_ID) := by unfold STDIN_ID; omega
  simp only [f_write, hcur, hslot, h1, h2, hfe, hwr, hdir, hoff, Option.bind_eq_bind,
    Option.some_bind, if_false, ne_eq, not_true_eq_false] at hok
  cases hsum : int_chk (fp.ptr + n) with
  | none => simp [hsum] at hok
  | some sum =>
    obtain ⟨hsumeq, hlo, hhi⟩ := int_chk_some _ _ hsum
    subst hsumeq
    simp only [hsum, Option.some_bind] at hok
    by_cases hg : to_u32 (fp.ptr + n) > e.size
    · -- the branch that extends the file
      simp only [hg, decide_True, if_true] at hok
      cases hb : int_chk (n + 1) with
      | none => simp [hb] at hok
      | some btw =>
        obtain ⟨hbeq, _, _⟩ := int_chk_some _ _ hb
        subst hbeq
        simp only [hb, Option.some_bind] at hok
        split at hok
        · cases hok
        · rename_i hneg
          have hs0 : 0 ≤ fp.ptr + n := by omega
          have hgt := (to_u32_gt_iff _ e.size hs0 hhi).1 hg
          cases hrd : read_chain k.img e.firstBlock e.size with
          | none => simp [hrd] at hok
          | some bytes =>
            simp only [hrd, Option.some_bind] at hok
            split at hok
            · cases hok
            · rename_i hfit
              exfalso
              apply hfit
              right; right
              omega
    · -- the branch that keeps the size
      simp only [hg, decide_False, if_false, Bool.false_eq_true] at hok
      split at hok
      · cases hok
      · rename_i hneg
        have hs0 : 0 ≤ fp.ptr + n := by omega
        have hle : ¬ (fp.ptr + n > (e.size : Int)) := fun hc =>
          hg ((to_u32_gt_iff _ e.size hs0 hhi).2 hc)
        cases hrd : read_chain k.img e.firstBlock e.size with
        | none => simp [hrd] at hok
        | some bytes =>
          simp only [hrd, Option.some_bind] at hok
          split at hok
          · cases hok
          · cases hcat : fs_cat k.img 0 1
              (terminate_at (splice ((u32_to_int e.size).toNat + 1) bytes fp.ptr.toNat
                (List.take n.toNat str)) (fp.ptr.toNat + n.toNat)) []
              fe.filename now with
            | none => simp [hcat] at hok
            | some res =>
              simp only [hcat, Option.some_bind, hsum] at hok
              injection hok with hok
              injection hok with hk hr
              subst hk; subst hr
              exact ⟨by omega, rfl, offset_of_store_ptr { k with img := res.1 } fe.file_id pcb.pid
                (fp.ptr + n) fe fp hent hoff⟩

/-- Example of a write inside the file: on the example kernel process 1 writes one
byte at offset 0 of the two-byte file `foo`. -/
theorem f_write_returns_witness :
    ∃ (k1 : Kernel) (r : Int), f_write (example_kernel 1 0 6) 3 [88, 0] 1 9 = some (k1, r) ∧
      r = 1 ∧ offset_of k1 0 1 = some 1 := by
  have hs : (f_write (example_kernel 1 0 6) 3 [88, 0] 1 9).isSome = true := by decide
  obtain ⟨⟨k1, r⟩, h⟩ := Option.isSome_iff_exists.mp hs
  exact ⟨k1, r, h,
    (f_write_returns (example_kernel 1 0 6) k1 (example_pcb 1 [0])
      { filename := foo, file_id := 0, wr_pid := 1, fileptr_head := [{ pid := 1, ptr := 0 }] }
      { first := 1, second := 0 } (example_entry 6) { pid := 1, ptr := 0 } 3 1 r [88, 0] 9
      (by decide) (by decide) (by decide) (by decide) (by decide) (by decide) (by decide)
      (by decide) h).2⟩

/-! ## Claims C3, C4, C6, C8: the code evaluated at failing inputs -/

/-- Claim C3 at a failing input: on the example kernel process 1, the writer of the
two-byte file `foo` (content `hi`), writes the single byte `X` at offset 0, which
does not extend the file. The claim requires the size to stay 2 and the byte at
position 1 to stay `i`; the code stores a terminator after the written byte and
`fs_cat` takes the buffer as a C string, so the file has size 1 and content `X`. -/
theorem f_write_inside_truncates :
    file_content (example_kernel 1 0 6).img foo = some (2, [104, 105]) ∧
    (f_write (example_kernel 1 0 6) 3 [88, 0] 1 9).map
        (fun r => (r.2, file_content r.1.img foo)) = some (1, some (1, [88])) := by
  decide

/-- Claim C4 at a failing input: the file `foo` has size 2 and the offset of process 1
is 3, past the end (a write inside a file cuts it short and leaves the offset of a
reader past the end). `f_read` of one
byte returns `-1`, copies nothing and moves the offset to 2; the claim requires the
value 0 and never a negative value. -/
theorem f_read_past_end :
    file_content (example_kernel 1 3 6).img foo = some (2, [104, 105]) ∧
    offset_of (example_kernel 1 3 6) 0 1 = some 3 ∧
    (f_read (example_kernel 1 3 6) 3 1).map (fun r => (r.2.1, r.2.2, offset_of r.1 0 1))
      = some (-1, [], some 2) := by
  decide

/-- Claim C6 at a failing input: `foo` has no live directory entry (its entry is marked
deleted while in use) but is still in the open-files table because process 1 holds it.
`f_open(foo, F_READ)` by process 2 takes the branch for files in use, which does not
test the result of `find_file` and reads the permission byte of the uninitialised
`dir_entry`: the call has no defined result, where the claim requires `-1` with
`ERR_F_OPEN_CREATE_READ` and an unchanged state. -/
theorem f_open_read_pinned_entry :
    find_file (example_kernel_pinned 2).img ROOTDIR foo = some none ∧
    (find_file_entry_by_filename (example_kernel_pinned 2).open_files foo).isSome = true ∧
    (f_open (example_kernel_pinned 2) foo F_READ 9).isNone = true := by
  decide

/-- The part of claim C6 that the code satisfies: for a name that has no live directory
entry and no entry in the open-files table, `f_open(name, F_READ)` returns `-1`, sets
`ERRNO` to `ERR_F_OPEN_CREATE_READ` and changes nothing else. -/
theorem f_open_read_missing (k : Kernel) (fname : List Nat) (now : Nat)
    (hdir : find_file k.img ROOTDIR fname = some none)
    (hent : find_file_entry_by_filename k.open_files fname = none) :
    f_open k fname F_READ now = some ({ k with ERRNO := ERR_F_OPEN_CREATE_READ }, -1) := by
  simp [f_open, hdir, hent]

/-- Claim C8 at a failing input: the file `foo` exists with the permission bits `4`
(read only) and is not in the open-files table. `f_open(foo, F_WRITE)` by process 1
does not test the permission bits in that branch: it returns descriptor 3 with
`ERRNO` unchanged and makes process 1 the writer, where the claim requires `-1` with
`ERR_F_OPEN_INVALID_PERMS` and an unchanged state. -/
theorem f_open_write_read_only :
    (find_file (example_kernel_closed 1 4).img ROOTDIR foo).map (fun r => r.map (fun x => x.2.perm))
      = some (some 4) ∧
    valid_perm 4 F_WRITE = false ∧
    (f_open (example_kernel_closed 1 4) foo F_WRITE 9).map
        (fun r => (r.2, r.1.ERRNO, r.1.open_files, (cur_pcb r.1).map (fun p => p.fileDescriptors.take 5)))
      = some (3, ERR_NONE,
          [{ filename := foo, file_id := 0, wr_pid := 1, fileptr_head := [{ pid := 1, ptr := 0 }] }],
          some [STDIN_ID, STDOUT_ID, STDERR_ID, 0, NOFILE]) := by
  decide

/-- The part of claim C8 that the code satisfies: for a file that is in the open-files
table and whose directory entry does not permit the mode, `f_open` returns `-1`, sets
`ERRNO` to `ERR_F_OPEN_INVALID_PERMS` and changes nothing else. -/
theorem f_open_denied_in_use (k : Kernel) (fe : file_t) (loc : point_t) (e : dir_entry_t)
    (fname : List Nat) (mode : Int) (now : Nat)
    (hdir : find_file k.img ROOTDIR fname = some (some (loc, e)))
    (hent : find_file_entry_by_filename k.open_files fname = some fe)
    (hperm : valid_perm e.perm mode = false) :
    f_open k fname mode now = some ({ k with ERRNO := ERR_F_OPEN_INVALID_PERMS }, -1) := by
  simp [f_open, hdir, hent, hperm]

/-! ## Claim C7: single-writer contention -/

/-- Claim C7: process B (the current process) opens a file whose open-files entry `fe`
has another process A as its writer (`fe.wr_pid` is neither B nor the sentinel `-1`).
The file has a live directory entry whose bits allow reading and writing, the table
of B has an unused slot, and B has an offset for the file if it already has a
descriptor for it. Then `f_open(f, F_WRITE)` returns `-1`, sets `ERRNO` to
`ERR_F_OPEN_WRITE_INUSE` and changes nothing else; and `f_open(f, F_READ)` returns the
least unused descriptor `fd >= 3` of B, binds that slot of B to the file, gives B the
offset 0, keeps the offsets of the other processes and keeps A as the writer. -/
theorem f_open_single_writer (k : Kernel) (pcb : PCB) (fe : file_t) (loc : point_t)
    (e : dir_entry_t) (fname : List Nat) (now : Nat)
    (hcur : cur_pcb k = some pcb)
    (hent : find_file_entry_by_filename k.open_files fname = some fe)
    (hA : fe.wr_pid ≠ pcb.pid) (hA1 : fe.wr_pid ≠ -1)
    (hdir : find_file k.img ROOTDIR fname = some (some (loc, e)))
    (hperm : valid_perm e.perm F_WRITE = true)
    (hlen : pcb.fileDescriptors.length = MAX_FDS)
    (hfree : ∃ i, 3 ≤ i ∧ i < MAX_FDS ∧ pcb.fileDescriptors[i]? = some NOFILE)
    (hoff : is_duplicate_fd pcb fe.file_id = some true →
      (get_fileptr fe.fileptr_head pcb.pid).isSome = true) :
    f_open k fname F_WRITE now = some ({ k with ERRNO := ERR_F_OPEN_WRITE_INUSE }, -1) ∧
    ∃ (k1 : Kernel) (fd : Nat) (fe1 : file_t),
      f_open k fname F_READ now = some (k1, (fd : Int)) ∧
      3 ≤ fd ∧ fd < MAX_FDS ∧ pcb.fileDescriptors[fd]? = some NOFILE ∧
      (∀ j, 3 ≤ j → j < fd → pcb.fileDescriptors[j]? ≠ some NOFILE) ∧
      cur_pcb k1 = some { pcb with fileDescriptors := pcb.fileDescriptors.set fd fe.file_id } ∧
      find_file_entry_by_filename k1.open_files fname = some fe1 ∧
      fe1.file_id = fe.file_id ∧ fe1.wr_pid = fe.wr_pid ∧
      get_fileptr fe1.fileptr_head pcb.pid = some { pid := pcb.pid, ptr := 0 } ∧
      ∀ q, q ≠ pcb.pid → get_fileptr fe1.fileptr_head q = get_fileptr fe.fileptr_head q := by
  have hpermR : valid_perm e.perm F_READ = true := by
    simp only [valid_perm, F_CANWRITE, F_WRITE, F_READ, F_APPEND] at hperm ⊢
    simp at hperm ⊢
    exact hperm.2
  constructor
  · simp [f_open, hdir, hent, hperm, hcur, hA, hA1]
  · obtain ⟨fd, hfd, h3, hlt, hslot, hleast⟩ := find_unused_fd_least pcb hlen hfree
    obtain ⟨img1, htouch, _⟩ := fs_touch_found k.img fname loc e now hdir
    obtain ⟨dup, hdup, hdupiff⟩ := is_duplicate_fd_loop_spec pcb.fileDescriptors fe.file_id
      (MAX_FDS - 3) 3 (by rw [hlen]; decide)
    have hdup' : is_duplicate_fd pcb fe.file_id = some dup := hdup
    obtain ⟨hcp, hfind⟩ := cur_pcb_pid k pcb hcur
    have hset := fd_set_of_lt pcb fd fe.file_id hlen hlt
    have hRW : ¬ (F_READ = F_WRITE) := by decide
    have hRA : ¬ (F_READ = F_APPEND) := by decide
    cases dup with
    | true =>
      obtain ⟨fp, hfp⟩ := Option.isSome_iff_exists.mp (hoff hdup')
      have hfpid := get_fileptr_pid _ _ _ hfp
      have hopen : f_open k fname F_READ now = some
          (Kernel.mk
            (update_pcb (fun _ => PCB.mk pcb.parent_pid pcb.pid pcb.children
              (pcb.fileDescriptors.set fd fe.file_id) pcb.priority pcb.status) k.pcb_list pcb.pid)
            k.current_pcb k.next_pid
            (update_file_entry_by_filename
              (fun x => file_t.mk x.filename x.file_id fe.wr_pid
                (set_fileptr fe.fileptr_head pcb.pid 0)) k.open_files fname)
            k.next_file_id k.ERRNO img1, (fd : Int)) := by
        simp only [f_open, hdir, hent, hpermR, hcur, Option.bind_eq_bind, Option.some_bind,
          Bool.not_true, Bool.false_eq_true, if_false, hRW, false_and, htouch, hRA, if_true,
          hdup', hfp, hfd, hset, not_true_eq_false, and_false, and_true, not_false_eq_true,
          ne_eq]
      refine ⟨_, fd,
        file_t.mk fe.filename fe.file_id fe.wr_pid (set_fileptr fe.fileptr_head pcb.pid 0),
        hopen, h3, hlt, hslot, hleast, ?_, ?_, rfl, rfl, ?_, ?_⟩
      · simp only [cur_pcb, hcp, Option.bind_eq_bind, Option.some_bind]
        exact findPCBByPID_update _ _ _ _ hfind rfl
      · exact find_update_by_filename _ _ _ fe (fun _ => rfl) hent
      · simp only []
        rw [get_fileptr_set_fileptr _ _ _ fp hfp]
        cases fp
        simp only at hfpid
        subst hfpid
        rfl
      · intro q hq
        exact get_fileptr_set_fileptr_ne _ _ _ _ hq
    | false =>
      have hopen : f_open k fname F_READ now = some
          (Kernel.mk
            (update_pcb (fun _ => PCB.mk pcb.parent_pid pcb.pid pcb.children
              (pcb.fileDescriptors.set fd fe.file_id) pcb.priority pcb.status) k.pcb_list pcb.pid)
            k.current_pcb k.next_pid
            (update_file_entry_by_filename
              (fun x => file_t.mk x.filename x.file_id fe.wr_pid
                (create_fileptr fe.fileptr_head pcb.pid 0)) k.open_files fname)
            k.next_file_id k.ERRNO img1, (fd : Int)) := by
        simp only [f_open, hdir, hent, hpermR, hcur, Option.bind_eq_bind, Option.some_bind,
          Bool.not_true, Bool.false_eq_true, if_false, hRW, false_and, htouch, hRA, if_true,
          hdup', hfd, hset, not_true_eq_false, and_false, and_true, not_false_eq_true,
          ne_eq]
      refine ⟨_, fd,
        file_t.mk fe.filename fe.file_id fe.wr_pid (create_fileptr fe.fileptr_head pcb.pid 0),
        hopen, h3, hlt, hslot, hleast, ?_, ?_, rfl, rfl, ?_, ?_⟩
      · simp only [cur_pcb, hcp, Option.bind_eq_bind, Option.some_bind]
        exact findPCBByPID_update _ _ _ _ hfind rfl
      · exact find_update_by_filename _ _ _ fe (fun _ => rfl) hent
      · exact get_fileptr_create_fileptr _ _ _
      · intro q hq
        exact get_fileptr_create_fileptr_ne _ _ _ _ hq

/-- Witness of claim C7 on the example kernel: process 1 is the writer of `foo` and
process 2 opens it. -/
theorem f_open_single_writer_witness :
    f_open (example_kernel 2 0 6) foo F_WRITE 9
        = some ({ example_kernel 2 0 6 with ERRNO := ERR_F_OPEN_WRITE_INUSE }, -1) ∧
    ∃ (k1 : Kernel) (fd : Nat) (fe1 : file_t),
      f_open (example_kernel 2 0 6) foo F_READ 9 = some (k1, (fd : Int)) ∧
      3 ≤ fd ∧ fd < MAX_FDS ∧ (example_pcb 2 []).fileDescriptors[fd]? = some NOFILE ∧
      (∀ j, 3 ≤ j → j < fd → (example_pcb 2 []).fileDescriptors[j]? ≠ some NOFILE) ∧
      cur_pcb k1 = some { example_pcb 2 [] with
        fileDescriptors := (example_pcb 2 []).fileDescriptors.set fd 0 } ∧
      find_file_entry_by_filename k1.open_files foo = some fe1 ∧
      fe1.file_id = 0 ∧ fe1.wr_pid = 1 ∧
      get_fileptr fe1.fileptr_head 2 = some { pid := 2, ptr := 0 } ∧
      ∀ q, q ≠ (2 : Int) → get_fileptr fe1.fileptr_head q
        = get_fileptr [{ pid := 1, ptr := 0 }] q :=
  f_open_single_writer (example_kernel 2 0 6) (example_pcb 2 [])
    { filename := foo, file_id := 0, wr_pid := 1, fileptr_head := [{ pid := 1, ptr := 0 }] }
    { first := 1, second := 0 } (example_entry 6) foo 9
    (by decide) (by decide) (by decide) (by decide) (by decide) (by decide)
    (example_fds_length [] (by decide))
    ⟨3, by decide, by decide, by decide⟩
    (fun h => absurd ((is_duplicate_fd_false (example_pcb 2 []) 0
      (example_fds_length [] (by decide))
      (fun v hv => by
        rcases example_fds_mem [] v hv with h1 | h1
        · cases h1
        · rw [h1]; decide)).symm.trans h) (by decide))

/-! ## Claim C9: `f_open` with a full descriptor table -/

/-- When `find_unused_fd` returns `-1`, `f_open` on a file in use that passes the
tests of permission and of contention stores the `file_id` at index `-1` of the
descriptor table: the call has no defined result. -/
theorem f_open_no_slot (k : Kernel) (pcb : PCB) (fe : file_t) (loc : point_t)
    (e : dir_entry_t) (fname : List Nat) (mode : Int) (now : Nat)
    (hcur : cur_pcb k = some pcb)
    (hent : find_file_entry_by_filename k.open_files fname = some fe)
    (hdir : find_file k.img ROOTDIR fname = some (some (loc, e)))
    (hperm : valid_perm e.perm mode = true)
    (hnc : ¬ (mode = F_WRITE ∧ fe.wr_pid ≠ pcb.pid ∧ fe.wr_pid ≠ -1))
    (hfull : find_unused_fd pcb = some (-1)) :
    f_open k fname mode now = none := by
  have hmode : ¬ (mode ≠ F_WRITE ∧ mode ≠ F_READ ∧ mode ≠ F_APPEND) := by
    intro hm
    simp [valid_perm, hm.1, hm.2.1, hm.2.2] at hperm
  have hset : ∀ v, fd_set pcb (-1) v = none := by
    intro v; simp [fd_set]
  simp only [f_open, hdir, hent, hperm, hcur, Option.bind_eq_bind, Option.some_bind,
    Bool.not_true, Bool.false_eq_true, if_false, hnc, hmode]
  cases fs_touch k.img fname now with
  | none => rfl
  | some t =>
    simp only [Option.some_bind]
    cases is_duplicate_fd pcb fe.file_id with
    | none => rfl
    | some dup =>
      simp only [Option.some_bind]
      cases dup with
      | true =>
        simp only [if_true]
        cases get_fileptr fe.fileptr_head pcb.pid with
        | none => rfl
        | some fp => simp [hfull, hset]
      | false => simp [hfull, hset]

/-- Claim C9 at a failing input: every slot `3 .. MAX_FDS-1` of process 1 is in use
(bound to `foo`). `find_unused_fd` returns `-1` and `f_open(foo, F_READ)`, which does
not test that value, has already touched the directory entry when it stores the
`file_id` at index `-1` of the table: the call has no defined result, where the claim
requires it to fail and to leave the tables and the directory unchanged. -/
theorem f_open_full_table :
    (∀ v ∈ (example_pcb 1 (List.replicate (MAX_FDS - 3) 0)).fileDescriptors.drop 3, v ≠ NOFILE) ∧
    find_unused_fd (example_pcb 1 (List.replicate (MAX_FDS - 3) 0)) = some (-1) ∧
    f_open example_kernel_full foo F_READ 9 = none := by
  have hall : ∀ v ∈ (example_pcb 1 (List.replicate (MAX_FDS - 3) 0)).fileDescriptors.drop 3,
      v ≠ NOFILE := by
    intro v hv
    have hv2 : v ∈ (example_fds (List.replicate (MAX_FDS - 3) 0)).drop 3 := hv
    rcases example_fds_mem _ v hv2 with h | h
    · rw [List.eq_of_mem_replicate h]; decide
    · rw [example_fds_drop] at hv2
      simp only [List.length_replicate, Nat.sub_self, List.replicate_zero, List.append_nil] at hv2
      rw [List.eq_of_mem_replicate hv2]; decide
  have hfull := find_unused_fd_full (example_pcb 1 (List.replicate (MAX_FDS - 3) 0))
    (example_fds_length _ (by simp)) hall
  refine ⟨hall, hfull, ?_⟩
  exact f_open_no_slot example_kernel_full (example_pcb 1 (List.replicate (MAX_FDS - 3) 0))
    { filename := foo, file_id := 0, wr_pid := 1, fileptr_head := [{ pid := 1, ptr := 0 }] }
    { first := 1, second := 0 } (example_entry 6) foo F_READ 9
    rfl (by decide) (by decide) (by decide) (by decide) hfull

/-! ## The function `f_close` -/

/-- The shapes of a call of `f_close` that returns. -/
theorem f_close_cases (k k1 : Kernel) (fd r : Int) (h : f_close k fd = some (k1, r)) :
    (f_isatty fd = true ∧ k1 = { k with ERRNO := ERR_F_CLOSE_TERMINAL } ∧ r = -1) ∨
    (f_isatty fd = false ∧
      ∃ (file_id : Int) (fe : file_t) (pcb pcb1 : PCB) (dup : Bool) (ofs : List file_t),
        find_file_entry k fd = some (file_id, fe) ∧ cur_pcb k = some pcb ∧
        fd_set pcb fd NOFILE = some pcb1 ∧ is_duplicate_fd pcb1 file_id = some dup ∧
        k1 = { k with
               open_files := ofs
               pcb_list := update_pcb (fun _ => pcb1) k.pcb_list pcb.pid } ∧
        r = 0 ∧
        ((dup = true ∧ ofs = k.open_files) ∨
         (dup = true ∧ ofs = delete_file_entry k.open_files file_id) ∨
         (dup = false ∧ delete_fileptr fe.fileptr_head pcb.pid ≠ [] ∧
            ofs = update_file_entry
              (fun e => { e with fileptr_head := delete_fileptr e.fileptr_head pcb.pid })
              k.open_files file_id) ∨
         (dup = false ∧ delete_fileptr fe.fileptr_head pcb.pid = [] ∧
            ofs = delete_file_entry (update_file_entry
              (fun e => { e with fileptr_head := delete_fileptr e.fileptr_head pcb.pid })
              k.open_files file_id) file_id) ∨
         (dup = false ∧ delete_fileptr fe.fileptr_head pcb.pid = [] ∧
            ofs = delete_file_entry k.open_files file_id))) := by
  unfold f_close at h
  by_cases hty : f_isatty fd = true
  · left
    simp only [hty, if_true, Option.some.injEq, Prod.mk.injEq] at h
    exact ⟨hty, h.1.symm, h.2.symm⟩
  · right
    simp only [hty, if_false, Bool.false_eq_true] at h
    refine ⟨by simpa using hty, ?_⟩
    cases hf : find_file_entry k fd with
    | none => simp [hf] at h
    | some p =>
      obtain ⟨file_id, fe⟩ := p
      simp only [hf, Option.bind_eq_bind, Option.some_bind] at h
      cases hc : cur_pcb k with
      | none => simp [hc] at h
      | some pcb =>
        simp only [hc, Option.some_bind] at h
        cases hs : fd_set pcb fd NOFILE with
        | none => simp [hs] at h
        | some pcb1 =>
          simp only [hs, Option.some_bind] at h
          cases hd : is_duplicate_fd pcb1 file_id with
          | none => simp [hd] at h
          | some dup =>
            simp only [hd, Option.some_bind] at h
            cases dup with
            | true =>
              simp only [Bool.not_true, Bool.false_eq_true, if_false, Bool.false_and,
                false_and, not_false_eq_true] at h
              by_cases hnil : fe.fileptr_head = []
              · simp only [hnil, if_true, Option.some.injEq, Prod.mk.injEq] at h
                exact ⟨file_id, fe, pcb, pcb1, true, _, rfl, rfl, hs, hd, h.1.symm, h.2.symm,
                  Or.inr (Or.inl ⟨rfl, rfl⟩)⟩
              · simp only [hnil, if_false, Option.some.injEq, Prod.mk.injEq] at h
                exact ⟨file_id, fe, pcb, pcb1, true, _, rfl, rfl, hs, hd, h.1.symm, h.2.symm,
                  Or.inl ⟨rfl, rfl⟩⟩
            | false =>
              simp only [Bool.not_false, if_true, Bool.true_and, true_and] at h
              by_cases hnil : delete_fileptr fe.fileptr_head pcb.pid = []
              · simp only [hnil, ne_eq, not_true_eq_false, and_false, if_false, if_true,
                  Option.some.injEq, Prod.mk.injEq] at h
                split at h
                · exact ⟨file_id, fe, pcb, pcb1, false, _, rfl, rfl, hs, hd, h.1.symm,
                    h.2.symm, Or.inr (Or.inr (Or.inr (Or.inl ⟨rfl, hnil, rfl⟩)))⟩
                · exact ⟨file_id, fe, pcb, pcb1, false, _, rfl, rfl, hs, hd, h.1.symm,
                    h.2.symm, Or.inr (Or.inr (Or.inr (Or.inr ⟨rfl, hnil, rfl⟩)))⟩
              · simp only [hnil, ne_eq, not_false_eq_true, and_true, if_false] at h
                split at h
                · cases h
                · rename_i hh
                  simp only [hh, not_false_eq_true, if_true, Option.some.injEq,
                    Prod.mk.injEq] at h
                  exact ⟨file_id, fe, pcb, pcb1, false, _, rfl, rfl, hs, hd, h.1.symm,
                    h.2.symm, Or.inr (Or.inr (Or.inl ⟨rfl, hnil, rfl⟩))⟩

/-- The last descriptor of the caller for a file is closed and the offset of the
caller is not the head of the list: the offset is unlinked from the list of the
table and nothing else of the entry changes. -/
theorem f_close_not_head (k : Kernel) (fd : Int) (pcb pcb1 : PCB) (file_id : Int) (fe : file_t)
    (x : fileptr_t) (xs : List fileptr_t)
    (hfd : f_isatty fd = false)
    (hfind : find_file_entry k fd = some (file_id, fe))
    (hcur : cur_pcb k = some pcb)
    (hset : fd_set pcb fd NOFILE = some pcb1)
    (hdup : is_duplicate_fd pcb1 file_id = some false)
    (hhead : fe.fileptr_head = x :: xs) (hx : x.pid ≠ pcb.pid) :
    f_close k fd = some
      ({ k with
         open_files := update_file_entry
           (fun e => { e with fileptr_head := delete_fileptr e.fileptr_head pcb.pid })
           k.open_files file_id
         pcb_list := update_pcb (fun _ => pcb1) k.pcb_list pcb.pid }, 0) := by
  simp [f_close, hfd, hfind, hcur, hset, hdup, hhead, hx, delete_fileptr]

/-- The last descriptor of the caller for a file is closed and the offset of the
caller is the only one of the list: the entry leaves the table. -/
theorem f_close_only (k : Kernel) (fd : Int) (pcb pcb1 : PCB) (file_id : Int) (fe : file_t)
    (x : fileptr_t)
    (hfd : f_isatty fd = false)
    (hfind : find_file_entry k fd = some (file_id, fe))
    (hcur : cur_pcb k = some pcb)
    (hset : fd_set pcb fd NOFILE = some pcb1)
    (hdup : is_duplicate_fd pcb1 file_id = some false)
    (hhead : fe.fileptr_head = [x]) (hx : x.pid = pcb.pid) :
    f_close k fd = some
      ({ k with
         open_files := delete_file_entry k.open_files file_id
         pcb_list := update_pcb (fun _ => pcb1) k.pcb_list pcb.pid }, 0) := by
  simp [f_close, hfd, hfind, hcur, hset, hdup, hhead, hx, delete_fileptr]

/-- After the only descriptor in slot 3 is closed no slot from 3 on holds a file. -/
theorem is_duplicate_fd_example (pid id : Int) (h : id ≠ NOFILE) :
    is_duplicate_fd (example_pcb pid [NOFILE]) id = some false :=
  is_duplicate_fd_false (example_pcb pid [NOFILE]) id (example_fds_length _ (by decide))
    (fun v hv => by
      rcases example_fds_mem [NOFILE] v hv with h1 | h1
      · simp only [List.mem_singleton] at h1
        rw [h1]; exact fun h2 => h h2.symm
      · rw [h1]; exact fun h2 => h h2.symm)

/-- Closing slot 3 of the example table. -/
theorem fd_set_example (pid s : Int) :
    fd_set (example_pcb pid [s]) 3 NOFILE = some (example_pcb pid [NOFILE]) := by
  have h := fd_set_of_lt (example_pcb pid [s]) 3 NOFILE
    (example_fds_length _ (by simp only [List.length_singleton]; decide)) (by decide)
  rw [show ((3 : Nat) : Int) = 3 from rfl] at h
  rw [h]
  simp only [example_pcb, example_fds_set]

/-! ## Claims C11 to C15, C17, C20: the code evaluated at failing inputs -/

set_option synthInstance.maxSize 2000

/-- Claim C11 at a failing input: `foo` is shared, process 1 is its writer and holds it
through descriptor 3 only, and the offset of process 2 is the head of the list.
`f_close(3)` by process 1 returns 0, frees the slot and unlinks the offset of
process 1, but `wr_pid` of the entry of the table stays 1: the function clears the
writer in its local copy of the entry. The claim requires the writer slot to be `-1`. -/
theorem f_close_keeps_writer :
    (find_file_entry_by_file_id (example_kernel_shared 1).open_files 0).map
        (fun e => (e.wr_pid, e.fileptr_head))
      = some (1, [{ pid := 2, ptr := 0 }, { pid := 1, ptr := 0 }]) ∧
    (f_close (example_kernel_shared 1) 3).map
        (fun r => (r.2, r.1.open_files, (cur_pcb r.1).map (fun p => p.fileDescriptors.take 5)))
      = some (0,
          [{ filename := foo, file_id := 0, wr_pid := 1, fileptr_head := [{ pid := 2, ptr := 0 }] }],
          some [STDIN_ID, STDOUT_ID, STDERR_ID, NOFILE, NOFILE]) := by
  refine ⟨by decide, ?_⟩
  rw [f_close_not_head (example_kernel_shared 1) 3 (example_pcb 1 [0]) (example_pcb 1 [NOFILE]) 0
    { filename := foo, file_id := 0, wr_pid := 1,
      fileptr_head := [{ pid := 2, ptr := 0 }, { pid := 1, ptr := 0 }] }
    { pid := 2, ptr := 0 } [{ pid := 1, ptr := 0 }]
    (by decide) (by decide) (by decide) (fd_set_example 1 0)
    (is_duplicate_fd_example 1 0 (by decide)) rfl (by decide)]
  decide

/-- Claim C12 at a failing input: `foo` has a live directory entry and no process holds
it open. `f_unlink(foo)` looks the name up in the open-files table only: it returns
`-1` with `ERR_F_UNLINK_NOT_FOUND` and leaves the directory entry and the chain in
place, where the claim requires 0 and the removal of the file. -/
theorem f_unlink_not_open :
    file_content (example_kernel_closed 1 6).img foo = some (2, [104, 105]) ∧
    (example_kernel_closed 1 6).open_files = [] ∧
    (f_unlink (example_kernel_closed 1 6) foo 9).map
        (fun r => (r.2, r.1.ERRNO, file_content r.1.img foo, r.1.img.fat.take 3))
      = some (-1, ERR_F_UNLINK_NOT_FOUND, some (2, [104, 105]), [256, LASTBLOCK, LASTBLOCK]) := by
  decide

/-- Claim C13 at a failing input: process 1 holds `foo` open and process 2 calls
`f_unlink(foo)`, which returns 0, keeps the entry of the table and marks the
directory entry, so that the lookup of `foo` in the directory fails. The following
`f_open(foo, F_READ)` by process 2 finds `foo` in the table and reads the permission
byte of the uninitialised `dir_entry`: the call has no defined result, where the claim
requires `-1` with `ERR_F_OPEN_CREATE_READ`. -/
theorem f_open_after_unlink :
    (f_unlink (example_kernel 2 0 6) foo 8).map
        (fun r => (r.2, r.1.open_files, find_file r.1.img ROOTDIR foo))
      = some (0, (example_kernel 2 0 6).open_files, some none) ∧
    ((f_unlink (example_kernel 2 0 6) foo 8).bind (fun r => f_open r.1 foo F_READ 9)).isNone
      = true := by
  decide

/-- Claim C14 at a failing input: process 1 holds `foo` (content `hi`) open at offset 0
and process 2 calls `f_unlink(foo)`. The bytes stay in block 2, but `f_lseek` and
`f_read` look the directory entry up by the name of the table, which no entry
carries any more, and then use the size and the first block of the uninitialised
`dir_entry`: neither call of process 1 has a defined result, where the claim requires
`f_read` to return 2 and to deliver `hi`. -/
theorem f_read_after_unlink :
    file_content (example_kernel 2 0 6).img foo = some (2, [104, 105]) ∧
    (f_unlink (example_kernel 2 0 6) foo 8).map
        (fun r => (r.2, offset_of r.1 0 1, find_file r.1.img ROOTDIR foo,
          read_chain r.1.img 2 2))
      = some (0, some 0, some none, some [104, 105]) ∧
    ((f_unlink (example_kernel 2 0 6) foo 8).bind
        (fun r => f_lseek (run_as r.1 1) 3 0 F_SEEK_SET)).isNone = true ∧
    ((f_unlink (example_kernel 2 0 6) foo 8).bind
        (fun r => f_read (run_as r.1 1) 3 2)).isNone = true := by
  decide

/-- Claim C17 at two failing inputs on the kernel in which process 1 is the writer of
`foo` and process 2 reads it, both through descriptor 3. First, process 2 spawns a
child with `fd1 = 3`: the writer of `foo` becomes the child 3 although the parent
did not open the file for writing. Second, process 1 spawns a child with `fd0 = 3`
and `fd1 = 0`: slot 1 of the child is copied from slot 0 of the child after that slot
was overwritten, so that it holds the file of slot 3 of the parent and not the value
of slot 0 of the parent. -/
theorem p_spawn_redirection :
    (find_file_entry_by_file_id (example_kernel_shared 2).open_files 0).map file_t.wr_pid
      = some 1 ∧
    (p_spawn (example_kernel_shared 2) 0 3).map
        (fun r => (r.2, (findPCBByPID r.1.pcb_list 3).map (fun p => p.fileDescriptors.take 4),
          (find_file_entry_by_file_id r.1.open_files 0).map file_t.wr_pid))
      = some (3, some [STDIN_ID, 0, STDERR_ID, 0], some 3) ∧
    (findPCBByPID (example_kernel_shared 1).pcb_list 1).map (fun p => p.fileDescriptors.take 4)
      = some [STDIN_ID, STDOUT_ID, STDERR_ID, 0] ∧
    (p_spawn (example_kernel_shared 1) 3 0).map
        (fun r => (r.2, (findPCBByPID r.1.pcb_list 3).map (fun p => p.fileDescriptors.take 4)))
      = some (3, some [0, 0, STDERR_ID, 0]) := by
  decide

/-- Claim C20 at a failing input: process 2 is in the registry and 999 is none of the
four signals. `k_process_kill` returns `-1` and changes nothing, but `p_kill` does
not look at that value: it returns 0 and leaves `ERRNO` unchanged, where the claim
requires `-1`. -/
theorem p_kill_unknown_signal :
    (k_process_kill (example_kernel_closed 1 6).pcb_list 2 999).map (fun r => r.2) = some (-1) ∧
    (p_kill (example_kernel_closed 1 6) 2 999).map
        (fun r => (r.2, r.1.ERRNO, r.1.pcb_list.map PCB.summary))
      = some (0, ERR_NONE, (example_kernel_closed 1 6).pcb_list.map PCB.summary) := by
  decide

/-! ## Claim C15: `f_close` and the image -/

/-- Claim C15 at a failing input: process 1 holds `foo` open, process 2 unlinks it (the
entry of the directory is marked deleted while in use), then process 1, the last
holder, closes descriptor 3. `f_close` returns 0 and the entry leaves the open-files
table, but the first byte of the name in the directory slot is still
`FILENAME_DEL_INUSE` and the FAT cell of the chain is still `LASTBLOCK`: nothing is
reclaimed. -/
theorem f_close_after_unlink_keeps_chain :
    ∃ k1 k2 : Kernel,
      f_unlink (example_kernel 2 0 6) foo 8 = some (k1, 0) ∧
      f_close (run_as k1 1) 3 = some (k2, 0) ∧
      k2.open_files = [] ∧
      seek_read k2.img 256 1 = some [FILENAME_DEL_INUSE] ∧
      k2.img.fat.take 3 = [256, LASTBLOCK, LASTBLOCK] := by
  have hu : (f_unlink (example_kernel 2 0 6) foo 8).map
      (fun r => (r.2, r.1.pcb_list, r.1.open_files, seek_read r.1.img 256 1, r.1.img.fat.take 3))
      = some (0, (example_kernel 2 0 6).pcb_list, (example_kernel 2 0 6).open_files,
          some [FILENAME_DEL_INUSE], [256, LASTBLOCK, LASTBLOCK]) := by
    decide
  cases h : f_unlink (example_kernel 2 0 6) foo 8 with
  | none => rw [h] at hu; cases hu
  | some res =>
    obtain ⟨k1, r⟩ := res
    rw [h] at hu
    simp only [Option.map_some', Option.some.injEq, Prod.mk.injEq] at hu
    obtain ⟨hr, hp, ho, hd, hf⟩ := hu
    subst hr
    have hcur : cur_pcb (run_as k1 1) = some (example_pcb 1 [0]) := by
      simp only [cur_pcb, run_as, hp]
      rfl
    have hfind : find_file_entry (run_as k1 1) 3 = some (0,
        { filename := foo, file_id := 0, wr_pid := 1, fileptr_head := [{ pid := 1, ptr := 0 }] }) := by
      simp only [find_file_entry, hcur, Option.bind_eq_bind, Option.some_bind]
      simp only [run_as, ho]
      rfl
    have hclose := f_close_only (run_as k1 1) 3 (example_pcb 1 [0]) (example_pcb 1 [NOFILE]) 0
      { filename := foo, file_id := 0, wr_pid := 1, fileptr_head := [{ pid := 1, ptr := 0 }] }
      { pid := 1, ptr := 0 } (by decide) hfind hcur (fd_set_example 1 0)
      (is_duplicate_fd_example 1 0 (by decide)) rfl rfl
    refine ⟨k1, _, rfl, hclose, ?_, hd, hf⟩
    simp only [run_as, ho]
    rfl

/-- Function `f_close` calls no function of the FAT layer: every call that returns
leaves the image and the two counters as they were. -/
theorem f_close_keeps_image (k k1 : Kernel) (fd r : Int) (h : f_close k fd = some (k1, r)) :
    k1.img = k.img ∧ k1.next_file_id = k.next_file_id ∧ k1.next_pid = k.next_pid := by
  rcases f_close_cases k k1 fd r h with ⟨_, hk, _⟩ | ⟨_, _, _, _, _, _, _, _, _, _, _, hk, _⟩
  · rw [hk]; exact ⟨rfl, rfl, rfl⟩
  · rw [hk]; exact ⟨rfl, rfl, rfl⟩

/-- Example: the last holder of the file `foo`, whose directory entry is marked deleted
while in use, closes its descriptor; the image is as before. -/
theorem f_close_keeps_image_witness :
    ∃ k1 : Kernel, f_close (example_kernel_pinned 1) 3 = some (k1, 0) ∧
      k1.open_files = [] ∧ k1.img = example_image_pinned := by
  have hclose := f_close_only (example_kernel_pinned 1) 3 (example_pcb 1 [0])
    (example_pcb 1 [NOFILE]) 0
    { filename := foo, file_id := 0, wr_pid := 1, fileptr_head := [{ pid := 1, ptr := 0 }] }
    { pid := 1, ptr := 0 } (by decide) (by decide) (by decide) (fd_set_example 1 0)
    (is_duplicate_fd_example 1 0 (by decide)) rfl rfl
  exact ⟨_, hclose, rfl, (f_close_keeps_image _ _ 3 0 hclose).1⟩

/-! ## The registry under `update_pcb`, `unlink_pcb` and `orphan_children` -/

/-- Lookup after an update that keeps the PID. -/
theorem findPCBByPID_update_pcb (f : PCB → PCB) (hf : ∀ p, (f p).pid = p.pid) (l : List PCB)
    (p q : Int) :
    findPCBByPID (update_pcb f l p) q
      = if q = p then (findPCBByPID l p).map f else findPCBByPID l q := by
  induction l with
  | nil => simp [update_pcb, findPCBByPID]
  | cons x xs ih =>
    simp only [update_pcb, findPCBByPID]
    by_cases hx : x.pid = p
    · by_cases hq : q = p
      · subst hq
        simp [findPCBByPID, hx, hf]
      · have hxq : ¬ x.pid = q := fun h => hq (h.symm.trans hx)
        simp only [hx, if_true, findPCBByPID, hf, hq, if_false]
        rw [if_neg (fun h => hq h.symm)]
        rw [if_neg (by rw [← hx]; exact hxq)]
    · by_cases hq : q = p
      · subst hq
        simp only [hx, if_false, findPCBByPID, if_true] at ih ⊢
        exact ih
      · by_cases hxq : x.pid = q
        · simp only [hx, if_false, findPCBByPID, hxq, if_true, hq]
        · simp only [hx, if_false, findPCBByPID, hxq, hq] at ih ⊢
          exact ih

/-- Lookup of another PID after a removal. -/
theorem findPCBByPID_unlink_ne (l : List PCB) (p q : Int) (h : q ≠ p) :
    findPCBByPID (unlink_pcb l p) q = findPCBByPID l q := by
  induction l with
  | nil => rfl
  | cons x xs ih =>
    simp only [unlink_pcb, findPCBByPID]
    by_cases hx : x.pid = p
    · have hxq : ¬ x.pid = q := fun h1 => h (h1.symm.trans hx)
      rw [if_pos hx, if_neg hxq]
    · rw [if_neg hx]
      simp only [findPCBByPID]
      by_cases hxq : x.pid = q
      · rw [if_pos hxq, if_pos hxq]
      · rw [if_neg hxq, if_neg hxq]
        exact ih

/-- A PID that the lookup does not find is the PID of no PCB of the list. -/
theorem findPCBByPID_none (l : List PCB) (p : Int) :
    findPCBByPID l p = none ↔ p ∉ l.map PCB.pid := by
  induction l with
  | nil => simp [findPCBByPID]
  | cons x xs ih =>
    by_cases hx : x.pid = p
    · simp [findPCBByPID, hx]
    · have hx2 : ¬ p = x.pid := fun h => hx h.symm
      simp only [findPCBByPID, hx, if_false, List.map_cons, List.mem_cons, hx2, false_or]
      exact ih

/-- The PCB that the lookup finds is in the list. -/
theorem findPCBByPID_mem (l : List PCB) (p : Int) (pcb : PCB)
    (h : findPCBByPID l p = some pcb) : pcb ∈ l := by
  induction l with
  | nil => cases h
  | cons x xs ih =>
    by_cases hx : x.pid = p
    · simp only [findPCBByPID, hx, if_true, Option.some.injEq] at h
      rw [h]; exact List.mem_cons_self _ _
    · simp only [findPCBByPID, hx, if_false] at h
      exact List.mem_cons_of_mem _ (ih h)

/-- In a list with distinct PIDs the lookup finds every PCB of the list. -/
theorem findPCBByPID_of_mem (l : List PCB) (pcb : PCB) (hn : (l.map PCB.pid).Nodup)
    (h : pcb ∈ l) : findPCBByPID l pcb.pid = some pcb := by
  induction l with
  | nil => cases h
  | cons x xs ih =>
    simp only [List.map_cons, List.nodup_cons] at hn
    rcases List.mem_cons.mp h with h1 | h1
    · subst h1; simp [findPCBByPID]
    · have hx : ¬ x.pid = pcb.pid := fun hx => hn.1 (hx ▸ List.mem_map_of_mem PCB.pid h1)
      simp only [findPCBByPID, hx, if_false]
      exact ih hn.2 h1

/-- In a list with distinct PIDs the removed PID is not found any more. -/
theorem findPCBByPID_unlink_self (l : List PCB) (p : Int) (hn : (l.map PCB.pid).Nodup) :
    findPCBByPID (unlink_pcb l p) p = none := by
  induction l with
  | nil => rfl
  | cons x xs ih =>
    simp only [List.map_cons, List.nodup_cons] at hn
    by_cases hx : x.pid = p
    · simp only [unlink_pcb, hx, if_true]
      rw [findPCBByPID_none]
      rw [← hx]; exact hn.1
    · simp only [unlink_pcb, findPCBByPID, hx, if_false]
      exact ih hn.2

/-- The loop that orphans the children: it ends when every child is in the list, and
then the PCBs of the children have the parent `-1` and no other PCB has changed. -/
theorem orphan_children_spec (cs : List Int) :
    ∀ (l : List PCB), (∀ c ∈ cs, (findPCBByPID l c).isSome = true) →
      ∃ l2, orphan_children cs l = some l2 ∧
        ∀ q, findPCBByPID l2 q
          = if q ∈ cs then (findPCBByPID l q).map (fun p => { p with parent_pid := -1 })
            else findPCBByPID l q := by
  induction cs with
  | nil => intro l _; exact ⟨l, rfl, fun q => by simp⟩
  | cons c cs ih =>
    intro l hall
    have hc := hall c (List.mem_cons_self _ _)
    obtain ⟨pc, hpc⟩ := Option.isSome_iff_exists.mp hc
    have hupd : ∀ q, findPCBByPID (update_pcb (fun p => { p with parent_pid := -1 }) l c) q
        = if q = c then (findPCBByPID l c).map (fun p => { p with parent_pid := -1 })
          else findPCBByPID l q :=
      fun q => findPCBByPID_update_pcb (fun p => { p with parent_pid := -1 }) (fun _ => rfl) l c q
    have hall2 : ∀ c2 ∈ cs,
        (findPCBByPID (update_pcb (fun p => { p with parent_pid := -1 }) l c) c2).isSome = true := by
      intro c2 hc2
      rw [hupd]
      by_cases h : c2 = c
      · simp [h, hpc]
      · simp only [h, if_false]
        exact hall c2 (List.mem_cons_of_mem _ hc2)
    obtain ⟨l2, hl2, hspec⟩ := ih _ hall2
    refine ⟨l2, ?_, ?_⟩
    · simp only [orphan_children, hpc, Option.bind_eq_bind, Option.some_bind]
      exact hl2
    · intro q
      rw [hspec q, hupd q]
      by_cases hq : q = c
      · subst hq
        by_cases hqc : q ∈ cs
        · simp [hqc, hpc]
        · simp [hqc]
      · by_cases hqc : q ∈ cs
        · simp [hqc, hq]
        · simp [hqc, hq]

/-- The loop of `removePCBFromList` over the children of the parent: when `pid` is
a child, the index found is the index of a child equal to `pid`. -/
theorem child_index_spec (children : List Int) (pid : Int) (h : pid ∈ children) :
    0 ≤ child_index children pid ∧ (child_index children pid).toNat < children.length ∧
      children[(child_index children pid).toNat]? = some pid := by
  have key : ∀ n, n ≤ children.length →
      ((List.range n).foldl
          (fun index i => if children.getD i 0 = pid then (i : Int) else index) (-1) = -1 ∧
        ∀ j, j < n → children[j]? ≠ some pid) ∨
      (∃ m : Nat, (List.range n).foldl
          (fun index i => if children.getD i 0 = pid then (i : Int) else index) (-1) = (m : Int) ∧
        m < n ∧ children[m]? = some pid) := by
    intro n
    induction n with
    | zero => intro _; left; exact ⟨rfl, fun j hj => absurd hj (Nat.not_lt_zero _)⟩
    | succ n ih =>
      intro hn
      have hlt : n < children.length := hn
      rw [List.range_succ, List.foldl_append]
      simp only [List.foldl_cons, List.foldl_nil]
      have hget : children[n]? = some (children.getD n 0) := by
        rw [List.getD_eq_getElem?_getD, List.getElem?_eq_getElem hlt]; rfl
      by_cases hc : children.getD n 0 = pid
      · right
        refine ⟨n, by rw [if_pos hc], Nat.lt_succ_self _, by rw [hget, hc]⟩
      · simp only [hc, if_false]
        rcases ih (Nat.le_of_lt hlt) with ⟨h1, h2⟩ | ⟨m, h1, h2, h3⟩
        · left
          refine ⟨h1, fun j hj => ?_⟩
          rcases Nat.lt_succ_iff_lt_or_eq.mp hj with hj1 | hj1
          · exact h2 j hj1
          · rw [hj1, hget]; intro hh; exact hc (Option.some.inj hh)
        · right
          exact ⟨m, h1, Nat.lt_succ_of_lt h2, h3⟩
  rcases key children.length (Nat.le_refl _) with ⟨_, h2⟩ | ⟨m, h1, h2, h3⟩
  · exfalso
    obtain ⟨j, hj, hjeq⟩ := List.getElem_of_mem h
    exact h2 j hj (by rw [List.getElem?_eq_getElem hj, hjeq])
  · have he : child_index children pid = (m : Int) := h1
    rw [he]
    exact ⟨Int.ofNat_nonneg _, by simpa using h2, by simpa using h3⟩

/-- The array of children after `removePCBFromList` has overwritten the entry at
`idx` with the last child and decremented the count. -/
theorem children_remove_spec (children : List Int) (pid : Int) (idx : Nat)
    (hidx : children[idx]? = some pid) :
    ((children.set idx (children.getD (children.length - 1) 0)).take
        (children.length - 1)).length + 1 = children.length ∧
    (∀ c, c ∈ (children.set idx (children.getD (children.length - 1) 0)).take
        (children.length - 1) → c ∈ children) ∧
    (children.Nodup →
      pid ∉ (children.set idx (children.getD (children.length - 1) 0)).take
        (children.length - 1) ∧
      ∀ c ∈ children, c ≠ pid →
        c ∈ (children.set idx (children.getD (children.length - 1) 0)).take
          (children.length - 1)) := by
  obtain ⟨hlt, hval⟩ := List.getElem?_eq_some.mp hidx
  have hpos : 0 < children.length := Nat.lt_of_le_of_lt (Nat.zero_le _) hlt
  have hl1 : children.length - 1 < children.length := Nat.sub_lt hpos Nat.one_pos
  have hlast : children.getD (children.length - 1) 0 = children[children.length - 1] := by
    rw [List.getD_eq_getElem?_getD, List.getElem?_eq_getElem hl1]; rfl
  have hget : ∀ j, ((children.set idx (children.getD (children.length - 1) 0)).take
        (children.length - 1))[j]?
      = if j < children.length - 1 then
          (if idx = j then some (children[children.length - 1]) else children[j]?)
        else none := by
    intro j
    rw [List.getElem?_take, List.getElem?_set, hlast]
    simp only [hlt, if_true]
  refine ⟨?_, ?_, ?_⟩
  · rw [List.length_take, List.length_set]
    omega
  · intro c hc
    rcases List.mem_or_eq_of_mem_set (List.mem_of_mem_take hc) with h | h
    · exact h
    · rw [h, hlast]; exact List.getElem_mem _
  · intro hnd
    constructor
    · intro hmem
      obtain ⟨j, hj⟩ := List.mem_iff_getElem?.mp hmem
      rw [hget j] at hj
      by_cases hjl : j < children.length - 1
      · rw [if_pos hjl] at hj
        by_cases hij : idx = j
        · rw [if_pos hij] at hj
          have h1 : children[children.length - 1] = children[idx] := by
            rw [hval]; exact Option.some.inj hj
          have h2 := (hnd.getElem_inj_iff).mp h1
          omega
        · rw [if_neg hij] at hj
          obtain ⟨hjlt, hjv⟩ := List.getElem?_eq_some.mp hj
          have h1 : children[j] = children[idx] := by rw [hval, hjv]
          have h2 := (hnd.getElem_inj_iff).mp h1
          exact hij h2.symm
      · rw [if_neg hjl] at hj; cases hj
    · intro c hc hne
      obtain ⟨j, hjlt, hjv⟩ := List.mem_iff_getElem.mp hc
      have hji : idx ≠ j := by
        intro h
        subst h
        exact hne (hjv.symm.trans hval)
      rw [List.mem_iff_getElem?]
      by_cases hjl : j < children.length - 1
      · refine ⟨j, ?_⟩
        rw [hget j, if_pos hjl, if_neg hji, List.getElem?_eq_getElem hjlt, hjv]
      · have hje : j = children.length - 1 := by omega
        subst hje
        have hil : idx < children.length - 1 := by omega
        refine ⟨idx, ?_⟩
        rw [hget idx, if_pos hil, if_pos rfl, hjv]

/-- Function `removePCBFromList` on a zombie `z` whose parent `pcb` is another PCB of
the list: the call ends, and in the new list `z` is not found, the parent has lost
one child, the children of `z` have the parent `-1`, and the other PCBs are as before. -/
theorem removePCBFromList_zombie (l : List PCB) (pcb z : PCB)
    (hz : findPCBByPID l z.pid = some z) (hzs : z.status = T_ZOMBIED)
    (hp : findPCBByPID l pcb.pid = some pcb)
    (hnd : (l.map PCB.pid).Nodup)
    (hpar : z.parent_pid = pcb.pid) (hp0 : pcb.pid ≠ 0) (hne : pcb.pid ≠ z.pid)
    (hmem : z.pid ∈ pcb.children)
    (hch : ∀ c ∈ z.children, c ≠ z.pid ∧ c ≠ pcb.pid ∧ (findPCBByPID l c).isSome = true) :
    ∃ l1 cs, removePCBFromList l z.pid = some l1 ∧
      findPCBByPID l1 z.pid = none ∧
      findPCBByPID l1 pcb.pid = some { pcb with children := cs } ∧
      cs.length + 1 = pcb.children.length ∧
      (∀ c, c ∈ cs → c ∈ pcb.children) ∧
      (pcb.children.Nodup → z.pid ∉ cs ∧ ∀ c ∈ pcb.children, c ≠ z.pid → c ∈ cs) ∧
      (∀ c ∈ z.children, findPCBByPID l1 c
        = (findPCBByPID l c).map (fun p => { p with parent_pid := -1 })) ∧
      (∀ q, q ≠ z.pid → q ≠ pcb.pid → q ∉ z.children →
        findPCBByPID l1 q = findPCBByPID l q) := by
  have hp1 : findPCBByPID (unlink_pcb l z.pid) pcb.pid = some pcb := by
    rw [findPCBByPID_unlink_ne l z.pid pcb.pid hne]; exact hp
  have hne1 : unlink_pcb l z.pid ≠ [] := by
    intro h; rw [h] at hp1; cases hp1
  have hall : ∀ c ∈ z.children, (findPCBByPID (unlink_pcb l z.pid) c).isSome = true := by
    intro c hc
    rw [findPCBByPID_unlink_ne l z.pid c (hch c hc).1]
    exact (hch c hc).2.2
  obtain ⟨l2, hl2, hspec⟩ := orphan_children_spec z.children (unlink_pcb l z.pid) hall
  have hpz : pcb.pid ∉ z.children := fun h => (hch _ h).2.1 rfl
  have hzz : z.pid ∉ z.children := fun h => (hch _ h).1 rfl
  have hp2 : findPCBByPID l2 pcb.pid = some pcb := by
    rw [hspec, if_neg hpz]; exact hp1
  obtain ⟨hi0, hilt, hival⟩ := child_index_spec pcb.children z.pid hmem
  obtain ⟨hlen, hsub, hnodup⟩ := children_remove_spec pcb.children z.pid
    (child_index pcb.children z.pid).toNat hival
  have hupd := findPCBByPID_update_pcb
    (fun p : PCB => { p with
      children := (p.children.set (child_index pcb.children z.pid).toNat
        (pcb.children.getD (pcb.children.length - 1) 0)).take (p.children.length - 1) })
    (fun _ => rfl) l2 pcb.pid
  refine ⟨update_pcb
      (fun p : PCB => { p with
        children := (p.children.set (child_index pcb.children z.pid).toNat
          (pcb.children.getD (pcb.children.length - 1) 0)).take (p.children.length - 1) })
      l2 pcb.pid,
    (pcb.children.set (child_index pcb.children z.pid).toNat
      (pcb.children.getD (pcb.children.length - 1) 0)).take (pcb.children.length - 1),
    ?_, ?_, ?_, hlen, hsub, hnodup, ?_, ?_⟩
  · cases l with
    | nil => cases hz
    | cons x xs =>
      have hpar0 : z.parent_pid ≠ 0 := by rw [hpar]; exact hp0
      have hi : ¬ child_index pcb.children z.pid < 0 := not_lt.mpr hi0
      simp only [removePCBFromList, hz, Option.bind_eq_bind, Option.some_bind, hne1, if_false,
        hzs, if_true, hl2, hpar0, ne_eq, not_false_eq_true, hpar, hp2, hi]
      rw [if_pos hp0]
  · rw [hupd, if_neg (fun h => hne h.symm), hspec, if_neg hzz]
    exact findPCBByPID_unlink_self l z.pid hnd
  · rw [hupd, if_pos rfl, hp2]
    rfl
  · intro c hc
    rw [hupd, if_neg (hch c hc).2.1, hspec, if_pos hc,
      findPCBByPID_unlink_ne l z.pid c (hch c hc).1]
  · intro q hq1 hq2 hq3
    rw [hupd, if_neg hq2, hspec, if_neg hq3, findPCBByPID_unlink_ne l z.pid q hq1]

/-- Claim C19 at a failing input: process 1 has no children. The blocking
`p_waitpid(-1)` returns `-1` at once, but `ERRNO` is still `ERR_NONE` and the status
of the caller has become `T_WAITED`, where the claim requires the error code to
record the absence of children. -/
theorem p_waitpid_no_children_errno :
    (p_waitpid (example_kernel_closed 1 6) (-1) false).map
        (fun r => (r.2, r.1.ERRNO, r.1.pcb_list.map PCB.summary))
      = some (wait_result.returned (-1) none, ERR_NONE,
          [(1, 0, [], T_WAITED), (2, 0, [], T_RUNNING)]) := by
  decide

/-- The blocking `p_waitpid(-1)` of a caller without children, in general: the call
returns `-1` before it reaches `swapcontext`; it stores no status and does not
assign `ERRNO`, and the only change of the state is the status of the caller, which
is `T_WAITED`. -/
theorem p_waitpid_no_children (k : Kernel) (pcb : PCB) (hcur : cur_pcb k = some pcb)
    (hno : pcb.children = []) :
    ∃ k1, p_waitpid k (-1) false = some (k1, wait_result.returned (-1) none) ∧
      k1.ERRNO = k.ERRNO ∧ k1.open_files = k.open_files ∧ k1.img = k.img ∧
      findPCBByPID k1.pcb_list pcb.pid = some { pcb with status := T_WAITED } ∧
      ∀ q, q ≠ pcb.pid → findPCBByPID k1.pcb_list q = findPCBByPID k.pcb_list q := by
  have hupd := findPCBByPID_update_pcb (fun p : PCB => { p with status := T_WAITED })
    (fun _ => rfl) k.pcb_list pcb.pid
  refine ⟨{ k with
    pcb_list := update_pcb (fun p => { p with status := T_WAITED }) k.pcb_list pcb.pid },
    ?_, rfl, rfl, rfl, ?_, ?_⟩
  · simp [p_waitpid, hcur, hno]
  · rw [hupd, if_pos rfl, (cur_pcb_pid k pcb hcur).2]; rfl
  · intro q hq
    rw [hupd, if_neg hq]

/-- Example: process 1 of the example kernel has no children. -/
theorem p_waitpid_no_children_witness :
    ∃ k1, p_waitpid (example_kernel_closed 1 6) (-1) false
        = some (k1, wait_result.returned (-1) none) ∧
      k1.ERRNO = ERR_NONE ∧
      findPCBByPID k1.pcb_list 1 = some { example_pcb 1 [] with status := T_WAITED } := by
  obtain ⟨k1, h1, h2, _, _, h5, _⟩ :=
    p_waitpid_no_children (example_kernel_closed 1 6) (example_pcb 1 []) rfl rfl
  exact ⟨k1, h1, h2, h5⟩

/-! ## Lemmas on the lists of the open-files table and of the registry -/

theorem find_file_entry_by_file_id_mem (l : List file_t) (id : Int) (fe : file_t)
    (h : find_file_entry_by_file_id l id = some fe) : fe ∈ l ∧ fe.file_id = id := by
  induction l with
  | nil => cases h
  | cons x xs ih =>
    simp only [find_file_entry_by_file_id] at h
    by_cases hx : x.file_id = id
    · rw [if_pos hx] at h
      cases h
      exact ⟨List.mem_cons_self _ _, hx⟩
    · rw [if_neg hx] at h
      exact ⟨List.mem_cons_of_mem _ (ih h).1, (ih h).2⟩

theorem find_file_entry_by_filename_mem (l : List file_t) (name : List Nat) (fe : file_t)
    (h : find_file_entry_by_filename l name = some fe) : fe ∈ l := by
  induction l with
  | nil => cases h
  | cons x xs ih =>
    simp only [find_file_entry_by_filename] at h
    by_cases hx : x.filename = c_str name
    · rw [if_pos hx] at h
      cases h
      exact List.mem_cons_self _ _
    · rw [if_neg hx] at h
      exact List.mem_cons_of_mem _ (ih h)

theorem find_file_entry_by_file_id_none (l : List file_t) (id : Int) :
    find_file_entry_by_file_id l id = none ↔ id ∉ l.map file_t.file_id := by
  induction l with
  | nil => simp [find_file_entry_by_file_id]
  | cons x xs ih =>
    by_cases hx : x.file_id = id
    · simp [find_file_entry_by_file_id, hx]
    · have hx2 : ¬ id = x.file_id := fun h => hx h.symm
      simp only [find_file_entry_by_file_id, hx, if_false, List.map_cons, List.mem_cons, hx2,
        false_or]
      exact ih

/-- In a table with distinct identifiers the lookup finds every entry. -/
theorem find_file_entry_of_mem (l : List file_t) (e : file_t)
    (hn : (l.map file_t.file_id).Nodup) (he : e ∈ l) :
    find_file_entry_by_file_id l e.file_id = some e := by
  induction l with
  | nil => cases he
  | cons x xs ih =>
    simp only [List.map_cons, List.nodup_cons] at hn
    rcases List.mem_cons.mp he with h1 | h1
    · subst h1; simp [find_file_entry_by_file_id]
    · have hx : ¬ x.file_id = e.file_id :=
        fun hx => hn.1 (hx ▸ List.mem_map_of_mem file_t.file_id h1)
      simp only [find_file_entry_by_file_id, hx, if_false]
      exact ih hn.2 h1

/-- In a table with distinct identifiers the update through the pointer is the
update of every entry with that identifier. -/
theorem update_file_entry_eq_map (f : file_t → file_t) (l : List file_t) (id : Int)
    (hn : (l.map file_t.file_id).Nodup) :
    update_file_entry f l id = l.map (fun e => if e.file_id = id then f e else e) := by
  induction l with
  | nil => rfl
  | cons x xs ih =>
    simp only [List.map_cons, List.nodup_cons] at hn
    simp only [update_file_entry, List.map_cons]
    by_cases hx : x.file_id = id
    · rw [if_pos hx, if_pos hx]
      congr 1
      symm
      rw [← List.map_id xs]
      simp only [List.map_map]
      apply List.map_congr_left
      intro a ha
      have : ¬ a.file_id = id := fun h =>
        hn.1 (by rw [hx, ← h]; exact List.mem_map_of_mem file_t.file_id ha)
      simp [this]
    · rw [if_neg hx, if_neg hx, ih hn.2]

theorem update_file_entry_ids (f : file_t → file_t) (l : List file_t) (id : Int)
    (hf : ∀ fe, find_file_entry_by_file_id l id = some fe → (f fe).file_id = fe.file_id) :
    (update_file_entry f l id).map file_t.file_id = l.map file_t.file_id := by
  induction l with
  | nil => rfl
  | cons x xs ih =>
    simp only [update_file_entry]
    by_cases hx : x.file_id = id
    · rw [if_pos hx]
      simp only [List.map_cons]
      rw [hf x (by simp [find_file_entry_by_file_id, hx])]
    · rw [if_neg hx]
      simp only [List.map_cons]
      rw [ih (fun fe h => hf fe (by simp only [find_file_entry_by_file_id, hx, if_false]; exact h))]

theorem mem_update_file_entry (f : file_t → file_t) (l : List file_t) (id : Int) (e1 : file_t)
    (h : e1 ∈ update_file_entry f l id) :
    e1 ∈ l ∨ ∃ fe, find_file_entry_by_file_id l id = some fe ∧ e1 = f fe := by
  induction l with
  | nil => cases h
  | cons x xs ih =>
    simp only [update_file_entry] at h
    by_cases hx : x.file_id = id
    · rw [if_pos hx] at h
      rcases List.mem_cons.mp h with h1 | h1
      · right; exact ⟨x, by simp [find_file_entry_by_file_id, hx], h1⟩
      · left; exact List.mem_cons_of_mem _ h1
    · rw [if_neg hx] at h
      rcases List.mem_cons.mp h with h1 | h1
      · left; rw [h1]; exact List.mem_cons_self _ _
      · rcases ih h1 with h2 | ⟨fe, h2, h3⟩
        · left; exact List.mem_cons_of_mem _ h2
        · right
          exact ⟨fe, by simp only [find_file_entry_by_file_id, hx, if_false]; exact h2, h3⟩

theorem update_by_filename_ids (f : file_t → file_t) (l : List file_t) (name : List Nat)
    (hf : ∀ fe, find_file_entry_by_filename l name = some fe → (f fe).file_id = fe.file_id) :
    (update_file_entry_by_filename f l name).map file_t.file_id = l.map file_t.file_id := by
  induction l with
  | nil => rfl
  | cons x xs ih =>
    simp only [update_file_entry_by_filename]
    by_cases hx : x.filename = c_str name
    · rw [if_pos hx]
      simp only [List.map_cons]
      rw [hf x (by simp [find_file_entry_by_filename, hx])]
    · rw [if_neg hx]
      simp only [List.map_cons]
      rw [ih (fun fe h => hf fe
        (by simp only [find_file_entry_by_filename, hx, if_false]; exact h))]

theorem mem_update_by_filename (f : file_t → file_t) (l : List file_t) (name : List Nat)
    (e1 : file_t) (h : e1 ∈ update_file_entry_by_filename f l name) :
    e1 ∈ l ∨ ∃ fe, find_file_entry_by_filename l name = some fe ∧ e1 = f fe := by
  induction l with
  | nil => cases h
  | cons x xs ih =>
    simp only [update_file_entry_by_filename] at h
    by_cases hx : x.filename = c_str name
    · rw [if_pos hx] at h
      rcases List.mem_cons.mp h with h1 | h1
      · right; exact ⟨x, by simp [find_file_entry_by_filename, hx], h1⟩
      · left; exact List.mem_cons_of_mem _ h1
    · rw [if_neg hx] at h
      rcases List.mem_cons.mp h with h1 | h1
      · left; rw [h1]; exact List.mem_cons_self _ _
      · rcases ih h1 with h2 | ⟨fe, h2, h3⟩
        · left; exact List.mem_cons_of_mem _ h2
        · right
          exact ⟨fe, by simp only [find_file_entry_by_filename, hx, if_false]; exact h2, h3⟩

theorem delete_file_entry_sublist (l : List file_t) (id : Int) :
    (delete_file_entry l id).Sublist l := by
  induction l with
  | nil => exact List.Sublist.refl _
  | cons x xs ih =>
    simp only [delete_file_entry]
    by_cases hx : x.file_id = id
    · rw [if_pos hx]; exact List.sublist_cons_self _ _
    · rw [if_neg hx]; exact ih.cons₂ _

theorem delete_file_entry_not_mem (l : List file_t) (id : Int)
    (hn : (l.map file_t.file_id).Nodup) : ∀ e ∈ delete_file_entry l id, e.file_id ≠ id := by
  induction l with
  | nil => intro e he; cases he
  | cons x xs ih =>
    simp only [List.map_cons, List.nodup_cons] at hn
    intro e he
    simp only [delete_file_entry] at he
    by_cases hx : x.file_id = id
    · rw [if_pos hx] at he
      intro h
      exact hn.1 (by rw [hx, ← h]; exact List.mem_map_of_mem file_t.file_id he)
    · rw [if_neg hx] at he
      rcases List.mem_cons.mp he with h1 | h1
      · rw [h1]; exact hx
      · exact ih hn.2 e h1

theorem delete_fileptr_sublist (h : List fileptr_t) (pid : Int) :
    (delete_fileptr h pid).Sublist h := by
  induction h with
  | nil => exact List.Sublist.refl _
  | cons x xs ih =>
    simp only [delete_fileptr]
    by_cases hx : x.pid = pid
    · rw [if_pos hx]; exact List.sublist_cons_self _ _
    · rw [if_neg hx]; exact ih.cons₂ _

theorem delete_fileptr_not_mem (h : List fileptr_t) (pid : Int)
    (hn : (h.map fileptr_t.pid).Nodup) : ∀ fp ∈ delete_fileptr h pid, fp.pid ≠ pid := by
  induction h with
  | nil => intro e he; cases he
  | cons x xs ih =>
    simp only [List.map_cons, List.nodup_cons] at hn
    intro e he
    simp only [delete_fileptr] at he
    by_cases hx : x.pid = pid
    · rw [if_pos hx] at he
      intro h
      exact hn.1 (by rw [hx, ← h]; exact List.mem_map_of_mem fileptr_t.pid he)
    · rw [if_neg hx] at he
      rcases List.mem_cons.mp he with h1 | h1
      · rw [h1]; exact hx
      · exact ih hn.2 e h1

theorem set_fileptr_pids (h : List fileptr_t) (pid v : Int) :
    (set_fileptr h pid v).map fileptr_t.pid = h.map fileptr_t.pid := by
  induction h with
  | nil => rfl
  | cons x xs ih =>
    simp only [set_fileptr]
    by_cases hx : pid = x.pid
    · rw [if_pos hx]; rfl
    · rw [if_neg hx]; simp only [List.map_cons, ih]

theorem get_fileptr_mem (h : List fileptr_t) (pid : Int) (fp : fileptr_t)
    (hg : get_fileptr h pid = some fp) : fp ∈ h := by
  induction h with
  | nil => cases hg
  | cons x xs ih =>
    simp only [get_fileptr] at hg
    by_cases hx : pid = x.pid
    · rw [if_pos hx] at hg; cases hg; exact List.mem_cons_self _ _
    · rw [if_neg hx] at hg; exact List.mem_cons_of_mem _ (ih hg)

theorem get_fileptr_none (h : List fileptr_t) (pid : Int) :
    get_fileptr h pid = none ↔ pid ∉ h.map fileptr_t.pid := by
  induction h with
  | nil => simp [get_fileptr]
  | cons x xs ih =>
    by_cases hx : pid = x.pid
    · simp [get_fileptr, hx]
    · simp only [get_fileptr, hx, if_false, List.map_cons, List.mem_cons, false_or]
      exact ih

theorem update_pcb_pids (f : PCB → PCB) (l : List PCB) (pid : Int)
    (hf : ∀ p, findPCBByPID l pid = some p → (f p).pid = p.pid) :
    (update_pcb f l pid).map PCB.pid = l.map PCB.pid := by
  induction l with
  | nil => rfl
  | cons x xs ih =>
    simp only [update_pcb]
    by_cases hx : x.pid = pid
    · rw [if_pos hx]
      simp only [List.map_cons]
      rw [hf x (by simp [findPCBByPID, hx])]
    · rw [if_neg hx]
      simp only [List.map_cons]
      rw [ih (fun p h => hf p (by simp only [findPCBByPID, hx, if_false]; exact h))]

/-- In a registry with distinct PIDs, a PCB of the updated list is the updated PCB
or a PCB of the list with another PID. -/
theorem mem_update_pcb (f : PCB → PCB) (l : List PCB) (pid : Int) (p1 : PCB)
    (hn : (l.map PCB.pid).Nodup) (h : p1 ∈ update_pcb f l pid) :
    (p1 ∈ l ∧ p1.pid ≠ pid) ∨ ∃ p, findPCBByPID l pid = some p ∧ p1 = f p := by
  induction l with
  | nil => cases h
  | cons x xs ih =>
    simp only [List.map_cons, List.nodup_cons] at hn
    simp only [update_pcb] at h
    by_cases hx : x.pid = pid
    · rw [if_pos hx] at h
      rcases List.mem_cons.mp h with h1 | h1
      · right; exact ⟨x, by simp [findPCBByPID, hx], h1⟩
      · left
        refine ⟨List.mem_cons_of_mem _ h1, fun hp => hn.1 ?_⟩
        rw [hx, ← hp]; exact List.mem_map_of_mem PCB.pid h1
    · rw [if_neg hx] at h
      rcases List.mem_cons.mp h with h1 | h1
      · left; rw [h1]; exact ⟨List.mem_cons_self _ _, hx⟩
      · rcases ih hn.2 h1 with ⟨h2, h3⟩ | ⟨p, h2, h3⟩
        · left; exact ⟨List.mem_cons_of_mem _ h2, h3⟩
        · right
          exact ⟨p, by simp only [findPCBByPID, hx, if_false]; exact h2, h3⟩

theorem mem_update_pcb_weak (f : PCB → PCB) (l : List PCB) (pid : Int) (p1 : PCB)
    (h : p1 ∈ update_pcb f l pid) :
    p1 ∈ l ∨ ∃ p, p ∈ l ∧ p1 = f p := by
  induction l with
  | nil => cases h
  | cons x xs ih =>
    simp only [update_pcb] at h
    by_cases hx : x.pid = pid
    · rw [if_pos hx] at h
      rcases List.mem_cons.mp h with h1 | h1
      · right; exact ⟨x, List.mem_cons_self _ _, h1⟩
      · left; exact List.mem_cons_of_mem _ h1
    · rw [if_neg hx] at h
      rcases List.mem_cons.mp h with h1 | h1
      · left; rw [h1]; exact List.mem_cons_self _ _
      · rcases ih h1 with h2 | ⟨p, h2, h3⟩
        · left; exact List.mem_cons_of_mem _ h2
        · right; exact ⟨p, List.mem_cons_of_mem _ h2, h3⟩

theorem unlink_pcb_sublist (l : List PCB) (pid : Int) : (unlink_pcb l pid).Sublist l := by
  induction l with
  | nil => exact List.Sublist.refl _
  | cons x xs ih =>
    simp only [unlink_pcb]
    by_cases hx : x.pid = pid
    · rw [if_pos hx]; exact List.sublist_cons_self _ _
    · rw [if_neg hx]; exact ih.cons₂ _

/-- A value of the slots from `n` on is the value of a slot with an index `>= n`. -/
theorem getElem?_of_mem_drop (l : List Int) (n : Nat) (v : Int) (h : v ∈ l.drop n) :
    ∃ j, n ≤ j ∧ l[j]? = some v := by
  obtain ⟨i, hi⟩ := List.mem_iff_getElem?.mp h
  rw [List.getElem?_drop] at hi
  exact ⟨n + i, Nat.le_add_right _ _, hi⟩

/-- A value of the slots from 3 on stays when a slot that held another value is overwritten. -/
theorem mem_drop_set_of_ne (l : List Int) (j : Nat) (u v w : Int) (hj : l[j]? = some u)
    (huv : u ≠ v) (h : v ∈ l.drop 3) : v ∈ (l.set j w).drop 3 := by
  obtain ⟨i, hi3, hi⟩ := getElem?_of_mem_drop l 3 v h
  have hij : j ≠ i := by
    intro hh
    rw [hh, hi] at hj
    exact huv (Option.some.inj hj).symm
  exact mem_drop_of_getElem? _ 3 i v hi3 (by rw [List.getElem?_set_ne hij]; exact hi)

/-- The value stored in a slot with an index `>= 3` is a value of the slots from 3 on. -/
theorem mem_drop_set_self (l : List Int) (j : Nat) (w : Int) (h3 : 3 ≤ j) (hj : j < l.length) :
    w ∈ (l.set j w).drop 3 :=
  mem_drop_of_getElem? _ 3 j w h3 (by rw [List.getElem?_set_self hj])

/-- Result of `is_duplicate_fd` on a table of `MAX_FDS` slots. -/
theorem is_duplicate_fd_spec (pcb : PCB) (id : Int) (hlen : pcb.fileDescriptors.length = MAX_FDS) :
    ∃ b, is_duplicate_fd pcb id = some b ∧ (b = true ↔ id ∈ pcb.fileDescriptors.drop 3) := by
  obtain ⟨b, hb, hiff⟩ := is_duplicate_fd_loop_spec pcb.fileDescriptors id (MAX_FDS - 3) 3
    (by rw [hlen]; decide)
  refine ⟨b, hb, hiff.trans ⟨?_, ?_⟩⟩
  · rintro ⟨j, hj3, _, hj⟩
    exact mem_drop_of_getElem? _ 3 j id hj3 hj
  · intro h
    obtain ⟨j, hj3, hj⟩ := getElem?_of_mem_drop _ 3 id h
    have hlt : j < pcb.fileDescriptors.length := (List.getElem?_eq_some.mp hj).1
    refine ⟨j, hj3, ?_, hj⟩
    rw [hlen] at hlt
    have : (3 : Nat) + (MAX_FDS - 3) = MAX_FDS := by decide
    omega

/-- The descriptor that `find_unused_fd` returns and that `fd_set` accepts is the
index of a slot from 3 on that holds `NOFILE`. -/
theorem find_unused_fd_set (pcb pcb1 : PCB) (fd v : Int)
    (hf : find_unused_fd pcb = some fd) (hs : fd_set pcb fd v = some pcb1) :
    ∃ j : Nat, fd = (j : Int) ∧ 3 ≤ j ∧ j < pcb.fileDescriptors.length ∧
      pcb.fileDescriptors[j]? = some NOFILE ∧
      pcb1 = { pcb with fileDescriptors := pcb.fileDescriptors.set j v } := by
  rcases find_unused_fd_loop_spec pcb.fileDescriptors (MAX_FDS - 3) 3 fd hf with
    ⟨h1, _⟩ | ⟨j, h1, h2, _, h4, _⟩
  · rw [h1] at hs
    simp [fd_set] at hs
  · subst h1
    unfold fd_set at hs
    split at hs
    · rename_i hc
      simp only [Int.toNat_ofNat, Option.some.injEq] at hs
      exact ⟨j, rfl, h2, by simpa using hc.2.2, h4, hs.symm⟩
    · cases hs

/-! ## Operations that only remove offsets, entries or PCBs -/

theorem files_sub_refl (l : List file_t) : files_sub l l :=
  ⟨List.Sublist.refl _, fun e he => ⟨e, he, rfl, List.Sublist.refl _⟩⟩

theorem files_sub_trans (l1 l2 l3 : List file_t) (h12 : files_sub l1 l2)
    (h23 : files_sub l2 l3) : files_sub l1 l3 := by
  refine ⟨h12.1.trans h23.1, fun e1 he1 => ?_⟩
  obtain ⟨e2, he2, hid2, hs2⟩ := h12.2 e1 he1
  obtain ⟨e3, he3, hid3, hs3⟩ := h23.2 e2 he2
  exact ⟨e3, he3, hid2.trans hid3, hs2.trans hs3⟩

theorem files_sub_of_sublist (l1 l : List file_t) (h : l1.Sublist l) : files_sub l1 l :=
  ⟨h.map _, fun e he => ⟨e, h.subset he, rfl, List.Sublist.refl _⟩⟩

theorem files_sub_update (f : file_t → file_t) (l : List file_t) (id : Int)
    (hf : ∀ fe, find_file_entry_by_file_id l id = some fe →
      (f fe).file_id = fe.file_id ∧
      ((f fe).fileptr_head.map fileptr_t.pid).Sublist (fe.fileptr_head.map fileptr_t.pid)) :
    files_sub (update_file_entry f l id) l := by
  refine ⟨?_, fun e1 he1 => ?_⟩
  · rw [update_file_entry_ids f l id (fun fe h => (hf fe h).1)]
  · rcases mem_update_file_entry f l id e1 he1 with h | ⟨fe, hfe, he⟩
    · exact ⟨e1, h, rfl, List.Sublist.refl _⟩
    · rw [he]
      exact ⟨fe, (find_file_entry_by_file_id_mem l id fe hfe).1, (hf fe hfe).1, (hf fe hfe).2⟩

theorem files_sub_update_by_filename (f : file_t → file_t) (l : List file_t) (name : List Nat)
    (hf : ∀ fe, find_file_entry_by_filename l name = some fe →
      (f fe).file_id = fe.file_id ∧
      ((f fe).fileptr_head.map fileptr_t.pid).Sublist (fe.fileptr_head.map fileptr_t.pid)) :
    files_sub (update_file_entry_by_filename f l name) l := by
  refine ⟨?_, fun e1 he1 => ?_⟩
  · rw [update_by_filename_ids f l name (fun fe h => (hf fe h).1)]
  · rcases mem_update_by_filename f l name e1 he1 with h | ⟨fe, hfe, he⟩
    · exact ⟨e1, h, rfl, List.Sublist.refl _⟩
    · rw [he]
      exact ⟨fe, find_file_entry_by_filename_mem l name fe hfe, (hf fe hfe).1, (hf fe hfe).2⟩

theorem pcbs_sub_refl (l : List PCB) : pcbs_sub l l :=
  ⟨List.Sublist.refl _, fun p hp => ⟨p, hp, rfl, rfl⟩⟩

theorem pcbs_sub_trans (l1 l2 l3 : List PCB) (h12 : pcbs_sub l1 l2) (h23 : pcbs_sub l2 l3) :
    pcbs_sub l1 l3 := by
  refine ⟨h12.1.trans h23.1, fun p1 hp1 => ?_⟩
  obtain ⟨p2, hp2, hid2, hs2⟩ := h12.2 p1 hp1
  obtain ⟨p3, hp3, hid3, hs3⟩ := h23.2 p2 hp2
  exact ⟨p3, hp3, hid2.trans hid3, hs2.trans hs3⟩

theorem pcbs_sub_of_sublist (l1 l : List PCB) (h : l1.Sublist l) : pcbs_sub l1 l :=
  ⟨h.map _, fun p hp => ⟨p, h.subset hp, rfl, rfl⟩⟩

theorem pcbs_sub_update (f : PCB → PCB) (l : List PCB) (pid : Int)
    (hf : ∀ p, (f p).pid = p.pid ∧ (f p).fileDescriptors = p.fileDescriptors) :
    pcbs_sub (update_pcb f l pid) l := by
  refine ⟨?_, fun p1 hp1 => ?_⟩
  · rw [update_pcb_pids f l pid (fun p _ => (hf p).1)]
  · rcases mem_update_pcb_weak f l pid p1 hp1 with h | ⟨p, hp, he⟩
    · exact ⟨p1, h, rfl, rfl⟩
    · rw [he]; exact ⟨p, hp, (hf p).1, (hf p).2⟩

theorem pcbs_sub_orphan (cs : List Int) :
    ∀ (l l2 : List PCB), orphan_children cs l = some l2 → pcbs_sub l2 l := by
  induction cs with
  | nil =>
    intro l l2 h
    simp only [orphan_children, Option.some.injEq] at h
    rw [← h]; exact pcbs_sub_refl l
  | cons c cs ih =>
    intro l l2 h
    simp only [orphan_children, Option.bind_eq_bind] at h
    cases hc : findPCBByPID l c with
    | none => rw [hc] at h; cases h
    | some pc =>
      rw [hc] at h
      simp only [Option.some_bind] at h
      exact pcbs_sub_trans _ _ _ (ih _ _ h)
        (pcbs_sub_update (fun p => { p with parent_pid := -1 }) l c (fun _ => ⟨rfl, rfl⟩))

theorem pcbs_sub_remove (l l2 : List PCB) (pid : Int)
    (h : removePCBFromList l pid = some l2) : pcbs_sub l2 l := by
  cases l with
  | nil =>
    simp only [removePCBFromList, Option.some.injEq] at h
    rw [← h]; exact pcbs_sub_refl _
  | cons x xs =>
    simp only [removePCBFromList, Option.bind_eq_bind] at h
    cases hp : findPCBByPID (x :: xs) pid with
    | none => rw [hp] at h; cases h
    | some pcb =>
      rw [hp] at h
      simp only [Option.some_bind] at h
      have hun : pcbs_sub (unlink_pcb (x :: xs) pid) (x :: xs) :=
        pcbs_sub_of_sublist _ _ (unlink_pcb_sublist _ _)
      split at h
      · cases h; exact hun
      · split at h
        · cases ho : orphan_children pcb.children (unlink_pcb (x :: xs) pid) with
          | none => rw [ho] at h; cases h
          | some l3 =>
            rw [ho] at h
            simp only [Option.some_bind] at h
            have h3 : pcbs_sub l3 (x :: xs) :=
              pcbs_sub_trans _ _ _ (pcbs_sub_orphan _ _ _ ho) hun
            split at h
            · cases hq : findPCBByPID l3 pcb.parent_pid with
              | none => rw [hq] at h; cases h
              | some parent =>
                rw [hq] at h
                simp only [Option.some_bind] at h
                split at h
                · cases h
                · cases h
                  exact pcbs_sub_trans _ _ _
                    (pcbs_sub_update _ l3 pcb.parent_pid (fun _ => ⟨rfl, rfl⟩)) h3
            · cases h; exact h3
        · cases h; exact hun

theorem files_sub_delete_ptrs (pid : Int) (marked : List Int) (fids : List Nat) :
    ∀ (l l2 : List file_t), delete_file_ptrs pid marked fids l = some l2 → files_sub l2 l := by
  induction fids with
  | nil =>
    intro l l2 h
    simp only [delete_file_ptrs, Option.some.injEq] at h
    rw [← h]; exact files_sub_refl l
  | cons fid rest ih =>
    intro l l2 h
    simp only [delete_file_ptrs] at h
    split at h
    · simp only [Option.bind_eq_bind] at h
      cases hf : find_file_entry_by_file_id l fid with
      | none => rw [hf] at h; cases h
      | some fe =>
        rw [hf] at h
        simp only [Option.some_bind] at h
        refine files_sub_trans _ _ _ (ih _ _ h) (files_sub_update _ l fid (fun fe _ => ⟨rfl, ?_⟩))
        exact (delete_fileptr_sublist _ _).map _
    · exact ih _ _ h

theorem process_delete_fileptrs_sub (k k1 : Kernel) (pcb : PCB)
    (h : process_delete_fileptrs k pcb = some k1) :
    files_sub k1.open_files k.open_files ∧ k1.pcb_list = k.pcb_list ∧
      k1.next_pid = k.next_pid ∧ k1.next_file_id = k.next_file_id := by
  unfold process_delete_fileptrs at h
  split at h
  · cases h; exact ⟨files_sub_refl _, rfl, rfl, rfl⟩
  · simp only [Option.bind_eq_bind] at h
    cases hf : fds_from3 pcb with
    | none => rw [hf] at h; cases h
    | some fds =>
      rw [hf] at h
      simp only [Option.some_bind] at h
      cases hd : delete_file_ptrs pcb.pid fds (List.range k.next_file_id.toNat) k.open_files with
      | none => rw [hd] at h; cases h
      | some l2 =>
        rw [hd] at h
        simp only [Option.some_bind, Option.some.injEq] at h
        rw [← h]
        exact ⟨files_sub_delete_ptrs _ _ _ _ _ hd, rfl, rfl, rfl⟩

/-- The invariant holds in a state whose tables hold entries, offsets and PCBs of a
state with the invariant only, with the same counters. -/
theorem table_inv_of_sub (k k1 : Kernel) (h : table_inv k)
    (hf : files_sub k1.open_files k.open_files) (hp : pcbs_sub k1.pcb_list k.pcb_list)
    (hnp : k1.next_pid = k.next_pid) (hnf : k1.next_file_id = k.next_file_id) :
    table_inv k1 := by
  have hfp : ∀ e1 ∈ k1.open_files, ∀ fp1 ∈ e1.fileptr_head,
      ∃ e ∈ k.open_files, e1.file_id = e.file_id ∧ ∃ fp ∈ e.fileptr_head, fp.pid = fp1.pid := by
    intro e1 he1 fp1 hfp1
    obtain ⟨e, he, hid, hs⟩ := hf.2 e1 he1
    have := hs.subset (List.mem_map_of_mem fileptr_t.pid hfp1)
    obtain ⟨fp, hfp, hpid⟩ := List.mem_map.mp this
    exact ⟨e, he, hid, fp, hfp, hpid⟩
  refine ⟨?_, ?_, ?_, ?_, ?_, ?_, ?_, ?_, ?_⟩
  · intro e1 he1
    obtain ⟨e, he, _, hs⟩ := hf.2 e1 he1
    exact (h.uniq e he).sublist hs
  · intro e1 he1 fp1 hfp1 p1 hp1 hpid
    obtain ⟨e, he, hid, fp, hfp2, hfpid⟩ := hfp e1 he1 fp1 hfp1
    obtain ⟨p, hpm, hppid, hfds⟩ := hp.2 p1 hp1
    rw [hid, hfds]
    exact h.slot e he fp hfp2 p hpm (by rw [← hppid, hpid, hfpid])
  · intro e1 he1 fp1 hfp1
    obtain ⟨e, he, _, fp, hfp2, hfpid⟩ := hfp e1 he1 fp1 hfp1
    rw [hnp, ← hfpid]
    exact h.fp_lt e he fp hfp2
  · exact h.ids.sublist hf.1
  · intro e1 he1
    obtain ⟨e, he, hid, _⟩ := hf.2 e1 he1
    rw [hid, hnf]
    exact h.ids_lt e he
  · rw [hnf]; exact h.next_id
  · exact h.pids.sublist hp.1
  · intro p1 hp1
    obtain ⟨p, hpm, hppid, _⟩ := hp.2 p1 hp1
    rw [hppid, hnp]
    exact h.pids_lt p hpm
  · intro p1 hp1
    obtain ⟨p, hpm, _, hfds⟩ := hp.2 p1 hp1
    rw [hfds]
    exact h.fds_len p hpm

/-! ## The invariant under the operations on files -/

/-- The invariant depends on the two tables and the two counters only. -/
theorem table_inv_congr (k k1 : Kernel) (h : table_inv k)
    (hp : k1.pcb_list = k.pcb_list) (hf : k1.open_files = k.open_files)
    (hnp : k1.next_pid = k.next_pid) (hnf : k1.next_file_id = k.next_file_id) :
    table_inv k1 :=
  table_inv_of_sub k k1 h (by rw [hf]; exact files_sub_refl _) (by rw [hp]; exact pcbs_sub_refl _)
    hnp hnf

/-- The invariant when the descriptor table of one process changes and every offset
of that process still has a slot. -/
theorem table_inv_fd_update (k : Kernel) (pcb pcb1 : PCB) (h : table_inv k)
    (hfind : findPCBByPID k.pcb_list pcb.pid = some pcb) (hpid : pcb1.pid = pcb.pid)
    (hlen : pcb1.fileDescriptors.length = MAX_FDS)
    (H2 : ∀ e ∈ k.open_files, ∀ fp ∈ e.fileptr_head, fp.pid = pcb.pid →
      e.file_id ∈ pcb1.fileDescriptors.drop 3) :
    table_inv { k with pcb_list := update_pcb (fun _ => pcb1) k.pcb_list pcb.pid } := by
  have hmem : ∀ p1 ∈ update_pcb (fun _ => pcb1) k.pcb_list pcb.pid,
      (p1 ∈ k.pcb_list ∧ p1.pid ≠ pcb.pid) ∨ p1 = pcb1 := by
    intro p1 hp1
    rcases mem_update_pcb _ _ _ p1 h.pids hp1 with h1 | ⟨_, _, h2⟩
    · exact Or.inl h1
    · exact Or.inr h2
  have hpcb : pcb ∈ k.pcb_list := findPCBByPID_mem _ _ _ hfind
  refine ⟨h.uniq, ?_, h.fp_lt, h.ids, h.ids_lt, h.next_id, ?_, ?_, ?_⟩
  · intro e he fp hfp p1 hp1 hp
    rcases hmem p1 hp1 with ⟨h1, _⟩ | h1
    · exact h.slot e he fp hfp p1 h1 hp
    · rw [h1] at hp ⊢
      exact H2 e he fp hfp (by rw [← hp, hpid])
  · show ((update_pcb (fun _ => pcb1) k.pcb_list pcb.pid).map PCB.pid).Nodup
    rw [update_pcb_pids _ _ _ (fun p hp => by
      rw [hpid]; exact (findPCBByPID_pid _ _ _ hp).symm)]
    exact h.pids
  · intro p1 hp1
    rcases hmem p1 hp1 with ⟨h1, _⟩ | h1
    · exact h.pids_lt p1 h1
    · rw [h1, hpid]; exact h.pids_lt pcb hpcb
  · intro p1 hp1
    rcases hmem p1 hp1 with ⟨h1, _⟩ | h1
    · exact h.fds_len p1 h1
    · rw [h1]; exact hlen

/-- The second half of `f_unlink`, for the entry `e1` that replaces `fe`. -/
theorem table_inv_unlink_aux (k k1 : Kernel) (fname : List Nat) (now : Nat) (r : Int)
    (fe e1 : file_t) (h : table_inv k)
    (hf : find_file_entry_by_filename k.open_files fname = some fe)
    (hid : e1.file_id = fe.file_id)
    (hs : (e1.fileptr_head.map fileptr_t.pid).Sublist (fe.fileptr_head.map fileptr_t.pid))
    (hu : (if e1.fileptr_head = [] then do
        let (img1, _) ← fs_rm k.img fname
        some ({ k with
                open_files := delete_file_entry
                  (update_file_entry_by_filename (fun _ => e1) k.open_files fname) e1.file_id,
                img := img1 }, (0 : Int))
      else do
        let (img1, _) ← fs_mark_deleted k.img fname now
        some ({ k with
                open_files := update_file_entry_by_filename (fun _ => e1) k.open_files fname,
                img := img1 }, (0 : Int))) = some (k1, r)) : table_inv k1 := by
  have hsub : files_sub (update_file_entry_by_filename (fun _ => e1) k.open_files fname)
      k.open_files := by
    apply files_sub_update_by_filename
    intro fe2 hfe2
    rw [hf] at hfe2
    cases hfe2
    exact ⟨hid, hs⟩
  by_cases hnil : e1.fileptr_head = []
  · rw [if_pos hnil] at hu
    simp only [Option.bind_eq_bind] at hu
    cases hrm : fs_rm k.img fname with
    | none => rw [hrm] at hu; cases hu
    | some res =>
      rw [hrm] at hu
      simp only [Option.some_bind, Option.some.injEq, Prod.mk.injEq] at hu
      rw [← hu.1]
      refine table_inv_of_sub k _ h ?_ (pcbs_sub_refl _) rfl rfl
      exact files_sub_trans _ _ _
        (files_sub_of_sublist _ _ (delete_file_entry_sublist _ _)) hsub
  · rw [if_neg hnil] at hu
    simp only [Option.bind_eq_bind] at hu
    cases hrm : fs_mark_deleted k.img fname now with
    | none => rw [hrm] at hu; cases hu
    | some res =>
      rw [hrm] at hu
      simp only [Option.some_bind, Option.some.injEq, Prod.mk.injEq] at hu
      rw [← hu.1]
      exact table_inv_of_sub k _ h hsub (pcbs_sub_refl _) rfl rfl

/-- The invariant after `f_unlink`. -/
theorem table_inv_unlink (k k1 : Kernel) (fname : List Nat) (now : Nat) (r : Int)
    (h : table_inv k) (hu : f_unlink k fname now = some (k1, r)) : table_inv k1 := by
  unfold f_unlink at hu
  cases hf : find_file_entry_by_filename k.open_files fname with
  | none =>
    rw [hf] at hu
    simp only [Option.some.injEq, Prod.mk.injEq] at hu
    rw [← hu.1]
    exact table_inv_congr k _ h rfl rfl rfl rfl
  | some fe =>
    rw [hf] at hu
    simp only [Option.bind_eq_bind] at hu
    cases hc : cur_pcb k with
    | none => rw [hc] at hu; cases hu
    | some pcb =>
      rw [hc] at hu
      simp only [Option.some_bind] at hu
      cases hg : get_fileptr fe.fileptr_head pcb.pid with
      | none =>
        rw [hg] at hu
        exact table_inv_unlink_aux k k1 fname now r fe fe h hf rfl (List.Sublist.refl _) hu
      | some fp =>
        rw [hg] at hu
        exact table_inv_unlink_aux k k1 fname now r fe
          { fe with
            fileptr_head := delete_fileptr fe.fileptr_head pcb.pid
            wr_pid := if fe.wr_pid = pcb.pid then -1 else fe.wr_pid }
          h hf rfl ((delete_fileptr_sublist _ _).map _) hu

/-- The registry after `k_process_kill`. -/
theorem pcbs_sub_kill (l l2 : List PCB) (pid sig r : Int)
    (h : k_process_kill l pid sig = some (l2, r)) : pcbs_sub l2 l := by
  unfold k_process_kill at h
  simp only [Option.bind_eq_bind] at h
  cases hp : findPCBByPID l pid with
  | none => rw [hp] at h; cases h
  | some process =>
    rw [hp] at h
    simp only [Option.some_bind] at h
    split at h
    · cases hl : log_orphans process.children
          (update_pcb (fun p => { p with status := T_ZOMBIED }) l pid) with
      | none => rw [hl] at h; cases h
      | some u =>
        rw [hl] at h
        simp only [Option.some_bind, Option.some.injEq, Prod.mk.injEq] at h
        rw [← h.1]
        exact pcbs_sub_update _ _ _ (fun _ => ⟨rfl, rfl⟩)
    · split at h
      · simp only [Option.some.injEq, Prod.mk.injEq] at h
        rw [← h.1]
        exact pcbs_sub_update _ _ _ (fun _ => ⟨rfl, rfl⟩)
      · split at h
        · simp only [Option.some.injEq, Prod.mk.injEq] at h
          rw [← h.1]
          exact pcbs_sub_update _ _ _ (fun _ => ⟨rfl, rfl⟩)
        · split at h
          · simp only [Option.some.injEq, Prod.mk.injEq] at h
            rw [← h.1]
            exact pcbs_sub_update _ _ _ (fun _ => ⟨rfl, rfl⟩)
          · simp only [Option.some.injEq, Prod.mk.injEq] at h
            rw [← h.1]
            exact pcbs_sub_refl _

/-- The invariant after `p_kill`. -/
theorem table_inv_kill (k k1 : Kernel) (pid sig r : Int)
    (h : table_inv k) (hk : p_kill k pid sig = some (k1, r)) : table_inv k1 := by
  unfold p_kill at hk
  cases hp : findPCBByPID k.pcb_list pid with
  | none =>
    rw [hp] at hk
    simp only [Option.some.injEq, Prod.mk.injEq] at hk
    rw [← hk.1]
    exact table_inv_congr k _ h rfl rfl rfl rfl
  | some process =>
    rw [hp] at hk
    simp only [Option.bind_eq_bind] at hk
    cases hd : process_delete_fileptrs k process with
    | none => rw [hd] at hk; cases hk
    | some k2 =>
      rw [hd] at hk
      simp only [Option.some_bind] at hk
      obtain ⟨hf2, hp2, hnp2, hnf2⟩ := process_delete_fileptrs_sub k k2 process hd
      cases hkk : k_process_kill k2.pcb_list pid sig with
      | none => rw [hkk] at hk; cases hk
      | some res =>
        obtain ⟨l2, r2⟩ := res
        rw [hkk] at hk
        simp only [Option.some_bind, Option.some.injEq, Prod.mk.injEq] at hk
        rw [← hk.1]
        refine table_inv_of_sub k _ h hf2 ?_ hnp2 hnf2
        have := pcbs_sub_kill _ _ _ _ _ hkk
        rw [hp2] at this
        exact this

/-- The invariant after `p_exit`. -/
theorem table_inv_exit (k k1 : Kernel) (h : table_inv k) (he : p_exit k = some k1) :
    table_inv k1 := by
  unfold p_exit at he
  simp only [Option.bind_eq_bind] at he
  cases hc : cur_pcb k with
  | none => rw [hc] at he; cases he
  | some pcb =>
    rw [hc] at he
    simp only [Option.some_bind] at he
    cases hd : process_delete_fileptrs k pcb with
    | none => rw [hd] at he; cases he
    | some k2 =>
      rw [hd] at he
      simp only [Option.some_bind] at he
      obtain ⟨hf2, hp2, hnp2, hnf2⟩ := process_delete_fileptrs_sub k k2 pcb hd
      have hz : pcbs_sub (update_pcb (fun p => { p with status := T_ZOMBIED }) k2.pcb_list pcb.pid)
          k.pcb_list := by
        rw [hp2]; exact pcbs_sub_update _ _ _ (fun _ => ⟨rfl, rfl⟩)
      cases hl : log_orphans pcb.children
          (update_pcb (fun p => { p with status := T_ZOMBIED }) k2.pcb_list pcb.pid) with
      | none => rw [hl] at he; cases he
      | some u =>
        rw [hl] at he
        simp only [Option.some_bind] at he
        split at he
        · cases hr : removePCBFromList
              (update_pcb (fun p => { p with status := T_ZOMBIED }) k2.pcb_list pcb.pid)
              pcb.pid with
          | none => rw [hr] at he; cases he
          | some l2 =>
            rw [hr] at he
            simp only [Option.some_bind, Option.some.injEq] at he
            rw [← he]
            exact table_inv_of_sub k _ h hf2
              (pcbs_sub_trans _ _ _ (pcbs_sub_remove _ _ _ hr) hz) hnp2 hnf2
        · split at he
          · simp only [Option.some.injEq] at he
            rw [← he]
            exact table_inv_of_sub k _ h hf2
              (pcbs_sub_trans _ _ _ (pcbs_sub_update _ _ _ (fun _ => ⟨rfl, rfl⟩)) hz) hnp2 hnf2
          · simp only [Option.some.injEq] at he
            rw [← he]
            exact table_inv_of_sub k _ h hf2 hz hnp2 hnf2

/-! ## The shapes of `f_open` -/

/-- The result of `create_file_entry`: a new first entry with the next identifier and
one offset, of the caller. -/
theorem create_file_entry_cases (k k1 : Kernel) (pid : Int) (fname : List Nat) (mode : Int)
    (d : Option dir_entry_t) (id : Int)
    (h : create_file_entry k pid fname mode d = some (k1, id)) :
    id = k.next_file_id ∧
    ∃ new : file_t, new.file_id = k.next_file_id ∧
      (∃ v, new.fileptr_head = [{ pid := pid, ptr := v }]) ∧
      k1 = { k with next_file_id := k.next_file_id + 1, open_files := new :: k.open_files } := by
  unfold create_file_entry at h
  split at h
  · split at h
    · simp only [Option.some.injEq, Prod.mk.injEq] at h
      exact ⟨h.2.symm, _, rfl, ⟨0, rfl⟩, h.1.symm⟩
    · split at h
      · simp only [Option.some.injEq, Prod.mk.injEq] at h
        exact ⟨h.2.symm, _, rfl, ⟨0, rfl⟩, h.1.symm⟩
      · split at h
        · cases d with
          | none => cases h
          | some e =>
            simp only [Option.bind_eq_bind, Option.some_bind, Option.some.injEq,
              Prod.mk.injEq] at h
            exact ⟨h.2.symm, _, rfl, ⟨_, rfl⟩, h.1.symm⟩
        · cases h
  · cases h

/-- The shapes of a call of `f_open` that returns: an error that changes `ERRNO` only,
a new descriptor for a file in use, or a new descriptor for a new entry of the table. -/
theorem f_open_cases (k k1 : Kernel) (fname : List Nat) (mode : Int) (now : Nat) (r : Int)
    (h : f_open k fname mode now = some (k1, r)) :
    (∃ e, k1 = { k with ERRNO := e }) ∨
    (∃ (fe : file_t) (pcb pcb1 : PCB) (fd : Int) (img1 : Image) (wr : Int)
        (H : List fileptr_t) (dup : Bool),
      find_file_entry_by_filename k.open_files fname = some fe ∧ cur_pcb k = some pcb ∧
      is_duplicate_fd pcb fe.file_id = some dup ∧
      (dup = true → ∃ v, H = set_fileptr fe.fileptr_head pcb.pid v) ∧
      (dup = false → ∃ v, H = create_fileptr fe.fileptr_head pcb.pid v) ∧
      find_unused_fd pcb = some fd ∧ fd_set pcb fd fe.file_id = some pcb1 ∧ r = fd ∧
      k1 = { k with
             img := img1
             open_files := update_file_entry_by_filename
               (fun e => { e with wr_pid := wr, fileptr_head := H }) k.open_files fname
             pcb_list := update_pcb (fun _ => pcb1) k.pcb_list pcb.pid }) ∨
    (∃ (pcb pcb1 : PCB) (fd : Int) (img1 : Image) (new : file_t),
      find_file_entry_by_filename k.open_files fname = none ∧ cur_pcb k = some pcb ∧
      find_unused_fd pcb = some fd ∧ fd_set pcb fd k.next_file_id = some pcb1 ∧ r = fd ∧
      new.file_id = k.next_file_id ∧
      (∃ v, new.fileptr_head = [{ pid := pcb.pid, ptr := v }]) ∧
      k1 = { k with
             img := img1
             next_file_id := k.next_file_id + 1
             open_files := new :: k.open_files
             pcb_list := update_pcb (fun _ => pcb1) k.pcb_list pcb.pid }) := by
  unfold f_open at h
  simp only [Option.bind_eq_bind] at h
  cases hfound : find_file k.img ROOTDIR fname with
  | none => rw [hfound] at h; cases h
  | some found =>
    rw [hfound] at h
    simp only [Option.some_bind] at h
    cases hent : find_file_entry_by_filename k.open_files fname with
    | some fe =>
      rw [hent] at h
      simp only [] at h
      cases found with
      | none => cases h
      | some loc =>
        obtain ⟨lc, dir_entry⟩ := loc
        simp only [Option.some_bind] at h
        by_cases hperm : valid_perm dir_entry.perm mode = true
        · simp only [hperm, Bool.not_true, Bool.false_eq_true, if_false] at h
          cases hcur : cur_pcb k with
          | none => rw [hcur] at h; cases h
          | some pcb =>
            rw [hcur] at h
            simp only [Option.some_bind] at h
            split at h
            · simp only [Option.some.injEq, Prod.mk.injEq] at h
              exact Or.inl ⟨_, h.1.symm⟩
            · split at h
              · simp only [Option.some.injEq, Prod.mk.injEq] at h
                exact Or.inl ⟨_, h.1.symm⟩
              · cases htouch : fs_touch k.img fname now with
                | none => rw [htouch] at h; cases h
                | some t =>
                  obtain ⟨img1, tb⟩ := t
                  rw [htouch] at h
                  simp only [Option.some_bind] at h
                  cases hdup : is_duplicate_fd pcb fe.file_id with
                  | none => rw [hdup] at h; cases h
                  | some dup =>
                    rw [hdup] at h
                    simp only [Option.some_bind] at h
                    cases dup with
                    | true =>
                      simp only [if_true] at h
                      cases hg : get_fileptr fe.fileptr_head pcb.pid with
                      | none => rw [hg] at h; cases h
                      | some fp0 =>
                        rw [hg] at h
                        simp only [Option.some_bind] at h
                        cases hfd : find_unused_fd pcb with
                        | none => rw [hfd] at h; cases h
                        | some fd =>
                          rw [hfd] at h
                          simp only [Option.some_bind] at h
                          cases hset : fd_set pcb fd fe.file_id with
                          | none => rw [hset] at h; cases h
                          | some pcb1 =>
                            rw [hset] at h
                            simp only [Option.some_bind, Option.some.injEq,
                              Prod.mk.injEq] at h
                            exact Or.inr (Or.inl ⟨fe, pcb, pcb1, fd, img1, _, _, true, rfl, rfl,
                              hdup, (fun _ => ⟨_, rfl⟩), (fun hh => absurd hh (by decide)), hfd, hset,
                              h.2.symm, h.1.symm⟩)
                    | false =>
                      simp only [Bool.false_eq_true, if_false, Option.some_bind] at h
                      cases hfd : find_unused_fd pcb with
                      | none => rw [hfd] at h; cases h
                      | some fd =>
                        rw [hfd] at h
                        simp only [Option.some_bind] at h
                        cases hset : fd_set pcb fd fe.file_id with
                        | none => rw [hset] at h; cases h
                        | some pcb1 =>
                          rw [hset] at h
                          simp only [Option.some_bind, Option.some.injEq, Prod.mk.injEq] at h
                          exact Or.inr (Or.inl ⟨fe, pcb, pcb1, fd, img1, _, _, false, rfl, rfl,
                            hdup, (fun hh => absurd hh (by decide)), (fun _ => ⟨_, rfl⟩), hfd, hset,
                            h.2.symm, h.1.symm⟩)
        · simp only [hperm, Bool.not_false, if_true, Option.some.injEq, Prod.mk.injEq] at h
          exact Or.inl ⟨_, h.1.symm⟩
    | none =>
      rw [hent] at h
      simp only [] at h
      split at h
      · simp only [Option.some.injEq, Prod.mk.injEq] at h
        exact Or.inl ⟨_, h.1.symm⟩
      · cases htouch : fs_touch k.img fname now with
        | none => rw [htouch] at h; cases h
        | some t =>
          obtain ⟨img1, tb⟩ := t
          rw [htouch] at h
          simp only [Option.some_bind] at h
          cases hcur : cur_pcb k with
          | none => rw [hcur] at h; cases h
          | some pcb =>
            rw [hcur] at h
            simp only [Option.some_bind] at h
            cases hfd : find_unused_fd pcb with
            | none => rw [hfd] at h; cases h
            | some fd =>
              rw [hfd] at h
              simp only [Option.some_bind] at h
              cases hce : create_file_entry k pcb.pid fname mode
                  (Option.map (fun r => r.2) found) with
              | none => rw [hce] at h; cases h
              | some ce =>
                obtain ⟨k2, file_id⟩ := ce
                rw [hce] at h
                simp only [Option.some_bind] at h
                obtain ⟨hid, new, hnew, hhead, hk2⟩ :=
                  create_file_entry_cases k k2 pcb.pid fname mode _ file_id hce
                cases hset : fd_set pcb fd file_id with
                | none => rw [hset] at h; cases h
                | some pcb1 =>
                  rw [hset] at h
                  simp only [Option.some_bind, Option.some.injEq, Prod.mk.injEq] at h
                  rw [hid] at hset
                  refine Or.inr (Or.inr ⟨pcb, pcb1, fd, img1, new, rfl, rfl, hfd, hset,
                    h.2.symm, hnew, hhead, ?_⟩)
                  rw [← h.1, hk2]

/-! ## The invariant under `f_close` and `f_open` -/

theorem fd_set_some (pcb pcb1 : PCB) (fd v : Int) (h : fd_set pcb fd v = some pcb1) :
    0 ≤ fd ∧ fd < MAX_FDS ∧ fd.toNat < pcb.fileDescriptors.length ∧
      pcb1 = { pcb with fileDescriptors := pcb.fileDescriptors.set fd.toNat v } := by
  unfold fd_set at h
  split at h
  · rename_i hc
    simp only [Option.some.injEq] at h
    exact ⟨hc.1, hc.2.1, hc.2.2, h.symm⟩
  · cases h

theorem fd_get_some (pcb : PCB) (fd v : Int) (h : fd_get pcb fd = some v) :
    0 ≤ fd ∧ pcb.fileDescriptors[fd.toNat]? = some v := by
  unfold fd_get at h
  split at h
  · rename_i hc
    exact ⟨hc.1, h⟩
  · cases h

/-- The PCB of the updated registry with the PID of the updated PCB is the new PCB. -/
theorem mem_update_pcb_const (l : List PCB) (pcb pcb1 p1 : PCB)
    (hn : (l.map PCB.pid).Nodup) (h : p1 ∈ update_pcb (fun _ => pcb1) l pcb.pid) :
    (p1 ∈ l ∧ p1.pid ≠ pcb.pid) ∨ p1 = pcb1 := by
  rcases mem_update_pcb _ _ _ p1 hn h with h1 | ⟨_, _, h2⟩
  · exact Or.inl h1
  · exact Or.inr h2

/-- The invariant after `f_close`. -/
theorem table_inv_close (k k1 : Kernel) (fd r : Int) (h : table_inv k)
    (hc : f_close k fd = some (k1, r)) : table_inv k1 := by
  rcases f_close_cases k k1 fd r hc with ⟨_, hk, _⟩ |
    ⟨hty, file_id, fe, pcb, pcb1, dup, ofs, hfind, hcur, hset, hdup, hk, _, hcases⟩
  · rw [hk]; exact table_inv_congr k _ h rfl rfl rfl rfl
  · obtain ⟨_, hpf⟩ := cur_pcb_pid k pcb hcur
    have hpm : pcb ∈ k.pcb_list := findPCBByPID_mem _ _ _ hpf
    obtain ⟨hfd0, hfdlt, hfdlen, hpcb1⟩ := fd_set_some pcb pcb1 fd NOFILE hset
    have hfe : fd_get pcb fd = some file_id ∧
        find_file_entry_by_file_id k.open_files file_id = some fe := by
      unfold find_file_entry at hfind
      simp only [hcur, Option.bind_eq_bind, Option.some_bind] at hfind
      cases hg : fd_get pcb fd with
      | none => rw [hg] at hfind; cases hfind
      | some id =>
        rw [hg] at hfind
        simp only [Option.some_bind] at hfind
        cases hf : find_file_entry_by_file_id k.open_files id with
        | none => rw [hf] at hfind; cases hfind
        | some e =>
          rw [hf] at hfind
          simp only [Option.some_bind, Option.some.injEq, Prod.mk.injEq] at hfind
          rw [← hfind.1, ← hfind.2]
          exact ⟨rfl, hf⟩
    obtain ⟨_, hval⟩ := fd_get_some pcb fd file_id hfe.1
    have hlen1 : pcb1.fileDescriptors.length = MAX_FDS := by
      rw [hpcb1]; simp only [List.length_set]; exact h.fds_len pcb hpm
    have hupd : files_sub (update_file_entry
        (fun e => { e with fileptr_head := delete_fileptr e.fileptr_head pcb.pid })
        k.open_files file_id) k.open_files :=
      files_sub_update _ _ _ (fun _ _ => ⟨rfl, (delete_fileptr_sublist _ _).map _⟩)
    have hsub : files_sub ofs k.open_files := by
      rcases hcases with ⟨_, ho⟩ | ⟨_, ho⟩ | ⟨_, _, ho⟩ | ⟨_, _, ho⟩ | ⟨_, _, ho⟩
      · rw [ho]; exact files_sub_refl _
      · rw [ho]; exact files_sub_of_sublist _ _ (delete_file_entry_sublist _ _)
      · rw [ho]; exact hupd
      · rw [ho]
        exact files_sub_trans _ _ _
          (files_sub_of_sublist _ _ (delete_file_entry_sublist _ _)) hupd
      · rw [ho]; exact files_sub_of_sublist _ _ (delete_file_entry_sublist _ _)
    have hinv1 : table_inv { k with open_files := ofs } :=
      table_inv_of_sub k _ h hsub (pcbs_sub_refl _) rfl rfl
    have H2 : ∀ e ∈ ofs, ∀ fp ∈ e.fileptr_head, fp.pid = pcb.pid →
        e.file_id ∈ pcb1.fileDescriptors.drop 3 := by
      intro e he fp hfp hpid
      have hold : e.file_id ∈ pcb.fileDescriptors.drop 3 :=
        hinv1.slot e he fp hfp pcb hpm hpid.symm
      by_cases hid : e.file_id = file_id
      · obtain ⟨b, hb, hbiff⟩ := is_duplicate_fd_spec pcb1 file_id hlen1
        rw [hdup] at hb
        cases hb
        have hno : ∀ e2 ∈ delete_file_entry k.open_files file_id, e2.file_id ≠ file_id :=
          delete_file_entry_not_mem _ _ h.ids
        rcases hcases with ⟨hd, _⟩ | ⟨hd, _⟩ | ⟨hd, _, ho⟩ | ⟨hd, _, ho⟩ | ⟨hd, _, ho⟩
        · rw [hid]; exact hbiff.mp hd
        · rw [hid]; exact hbiff.mp hd
        · exfalso
          rw [ho, update_file_entry_eq_map _ _ _ h.ids] at he
          obtain ⟨e0, he0, heq⟩ := List.mem_map.mp he
          by_cases h0 : e0.file_id = file_id
          · rw [if_pos h0] at heq
            rw [← heq] at hfp
            exact delete_fileptr_not_mem _ _ (h.uniq e0 he0) fp hfp hpid
          · rw [if_neg h0] at heq
            rw [heq] at h0
            exact h0 hid
        · exfalso
          rw [ho] at he
          have hids : ((update_file_entry
              (fun e => { e with fileptr_head := delete_fileptr e.fileptr_head pcb.pid })
              k.open_files file_id).map file_t.file_id).Nodup := h.ids.sublist hupd.1
          exact delete_file_entry_not_mem _ _ hids e he hid
        · exfalso
          rw [ho] at he
          exact hno e he hid
      · rw [hpcb1]
        exact mem_drop_set_of_ne _ _ file_id _ _ hval (fun hh => hid hh.symm) hold
    have hfinal := table_inv_fd_update { k with open_files := ofs } pcb pcb1 hinv1 hpf
      (by rw [hpcb1]) hlen1 H2
    rw [hk]
    exact hfinal

/-- The invariant after `f_open`. -/
theorem table_inv_open (k k1 : Kernel) (fname : List Nat) (mode : Int) (now : Nat) (r : Int)
    (h : table_inv k) (ho : f_open k fname mode now = some (k1, r)) : table_inv k1 := by
  rcases f_open_cases k k1 fname mode now r ho with ⟨e, hk⟩ |
    ⟨fe, pcb, pcb1, fd, img1, wr, H, dup, hent, hcur, hdup, hH1, hH2, hfd, hset, _, hk⟩ |
    ⟨pcb, pcb1, fd, img1, new, hent, hcur, hfd, hset, _, hnew, hhead, hk⟩
  · rw [hk]; exact table_inv_congr k _ h rfl rfl rfl rfl
  · obtain ⟨_, hpf⟩ := cur_pcb_pid k pcb hcur
    have hpm : pcb ∈ k.pcb_list := findPCBByPID_mem _ _ _ hpf
    have hfem : fe ∈ k.open_files := find_file_entry_by_filename_mem _ _ _ hent
    obtain ⟨j, _, hj3, hjlen, hjval, hpcb1⟩ := find_unused_fd_set pcb pcb1 fd fe.file_id hfd hset
    have hlen1 : pcb1.fileDescriptors.length = MAX_FDS := by
      rw [hpcb1]; simp only [List.length_set]; exact h.fds_len pcb hpm
    have H2 : ∀ e ∈ k.open_files, ∀ fp ∈ e.fileptr_head, fp.pid = pcb.pid →
        e.file_id ∈ pcb1.fileDescriptors.drop 3 := by
      intro e he fp hfp hpid
      have hold := h.slot e he fp hfp pcb hpm hpid.symm
      rw [hpcb1]
      refine mem_drop_set_of_ne _ _ NOFILE _ _ hjval ?_ hold
      intro hh
      have := (h.ids_lt e he).1
      rw [← hh] at this
      exact absurd this (by decide)
    have hinv1 := table_inv_fd_update k pcb pcb1 h hpf (by rw [hpcb1]) hlen1 H2
    have hself : fe.file_id ∈ pcb1.fileDescriptors.drop 3 := by
      rw [hpcb1]; exact mem_drop_set_self _ _ _ hj3 hjlen
    have hHp : H.map fileptr_t.pid = fe.fileptr_head.map fileptr_t.pid ∨
        (H.map fileptr_t.pid = pcb.pid :: fe.fileptr_head.map fileptr_t.pid ∧
          pcb.pid ∉ fe.fileptr_head.map fileptr_t.pid) := by
      cases dup with
      | true =>
        obtain ⟨v, hv⟩ := hH1 rfl
        left; rw [hv]; exact set_fileptr_pids _ _ _
      | false =>
        obtain ⟨v, hv⟩ := hH2 rfl
        right
        refine ⟨by rw [hv]; rfl, ?_⟩
        intro hmem
        obtain ⟨fp, hfp, hfpid⟩ := List.mem_map.mp hmem
        have hold := h.slot fe hfem fp hfp pcb hpm hfpid.symm
        obtain ⟨b, hb, hbiff⟩ := is_duplicate_fd_spec pcb fe.file_id (h.fds_len pcb hpm)
        rw [hdup] at hb
        cases hb
        exact absurd (hbiff.mpr hold) (by decide)
    have hHmem : ∀ fp1 ∈ H, fp1.pid = pcb.pid ∨ ∃ fp ∈ fe.fileptr_head, fp.pid = fp1.pid := by
      intro fp1 hfp1
      have hm := List.mem_map_of_mem fileptr_t.pid hfp1
      rcases hHp with hp | ⟨hp, _⟩
      · rw [hp] at hm
        obtain ⟨fp, hfp, hpid⟩ := List.mem_map.mp hm
        exact Or.inr ⟨fp, hfp, hpid⟩
      · rw [hp] at hm
        rcases List.mem_cons.mp hm with h1 | h1
        · exact Or.inl h1
        · obtain ⟨fp, hfp, hpid⟩ := List.mem_map.mp h1
          exact Or.inr ⟨fp, hfp, hpid⟩
    have hmemU : ∀ e1 ∈ update_file_entry_by_filename
        (fun e => { e with wr_pid := wr, fileptr_head := H }) k.open_files fname,
        e1 ∈ k.open_files ∨ (e1.file_id = fe.file_id ∧ e1.fileptr_head = H) := by
      intro e1 he1
      rcases mem_update_by_filename _ _ _ e1 he1 with h1 | ⟨fe2, hfe2, h2⟩
      · exact Or.inl h1
      · rw [hent] at hfe2
        cases hfe2
        rw [h2]
        exact Or.inr ⟨rfl, rfl⟩
    rw [hk]
    refine ⟨?_, ?_, ?_, ?_, ?_, hinv1.next_id, hinv1.pids, hinv1.pids_lt, hinv1.fds_len⟩
    · intro e1 he1
      rcases hmemU e1 he1 with h1 | ⟨_, h1⟩
      · exact h.uniq e1 h1
      · rw [h1]
        rcases hHp with hp | ⟨hp, hnot⟩
        · rw [hp]; exact h.uniq fe hfem
        · rw [hp]; exact List.nodup_cons.mpr ⟨hnot, h.uniq fe hfem⟩
    · intro e1 he1 fp1 hfp1 p1 hp1 hpid
      rcases hmemU e1 he1 with h1 | ⟨hid, h1⟩
      · exact hinv1.slot e1 h1 fp1 hfp1 p1 hp1 hpid
      · rw [h1] at hfp1
        rw [hid]
        rcases hHmem fp1 hfp1 with h2 | ⟨fp, hfp, h2⟩
        · rcases mem_update_pcb_const _ pcb pcb1 p1 h.pids hp1 with ⟨_, h3⟩ | h3
          · exact absurd (hpid.trans h2) h3
          · rw [h3]; exact hself
        · exact hinv1.slot fe hfem fp hfp p1 hp1 (hpid.trans h2.symm)
    · intro e1 he1 fp1 hfp1
      rcases hmemU e1 he1 with h1 | ⟨_, h1⟩
      · exact h.fp_lt e1 h1 fp1 hfp1
      · rw [h1] at hfp1
        rcases hHmem fp1 hfp1 with h2 | ⟨fp, hfp, h2⟩
        · rw [h2]; exact h.pids_lt pcb hpm
        · rw [← h2]; exact h.fp_lt fe hfem fp hfp
    · show ((update_file_entry_by_filename _ k.open_files fname).map file_t.file_id).Nodup
      rw [update_by_filename_ids (fun e => { e with wr_pid := wr, fileptr_head := H })
        k.open_files fname (fun _ _ => rfl)]
      exact h.ids
    · intro e1 he1
      rcases hmemU e1 he1 with h1 | ⟨hid, _⟩
      · exact h.ids_lt e1 h1
      · rw [hid]; exact h.ids_lt fe hfem
  · obtain ⟨_, hpf⟩ := cur_pcb_pid k pcb hcur
    have hpm : pcb ∈ k.pcb_list := findPCBByPID_mem _ _ _ hpf
    obtain ⟨j, _, hj3, hjlen, hjval, hpcb1⟩ :=
      find_unused_fd_set pcb pcb1 fd k.next_file_id hfd hset
    have hlen1 : pcb1.fileDescriptors.length = MAX_FDS := by
      rw [hpcb1]; simp only [List.length_set]; exact h.fds_len pcb hpm
    have H2 : ∀ e ∈ k.open_files, ∀ fp ∈ e.fileptr_head, fp.pid = pcb.pid →
        e.file_id ∈ pcb1.fileDescriptors.drop 3 := by
      intro e he fp hfp hpid
      have hold := h.slot e he fp hfp pcb hpm hpid.symm
      rw [hpcb1]
      refine mem_drop_set_of_ne _ _ NOFILE _ _ hjval ?_ hold
      intro hh
      have := (h.ids_lt e he).1
      rw [← hh] at this
      exact absurd this (by decide)
    have hinv1 := table_inv_fd_update k pcb pcb1 h hpf (by rw [hpcb1]) hlen1 H2
    have hself : k.next_file_id ∈ pcb1.fileDescriptors.drop 3 := by
      rw [hpcb1]; exact mem_drop_set_self _ _ _ hj3 hjlen
    obtain ⟨v, hv⟩ := hhead
    rw [hk]
    refine ⟨?_, ?_, ?_, ?_, ?_, ?_, hinv1.pids, hinv1.pids_lt, hinv1.fds_len⟩
    · intro e1 he1
      rcases List.mem_cons.mp he1 with h1 | h1
      · rw [h1, hv]; simp
      · exact h.uniq e1 h1
    · intro e1 he1 fp1 hfp1 p1 hp1 hpid
      rcases List.mem_cons.mp he1 with h1 | h1
      · rw [h1] at hfp1 ⊢
        rw [hv] at hfp1
        simp only [List.mem_singleton] at hfp1
        rw [hfp1] at hpid
        rcases mem_update_pcb_const _ pcb pcb1 p1 h.pids hp1 with ⟨_, h3⟩ | h3
        · exact absurd hpid h3
        · rw [h3, hnew]; exact hself
      · exact hinv1.slot e1 h1 fp1 hfp1 p1 hp1 hpid
    · intro e1 he1 fp1 hfp1
      rcases List.mem_cons.mp he1 with h1 | h1
      · rw [h1, hv] at hfp1
        simp only [List.mem_singleton] at hfp1
        rw [hfp1]; exact h.pids_lt pcb hpm
      · exact h.fp_lt e1 h1 fp1 hfp1
    · show ((new :: k.open_files).map file_t.file_id).Nodup
      simp only [List.map_cons, List.nodup_cons]
      refine ⟨?_, h.ids⟩
      intro hmem
      obtain ⟨e, he, heq⟩ := List.mem_map.mp hmem
      have := (h.ids_lt e he).2
      rw [heq, hnew] at this
      exact lt_irrefl _ this
    · intro e1 he1
      show 0 ≤ e1.file_id ∧ e1.file_id < k.next_file_id + 1
      rcases List.mem_cons.mp he1 with h1 | h1
      · rw [h1, hnew]; exact ⟨h.next_id, by omega⟩
      · have := h.ids_lt e1 h1
        exact ⟨this.1, by omega⟩
    · show 0 ≤ k.next_file_id + 1
      have := h.next_id
      omega

/-! ## The function `process_create_fileptrs` -/

/-- First loop of `process_create_fileptrs`: when it ends, the array holds the offset
of the parent at the identifiers of the open files that the descriptors name, and
its other elements are as before. -/
theorem mark_file_ptrs_spec (ofs : List file_t) (pp : Int) :
    ∀ (fds arr arr1 : List Int), mark_file_ptrs ofs pp fds arr = some arr1 →
      arr1.length = arr.length ∧
      ∀ i : Nat, i < arr.length →
        arr1[i]? =
          if ((i : Int) ∈ fds ∧ (find_file_entry_by_file_id ofs i).isSome = true) then
            (find_file_entry_by_file_id ofs i).map (fun fe => get_fileptr_ptr fe.fileptr_head pp)
          else arr[i]? := by
  intro fds
  induction fds with
  | nil =>
    intro arr arr1 h
    simp only [mark_file_ptrs, Option.some.injEq] at h
    subst h
    exact ⟨rfl, fun i _ => by simp⟩
  | cons fid rest ih =>
    intro arr arr1 h
    simp only [mark_file_ptrs] at h
    by_cases hge : fid ≥ 0
    · rw [if_pos hge] at h
      cases hf : find_file_entry_by_file_id ofs fid with
      | none =>
        rw [hf] at h
        simp only [] at h
        obtain ⟨hlen, hval⟩ := ih arr arr1 h
        refine ⟨hlen, fun i hi => ?_⟩
        rw [hval i hi]
        by_cases hif : (i : Int) = fid
        · have : find_file_entry_by_file_id ofs (i : Int) = none := by rw [hif]; exact hf
          simp [this]
        · simp [hif]
      | some fe =>
        rw [hf] at h
        simp only [] at h
        by_cases hlt : fid.toNat < arr.length
        · rw [if_pos hlt] at h
          obtain ⟨hlen, hval⟩ := ih _ arr1 h
          rw [List.length_set] at hlen
          refine ⟨hlen, fun i hi => ?_⟩
          rw [hval i (by rw [List.length_set]; exact hi)]
          by_cases hif : (i : Int) = fid
          · have hfi : find_file_entry_by_file_id ofs (i : Int) = some fe := by
              rw [hif]; exact hf
            have hti : fid.toNat = i := by rw [← hif]; simp
            by_cases hc : (i : Int) ∈ rest
            · rw [if_pos ⟨hc, by rw [hfi]; rfl⟩,
                if_pos ⟨List.mem_cons_of_mem _ hc, by rw [hfi]; rfl⟩]
            · rw [if_neg (fun hh => hc hh.1), if_pos ⟨by rw [hif]; exact List.mem_cons_self _ _,
                by rw [hfi]; rfl⟩, hfi, hti, List.getElem?_set_self hi]
              rfl
          · have hti : fid.toNat ≠ i := by
              intro hh
              apply hif
              rw [← hh]
              exact (Int.toNat_of_nonneg hge)
            rw [List.getElem?_set_ne hti]
            simp [hif]
        · rw [if_neg hlt] at h
          cases h
    · rw [if_neg hge] at h
      obtain ⟨hlen, hval⟩ := ih arr arr1 h
      refine ⟨hlen, fun i hi => ?_⟩
      rw [hval i hi]
      have hif : ¬ (i : Int) = fid := by
        intro hh
        apply hge
        rw [← hh]
        exact Int.ofNat_nonneg i
      simp [hif]

/-- Lookup in a table whose entries were changed by a function that keeps the identifier. -/
theorem find_file_entry_map (g : file_t → file_t) (hg : ∀ e, (g e).file_id = e.file_id)
    (l : List file_t) (id : Int) :
    find_file_entry_by_file_id (l.map g) id = (find_file_entry_by_file_id l id).map g := by
  induction l with
  | nil => rfl
  | cons x xs ih =>
    simp only [List.map_cons, find_file_entry_by_file_id, hg]
    by_cases hx : x.file_id = id
    · rw [if_pos hx, if_pos hx]; rfl
    · rw [if_neg hx, if_neg hx]; exact ih

theorem add_ptr_file_id (pid : Int) (arr : List Int) (s : Nat) (e : file_t) :
    (add_ptr pid arr s e).file_id = e.file_id := by
  unfold add_ptr
  split
  · split
    · split <;> rfl
    · rfl
  · rfl

/-- Second loop of `process_create_fileptrs` in a table with distinct identifiers. -/
theorem add_file_ptrs_spec (pid : Int) :
    ∀ (arr : List Int) (s : Nat) (ofs ofs1 : List file_t),
      (ofs.map file_t.file_id).Nodup → add_file_ptrs pid arr s ofs = some ofs1 →
      ofs1 = ofs.map (add_ptr pid arr s) := by
  intro arr
  induction arr with
  | nil =>
    intro s ofs ofs1 _ h
    simp only [add_file_ptrs, Option.some.injEq] at h
    subst h
    symm
    rw [← List.map_id ofs]
    simp only [List.map_map]
    apply List.map_congr_left
    intro e _
    simp [add_ptr]
  | cons v rest ih =>
    intro s ofs ofs1 hn h
    simp only [add_file_ptrs] at h
    have hshift : ∀ e : file_t, ((s : Int) + 1 ≤ e.file_id) →
        (v :: rest)[(e.file_id - (s : Int)).toNat]?
          = rest[(e.file_id - ((s + 1 : Nat) : Int)).toNat]? := by
      intro e he
      have : (e.file_id - (s : Int)).toNat = (e.file_id - ((s + 1 : Nat) : Int)).toNat + 1 := by
        push_cast
        omega
      rw [this, List.getElem?_cons_succ]
    by_cases hv : v = -1
    · rw [if_pos hv] at h
      rw [ih (s + 1) ofs ofs1 hn h]
      apply List.map_congr_left
      intro e _
      unfold add_ptr
      by_cases h1 : ((s + 1 : Nat) : Int) ≤ e.file_id
      · have h2 : (s : Int) ≤ e.file_id := by push_cast at h1; omega
        rw [if_pos h1, if_pos h2, hshift e (by push_cast at h1; omega)]
      · rw [if_neg h1]
        by_cases h2 : (s : Int) ≤ e.file_id
        · have h3 : e.file_id = (s : Int) := by push_cast at h1; omega
          rw [if_pos h2, h3]
          simp [hv]
        · rw [if_neg h2]
    · rw [if_neg hv] at h
      simp only [Option.bind_eq_bind] at h
      cases hf : find_file_entry_by_file_id ofs s with
      | none => rw [hf] at h; cases h
      | some fe =>
        rw [hf] at h
        simp only [Option.some_bind] at h
        have hn2 : ((update_file_entry
            (fun e => { e with fileptr_head := create_fileptr e.fileptr_head pid v })
            ofs s).map file_t.file_id).Nodup := by
          rw [update_file_entry_ids
            (fun e => { e with fileptr_head := create_fileptr e.fileptr_head pid v }) ofs s
            (fun _ _ => rfl)]
          exact hn
        rw [ih (s + 1) _ ofs1 hn2 h, update_file_entry_eq_map _ _ _ hn, List.map_map]
        apply List.map_congr_left
        intro e _
        simp only [Function.comp]
        by_cases hes : e.file_id = (s : Int)
        · rw [if_pos hes]
          unfold add_ptr
          have h1 : ¬ ((s + 1 : Nat) : Int) ≤ e.file_id := by push_cast; omega
          have h2 : (s : Int) ≤ e.file_id := by omega
          rw [if_neg h1, if_pos h2, hes]
          simp [hv]
        · rw [if_neg hes]
          unfold add_ptr
          by_cases h1 : ((s + 1 : Nat) : Int) ≤ e.file_id
          · have h2 : (s : Int) ≤ e.file_id := by push_cast at h1; omega
            rw [if_pos h1, if_pos h2, hshift e (by push_cast at h1; omega)]
          · rw [if_neg h1]
            have h2 : ¬ (s : Int) ≤ e.file_id := by push_cast at h1; omega
            rw [if_neg h2]

/-- Function `process_create_fileptrs` in a table with distinct identifiers between 0
and `next_file_id`: every entry named by a slot from 3 on of the child, in which the
parent has an offset other than `-1`, has a new offset of the child with that
value, and nothing else changes. -/
theorem process_create_fileptrs_spec (k k1 : Kernel) (child : PCB)
    (hn : (k.open_files.map file_t.file_id).Nodup)
    (hlt : ∀ e ∈ k.open_files, 0 ≤ e.file_id ∧ e.file_id < k.next_file_id)
    (h : process_create_fileptrs k child = some k1) :
    k1 = { k with open_files := k.open_files.map (inherit_ptr child) } := by
  unfold process_create_fileptrs at h
  by_cases h0 : k.next_file_id = 0
  · rw [if_pos h0] at h
    simp only [Option.some.injEq] at h
    have hnil : k.open_files = [] := by
      cases hl : k.open_files with
      | nil => rfl
      | cons x xs =>
        have := hlt x (by rw [hl]; exact List.mem_cons_self _ _)
        omega
    subst h
    cases k with
    | mk a b c d e f g =>
      simp only at hnil
      subst hnil
      rfl
  · rw [if_neg h0] at h
    simp only [Option.bind_eq_bind] at h
    cases hf : fds_from3 child with
    | none => rw [hf] at h; cases h
    | some fds =>
      rw [hf] at h
      simp only [Option.some_bind] at h
      have hfds : fds = child.fileDescriptors.drop 3 := by
        unfold fds_from3 at hf
        split at hf
        · simp only [Option.some.injEq] at hf; exact hf.symm
        · cases hf
      cases hm : mark_file_ptrs k.open_files child.parent_pid fds
          (List.replicate k.next_file_id.toNat (-1)) with
      | none => rw [hm] at h; cases h
      | some arr =>
        rw [hm] at h
        simp only [Option.some_bind] at h
        cases ha : add_file_ptrs child.pid arr 0 k.open_files with
        | none => rw [ha] at h; cases h
        | some ofs1 =>
          rw [ha] at h
          simp only [Option.some_bind, Option.some.injEq] at h
          obtain ⟨hlen, hval⟩ := mark_file_ptrs_spec _ _ _ _ _ hm
          rw [List.length_replicate] at hlen hval
          rw [← h, add_file_ptrs_spec _ _ _ _ _ hn ha]
          congr 1
          apply List.map_congr_left
          intro e he
          obtain ⟨he0, he1⟩ := hlt e he
          have hi : e.file_id.toNat < k.next_file_id.toNat := by omega
          have hcast : ((e.file_id.toNat : Nat) : Int) = e.file_id := Int.toNat_of_nonneg he0
          have hfind : find_file_entry_by_file_id k.open_files e.file_id = some e :=
            find_file_entry_of_mem _ _ hn he
          have hv := hval e.file_id.toNat hi
          rw [hcast, hfind, List.getElem?_replicate, if_pos hi] at hv
          unfold add_ptr inherit_ptr
          rw [if_pos (by simpa using he0)]
          simp only [Nat.cast_zero, sub_zero]
          rw [hv, ← hfds]
          by_cases hmem : e.file_id ∈ fds
          · simp only [hmem, Option.isSome_some, and_self, if_true, Option.map_some', true_and]
            by_cases hp : get_fileptr_ptr e.fileptr_head child.parent_pid = -1
            · simp [hp]
            · simp [hp]
          · simp [hmem]

/-! ## The function `p_spawn` -/

theorem update_pcb_append_last (f : PCB → PCB) (l : List PCB) (c : PCB) (pid : Int)
    (hn : pid ∉ l.map PCB.pid) (hc : c.pid = pid) :
    update_pcb f (l ++ [c]) pid = l ++ [f c] := by
  induction l with
  | nil => simp [update_pcb, hc]
  | cons x xs ih =>
    simp only [List.map_cons, List.mem_cons, not_or] at hn
    have hx : ¬ x.pid = pid := fun h => hn.1 h.symm
    show update_pcb f (x :: (xs ++ [c])) pid = x :: (xs ++ [f c])
    rw [← ih hn.2]
    simp only [update_pcb, hx, if_false]

/-- The result of `k_process_create`: the new PCB has the next PID and the descriptor
table of the parent (or the initial table), and is the last PCB of the registry,
in which the other PCBs have their PIDs and descriptor tables as before. -/
theorem k_process_create_cases (k kc : Kernel) (parent : Option PCB) (child : PCB)
    (h : k_process_create k parent = some (kc, child)) :
    child.pid = k.next_pid ∧ kc.next_pid = k.next_pid + 1 ∧ kc.open_files = k.open_files ∧
    kc.next_file_id = k.next_file_id ∧
    (∃ P, kc.pcb_list = P ++ [child] ∧ pcbs_sub P k.pcb_list ∧
      P.map PCB.pid = k.pcb_list.map PCB.pid) ∧
    (∀ p, parent = some p →
      child.parent_pid = p.pid ∧ child.fileDescriptors = p.fileDescriptors) ∧
    (parent = none → child.fileDescriptors
      = [STDIN_ID, STDOUT_ID, STDERR_ID] ++ List.replicate (MAX_FDS - 3) NOFILE) := by
  unfold k_process_create at h
  simp only [Option.bind_eq_bind] at h
  cases hc : createPCB k parent with
  | none => rw [hc] at h; cases h
  | some res =>
    obtain ⟨k2, c⟩ := res
    rw [hc] at h
    simp only [Option.some_bind, Option.some.injEq, Prod.mk.injEq] at h
    obtain ⟨hk, hch⟩ := h
    subst hch
    unfold createPCB at hc
    cases parent with
    | none =>
      simp only [Option.some.injEq, Prod.mk.injEq] at hc
      obtain ⟨hk2, hcc⟩ := hc
      rw [← hk, ← hk2, ← hcc]
      refine ⟨rfl, rfl, rfl, rfl, ⟨k.pcb_list, rfl, pcbs_sub_refl _, rfl⟩, ?_, fun _ => rfl⟩
      intro p hp
      cases hp
    | some p =>
      simp only [] at hc
      split at hc
      · simp only [Option.some.injEq, Prod.mk.injEq] at hc
        obtain ⟨hk2, hcc⟩ := hc
        rw [← hk, ← hk2, ← hcc]
        refine ⟨rfl, rfl, rfl, rfl, ⟨_, rfl, ?_, ?_⟩, ?_, ?_⟩
        · exact pcbs_sub_update _ _ _ (fun _ => ⟨rfl, rfl⟩)
        · exact update_pcb_pids _ _ _ (fun _ _ => rfl)
        · intro p2 hp2
          cases hp2
          exact ⟨rfl, rfl⟩
        · intro hp2
          cases hp2
      · cases hc

/-- The steps of `p_spawn` after the parent was found. -/
theorem p_spawn_tail (k k1 : Kernel) (parent : Option PCB) (fd0 fd1 r : Int)
    (h : (do
      let (kc, child) ← k_process_create k parent
      let v0 ← fd_get child fd0
      let child1 ← fd_set child F_STDIN v0
      let v1 ← fd_get child1 fd1
      let child2 ← fd_set child1 F_STDOUT v1
      let output_fid ← fd_get child2 F_STDOUT
      let open_files1 ←
        if output_fid ≥ 0 then do
          let _ ← find_file_entry_by_file_id kc.open_files output_fid
          some (update_file_entry (fun e => { e with wr_pid := child2.pid }) kc.open_files
            output_fid)
        else some kc.open_files
      let k2 := { kc with
        open_files := open_files1
        pcb_list := update_pcb (fun _ => child2) kc.pcb_list child2.pid }
      let k3 ← process_create_fileptrs k2 child2
      some (k3, child2.pid)) = some (k1, r)) :
    ∃ (kc : Kernel) (child child2 : PCB) (ofs1 : List file_t),
      k_process_create k parent = some (kc, child) ∧
      child2.pid = child.pid ∧ child2.parent_pid = child.parent_pid ∧
      child2.fileDescriptors.drop 3 = child.fileDescriptors.drop 3 ∧
      child2.fileDescriptors.length = child.fileDescriptors.length ∧
      (ofs1 = kc.open_files ∨
        ∃ id, ofs1 = update_file_entry (fun e => { e with wr_pid := child2.pid })
          kc.open_files id) ∧
      process_create_fileptrs
        { kc with
          open_files := ofs1
          pcb_list := update_pcb (fun _ => child2) kc.pcb_list child2.pid } child2 = some k1 ∧
      r = child2.pid := by
  simp only [Option.bind_eq_bind] at h
  cases hc : k_process_create k parent with
  | none => rw [hc] at h; cases h
  | some res =>
    obtain ⟨kc, child⟩ := res
    rw [hc] at h
    simp only [Option.some_bind] at h
    cases h0 : fd_get child fd0 with
    | none => rw [h0] at h; cases h
    | some v0 =>
      rw [h0] at h
      simp only [Option.some_bind] at h
      cases hs0 : fd_set child F_STDIN v0 with
      | none => rw [hs0] at h; cases h
      | some child1 =>
        rw [hs0] at h
        simp only [Option.some_bind] at h
        cases h1 : fd_get child1 fd1 with
        | none => rw [h1] at h; cases h
        | some v1 =>
          rw [h1] at h
          simp only [Option.some_bind] at h
          cases hs1 : fd_set child1 F_STDOUT v1 with
          | none => rw [hs1] at h; cases h
          | some child2 =>
            rw [hs1] at h
            simp only [Option.some_bind] at h
            obtain ⟨_, _, _, hc1⟩ := fd_set_some _ _ _ _ hs0
            obtain ⟨_, _, _, hc2⟩ := fd_set_some _ _ _ _ hs1
            have hpid : child2.pid = child.pid := by rw [hc2, hc1]
            have hppid : child2.parent_pid = child.parent_pid := by rw [hc2, hc1]
            have hdrop : child2.fileDescriptors.drop 3 = child.fileDescriptors.drop 3 := by
              rw [hc2, hc1]
              simp only [F_STDIN, F_STDOUT, List.drop_set]
              simp
            have hlen : child2.fileDescriptors.length = child.fileDescriptors.length := by
              rw [hc2, hc1]
              simp only [List.length_set]
            cases hout : fd_get child2 F_STDOUT with
            | none => rw [hout] at h; cases h
            | some out =>
              rw [hout] at h
              simp only [Option.some_bind] at h
              by_cases hge : out ≥ 0
              · rw [if_pos hge] at h
                cases hfo : find_file_entry_by_file_id kc.open_files out with
                | none => rw [hfo] at h; simp at h
                | some feo =>
                  rw [hfo] at h
                  simp only [Option.some_bind] at h
                  cases hp : process_create_fileptrs
                      { kc with
                        open_files := update_file_entry (fun e => { e with wr_pid := child2.pid })
                          kc.open_files out
                        pcb_list := update_pcb (fun _ => child2) kc.pcb_list child2.pid }
                      child2 with
                  | none => rw [hp] at h; cases h
                  | some k3 =>
                    rw [hp] at h
                    simp only [Option.some_bind, Option.some.injEq, Prod.mk.injEq] at h
                    rw [← h.1, ← h.2]
                    exact ⟨kc, child, child2, _, rfl, hpid, hppid, hdrop, hlen,
                      Or.inr ⟨out, rfl⟩, hp, rfl⟩
              · rw [if_neg hge] at h
                cases hp : process_create_fileptrs
                    { kc with
                      open_files := kc.open_files
                      pcb_list := update_pcb (fun _ => child2) kc.pcb_list child2.pid }
                    child2 with
                | none => rw [hp] at h; cases h
                | some k3 =>
                  rw [hp] at h
                  simp only [Option.some_bind, Option.some.injEq, Prod.mk.injEq] at h
                  rw [← h.1, ← h.2]
                  exact ⟨kc, child, child2, _, rfl, hpid, hppid, hdrop, hlen,
                    Or.inl rfl, hp, rfl⟩

/-- The steps of a call of `p_spawn` that returns. -/
theorem p_spawn_cases (k k1 : Kernel) (fd0 fd1 r : Int) (h : p_spawn k fd0 fd1 = some (k1, r)) :
    ∃ (parent : Option PCB) (kc : Kernel) (child child2 : PCB) (ofs1 : List file_t),
      (parent = none ∧ k.current_pcb = none ∨ ∃ p, parent = some p ∧ cur_pcb k = some p) ∧
      k_process_create k parent = some (kc, child) ∧
      child2.pid = child.pid ∧ child2.parent_pid = child.parent_pid ∧
      child2.fileDescriptors.drop 3 = child.fileDescriptors.drop 3 ∧
      child2.fileDescriptors.length = child.fileDescriptors.length ∧
      (ofs1 = kc.open_files ∨
        ∃ id, ofs1 = update_file_entry (fun e => { e with wr_pid := child2.pid })
          kc.open_files id) ∧
      process_create_fileptrs
        { kc with
          open_files := ofs1
          pcb_list := update_pcb (fun _ => child2) kc.pcb_list child2.pid } child2 = some k1 ∧
      r = child2.pid := by
  unfold p_spawn at h
  cases hcp : k.current_pcb with
  | none =>
    rw [hcp] at h
    obtain ⟨kc, child, child2, ofs1, hrest⟩ := p_spawn_tail k k1 none fd0 fd1 r h
    exact ⟨none, kc, child, child2, ofs1, Or.inl ⟨rfl, rfl⟩, hrest⟩
  | some pid =>
    rw [hcp] at h
    dsimp only at h
    cases hf : findPCBByPID k.pcb_list pid with
    | none => rw [hf] at h; cases h
    | some p =>
      rw [hf] at h
      obtain ⟨kc, child, child2, ofs1, hrest⟩ := p_spawn_tail k k1 (some p) fd0 fd1 r h
      refine ⟨some p, kc, child, child2, ofs1, Or.inr ⟨p, rfl, ?_⟩, hrest⟩
      simp only [cur_pcb, hcp, Option.bind_eq_bind, Option.some_bind]
      exact hf

/-! ## The invariant under `p_spawn` -/

theorem inherit_ptr_file_id (child : PCB) (e : file_t) :
    (inherit_ptr child e).file_id = e.file_id := by
  unfold inherit_ptr
  split <;> rfl

/-- The two shapes of an entry after `process_create_fileptrs`. -/
theorem inherit_ptr_head (child : PCB) (e : file_t) :
    (inherit_ptr child e).fileptr_head = e.fileptr_head ∨
    (e.file_id ∈ child.fileDescriptors.drop 3 ∧
      get_fileptr_ptr e.fileptr_head child.parent_pid ≠ -1 ∧
      (inherit_ptr child e).fileptr_head
        = { pid := child.pid, ptr := get_fileptr_ptr e.fileptr_head child.parent_pid }
            :: e.fileptr_head) := by
  unfold inherit_ptr
  split
  · rename_i hc
    exact Or.inr ⟨hc.1, hc.2, rfl⟩
  · exact Or.inl rfl

/-- The invariant stated on the two tables and the two counters of a state. -/
theorem table_inv_mk (k1 : Kernel) (pcbs : List PCB) (ofs : List file_t) (np nf : Int)
    (hp : k1.pcb_list = pcbs) (ho : k1.open_files = ofs) (hnp : k1.next_pid = np)
    (hnf : k1.next_file_id = nf)
    (h1 : offsets_unique ofs)
    (h2 : ∀ e ∈ ofs, ∀ fp ∈ e.fileptr_head, ∀ pcb ∈ pcbs,
      pcb.pid = fp.pid → e.file_id ∈ pcb.fileDescriptors.drop 3)
    (h3 : ∀ e ∈ ofs, ∀ fp ∈ e.fileptr_head, fp.pid < np)
    (h4 : (ofs.map file_t.file_id).Nodup)
    (h5 : ∀ e ∈ ofs, 0 ≤ e.file_id ∧ e.file_id < nf)
    (h6 : 0 ≤ nf)
    (h7 : (pcbs.map PCB.pid).Nodup)
    (h8 : ∀ pcb ∈ pcbs, pcb.pid < np)
    (h9 : ∀ pcb ∈ pcbs, pcb.fileDescriptors.length = MAX_FDS) : table_inv k1 := by
  subst hp; subst ho; subst hnp; subst hnf
  exact ⟨h1, h2, h3, h4, h5, h6, h7, h8, h9⟩

/-- The invariant after `p_spawn`. -/
theorem table_inv_spawn (k k1 : Kernel) (fd0 fd1 r : Int) (h : table_inv k)
    (hs : p_spawn k fd0 fd1 = some (k1, r)) : table_inv k1 := by
  obtain ⟨parent, kc, child, child2, ofs1, hpar, hcreate, hpid, hppid, hdrop, hlen, hofs, hproc,
    _⟩ := p_spawn_cases k k1 fd0 fd1 r hs
  obtain ⟨hcpid, hnp, hof, hnf, ⟨P, hP, hPsub, hPpids⟩, hsome, hnone⟩ :=
    k_process_create_cases k kc parent child hcreate
  have hc2pid : child2.pid = k.next_pid := hpid.trans hcpid
  have hPlt : ∀ p ∈ P, p.pid < k.next_pid := by
    intro p hp
    obtain ⟨p0, hp0, hpe, _⟩ := hPsub.2 p hp
    rw [hpe]; exact h.pids_lt p0 hp0
  have hfresh : k.next_pid ∉ P.map PCB.pid := by
    intro hm
    obtain ⟨p, hp, hpe⟩ := List.mem_map.mp hm
    have := hPlt p hp
    omega
  have hreg : update_pcb (fun _ => child2) kc.pcb_list child2.pid = P ++ [child2] := by
    rw [hP, hc2pid]
    exact update_pcb_append_last _ _ _ _ hfresh hcpid
  have hofs_ids : ofs1.map file_t.file_id = k.open_files.map file_t.file_id := by
    rcases hofs with ho | ⟨id, ho⟩
    · rw [ho, hof]
    · rw [ho, hof]
      exact update_file_entry_ids (fun e => { e with wr_pid := child2.pid }) _ _ (fun _ _ => rfl)
  have hofs_mem : ∀ e1 ∈ ofs1, ∃ e ∈ k.open_files,
      e1.file_id = e.file_id ∧ e1.fileptr_head = e.fileptr_head := by
    intro e1 he1
    rcases hofs with ho | ⟨id, ho⟩
    · rw [ho, hof] at he1
      exact ⟨e1, he1, rfl, rfl⟩
    · rw [ho, hof] at he1
      rcases mem_update_file_entry _ _ _ e1 he1 with h1 | ⟨fe, hfe, h1⟩
      · exact ⟨e1, h1, rfl, rfl⟩
      · rw [h1]
        exact ⟨fe, (find_file_entry_by_file_id_mem _ _ _ hfe).1, rfl, rfl⟩
  have hk1 := process_create_fileptrs_spec _ k1 child2
    (by show (ofs1.map file_t.file_id).Nodup; rw [hofs_ids]; exact h.ids)
    (by
      intro e1 he1
      obtain ⟨e, he, hid, _⟩ := hofs_mem e1 he1
      show 0 ≤ e1.file_id ∧ e1.file_id < kc.next_file_id
      rw [hid, hnf]; exact h.ids_lt e he)
    hproc
  have hmem2 : ∀ e2 ∈ ofs1.map (inherit_ptr child2), ∃ e ∈ k.open_files,
      e2.file_id = e.file_id ∧
      (e2.fileptr_head = e.fileptr_head ∨
        (e.file_id ∈ child2.fileDescriptors.drop 3 ∧
          ∃ v, e2.fileptr_head = { pid := child2.pid, ptr := v } :: e.fileptr_head)) := by
    intro e2 he2
    obtain ⟨e1, he1, heq⟩ := List.mem_map.mp he2
    obtain ⟨e, he, hid, hhead⟩ := hofs_mem e1 he1
    refine ⟨e, he, by rw [← heq, inherit_ptr_file_id, hid], ?_⟩
    rcases inherit_ptr_head child2 e1 with h1 | ⟨h1, _, h3⟩
    · left; rw [← heq, h1, hhead]
    · right
      exact ⟨by rw [← hid]; exact h1, _, by rw [← heq, h3, hhead]⟩
  have hfp2 : ∀ e2 ∈ ofs1.map (inherit_ptr child2), ∀ fp2 ∈ e2.fileptr_head,
      ∃ e ∈ k.open_files, e2.file_id = e.file_id ∧
        ((∃ fp ∈ e.fileptr_head, fp.pid = fp2.pid) ∨
          (fp2.pid = k.next_pid ∧ e.file_id ∈ child2.fileDescriptors.drop 3)) := by
    intro e2 he2 fp2 hfp2
    obtain ⟨e, he, hid, hh⟩ := hmem2 e2 he2
    refine ⟨e, he, hid, ?_⟩
    rcases hh with h1 | ⟨h1, v, h2⟩
    · rw [h1] at hfp2; exact Or.inl ⟨fp2, hfp2, rfl⟩
    · rw [h2] at hfp2
      rcases List.mem_cons.mp hfp2 with h3 | h3
      · right; rw [h3]; exact ⟨hc2pid, h1⟩
      · exact Or.inl ⟨fp2, h3, rfl⟩
  have hchild_len : child2.fileDescriptors.length = MAX_FDS := by
    rw [hlen]
    rcases hpar with ⟨hp0, _⟩ | ⟨p, hp0, hcur⟩
    · rw [hnone hp0]; decide
    · rw [(hsome p hp0).2]
      exact h.fds_len p (findPCBByPID_mem _ _ _ (cur_pcb_pid k p hcur).2)
  refine table_inv_mk k1 (P ++ [child2]) (ofs1.map (inherit_ptr child2)) (k.next_pid + 1)
    k.next_file_id (by rw [hk1]; exact hreg) (by rw [hk1]) (by rw [hk1]; exact hnp)
    (by rw [hk1]; exact hnf) ?_ ?_ ?_ ?_ ?_ h.next_id ?_ ?_ ?_
  · intro e2 he2
    obtain ⟨e, he, _, hh⟩ := hmem2 e2 he2
    rcases hh with h1 | ⟨_, v, h2⟩
    · rw [h1]; exact h.uniq e he
    · rw [h2]
      simp only [List.map_cons, List.nodup_cons]
      refine ⟨?_, h.uniq e he⟩
      intro hm
      obtain ⟨fp, hfp, hfpe⟩ := List.mem_map.mp hm
      have := h.fp_lt e he fp hfp
      rw [hfpe, hc2pid] at this
      exact lt_irrefl _ this
  · intro e2 he2 fp2 hfp2m p2 hp2 hpe
    obtain ⟨e, he, hid, hh⟩ := hfp2 e2 he2 fp2 hfp2m
    rw [hid]
    rcases List.mem_append.mp hp2 with hp2P | hp2c
    · obtain ⟨p0, hp0, hpe0, hfds0⟩ := hPsub.2 p2 hp2P
      rcases hh with ⟨fp, hfp, hfpe⟩ | ⟨hnew, _⟩
      · rw [hfds0]
        exact h.slot e he fp hfp p0 hp0 (by rw [← hpe0, hpe, hfpe])
      · exfalso
        have := hPlt p2 hp2P
        rw [hpe, hnew] at this
        exact lt_irrefl _ this
    · simp only [List.mem_singleton] at hp2c
      rcases hh with ⟨fp, hfp, hfpe⟩ | ⟨_, hslot⟩
      · exfalso
        have := h.fp_lt e he fp hfp
        rw [hfpe, ← hpe, hp2c, hc2pid] at this
        exact lt_irrefl _ this
      · rw [hp2c]; exact hslot
  · intro e2 he2 fp2 hfp2m
    obtain ⟨e, he, _, hh⟩ := hfp2 e2 he2 fp2 hfp2m
    rcases hh with ⟨fp, hfp, hfpe⟩ | ⟨hnew, _⟩
    · have := h.fp_lt e he fp hfp
      rw [hfpe] at this
      omega
    · rw [hnew]; omega
  · rw [List.map_map]
    have : (file_t.file_id ∘ inherit_ptr child2) = file_t.file_id := by
      funext e
      exact inherit_ptr_file_id child2 e
    rw [this, hofs_ids]
    exact h.ids
  · intro e2 he2
    obtain ⟨e, he, hid, _⟩ := hmem2 e2 he2
    rw [hid]; exact h.ids_lt e he
  · rw [List.map_append, hPpids]
    simp only [List.map_cons, List.map_nil]
    refine List.Nodup.append h.pids (List.nodup_singleton _) ?_
    intro x hx hx2
    simp only [List.mem_singleton] at hx2
    rw [hx2, hc2pid, ← hPpids] at hx
    exact hfresh hx
  · intro p2 hp2
    rcases List.mem_append.mp hp2 with hp2P | hp2c
    · have := hPlt p2 hp2P
      omega
    · simp only [List.mem_singleton] at hp2c
      rw [hp2c, hc2pid]; omega
  · intro p2 hp2
    rcases List.mem_append.mp hp2 with hp2P | hp2c
    · obtain ⟨p0, hp0, _, hfds0⟩ := hPsub.2 p2 hp2P
      rw [hfds0]; exact h.fds_len p0 hp0
    · simp only [List.mem_singleton] at hp2c
      rw [hp2c]; exact hchild_len

/-- The state at the start of the program has the invariant. -/
theorem table_inv_boot (img : Image) : table_inv (boot img) := by
  refine ⟨?_, ?_, ?_, ?_, ?_, ?_, ?_, ?_, ?_⟩
  · intro e he; cases he
  · intro e he; cases he
  · intro e he; cases he
  · exact List.nodup_nil
  · intro e he; cases he
  · exact le_refl _
  · exact List.nodup_nil
  · intro p hp; cases hp
  · intro p hp; cases hp

/-- Every reachable state has the invariant. -/
theorem reachable_table_inv (k : Kernel) (h : Reachable k) : table_inv k := by
  induction h with
  | start img => exact table_inv_boot img
  | schedule k pcb _ _ ih => exact table_inv_congr k _ ih rfl rfl rfl rfl
  | by_open k k1 fname mode now r _ ho ih => exact table_inv_open k k1 fname mode now r ih ho
  | by_close k k1 fd r _ hc ih => exact table_inv_close k k1 fd r ih hc
  | by_unlink k k1 fname now r _ hu ih => exact table_inv_unlink k k1 fname now r ih hu
  | by_spawn k k1 fd0 fd1 r _ hs ih => exact table_inv_spawn k k1 fd0 fd1 r ih hs
  | by_kill k k1 pid sig r _ hk ih => exact table_inv_kill k k1 pid sig r ih hk
  | by_exit k k1 _ he ih => exact table_inv_exit k k1 ih he

/-! ## Claim C10: offset uniqueness -/

/-- Offset uniqueness along the calls that have a defined result: in every state that
the kernel reaches from the start of the program, where the open-files table is
empty, by the scheduler and by calls of `f_open`, `f_close`, `f_unlink`, `p_spawn`,
`p_kill` and `p_exit` with a defined result, no entry of the open-files table holds
two offsets of the same process. A call without a defined result has no successor
state here. -/
theorem offsets_unique_reachable (k : Kernel) (h : Reachable k) :
    offsets_unique k.open_files :=
  (reachable_table_inv k h).uniq

/-- Example: from the start of the program on the example image, `p_spawn` creates
process 1, the scheduler runs it and it opens `foo` for writing; the table of the
state reached has one entry. -/
theorem offsets_unique_reachable_witness :
    ∃ (k1 k2 : Kernel) (r : Int),
      p_spawn (boot (example_image 6)) 0 1 = some (k1, 1) ∧
      f_open (run_as k1 1) foo F_WRITE 9 = some (k2, r) ∧
      k2.open_files.length = 1 ∧ offsets_unique k2.open_files := by
  have hs : (p_spawn (boot (example_image 6)) 0 1).map
      (fun a => (a.2, a.1.pcb_list.map PCB.pid)) = some (1, [1]) := by decide
  have ho : ((p_spawn (boot (example_image 6)) 0 1).bind
      (fun a => f_open (run_as a.1 1) foo F_WRITE 9)).map (fun b => b.1.open_files.length)
      = some 1 := by decide
  cases hsp : p_spawn (boot (example_image 6)) 0 1 with
  | none => rw [hsp] at hs; cases hs
  | some a =>
    obtain ⟨k1, r1⟩ := a
    rw [hsp] at hs ho
    simp only [Option.map_some', Option.some.injEq, Prod.mk.injEq] at hs
    obtain ⟨hr1, hpids⟩ := hs
    subst hr1
    simp only [Option.some_bind] at ho
    cases hop : f_open (run_as k1 1) foo F_WRITE 9 with
    | none => rw [hop] at ho; cases ho
    | some b =>
      obtain ⟨k2, r⟩ := b
      rw [hop] at ho
      simp only [Option.map_some', Option.some.injEq] at ho
      have hmem : (1 : Int) ∈ k1.pcb_list.map PCB.pid := by rw [hpids]; simp
      obtain ⟨pcb, hpcb, hpid⟩ := List.mem_map.mp hmem
      have hr1 : Reachable k1 :=
        Reachable.by_spawn _ k1 0 1 1 (Reachable.start (example_image 6)) hsp
      have hr2 : Reachable (run_as k1 1) := by
        have := Reachable.schedule k1 pcb hr1 hpcb
        rw [hpid] at this
        exact this
      have hr3 : Reachable k2 := Reachable.by_open _ k2 foo F_WRITE 9 r hr2 hop
      exact ⟨k1, k2, r, rfl, hop, ho, offsets_unique_reachable k2 hr3⟩

/-! ## Claim C16: offsets at `p_spawn` -/

/-- Lookup of an offset in a list that has a new head for another process. -/
theorem get_fileptr_cons_ne (x : fileptr_t) (l : List fileptr_t) (q : Int) (h : q ≠ x.pid) :
    get_fileptr (x :: l) q = get_fileptr l q := by
  simp only [get_fileptr, h, if_false]

/-- The example kernel has the invariant of the reachable states. -/
theorem table_inv_example : table_inv (example_kernel 1 0 6) := by
  refine ⟨?_, ?_, ?_, ?_, ?_, ?_, ?_, ?_, ?_⟩
  · unfold offsets_unique; decide
  · decide
  · decide
  · decide
  · decide
  · decide
  · decide
  · decide
  · intro pcb hpcb
    simp only [example_kernel, List.mem_cons, List.mem_singleton, List.not_mem_nil,
      or_false] at hpcb
    rcases hpcb with h | h
    · rw [h]; exact example_fds_length _ (by decide)
    · rw [h]; exact example_fds_length _ (by decide)

/-- Claim C16: in a state with the invariant of the reachable states, when the running
process holds an offset `p` other than `-1` (the value by which the code marks the
absence of an offset) in the entry `file_id`, a call of `p_spawn` that returns gives
the next PID to the child, the entry then holds exactly one offset of the child,
equal to `p`, and the offsets of every other process in every entry are as before. -/
theorem p_spawn_inherits (k k1 : Kernel) (parent : PCB) (fd0 fd1 cpid file_id p : Int)
    (hinv : table_inv k) (hcur : cur_pcb k = some parent)
    (hsp : p_spawn k fd0 fd1 = some (k1, cpid))
    (hoff : offset_of k file_id parent.pid = some p) (hp : p ≠ -1) :
    cpid = k.next_pid ∧
    (∃ child, findPCBByPID k1.pcb_list cpid = some child ∧
      file_id ∈ child.fileDescriptors.drop 3) ∧
    offset_of k1 file_id cpid = some p ∧
    (∃ e1, find_file_entry_by_file_id k1.open_files file_id = some e1 ∧
      (e1.fileptr_head.map fileptr_t.pid).count cpid = 1) ∧
    (∀ fid q, q ≠ cpid → offset_of k1 fid q = offset_of k fid q) := by
  obtain ⟨par, kc, child, child2, ofs1, hpar, hcreate, hpid, hppid, hdrop, hlen, hofs, hproc,
    hr⟩ := p_spawn_cases k k1 fd0 fd1 cpid hsp
  obtain ⟨hcpid, hnp, hof, hnf, ⟨P, hP, hPsub, hPpids⟩, hsome, _⟩ :=
    k_process_create_cases k kc par child hcreate
  have hc2pid : child2.pid = k.next_pid := hpid.trans hcpid
  have hcp : cpid = k.next_pid := hr.trans hc2pid
  -- the parent
  have hpar2 : par = some parent := by
    rcases hpar with ⟨_, h0⟩ | ⟨p0, hp0, hcur0⟩
    · rw [cur_pcb, h0] at hcur; cases hcur
    · rw [hcur] at hcur0; cases hcur0; exact hp0
  obtain ⟨hchpar, hchfds⟩ := hsome parent hpar2
  have hc2par : child2.parent_pid = parent.pid := hppid.trans hchpar
  have hc2drop : child2.fileDescriptors.drop 3 = parent.fileDescriptors.drop 3 := by
    rw [hdrop, hchfds]
  have hpm : parent ∈ k.pcb_list := findPCBByPID_mem _ _ _ (cur_pcb_pid k parent hcur).2
  -- the table before the second loop
  obtain ⟨g, hg_id, hg_head, hofs1⟩ : ∃ g : file_t → file_t,
      (∀ e, (g e).file_id = e.file_id) ∧ (∀ e, (g e).fileptr_head = e.fileptr_head) ∧
      ofs1 = k.open_files.map g := by
    rcases hofs with ho | ⟨id, ho⟩
    · exact ⟨fun e => e, fun _ => rfl, fun _ => rfl, by rw [ho, hof, List.map_id']⟩
    · refine ⟨fun e => if e.file_id = id then { e with wr_pid := child2.pid } else e, ?_, ?_, ?_⟩
      · intro e; simp only []; split <;> rfl
      · intro e; simp only []; split <;> rfl
      · rw [ho, hof]; exact update_file_entry_eq_map _ _ _ hinv.ids
  have hids1 : (ofs1.map file_t.file_id).Nodup := by
    rw [hofs1, List.map_map]
    have : (file_t.file_id ∘ g) = file_t.file_id := funext hg_id
    rw [this]; exact hinv.ids
  have hk1 := process_create_fileptrs_spec _ k1 child2
    (by show (ofs1.map file_t.file_id).Nodup; exact hids1)
    (by
      intro e1 he1
      show 0 ≤ e1.file_id ∧ e1.file_id < kc.next_file_id
      rw [hofs1] at he1
      obtain ⟨e, he, heq⟩ := List.mem_map.mp he1
      rw [← heq, hg_id, hnf]; exact hinv.ids_lt e he)
    hproc
  have hopen : k1.open_files = k.open_files.map (fun e => inherit_ptr child2 (g e)) := by
    rw [hk1]
    show ofs1.map (inherit_ptr child2) = _
    rw [hofs1, List.map_map]
    rfl
  have hfind : ∀ fid, find_file_entry_by_file_id k1.open_files fid
      = (find_file_entry_by_file_id k.open_files fid).map (fun e => inherit_ptr child2 (g e)) := by
    intro fid
    rw [hopen]
    exact find_file_entry_map _ (fun e => by rw [inherit_ptr_file_id, hg_id]) _ _
  -- the entry of the claim
  unfold offset_of at hoff
  simp only [Option.bind_eq_bind] at hoff
  cases hfe : find_file_entry_by_file_id k.open_files file_id with
  | none => rw [hfe] at hoff; cases hoff
  | some e =>
    rw [hfe] at hoff
    simp only [Option.some_bind] at hoff
    cases hgp : get_fileptr e.fileptr_head parent.pid with
    | none => rw [hgp] at hoff; cases hoff
    | some fp =>
      rw [hgp] at hoff
      simp only [Option.some_bind, Option.some.injEq] at hoff
      obtain ⟨hem, heid⟩ := find_file_entry_by_file_id_mem _ _ _ hfe
      have hslot : file_id ∈ parent.fileDescriptors.drop 3 := by
        rw [← heid]
        exact hinv.slot e hem fp (get_fileptr_mem _ _ _ hgp) parent hpm
          (get_fileptr_pid _ _ _ hgp).symm
      have hptr : get_fileptr_ptr (g e).fileptr_head child2.parent_pid = p := by
        rw [hg_head, hc2par]
        simp only [get_fileptr_ptr, hgp]
        exact hoff
      have hcond : (g e).file_id ∈ child2.fileDescriptors.drop 3 ∧
          get_fileptr_ptr (g e).fileptr_head child2.parent_pid ≠ -1 := by
        rw [hg_id, heid, hc2drop, hptr]
        exact ⟨hslot, hp⟩
      have hhead : (inherit_ptr child2 (g e)).fileptr_head
          = { pid := cpid, ptr := p } :: e.fileptr_head := by
        unfold inherit_ptr
        rw [if_pos hcond, hptr, hg_head, hr]
        rfl
      have hchild : findPCBByPID k1.pcb_list cpid = some child2 := by
        have hpl : k1.pcb_list = update_pcb (fun _ => child2) kc.pcb_list child2.pid := by
          rw [hk1]
        have hfresh : k.next_pid ∉ P.map PCB.pid := by
          rw [hPpids]
          intro hm
          obtain ⟨q, hq, hqe⟩ := List.mem_map.mp hm
          have := hinv.pids_lt q hq
          omega
        rw [hpl, hP, hc2pid, update_pcb_append_last _ _ _ _ hfresh hcpid, hcp]
        have hnd : ((P ++ [child2]).map PCB.pid).Nodup := by
          rw [List.map_append, hPpids]
          simp only [List.map_cons, List.map_nil]
          refine List.Nodup.append hinv.pids (List.nodup_singleton _) ?_
          intro x hx hx2
          simp only [List.mem_singleton] at hx2
          rw [hx2, hc2pid, ← hPpids] at hx
          exact hfresh hx
        have := findPCBByPID_of_mem (P ++ [child2]) child2 hnd (by simp)
        rw [hc2pid] at this
        exact this
      refine ⟨hcp, ⟨child2, hchild, by rw [hc2drop]; exact hslot⟩, ?_, ?_, ?_⟩
      · unfold offset_of
        rw [hfind, hfe]
        simp only [Option.map_some', Option.bind_eq_bind, Option.some_bind, hhead, get_fileptr,
          if_true]
      · refine ⟨_, by rw [hfind, hfe]; rfl, ?_⟩
        rw [hhead]
        simp only [List.map_cons, List.count_cons_self]
        have : List.count cpid (e.fileptr_head.map fileptr_t.pid) = 0 := by
          rw [List.count_eq_zero]
          intro hm
          obtain ⟨fp2, hfp2, hfpe⟩ := List.mem_map.mp hm
          have := hinv.fp_lt e hem fp2 hfp2
          rw [hfpe, hcp] at this
          exact lt_irrefl _ this
        rw [this]
      · intro fid q hq
        unfold offset_of
        rw [hfind]
        cases hf2 : find_file_entry_by_file_id k.open_files fid with
        | none => rfl
        | some e2 =>
          simp only [Option.map_some', Option.bind_eq_bind, Option.some_bind]
          have : get_fileptr (inherit_ptr child2 (g e2)).fileptr_head q
              = get_fileptr e2.fileptr_head q := by
            rcases inherit_ptr_head child2 (g e2) with h1 | ⟨_, _, h1⟩
            · rw [h1, hg_head]
            · rw [h1, get_fileptr_cons_ne _ _ _ (by rw [← hr]; exact hq), hg_head]
          rw [this]

/-- Witness of claim C16: process 1 of the example kernel, which holds `foo` at offset 0
through descriptor 3, spawns a child. -/
theorem p_spawn_inherits_witness :
    ∃ k1 : Kernel, p_spawn (example_kernel 1 0 6) 0 1 = some (k1, 3) ∧
      offset_of k1 0 3 = some 0 ∧ offset_of k1 0 1 = some 0 := by
  have hs : (p_spawn (example_kernel 1 0 6) 0 1).isSome = true := by decide
  obtain ⟨⟨k1, r⟩, hsp⟩ := Option.isSome_iff_exists.mp hs
  obtain ⟨h1, _, h2, _, h3⟩ := p_spawn_inherits (example_kernel 1 0 6) k1 (example_pcb 1 [0]) 0 1 r
    0 0 table_inv_example (by decide) hsp (by decide) (by decide)
  have hr : r = 3 := h1
  subst hr
  refine ⟨k1, hsp, h2, ?_⟩
  rw [h3 0 1 (by decide)]
  decide

/-! ## Frame lemmas on the image -/

theorem mem_idx_congr (fat fat1 : List Nat) (h : fat1[0]? = fat[0]?) (b : Nat) :
    mem_idx fat1 b = mem_idx fat b := by
  unfold mem_idx
  rw [h]

theorem in_data_region_congr (fat fat1 : List Nat) (h : fat1[0]? = fat[0]?)
    (hl : fat1.length = fat.length) (addr count : Nat) :
    in_data_region fat1 addr count = in_data_region fat addr count := by
  unfold in_data_region
  rw [h, hl]

theorem mem_idx_some (fat : List Nat) (b addr : Nat) (h : mem_idx fat b = some addr) :
    ∃ m bs, fat[0]? = some m ∧ BLOCK_SIZE m = some bs ∧ 0 < bs ∧
      bs ≤ bs * FAT_BLOCKS m + bs * b ∧ addr + bs = bs * FAT_BLOCKS m + bs * b := by
  unfold mem_idx at h
  cases hm : fat[0]? with
  | none => rw [hm] at h; cases h
  | some m =>
    rw [hm] at h
    simp only [Option.bind_eq_bind, Option.some_bind] at h
    cases hb : BLOCK_SIZE m with
    | none => rw [hb] at h; cases h
    | some bs =>
      rw [hb] at h
      simp only [Option.some_bind] at h
      have hpos : 0 < bs := by
        unfold BLOCK_SIZE at hb
        split at hb
        · simp only [Option.some.injEq] at hb
          rw [← hb]
          exact Nat.mul_pos (by decide) (Nat.pos_pow_of_pos _ (by decide))
        · cases hb
      split at h
      · cases h
      · rename_i hlt
        simp only [Option.some.injEq] at h
        refine ⟨m, bs, rfl, hb, hpos, by omega, by omega⟩

/-- The blocks of different indices do not overlap. -/
theorem mem_idx_disjoint (fat : List Nat) (b1 b2 a1 a2 m bs : Nat) (hm : fat[0]? = some m)
    (hb : BLOCK_SIZE m = some bs) (h1 : mem_idx fat b1 = some a1) (h2 : mem_idx fat b2 = some a2)
    (hne : b1 ≠ b2) (a : Nat) (ha1 : a1 ≤ a ∧ a < a1 + bs) : ¬ (a2 ≤ a ∧ a < a2 + bs) := by
  obtain ⟨m1, bs1, hm1, hb1, hpos1, hge1, he1⟩ := mem_idx_some fat b1 a1 h1
  obtain ⟨m2, bs2, hm2, hb2, hpos2, hge2, he2⟩ := mem_idx_some fat b2 a2 h2
  rw [hm] at hm1 hm2
  cases hm1; cases hm2
  rw [hb] at hb1 hb2
  cases hb1; cases hb2
  intro ha2
  rcases Nat.lt_or_gt_of_ne hne with hlt | hgt
  · have : bs * (b1 + 1) ≤ bs * b2 := Nat.mul_le_mul_left _ hlt
    rw [Nat.mul_add, Nat.mul_one] at this
    omega
  · have : bs * (b2 + 1) ≤ bs * b1 := Nat.mul_le_mul_left _ hgt
    rw [Nat.mul_add, Nat.mul_one] at this
    omega

theorem disk_read_congr (d d1 : Nat → Nat) (addr count : Nat)
    (h : ∀ a, addr ≤ a → a < addr + count → d1 a = d a) :
    disk_read d1 addr count = disk_read d addr count := by
  unfold disk_read
  apply List.map_congr_left
  intro i hi
  rw [h (addr + i) (Nat.le_add_right _ _) (by have := List.mem_range.mp hi; omega)]

theorem disk_write_outside (d : Nat → Nat) (addr : Nat) (bytes : List Nat) (a : Nat)
    (h : ¬ (addr ≤ a ∧ a < addr + bytes.length)) : disk_write d addr bytes a = d a := by
  unfold disk_write
  rw [if_neg h]

theorem disk_read_length (d : Nat → Nat) (addr count : Nat) :
    (disk_read d addr count).length = count := by
  simp [disk_read]

/-- The bytes read back from the place of a write are the bytes written, modulo 256. -/
theorem disk_read_write (d : Nat → Nat) (addr : Nat) (bytes : List Nat) (L : Nat)
    (hL : L ≤ bytes.length) :
    disk_read (disk_write d addr bytes) addr L = (bytes.take L).map (fun x => x % 256) := by
  apply List.ext_getElem
  · simp [disk_read, List.length_take, hL]
  · intro i h1 h2
    simp only [disk_read, List.getElem_map, List.getElem_range, disk_write, List.getElem_take]
    have hi : i < L := by simpa [disk_read] using h1
    have hlt : i < bytes.length := Nat.lt_of_lt_of_le hi hL
    rw [if_pos ⟨Nat.le_add_right _ _, by omega⟩]
    simp only [Nat.add_sub_cancel_left, Nat.mod_mod]
    rw [List.getD_eq_getElem?_getD, List.getElem?_eq_getElem hlt]
    rfl

theorem same_geometry_refl (img : Image) : same_geometry img img := ⟨rfl, rfl⟩

theorem same_geometry_trans (a b c : Image) (h1 : same_geometry a b) (h2 : same_geometry b c) :
    same_geometry a c := ⟨h2.1.trans h1.1, h2.2.trans h1.2⟩

theorem same_geometry_symm (a b : Image) (h : same_geometry a b) : same_geometry b a :=
  ⟨h.1.symm, h.2.symm⟩

theorem same_block_refl (img : Image) (b : Nat) : same_block img img b :=
  ⟨rfl, fun _ _ _ _ _ _ _ _ _ => rfl⟩

theorem same_block_trans (a b c : Image) (blk : Nat) (hg : same_geometry a b)
    (h1 : same_block a b blk) (h2 : same_block b c blk) : same_block a c blk := by
  refine ⟨h2.1.trans h1.1, ?_⟩
  intro m bs addr hm hb ha x hx1 hx2
  rw [h2.2 m bs addr (hg.1.trans hm) hb (by rw [mem_idx_congr _ _ hg.1]; exact ha) x hx1 hx2]
  exact h1.2 m bs addr hm hb ha x hx1 hx2

theorem same_block_symm (a b : Image) (blk : Nat) (hg : same_geometry a b)
    (h : same_block a b blk) : same_block b a blk := by
  refine ⟨h.1.symm, ?_⟩
  intro m bs addr hm hb ha x hx1 hx2
  exact (h.2 m bs addr (hg.1.symm.trans hm) hb
    (by rw [← mem_idx_congr _ _ hg.1]; exact ha) x hx1 hx2).symm

/-- Result of the scan of `get_free_block`: 0, or the index of a cell that holds 0. -/
theorem get_free_block_loop_spec (fat : List Nat) :
    ∀ (k i r : Nat), get_free_block_loop fat k i = some r →
      r = 0 ∨ (i ≤ r ∧ fat[r]? = some 0) := by
  intro k
  induction k with
  | zero =>
    intro i r h
    simp only [get_free_block_loop, Option.some.injEq] at h
    exact Or.inl h.symm
  | succ k ih =>
    intro i r h
    simp only [get_free_block_loop] at h
    cases hv : fat[i]? with
    | none => rw [hv] at h; cases h
    | some v =>
      rw [hv] at h
      simp only [] at h
      by_cases h0 : v = 0
      · rw [if_pos h0] at h
        simp only [Option.some.injEq] at h
        right
        rw [← h]
        exact ⟨le_refl _, by rw [hv, h0]⟩
      · rw [if_neg h0] at h
        rcases ih (i + 1) r h with h1 | ⟨h1, h2⟩
        · exact Or.inl h1
        · exact Or.inr ⟨by omega, h2⟩

theorem get_free_block_spec (fat : List Nat) (r : Nat) (h : get_free_block fat = some r) :
    r = 0 ∨ (1 ≤ r ∧ fat[r]? = some 0) := by
  unfold get_free_block at h
  cases hm : fat[0]? with
  | none => rw [hm] at h; cases h
  | some m =>
    rw [hm] at h
    simp only [Option.bind_eq_bind, Option.some_bind] at h
    cases hb : BLOCK_SIZE m with
    | none => rw [hb] at h; cases h
    | some bs =>
      rw [hb] at h
      simp only [Option.some_bind] at h
      exact get_free_block_loop_spec fat _ 1 r h

theorem fat_set_some (fat fat1 : List Nat) (i v : Nat) (h : fat_set fat i v = some fat1) :
    i < fat.length ∧ fat1 = fat.set i (v % 65536) := by
  unfold fat_set at h
  split at h
  · rename_i hi
    simp only [Option.some.injEq] at h
    exact ⟨hi, h.symm⟩
  · cases h

/-- Function `delete_chain` on a chain without repetition: the cells outside the
chain are unchanged. -/
theorem delete_chain_loop_frame :
    ∀ (C : List Nat) (fat : List Nat) (head fuel : Nat) (fat2 : List Nat),
      is_chain fat head C → C.Nodup → delete_chain_loop fuel fat head = some fat2 →
      fat2.length = fat.length ∧ ∀ i, i ∉ C → fat2[i]? = fat[i]? := by
  intro C
  induction C with
  | nil =>
    intro fat head fuel fat2 hc _ h
    simp only [is_chain] at hc
    cases fuel with
    | zero => cases h
    | succ fuel =>
      simp only [delete_chain_loop, hc, if_true, Option.some.injEq] at h
      rw [← h]
      exact ⟨rfl, fun _ _ => rfl⟩
  | cons b rest ih =>
    intro fat head fuel fat2 hc hnd h
    simp only [is_chain] at hc
    obtain ⟨hhead, hbl, hb1, next, hnext, hrest⟩ := hc
    simp only [List.nodup_cons] at hnd
    cases fuel with
    | zero => cases h
    | succ fuel =>
      simp only [delete_chain_loop, hhead, hbl, if_false, hnext, Option.bind_eq_bind,
        Option.some_bind] at h
      cases hs : fat_set fat b 0 with
      | none => rw [hs] at h; cases h
      | some fat1 =>
        rw [hs] at h
        simp only [Option.some_bind] at h
        obtain ⟨hblt, hfat1⟩ := fat_set_some _ _ _ _ hs
        have hrest1 : is_chain fat1 next rest := by
          have key : ∀ (R : List Nat) (hd : Nat), b ∉ R → is_chain fat hd R →
              is_chain fat1 hd R := by
            intro R
            induction R with
            | nil => intro hd _ hh; exact hh
            | cons c R ihR =>
              intro hd hnot hh
              simp only [is_chain] at hh ⊢
              obtain ⟨h1, h2, h3, nx, h4, h5⟩ := hh
              simp only [List.mem_cons, not_or] at hnot
              refine ⟨h1, h2, h3, nx, ?_, ihR nx hnot.2 h5⟩
              rw [hfat1, List.getElem?_set_ne (fun hh => hnot.1 hh)]
              exact h4
          exact key rest next hnd.1 hrest
        obtain ⟨hl, hv⟩ := ih fat1 next fuel fat2 hrest1 hnd.2 h
        refine ⟨by rw [hl, hfat1, List.length_set], ?_⟩
        intro i hi
        simp only [List.mem_cons, not_or] at hi
        rw [hv i hi.2, hfat1, List.getElem?_set_ne (fun hh => hi.1 hh.symm)]

/-! ## The functions `build_chain` and `read_chain` -/

theorem seek_write_some (img img1 : Image) (addr : Nat) (bytes : List Nat)
    (h : seek_write img addr bytes = some img1) :
    in_data_region img.fat addr bytes.length = some true ∧
      img1 = { img with disk := disk_write img.disk addr bytes } := by
  unfold seek_write at h
  cases hr : in_data_region img.fat addr bytes.length with
  | none => rw [hr] at h; cases h
  | some ok =>
    rw [hr] at h
    simp only [Option.bind_eq_bind, Option.some_bind] at h
    cases ok with
    | false => simp at h
    | true =>
      simp only [if_true, Option.some.injEq] at h
      exact ⟨rfl, h.symm⟩

/-- A shorter read at the same place stays in the data region. -/
theorem in_data_region_mono (fat : List Nat) (addr c1 c2 : Nat) (h : c1 ≤ c2)
    (hr : in_data_region fat addr c2 = some true) : in_data_region fat addr c1 = some true := by
  unfold in_data_region at hr ⊢
  cases hm : fat[0]? with
  | none => rw [hm] at hr; cases hr
  | some m =>
    rw [hm] at hr
    simp only [Option.bind_eq_bind, Option.some_bind] at hr ⊢
    cases hb : BLOCK_SIZE m with
    | none => rw [hb] at hr; cases hr
    | some bs =>
      rw [hb] at hr
      simp only [Option.some_bind, Option.some.injEq, decide_eq_true_eq] at hr ⊢
      exact ⟨hr.1, by omega⟩

theorem seek_read_of_region (img : Image) (addr count : Nat)
    (h : in_data_region img.fat addr count = some true) :
    seek_read img addr count = some (disk_read img.disk addr count) := by
  simp [seek_read, h]

/-- The image after the cell of block `curr` was set and bytes were stored in block
`curr`: the other blocks are as before. -/
theorem same_block_of_write (img : Image) (addr curr v bs m : Nat) (bytes : List Nat)
    (hm : img.fat[0]? = some m) (hb : BLOCK_SIZE m = some bs)
    (haddr : mem_idx img.fat curr = some addr) (hlen : bytes.length ≤ bs) (i : Nat)
    (hi : i ≠ curr) :
    same_block img { fat := img.fat.set curr v, disk := disk_write img.disk addr bytes } i := by
  refine ⟨List.getElem?_set_ne (fun h => hi h.symm), ?_⟩
  intro m1 bs1 a1 hm1 hb1 ha1 a hx1 hx2
  rw [hm] at hm1
  cases hm1
  rw [hb] at hb1
  cases hb1
  apply disk_write_outside
  intro hc
  exact mem_idx_disjoint img.fat i curr a1 addr m bs hm hb ha1 haddr hi a ⟨hx1, hx2⟩
    ⟨hc.1, by omega⟩

theorem same_geometry_of_write (img : Image) (curr v : Nat) (d : Nat → Nat) (h1 : 1 ≤ curr) :
    same_geometry img { fat := img.fat.set curr v, disk := d } :=
  ⟨List.getElem?_set_ne (by omega), List.length_set _ _ _⟩

theorem BLOCK_SIZE_pos (m bs : Nat) (hb : BLOCK_SIZE m = some bs) : 0 < bs := by
  unfold BLOCK_SIZE at hb
  split at hb
  · simp only [Option.some.injEq] at hb
    rw [← hb]
    exact Nat.mul_pos (by decide) (Nat.pos_pow_of_pos _ (by decide))
  · cases hb

/-- The recursion of `build_chain` stops without a result at block 0. -/
theorem build_chain_rec_zero (fuel : Nat) (img : Image) (data : List Nat) (hd : data ≠ []) :
    build_chain_rec fuel img 0 data = none := by
  have hlen : ¬ data.length = 0 := fun h => hd (List.length_eq_zero.mp h)
  cases fuel with
  | zero => simp [build_chain_rec, hlen]
  | succ fuel =>
    simp only [build_chain_rec, hlen, if_false, Option.bind_eq_bind]
    cases hm : img.fat[0]? with
    | none => rfl
    | some m =>
      simp only [Option.some_bind]
      cases hb : BLOCK_SIZE m with
      | none => rfl
      | some bs =>
        simp only [Option.some_bind]
        cases hs : fat_set img.fat 0 LASTBLOCK with
        | none => rfl
        | some fat1 =>
          simp only [Option.some_bind]
          obtain ⟨hlt, hf1⟩ := fat_set_some _ _ _ _ hs
          have h0 : fat1[0]? = some LASTBLOCK := by
            rw [hf1, List.getElem?_set_self hlt]; rfl
          have hbs : BLOCK_SIZE LASTBLOCK = none := by decide
          have hmi : mem_idx fat1 0 = none := by
            simp [mem_idx, h0, hbs]
          have hgf : get_free_block fat1 = none := by
            simp [get_free_block, h0, hbs]
          split
          · simp [hmi]
          · simp [hgf]

/-- Function `build_chain` on a free block `curr`: the cells and the bytes of the
blocks that were in use are unchanged, and `read_chain` from `curr` reads the data
back, also in every image that agrees with the result on the blocks that were free. -/
theorem build_chain_rec_spec :
    ∀ (fuel : Nat) (img img1 : Image) (curr : Nat) (data : List Nat),
      data ≠ [] → 1 ≤ curr → img.fat[curr]? = some 0 → img.fat.length ≤ LASTBLOCK →
      build_chain_rec fuel img curr data = some img1 →
      same_geometry img img1 ∧
      (∀ i, img.fat[i]? ≠ some 0 → same_block img img1 i) ∧
      (∀ X : Image, same_geometry img1 X →
        (∀ i, img.fat[i]? = some 0 → same_block img1 X i) →
        ∀ L fuel2, L ≤ data.length → L ≤ fuel2 →
          read_chain_rec X fuel2 curr L = some ((data.take L).map (fun x => x % 256))) := by
  intro fuel
  induction fuel with
  | zero =>
    intro img img1 curr data hd _ _ _ h
    have hlen : ¬ data.length = 0 := fun hh => hd (List.length_eq_zero.mp hh)
    simp [build_chain_rec, hlen] at h
  | succ fuel ih =>
    intro img img1 curr data hd h1 hfree hlenfat h
    have hlen : ¬ data.length = 0 := fun hh => hd (List.length_eq_zero.mp hh)
    simp only [build_chain_rec, hlen, if_false, Option.bind_eq_bind] at h
    cases hm : img.fat[0]? with
    | none => rw [hm] at h; cases h
    | some m =>
      rw [hm] at h
      simp only [Option.some_bind] at h
      cases hb : BLOCK_SIZE m with
      | none => rw [hb] at h; cases h
      | some bs =>
        rw [hb] at h
        simp only [Option.some_bind] at h
        cases hs : fat_set img.fat curr LASTBLOCK with
        | none => rw [hs] at h; cases h
        | some fat1 =>
          rw [hs] at h
          simp only [Option.some_bind] at h
          obtain ⟨hclt, hf1⟩ := fat_set_some _ _ _ _ hs
          have hcl : curr ≠ LASTBLOCK := by omega
          have hbspos : 0 < bs := BLOCK_SIZE_pos m bs hb
          have hf10 : fat1[0]? = some m := by
            rw [hf1, List.getElem?_set_ne (by omega)]; exact hm
          have hf1len : fat1.length = img.fat.length := by rw [hf1, List.length_set]
          -- the read of length 0
          have hread0 : ∀ (X : Image) (fuel2 : Nat),
              read_chain_rec X fuel2 curr 0 = some [] := by
            intro X fuel2
            cases fuel2 with
            | zero => rfl
            | succ f => simp [read_chain_rec, hcl]
          by_cases hle : data.length ≤ bs
          · -- one block
            rw [if_pos hle] at h
            cases ha : mem_idx fat1 curr with
            | none => rw [ha] at h; cases h
            | some addr =>
              rw [ha] at h
              simp only [Option.some_bind] at h
              obtain ⟨hreg, himg1⟩ := seek_write_some _ _ _ _ h
              have haddr : mem_idx img.fat curr = some addr := by
                rw [← mem_idx_congr img.fat fat1 (hf10.trans hm.symm)]; exact ha
              have himg1' : img1 = Image.mk (img.fat.set curr (LASTBLOCK % 65536))
                  (disk_write img.disk addr data) := by
                rw [himg1, hf1]
              have hgeo : same_geometry img img1 := by
                rw [himg1']; exact same_geometry_of_write img curr _ _ h1
              refine ⟨hgeo, ?_, ?_⟩
              · intro i hi
                rw [himg1']
                exact same_block_of_write img addr curr _ bs m data hm hb haddr hle i
                  (fun hh => hi (by rw [hh]; exact hfree))
              · intro X hgX hX L fuel2 hL hF
                cases L with
                | zero => rw [hread0]; rfl
                | succ L =>
                  cases fuel2 with
                  | zero => omega
                  | succ f =>
                    have hXm : X.fat[0]? = some m := (hgX.1.trans hgeo.1).trans hm
                    have hXa : mem_idx X.fat curr = some addr := by
                      rw [mem_idx_congr img.fat X.fat (hgX.1.trans hgeo.1)]; exact haddr
                    have hLbs : L + 1 ≤ bs := by omega
                    have hregX : in_data_region X.fat addr (L + 1) = some true := by
                      rw [in_data_region_congr fat1 X.fat
                        ((hgX.1.trans hgeo.1).trans (hm.trans hf10.symm))
                        ((hgX.2.trans hgeo.2).trans hf1len.symm)]
                      exact in_data_region_mono _ _ _ _ hL hreg
                    have hdisk : disk_read X.disk addr (L + 1)
                        = (data.take (L + 1)).map (fun x => x % 256) := by
                      rw [disk_read_congr img1.disk X.disk addr (L + 1) (fun a ha1 ha2 =>
                        (hX curr hfree).2 m bs addr (hgeo.1.trans hm) hb
                          (by rw [mem_idx_congr img.fat img1.fat hgeo.1]; exact haddr) a ha1
                          (by omega))]
                      rw [himg1']
                      exact disk_read_write _ _ _ _ hL
                    simp only [read_chain_rec, hcl, if_false, Nat.succ_ne_zero, hXm,
                      Option.bind_eq_bind, Option.some_bind, hb, hXa, hLbs, if_true,
                      Nat.add_one_ne_zero]
                    rw [seek_read_of_region _ _ _ hregX, hdisk]
          · -- several blocks
            rw [if_neg hle] at h
            cases hg : get_free_block fat1 with
            | none => rw [hg] at h; cases h
            | some next =>
              rw [hg] at h
              simp only [Option.some_bind] at h
              have hdrop : data.drop bs ≠ [] := by
                intro hh
                have := congrArg List.length hh
                simp only [List.length_drop, List.length_nil] at this
                omega
              cases hr : build_chain_rec fuel { img with fat := fat1 } next (data.drop bs) with
              | none => rw [hr] at h; cases h
              | some img2 =>
                rw [hr] at h
                simp only [Option.some_bind] at h
                have hnext : 1 ≤ next ∧ fat1[next]? = some 0 := by
                  rcases get_free_block_spec fat1 next hg with h0 | h0
                  · rw [h0, build_chain_rec_zero _ _ _ hdrop] at hr; cases hr
                  · exact h0
                have hnc : next ≠ curr := by
                  intro hh
                  have := hnext.2
                  rw [hh, hf1, List.getElem?_set_self hclt] at this
                  cases this
                have hnfree : img.fat[next]? = some 0 := by
                  have := hnext.2
                  rw [hf1, List.getElem?_set_ne (fun hh => hnc hh.symm)] at this
                  exact this
                obtain ⟨hgeo2, hP2, hP4⟩ := ih { img with fat := fat1 } img2 next (data.drop bs)
                  hdrop hnext.1 hnext.2 (by show fat1.length ≤ LASTBLOCK; omega) hr
                cases hs3 : fat_set img2.fat curr next with
                | none => rw [hs3] at h; cases h
                | some fat3 =>
                  rw [hs3] at h
                  simp only [Option.some_bind] at h
                  obtain ⟨hclt3, hf3⟩ := fat_set_some _ _ _ _ hs3
                  cases ha : mem_idx fat3 curr with
                  | none => rw [ha] at h; cases h
                  | some addr =>
                    rw [ha] at h
                    simp only [Option.some_bind] at h
                    obtain ⟨hreg, himg1⟩ := seek_write_some _ _ _ _ h
                    have hm2 : img2.fat[0]? = some m := hgeo2.1.trans hf10
                    have hf30 : fat3[0]? = some m := by
                      rw [hf3, List.getElem?_set_ne (by omega)]; exact hm2
                    have haddr2 : mem_idx img2.fat curr = some addr := by
                      rw [← mem_idx_congr img2.fat fat3 (hf30.trans hm2.symm)]; exact ha
                    have haddr : mem_idx img.fat curr = some addr := by
                      rw [← mem_idx_congr img.fat img2.fat (hm2.trans hm.symm)]; exact haddr2
                    have htl : (data.take bs).length = bs := by
                      rw [List.length_take]; omega
                    have himg1' : img1 = Image.mk (img2.fat.set curr (next % 65536))
                        (disk_write img2.disk addr (data.take bs)) := by
                      rw [himg1, hf3]
                    have hnlt : next < img.fat.length := by
                      have := (List.getElem?_eq_some.mp hnfree).1
                      exact this
                    have hnmod : next % 65536 = next := by
                      apply Nat.mod_eq_of_lt
                      have : LASTBLOCK = 65535 := rfl
                      omega
                    have hg21 : same_geometry img2 img1 := by
                      rw [himg1']; exact same_geometry_of_write img2 curr _ _ h1
                    have hgA : same_geometry img { img with fat := fat1 } :=
                      ⟨hf10.trans hm.symm, hf1len⟩
                    have hgeo : same_geometry img img1 :=
                      same_geometry_trans _ _ _ (same_geometry_trans _ _ _ hgA hgeo2) hg21
                    have hsb21 : ∀ i, i ≠ curr → same_block img2 img1 i := by
                      intro i hi
                      rw [himg1']
                      exact same_block_of_write img2 addr curr _ bs m _ hm2 hb haddr2
                        (by rw [htl]) i hi
                    have hsbA : ∀ i, i ≠ curr → same_block img { img with fat := fat1 } i := by
                      intro i hi
                      refine ⟨?_, fun _ _ _ _ _ _ _ _ _ => rfl⟩
                      show fat1[i]? = img.fat[i]?
                      rw [hf1, List.getElem?_set_ne (fun hh => hi hh.symm)]
                    refine ⟨hgeo, ?_, ?_⟩
                    · intro i hi
                      have hic : i ≠ curr := fun hh => hi (by rw [hh]; exact hfree)
                      have hiA : ({ img with fat := fat1 } : Image).fat[i]? ≠ some 0 := by
                        show fat1[i]? ≠ some 0
                        rw [hf1, List.getElem?_set_ne (fun hh => hic hh.symm)]
                        exact hi
                      exact same_block_trans _ _ _ i
                        (same_geometry_trans _ _ _ hgA hgeo2)
                        (same_block_trans _ _ _ i hgA (hsbA i hic) (hP2 i hiA))
                        (hsb21 i hic)
                    · intro X hgX hX L fuel2 hL hF
                      cases L with
                      | zero => rw [hread0]; rfl
                      | succ L =>
                        cases fuel2 with
                        | zero => omega
                        | succ f =>
                          have hXm : X.fat[0]? = some m := (hgX.1.trans hgeo.1).trans hm
                          have hXa : mem_idx X.fat curr = some addr := by
                            rw [mem_idx_congr img.fat X.fat (hgX.1.trans hgeo.1)]; exact haddr
                          have hXdisk : ∀ c, c ≤ bs → disk_read X.disk addr c
                              = ((data.take bs).take c).map (fun x => x % 256) := by
                            intro c hc
                            rw [disk_read_congr img1.disk X.disk addr c (fun a ha1 ha2 =>
                              (hX curr hfree).2 m bs addr (hgeo.1.trans hm) hb
                                (by rw [mem_idx_congr img.fat img1.fat hgeo.1]; exact haddr) a ha1
                                (by omega))]
                            rw [himg1']
                            exact disk_read_write _ _ _ _ (by rw [htl]; exact hc)
                          have hregX : ∀ c, c ≤ bs → in_data_region X.fat addr c = some true := by
                            intro c hc
                            rw [in_data_region_congr fat3 X.fat
                              ((hgX.1.trans hg21.1).trans (hm2.trans hf30.symm))
                              ((hgX.2.trans hg21.2).trans (by rw [hf3, List.length_set]))]
                            exact in_data_region_mono _ _ _ _ (by rw [htl]; exact hc) hreg
                          by_cases hLbs : L + 1 ≤ bs
                          · simp only [read_chain_rec, hcl, if_false, hXm,
                              Option.bind_eq_bind, Option.some_bind, hb, hXa, hLbs, if_true,
                              Nat.add_one_ne_zero]
                            rw [seek_read_of_region _ _ _ (hregX _ hLbs), hXdisk _ hLbs,
                              List.take_take, Nat.min_eq_left hLbs]
                          · have hXnext : X.fat[curr]? = some next := by
                              rw [(hX curr hfree).1, himg1']
                              show (img2.fat.set curr (next % 65536))[curr]? = some next
                              rw [List.getElem?_set_self hclt3, hnmod]
                            have hrest := hP4 X (same_geometry_trans _ _ _ hg21 hgX)
                              (by
                                intro i hi
                                have hi1 : fat1[i]? = some 0 := hi
                                have hic : i ≠ curr := by
                                  intro hh
                                  rw [hh, hf1, List.getElem?_set_self hclt] at hi1
                                  cases hi1
                                have hi0 : img.fat[i]? = some 0 := by
                                  rw [hf1, List.getElem?_set_ne (fun hh => hic hh.symm)] at hi1
                                  exact hi1
                                exact same_block_trans _ _ _ i hg21 (hsb21 i hic) (hX i hi0))
                              (L + 1 - bs) f
                              (by rw [List.length_drop]; omega) (by omega)
                            simp only [read_chain_rec, hcl, if_false, hXm,
                              Option.bind_eq_bind, Option.some_bind, hb, hXa, hLbs,
                              Nat.add_one_ne_zero]
                            rw [seek_read_of_region _ _ _ (hregX bs (le_refl _)),
                              hXdisk bs (le_refl _)]
                            simp only [Option.some_bind, hXnext, hrest, Option.some.injEq]
                            rw [← List.map_append]
                            congr 1
                            rw [List.take_take, Nat.min_self]
                            have hsplit : L + 1 = bs + (L + 1 - bs) := by omega
                            conv_rhs => rw [hsplit, List.take_add]

/-! ## The directory lookup in a changed image -/

/-- The lookup in a block whose bytes are the same in the two images. -/
theorem find_in_block_congr (img X : Image) (name : List Nat) (blk addr bs : Nat)
    (hg : same_geometry img X)
    (hbytes : ∀ a, addr ≤ a → a < addr + bs → X.disk a = img.disk a) :
    ∀ (k i : Nat), (i + k) * DIR_ENTRY_SIZE ≤ bs →
      find_in_block X name blk addr k i = find_in_block img name blk addr k i := by
  intro k
  induction k with
  | zero => intro i _; rfl
  | succ k ih =>
    intro i hik
    have hD : DIR_ENTRY_SIZE = 64 := rfl
    have hrd : seek_read X (addr + i * DIR_ENTRY_SIZE) DIR_ENTRY_SIZE
        = seek_read img (addr + i * DIR_ENTRY_SIZE) DIR_ENTRY_SIZE := by
      unfold seek_read
      rw [in_data_region_congr img.fat X.fat hg.1 hg.2,
        disk_read_congr img.disk X.disk _ _ (fun a h1 h2 => hbytes a (by omega) (by
          rw [hD] at h1 h2 hik
          have : (i + (k + 1)) * 64 = i * 64 + k * 64 + 64 := by ring
          omega))]
    simp only [find_in_block, hrd]
    rw [ih (i + 1) (by
      have : i + 1 + k = i + (k + 1) := by omega
      rw [this]; exact hik)]

/-- The blocks of a chain are at least 1 and their cells hold a link other than 0. -/
theorem is_chain_mem (fat : List Nat) :
    ∀ (D : List Nat) (head : Nat), is_chain fat head D →
      ∀ b ∈ D, 1 ≤ b ∧ ∃ v, fat[b]? = some v ∧ v ≠ 0 := by
  intro D
  induction D with
  | nil => intro head _ b hb; cases hb
  | cons d rest ih =>
    intro head hc b hb
    simp only [is_chain] at hc
    obtain ⟨_, _, hd1, next, hnext, hrest⟩ := hc
    rcases List.mem_cons.mp hb with h | h
    · rw [h]
      refine ⟨hd1, next, hnext, ?_⟩
      cases rest with
      | nil =>
        simp only [is_chain] at hrest
        rw [hrest]; decide
      | cons r rs =>
        simp only [is_chain] at hrest
        omega
    · exact ih next hrest b h

/-- The lookup along a chain whose blocks are the same in the two images. -/
theorem find_file_loop_congr (img X : Image) (name : List Nat) (bs m : Nat)
    (hg : same_geometry img X) (hm : img.fat[0]? = some m) (hb : BLOCK_SIZE m = some bs) :
    ∀ (D : List Nat) (fuel curr : Nat), is_chain img.fat curr D →
      (∀ b ∈ D, same_block img X b) →
      find_file_loop X name bs fuel curr = find_file_loop img name bs fuel curr := by
  intro D
  induction D with
  | nil =>
    intro fuel curr hc _
    simp only [is_chain] at hc
    cases fuel with
    | zero => rfl
    | succ fuel => simp [find_file_loop, hc]
  | cons d rest ih =>
    intro fuel curr hc hsb
    simp only [is_chain] at hc
    obtain ⟨hcd, hdl, _, next, hnext, hrest⟩ := hc
    cases fuel with
    | zero => rfl
    | succ fuel =>
      have hsd := hsb d (List.mem_cons_self _ _)
      simp only [find_file_loop, hcd, hdl, if_false, Option.bind_eq_bind]
      rw [mem_idx_congr img.fat X.fat hg.1]
      cases ha : mem_idx img.fat d with
      | none => rfl
      | some addr =>
        simp only [Option.some_bind]
        rw [find_in_block_congr img X name d addr bs hg
          (fun a h1 h2 => hsd.2 m bs addr hm hb ha a h1 h2) _ 0
          (by rw [Nat.zero_add]; exact Nat.div_mul_le_self _ _)]
        cases hr : find_in_block img name d addr (bs / DIR_ENTRY_SIZE) 0 with
        | none => rfl
        | some r =>
          simp only [Option.some_bind]
          cases r with
          | some hit => rfl
          | none =>
            simp only []
            rw [hsd.1, hnext]
            simp only [Option.some_bind]
            exact ih fuel next hrest (fun b hb2 => hsb b (List.mem_cons_of_mem _ hb2))

/-- The block of the entry that the lookup finds is a block of the directory chain,
and the entry is found by the lookup in that block. -/
theorem find_file_loop_hit (img : Image) (name : List Nat) (bs : Nat) :
    ∀ (D : List Nat) (fuel curr : Nat) (loc : point_t) (e : dir_entry_t),
      is_chain img.fat curr D →
      find_file_loop img name bs fuel curr = some (some (loc, e)) →
      loc.first ∈ D ∧ ∃ addr, mem_idx img.fat loc.first = some addr ∧
        find_in_block img name loc.first addr (bs / DIR_ENTRY_SIZE) 0 = some (some (loc, e)) := by
  intro D
  induction D with
  | nil =>
    intro fuel curr loc e hc h
    simp only [is_chain] at hc
    cases fuel with
    | zero => cases h
    | succ fuel => simp [find_file_loop, hc] at h
  | cons d rest ih =>
    intro fuel curr loc e hc h
    simp only [is_chain] at hc
    obtain ⟨hcd, hdl, _, next, hnext, hrest⟩ := hc
    cases fuel with
    | zero => cases h
    | succ fuel =>
      simp only [find_file_loop, hcd, hdl, if_false, Option.bind_eq_bind] at h
      cases ha : mem_idx img.fat d with
      | none => rw [ha] at h; cases h
      | some addr =>
        rw [ha] at h
        simp only [Option.some_bind] at h
        cases hr : find_in_block img name d addr (bs / DIR_ENTRY_SIZE) 0 with
        | none => rw [hr] at h; cases h
        | some r =>
          rw [hr] at h
          simp only [Option.some_bind] at h
          cases r with
          | some hit =>
            simp only [Option.some.injEq] at h
            subst h
            have hf := (find_in_block_found img name d addr _ _ loc e hr).1
            rw [hf]
            exact ⟨List.mem_cons_self _ _, addr, ha, hr⟩
          | none =>
            simp only [] at h
            rw [hnext] at h
            simp only [Option.some_bind] at h
            obtain ⟨h1, h2⟩ := ih fuel next loc e hrest h
            exact ⟨List.mem_cons_of_mem _ h1, h2⟩

/-- The lookup in the block of the entry after the 64 bytes of the entry were
replaced by bytes that decode to an entry with the same name. -/
theorem find_in_block_rewrite (img : Image) (name : List Nat) (blk addr bs : Nat)
    (loc : point_t) (e : dir_entry_t) (bytes : List Nat) (hlen : bytes.length = DIR_ENTRY_SIZE)
    (hname : (dir_entry_t.decode (bytes.map (fun x => x % 256))).name = e.name) :
    ∀ (k i : Nat), (i + k) * DIR_ENTRY_SIZE ≤ bs →
      find_in_block img name blk addr k i = some (some (loc, e)) →
      find_in_block
          { img with disk := disk_write img.disk (addr + loc.second * DIR_ENTRY_SIZE) bytes }
          name blk addr k i
        = some (some (loc, dir_entry_t.decode (bytes.map (fun x => x % 256)))) := by
  intro k
  induction k with
  | zero => intro i _ h; simp [find_in_block] at h
  | succ k ih =>
    intro i hik h
    have hD : DIR_ENTRY_SIZE = 64 := rfl
    obtain ⟨hfirst, hile, _, hseek, _, hdel, hcmp⟩ :=
      find_in_block_found img name blk addr _ _ loc e h
    have hregion := (seek_read_some _ _ _ _ hseek).1
    by_cases hi : i = loc.second
    · -- the slot of the entry
      have hrd : seek_read
          { img with disk := disk_write img.disk (addr + loc.second * DIR_ENTRY_SIZE) bytes }
          (addr + i * DIR_ENTRY_SIZE) DIR_ENTRY_SIZE = some (bytes.map (fun x => x % 256)) := by
        rw [hi]
        unfold seek_read
        show (in_data_region img.fat _ _).bind _ = _
        rw [hregion]
        simp only [Option.some_bind, if_true, Option.some.injEq]
        have := disk_read_write img.disk (addr + loc.second * DIR_ENTRY_SIZE) bytes
          DIR_ENTRY_SIZE (by rw [hlen])
        rw [this, ← hlen, List.take_length]
      simp only [find_in_block, hrd, Option.bind_eq_bind, Option.some_bind, hname, hdel, if_false,
        hcmp, if_true]
      cases loc
      simp only at hfirst hi
      subst hfirst; subst hi
      rfl
    · -- a slot before the entry
      have hlt : i < loc.second := by omega
      have hrd : seek_read
          { img with disk := disk_write img.disk (addr + loc.second * DIR_ENTRY_SIZE) bytes }
          (addr + i * DIR_ENTRY_SIZE) DIR_ENTRY_SIZE
          = seek_read img (addr + i * DIR_ENTRY_SIZE) DIR_ENTRY_SIZE := by
        unfold seek_read
        show (in_data_region img.fat _ _).bind _ = (in_data_region img.fat _ _).bind _
        rw [disk_read_congr img.disk _ _ _ (fun a h1 h2 => disk_write_outside _ _ _ _ (by
          rw [hlen, hD] at *
          intro hc
          have : (i + 1) * 64 ≤ loc.second * 64 := Nat.mul_le_mul_right _ hlt
          rw [Nat.add_mul] at this
          omega))]
      have hnext : find_in_block img name blk addr k (i + 1) = some (some (loc, e)) := by
        unfold find_in_block at h
        cases hr : seek_read img (addr + i * DIR_ENTRY_SIZE) DIR_ENTRY_SIZE with
        | none => rw [hr] at h; cases h
        | some bs0 =>
          rw [hr] at h
          simp only [Option.bind_eq_bind, Option.some_bind] at h
          split at h
          · exact h
          · cases hc : strcmp_name name (dir_entry_t.decode bs0).name with
            | none => rw [hc] at h; cases h
            | some same =>
              rw [hc] at h
              simp only [Option.some_bind] at h
              cases same with
              | true =>
                simp only [if_true, Option.some.injEq, Prod.mk.injEq] at h
                exfalso
                apply hi
                rw [← h.1]
              | false =>
                simp only [Bool.false_eq_true, if_false] at h
                exact h
      have hrec := ih (i + 1) (by
        have : i + 1 + k = i + (k + 1) := by omega
        rw [this]; exact hik) hnext
      unfold find_in_block at h ⊢
      rw [hrd]
      cases hr : seek_read img (addr + i * DIR_ENTRY_SIZE) DIR_ENTRY_SIZE with
      | none => rw [hr] at h; cases h
      | some bs0 =>
        rw [hr] at h
        simp only [Option.bind_eq_bind, Option.some_bind] at h ⊢
        split
        · exact hrec
        · cases hc : strcmp_name name (dir_entry_t.decode bs0).name with
          | none =>
            rw [hc] at h
            rename_i hnd
            simp only [hnd, if_false] at h
            cases h
          | some same =>
            simp only [Option.some_bind]
            cases same with
            | true =>
              rename_i hnd
              rw [hc] at h
              simp only [hnd, if_false, Option.some_bind, if_true, Option.some.injEq,
                Prod.mk.injEq] at h
              exfalso
              apply hi
              rw [← h.1]
            | false =>
              simp only [Bool.false_eq_true, if_false]
              exact hrec

/-! ## The directory entry on disk and the function `fs_cat` in its overwrite mode -/

theorem le_value_le_bytes (v k : Nat) : le_value (le_bytes v k) = v % 256 ^ k := by
  induction k generalizing v with
  | zero => simp [le_bytes, le_value, Nat.mod_one]
  | succ k ih =>
    simp only [le_bytes, le_value, ih, Nat.mod_mod]
    rw [pow_succ', Nat.mod_mul]

theorem le_bytes_map_mod (v k : Nat) : (le_bytes v k).map (fun x => x % 256) = le_bytes v k := by
  induction k generalizing v with
  | zero => rfl
  | succ k ih => simp only [le_bytes, List.map_cons, Nat.mod_mod, ih]

theorem encode_map_mod (e : dir_entry_t) : e.encode.map (fun x => x % 256) = e.encode := by
  simp only [dir_entry_t.encode, List.map_append, List.map_map, le_bytes_map_mod, List.map_cons,
    List.map_nil, Nat.mod_mod]
  congr 1
  · congr 1
    congr 1
    congr 1
    congr 1
    apply List.map_congr_left
    intro i _
    simp [Function.comp]
  · apply List.map_congr_left
    intro i _
    simp [Function.comp]

theorem encode_assoc (e : dir_entry_t) :
    e.encode = (List.range 32).map (fun i => e.name.getD i 0 % 256)
      ++ (le_bytes e.size 4 ++ (le_bytes e.firstBlock 2 ++ ([e.type % 256, e.perm % 256]
      ++ (le_bytes e.mtime 8 ++ (List.range 16).map (fun i => e._BUFFER_.getD i 0 % 256))))) := by
  simp only [dir_entry_t.encode, List.append_assoc]

theorem decode_encode_size (e : dir_entry_t) :
    (dir_entry_t.decode e.encode).size = e.size % 2 ^ 32 := by
  simp only [dir_entry_t.decode]
  rw [encode_assoc, List.drop_left' (by simp), List.take_left' (le_bytes_length _ _),
    le_value_le_bytes]
  norm_num

theorem decode_encode_firstBlock (e : dir_entry_t) :
    (dir_entry_t.decode e.encode).firstBlock = e.firstBlock % 2 ^ 16 := by
  simp only [dir_entry_t.decode]
  rw [encode_assoc, show (36 : Nat) = 32 + 4 from rfl, ← List.drop_drop,
    List.drop_left' (by simp), List.drop_left' (le_bytes_length _ _),
    List.take_left' (le_bytes_length _ _), le_value_le_bytes]
  norm_num

theorem decode_encode_name (e : dir_entry_t) :
    (dir_entry_t.decode e.encode).name = (List.range 32).map (fun i => e.name.getD i 0 % 256) := by
  simp only [dir_entry_t.decode]
  apply List.map_congr_left
  intro i hi
  have hi32 : i < 32 := List.mem_range.mp hi
  rw [encode_assoc, List.getD_append _ _ _ _ (by simpa using hi32),
    List.getD_eq_getElem _ _ (by simpa using hi32)]
  simp

/-- The name of an entry read from the disk is left as it is by a write and a read. -/
theorem decode_name_norm (l : List Nat) :
    (List.range 32).map (fun i => (dir_entry_t.decode l).name.getD i 0 % 256)
      = (dir_entry_t.decode l).name := by
  simp only [dir_entry_t.decode]
  apply List.map_congr_left
  intro i hi
  have hi32 : i < 32 := List.mem_range.mp hi
  rw [List.getD_eq_getElem _ _ (by simpa using hi32)]
  simp

/-- The lookup after the 64 bytes of the entry found were replaced by bytes that
decode to an entry with the same name: the same location, with the new entry. -/
theorem find_file_loop_rewrite (img : Image) (name : List Nat) (bs m : Nat)
    (hm : img.fat[0]? = some m) (hb : BLOCK_SIZE m = some bs)
    (loc : point_t) (e : dir_entry_t) (eaddr : Nat) (bytes : List Nat)
    (hlen : bytes.length = DIR_ENTRY_SIZE)
    (hname : (dir_entry_t.decode (bytes.map (fun x => x % 256))).name = e.name)
    (haddr : mem_idx img.fat loc.first = some eaddr)
    (hblock : find_in_block img name loc.first eaddr (bs / DIR_ENTRY_SIZE) 0
      = some (some (loc, e))) :
    ∀ (fuel curr : Nat), find_file_loop img name bs fuel curr = some (some (loc, e)) →
      find_file_loop
          { img with disk := disk_write img.disk (eaddr + loc.second * DIR_ENTRY_SIZE) bytes }
          name bs fuel curr
        = some (some (loc, dir_entry_t.decode (bytes.map (fun x => x % 256)))) := by
  have hD : DIR_ENTRY_SIZE = 64 := rfl
  have hsec : (loc.second + 1) * DIR_ENTRY_SIZE ≤ bs := by
    have h1 := (find_in_block_found img name _ _ _ _ loc e hblock).2.2.1
    have h2 := Nat.div_mul_le_self bs DIR_ENTRY_SIZE
    have h3 : (loc.second + 1) * DIR_ENTRY_SIZE ≤ bs / DIR_ENTRY_SIZE * DIR_ENTRY_SIZE :=
      Nat.mul_le_mul_right _ (by omega)
    omega
  intro fuel
  induction fuel with
  | zero => intro curr h; cases h
  | succ fuel ih =>
    intro curr h
    unfold find_file_loop at h ⊢
    by_cases hl : curr = LASTBLOCK
    · rw [if_pos hl] at h; cases h
    · rw [if_neg hl] at h ⊢
      simp only [Option.bind_eq_bind] at h ⊢
      show (mem_idx img.fat curr).bind _ = _
      cases ha : mem_idx img.fat curr with
      | none => rw [ha] at h; cases h
      | some addr =>
        rw [ha] at h
        simp only [Option.some_bind] at h ⊢
        by_cases hc : curr = loc.first
        · rw [hc] at ha
          rw [haddr] at ha
          cases ha
          rw [hc]
          rw [find_in_block_rewrite img name loc.first eaddr bs loc e bytes hlen hname _ 0
            (by rw [Nat.zero_add]; exact Nat.div_mul_le_self _ _) hblock]
          rfl
        · have hcongr := find_in_block_congr img
            { img with disk := disk_write img.disk (eaddr + loc.second * DIR_ENTRY_SIZE) bytes }
            name curr addr bs ⟨rfl, rfl⟩
            (fun a h1 h2 => disk_write_outside _ _ _ _ (by
              intro hx
              rw [hlen] at hx
              exact mem_idx_disjoint img.fat curr loc.first addr eaddr m bs hm hb ha haddr hc a
                ⟨h1, h2⟩ ⟨by omega, by
                  rw [hD] at hx hsec
                  have : (loc.second + 1) * 64 = loc.second * 64 + 64 := by ring
                  omega⟩))
            (bs / DIR_ENTRY_SIZE) 0 (by rw [Nat.zero_add]; exact Nat.div_mul_le_self _ _)
          rw [hcongr]
          cases hr : find_in_block img name curr addr (bs / DIR_ENTRY_SIZE) 0 with
          | none => rw [hr] at h; cases h
          | some r =>
            rw [hr] at h
            simp only [Option.some_bind] at h ⊢
            cases r with
            | some hit =>
              simp only [Option.some.injEq] at h
              subst h
              exact absurd (find_in_block_found img name curr addr _ _ loc e hr).1.symm hc
            | none =>
              simp only [] at h ⊢
              show (img.fat[curr]?).bind _ = _
              cases hn : img.fat[curr]? with
              | none => rw [hn] at h; cases h
              | some next =>
                rw [hn] at h
                simp only [Option.some_bind] at h ⊢
                exact ih next h

/-! ## The scheduler -/

theorem count_running_priority_le (l : List PCB) (p : Int) :
    count_running_priority l p ≤ count_running l := by
  induction l with
  | nil => exact Nat.le_refl _
  | cons x xs ih =>
    simp only [count_running_priority, count_running]
    by_cases h : x.status = T_RUNNING ∧ x.priority = p
    · rw [if_pos h, if_pos h.1]; omega
    · rw [if_neg h]; split <;> omega

theorem count_running_priority_le_length (l : List PCB) (p : Int) :
    count_running_priority l p ≤ l.length := by
  induction l with
  | nil => exact Nat.le_refl _
  | cons x xs ih =>
    simp only [count_running_priority, List.length_cons]
    split <;> omega

/-- The level that the loop of `scheduler` ends with has a running PCB. -/
theorem choose_level_spec (l : List PCB) :
    ∀ (fuel : Nat) (p0 p : Int), choose_level l fuel p0 = some p →
      0 < count_running_priority l p := by
  intro fuel
  induction fuel with
  | zero => intro p0 p h; cases h
  | succ fuel ih =>
    intro p0 p h
    unfold choose_level at h
    by_cases h0 : count_running_priority l p0 = 0
    · rw [if_pos h0] at h
      exact ih _ _ h
    · rw [if_neg h0] at h
      cases h
      omega

/-- The selection loop of `scheduler` inside the first turn of the circle: `s` is the
part of the list not yet visited and `t` the part already moved behind it. -/
theorem select_loop_spec (p : Int) (target : Nat) :
    ∀ (s t : List PCB) (fuel visited : Nat),
      visited ≤ target → target - visited < count_running_priority s p → s.length ≤ fuel →
      ∃ (j : Nat) (pcb : PCB),
        s[j]? = some pcb ∧ pcb.status = T_RUNNING ∧ pcb.priority = p ∧
        count_running_priority (s.take j) p = target - visited ∧
        select_loop p target fuel (s ++ t) visited = some (s.drop j ++ t ++ s.take j) := by
  intro s
  induction s with
  | nil =>
    intro t fuel visited _ h _
    simp only [count_running_priority] at h
    omega
  | cons x xs ih =>
    intro t fuel visited hv hc hf
    cases fuel with
    | zero => simp only [List.length_cons] at hf; omega
    | succ fuel =>
      simp only [List.length_cons] at hf
      simp only [List.cons_append, select_loop]
      by_cases hm : x.status = T_RUNNING ∧ x.priority = p
      · rw [if_pos hm]
        by_cases hgt : visited + 1 > target
        · rw [if_pos hgt]
          refine ⟨0, x, by simp, hm.1, hm.2, ?_, ?_⟩
          · simp only [List.take_zero, count_running_priority]; omega
          · simp
        · rw [if_neg hgt]
          simp only [count_running_priority, if_pos hm] at hc
          obtain ⟨j, pcb, hj, hs, hpr, hcnt, hsel⟩ :=
            ih (t ++ [x]) fuel (visited + 1) (by omega) (by omega) (by omega)
          refine ⟨j + 1, pcb, ?_, hs, hpr, ?_, ?_⟩
          · simpa using hj
          · simp only [List.take_succ_cons, count_running_priority, if_pos hm, hcnt]; omega
          · rw [List.append_assoc, hsel]
            simp
      · rw [if_neg hm]
        simp only [count_running_priority, if_neg hm, Nat.zero_add] at hc
        obtain ⟨j, pcb, hj, hs, hpr, hcnt, hsel⟩ :=
          ih (t ++ [x]) fuel visited hv hc (by omega)
        refine ⟨j + 1, pcb, ?_, hs, hpr, ?_, ?_⟩
        · simpa using hj
        · simp only [List.take_succ_cons, count_running_priority, if_neg hm, hcnt]; omega
        · rw [List.append_assoc, hsel]
          simp

/-- Claim C24: when the loop over the levels of `scheduler` ends with the level `p`, some
PCB is running at that level and the scheduler returns: with
`target = r2 % count_running_priority(pcb_list, p)` it selects the PCB at the index
`i` of the list, counted from the head, that is running with priority `p` and has
exactly `target` such PCBs before it; the list is rotated so that this PCB is its
head, `current_pcb` points to it, and no PCB is changed. -/
theorem scheduler_selects (k : Kernel) (r1 r2 : Nat) (p : Int)
    (hp : choose_level k.pcb_list 3 (roulette_priority (r1 % (9 + 6 + 4))) = some p) :
    0 < count_running_priority k.pcb_list p ∧
    ∃ (i : Nat) (pcb : PCB),
      k.pcb_list[i]? = some pcb ∧ pcb.status = T_RUNNING ∧ pcb.priority = p ∧
      count_running_priority (k.pcb_list.take i) p
        = r2 % count_running_priority k.pcb_list p ∧
      scheduler k r1 r2 = some (sched_result.switched
        { k with
          pcb_list := k.pcb_list.drop i ++ k.pcb_list.take i
          current_pcb := some pcb.pid }) := by
  have hpos := choose_level_spec _ _ _ _ hp
  refine ⟨hpos, ?_⟩
  have hlt := Nat.mod_lt r2 hpos
  obtain ⟨i, pcb, hi, hs, hpr, hcnt, hsel⟩ :=
    select_loop_spec p (r2 % count_running_priority k.pcb_list p) k.pcb_list []
      (k.pcb_list.length * (r2 % count_running_priority k.pcb_list p + 1)) 0
      (Nat.zero_le _) (by omega) (by
        have := Nat.le_mul_of_pos_right k.pcb_list.length
          (Nat.succ_pos (r2 % count_running_priority k.pcb_list p))
        exact this)
  refine ⟨i, pcb, hi, hs, hpr, by simpa using hcnt, ?_⟩
  have hrun : count_running k.pcb_list ≠ 0 := by
    have := count_running_priority_le k.pcb_list p
    omega
  have hlen : i < k.pcb_list.length := by
    rcases Nat.lt_or_ge i k.pcb_list.length with h | h
    · exact h
    · rw [List.getElem?_eq_none h] at hi; cases hi
  have hhead : (k.pcb_list.drop i ++ k.pcb_list.take i).head? = some pcb := by
    rw [List.head?_append_of_ne_nil _ (by
      intro h0
      have := congrArg List.length h0
      simp only [List.length_drop, List.length_nil] at this
      omega)]
    rw [List.head?_drop]
    exact hi
  unfold scheduler
  rw [if_neg hrun]
  simp only [Option.bind_eq_bind]
  rw [hp]
  simp only [Option.some_bind]
  simp only [List.append_nil] at hsel
  rw [hsel]
  simp only [Option.some_bind]
  rw [hhead]
  rfl

/-- Witness of claim C24: in the example registry with three running processes of
priority 0, the numbers 9 and 1 select the level 0 and the second such process. -/
theorem scheduler_selects_witness :
    0 < count_running_priority (example_kernel_tree 1).pcb_list 0 ∧
    ∃ (i : Nat) (pcb : PCB),
      (example_kernel_tree 1).pcb_list[i]? = some pcb ∧ pcb.status = T_RUNNING ∧
      pcb.priority = 0 ∧
      count_running_priority ((example_kernel_tree 1).pcb_list.take i) 0
        = 1 % count_running_priority (example_kernel_tree 1).pcb_list 0 ∧
      scheduler (example_kernel_tree 1) 9 1 = some (sched_result.switched
        { example_kernel_tree 1 with
          pcb_list := (example_kernel_tree 1).pcb_list.drop i
            ++ (example_kernel_tree 1).pcb_list.take i
          current_pcb := some pcb.pid }) :=
  scheduler_selects (example_kernel_tree 1) 9 1 0 (by decide)

/-! ## Signals to a zombie, waiting parents, priorities -/

/-- Claim C21 at a failing input: process 1 of the example registry sends `S_SIGTERM` to process 3, which
becomes a zombie, and then `S_SIGCONT`: both calls return 0 and the second one sets
the status of the zombie, which is still in the registry, back to `T_RUNNING`. -/
theorem p_kill_zombie_continues :
    ((p_kill (example_kernel_tree 1) 3 S_SIGTERM).bind fun r1 =>
      (p_kill r1.1 3 S_SIGCONT).map fun r2 =>
        (r1.2, r1.1.pcb_list.map PCB.level, r2.2, r2.1.pcb_list.map PCB.level))
      = some (0, [(1, 0, T_RUNNING), (2, 0, T_RUNNING), (3, 0, T_ZOMBIED)],
              0, [(1, 0, T_RUNNING), (2, 0, T_RUNNING), (3, 0, T_RUNNING)]) := by
  decide

/-- Claim C22 at a failing input: process 2 of the example registry waits for its child 3 with a blocking
`p_waitpid`, which gives the processor away with the status `T_WAITED`; process 1
then sends `S_SIGTERM` to process 3. The child is a zombie, the parent is still
`T_WAITED`, and whatever the two random numbers are, the scheduler selects
process 1 and leaves the status of the parent as it is. -/
theorem p_kill_term_parent_stays_waiting (r1 r2 : Nat) :
    ((p_waitpid (example_kernel_tree 2) 3 false).bind fun w =>
      (p_kill (run_as w.1 1) 3 S_SIGTERM).bind fun kl =>
        (scheduler kl.1 r1 r2).bind fun s =>
          s.levels.map fun l => (w.2, kl.2, kl.1.pcb_list.map PCB.level, l))
      = some (wait_result.yielded, 0,
          [(1, 0, T_RUNNING), (2, 0, T_WAITED), (3, 0, T_ZOMBIED)],
          [(1, 0, T_RUNNING), (2, 0, T_WAITED), (3, 0, T_ZOMBIED)], some 1) := by
  have hw : p_waitpid (example_kernel_tree 2) 3 false
      = some ({ example_kernel_tree 2 with
          pcb_list := [{ example_pcb 1 [] with children := [2] },
                 { example_pcb 2 [] with parent_pid := 1, children := [3], status := T_WAITED },
                 { example_pcb 3 [] with parent_pid := 2 }] }, wait_result.yielded) := by
    rfl
  rw [hw]
  simp only [Option.some_bind]
  have hk : p_kill (run_as { example_kernel_tree 2 with
          pcb_list := [{ example_pcb 1 [] with children := [2] },
                 { example_pcb 2 [] with parent_pid := 1, children := [3], status := T_WAITED },
                 { example_pcb 3 [] with parent_pid := 2 }] } 1) 3 S_SIGTERM
      = some ({ example_kernel_tree 1 with
          pcb_list := [{ example_pcb 1 [] with children := [2] },
                 { example_pcb 2 [] with parent_pid := 1, children := [3], status := T_WAITED },
                 { example_pcb 3 [] with parent_pid := 2, status := T_ZOMBIED }] }, 0) := by
    rfl
  rw [hk]
  simp only [Option.some_bind]
  have h1 : r1 % (9 + 6 + 4) < 19 := Nat.mod_lt _ (by decide)
  have hl : ∀ a, a < 19 → choose_level [{ example_pcb 1 [] with children := [2] },
                 { example_pcb 2 [] with parent_pid := 1, children := [3], status := T_WAITED },
                 { example_pcb 3 [] with parent_pid := 2, status := T_ZOMBIED }] 3
                 (roulette_priority a) = some 0 := by decide
  unfold scheduler
  rw [if_neg (by decide)]
  simp only [Option.bind_eq_bind]
  rw [hl _ h1]
  simp only [Option.some_bind]
  have hc : count_running_priority [{ example_pcb 1 [] with children := [2] },
                 { example_pcb 2 [] with parent_pid := 1, children := [3], status := T_WAITED },
                 { example_pcb 3 [] with parent_pid := 2, status := T_ZOMBIED }] 0 = 1 := by decide
  rw [hc, Nat.mod_one]
  rfl

/-- Claim C23 at a failing input: the first process of the system is spawned and `p_nice` gives it the
priority 5: the call returns 0 and the PCB has the priority 5. -/
theorem p_nice_any_priority :
    ((p_spawn (boot (example_image 6)) 0 1).bind fun r1 =>
      (p_nice r1.1 r1.2 5).map fun r2 => (r1.2, r2.2, r2.1.pcb_list.map PCB.level))
      = some (1, 0, [(1, 5, T_RUNNING)]) := by
  decide

theorem update_pcb_length (f : PCB → PCB) (l : List PCB) (pid : Int) :
    (update_pcb f l pid).length = l.length := by
  induction l with
  | nil => rfl
  | cons x xs ih =>
    simp only [update_pcb]
    split
    · rfl
    · simp only [List.length_cons, ih]

theorem orphan_children_length (cs : List Int) :
    ∀ (l l2 : List PCB), orphan_children cs l = some l2 → l2.length = l.length := by
  induction cs with
  | nil => intro l l2 h; simp only [orphan_children, Option.some.injEq] at h; rw [h]
  | cons c cs ih =>
    intro l l2 h
    simp only [orphan_children, Option.bind_eq_bind] at h
    cases hf : findPCBByPID l c with
    | none => rw [hf] at h; cases h
    | some pc =>
      rw [hf] at h
      simp only [Option.some_bind] at h
      rw [ih _ _ h, update_pcb_length]

/-- The list that `removePCBFromList` leaves is empty exactly when the list without
the PCB is, and it is that list when the PCB is no zombie. -/
theorem removePCBFromList_shape (l l1 : List PCB) (pid : Int) (pcb : PCB)
    (hf : findPCBByPID l pid = some pcb) (h : removePCBFromList l pid = some l1) :
    (l1 = [] ↔ unlink_pcb l pid = []) ∧
    (unlink_pcb l pid = [] ∨ pcb.status ≠ T_ZOMBIED → l1 = unlink_pcb l pid) := by
  unfold removePCBFromList at h
  cases l with
  | nil => cases hf
  | cons x xs =>
    simp only [Option.bind_eq_bind, hf, Option.some_bind] at h
    by_cases hnil : unlink_pcb (x :: xs) pid = []
    · rw [if_pos hnil] at h
      cases h
      exact ⟨⟨fun _ => hnil, fun _ => hnil⟩, fun _ => rfl⟩
    · rw [if_neg hnil] at h
      by_cases hz : pcb.status = T_ZOMBIED
      · rw [if_pos hz] at h
        refine ⟨?_, fun hc => ?_⟩
        · cases ho : orphan_children pcb.children (unlink_pcb (x :: xs) pid) with
          | none => rw [ho] at h; cases h
          | some l2 =>
            rw [ho] at h
            simp only [Option.some_bind] at h
            have hlen := orphan_children_length _ _ _ ho
            have hl1 : l1.length = l2.length := by
              by_cases hp : pcb.parent_pid ≠ 0
              · rw [if_pos hp] at h
                cases hpar : findPCBByPID l2 pcb.parent_pid with
                | none => rw [hpar] at h; cases h
                | some parent =>
                  rw [hpar] at h
                  simp only [Option.some_bind] at h
                  split at h
                  · cases h
                  · simp only [Option.some.injEq] at h
                    rw [← h, update_pcb_length]
              · rw [if_neg hp] at h
                simp only [Option.some.injEq] at h
                rw [h]
            constructor
            · intro h0
              rw [h0] at hl1
              simp only [List.length_nil] at hl1
              rw [← hl1] at hlen
              exact List.length_eq_zero.mp hlen.symm
            · intro h0; exact absurd h0 hnil
        · rcases hc with hc | hc
          · exact absurd hc hnil
          · exact absurd hz hc
      · rw [if_neg hz] at h
        cases h
        exact ⟨Iff.rfl, fun _ => rfl⟩

/-- A call of `p_nice` that returns: the PCB is taken out of the list and linked
again as its tail with the new priority; nothing else changes. -/
theorem p_nice_spec (k k1 : Kernel) (pid q r : Int) (h : p_nice k pid q = some (k1, r)) :
    ∃ process, findPCBByPID k.pcb_list pid = some process ∧
      k1 = { k with pcb_list := unlink_pcb k.pcb_list pid ++ [{ process with priority := q }] } ∧
      r = 0 := by
  unfold p_nice at h
  simp only [Option.bind_eq_bind] at h
  cases hf : findPCBByPID k.pcb_list pid with
  | none => rw [hf] at h; cases h
  | some process =>
    rw [hf] at h
    simp only [Option.some_bind] at h
    cases hr : removePCBFromList k.pcb_list pid with
    | none => rw [hr] at h; cases h
    | some l1 =>
      rw [hr] at h
      simp only [Option.some_bind] at h
      obtain ⟨hnil, hsame⟩ := removePCBFromList_shape _ _ _ _ hf hr
      by_cases hc : l1 ≠ [] ∧ process.status = T_ZOMBIED
      · rw [if_pos hc] at h; cases h
      · rw [if_neg hc] at h
        simp only [Option.some.injEq, Prod.mk.injEq] at h
        have hl : l1 = unlink_pcb k.pcb_list pid := by
          apply hsame
          by_cases h0 : l1 = []
          · exact Or.inl (hnil.mp h0)
          · exact Or.inr (fun hz => hc ⟨h0, hz⟩)
        refine ⟨process, rfl, ?_, h.2.symm⟩
        rw [← h.1, hl]
        rfl

/-! ## Claim C23: the range of the priorities -/

theorem update_pcb_map {α : Type} (g : PCB → α) (f : PCB → PCB) (hf : ∀ p, g (f p) = g p)
    (l : List PCB) (pid : Int) : (update_pcb f l pid).map g = l.map g := by
  induction l with
  | nil => rfl
  | cons x xs ih =>
    simp only [update_pcb]
    split
    · simp only [List.map_cons, hf]
    · simp only [List.map_cons, ih]

/-- The registry after `k_process_create`: the PCBs that were there keep their PID,
priority and status, and the new PCB is the tail, runs and has the priority 0. -/
theorem k_process_create_level (k kc : Kernel) (parent : Option PCB) (child : PCB)
    (h : k_process_create k parent = some (kc, child)) :
    child.level = (k.next_pid, 0, T_RUNNING) ∧ kc.next_pid = k.next_pid + 1 ∧
    ∃ P, kc.pcb_list = P ++ [child] ∧ P.map PCB.level = k.pcb_list.map PCB.level := by
  unfold k_process_create at h
  simp only [Option.bind_eq_bind] at h
  cases hc : createPCB k parent with
  | none => rw [hc] at h; cases h
  | some res =>
    obtain ⟨k2, c⟩ := res
    rw [hc] at h
    simp only [Option.some_bind, Option.some.injEq, Prod.mk.injEq] at h
    obtain ⟨hk, hch⟩ := h
    subst hch
    unfold createPCB at hc
    cases parent with
    | none =>
      simp only [Option.some.injEq, Prod.mk.injEq] at hc
      obtain ⟨hk2, hcc⟩ := hc
      rw [← hk, ← hk2, ← hcc]
      exact ⟨rfl, rfl, k.pcb_list, rfl, rfl⟩
    | some p =>
      simp only at hc
      split at hc
      · simp only [Option.some.injEq, Prod.mk.injEq] at hc
        obtain ⟨hk2, hcc⟩ := hc
        rw [← hk, ← hk2, ← hcc]
        exact ⟨rfl, rfl, _, rfl, update_pcb_map PCB.level
          (fun q => { q with children := q.children ++ [k.next_pid] }) (fun _ => rfl) _ _⟩
      · cases hc

theorem process_create_fileptrs_registry (k k1 : Kernel) (pcb : PCB)
    (h : process_create_fileptrs k pcb = some k1) :
    k1.pcb_list = k.pcb_list ∧ k1.next_pid = k.next_pid := by
  unfold process_create_fileptrs at h
  split at h
  · cases h; exact ⟨rfl, rfl⟩
  · simp only [Option.bind_eq_bind] at h
    cases h1 : fds_from3 pcb with
    | none => rw [h1] at h; cases h
    | some fds =>
      rw [h1] at h
      simp only [Option.some_bind] at h
      cases h2 : mark_file_ptrs k.open_files pcb.parent_pid fds
          (List.replicate k.next_file_id.toNat (-1)) with
      | none => rw [h2] at h; cases h
      | some arr =>
        rw [h2] at h
        simp only [Option.some_bind] at h
        cases h3 : add_file_ptrs pcb.pid arr 0 k.open_files with
        | none => rw [h3] at h; cases h
        | some ofs =>
          rw [h3] at h
          simp only [Option.some_bind, Option.some.injEq] at h
          rw [← h]
          exact ⟨rfl, rfl⟩

/-- The registry after the steps of `p_spawn` that follow the lookup of the parent. -/
theorem p_spawn_tail_level (k k1 : Kernel) (parent : Option PCB) (fd0 fd1 r : Int)
    (h : (do
      let (kc, child) ← k_process_create k parent
      let v0 ← fd_get child fd0
      let child1 ← fd_set child F_STDIN v0
      let v1 ← fd_get child1 fd1
      let child2 ← fd_set child1 F_STDOUT v1
      let output_fid ← fd_get child2 F_STDOUT
      let open_files1 ←
        if output_fid ≥ 0 then do
          let _ ← find_file_entry_by_file_id kc.open_files output_fid
          some (update_file_entry (fun e => { e with wr_pid := child2.pid }) kc.open_files
            output_fid)
        else some kc.open_files
      let k2 := { kc with
        open_files := open_files1
        pcb_list := update_pcb (fun _ => child2) kc.pcb_list child2.pid }
      let k3 ← process_create_fileptrs k2 child2
      some (k3, child2.pid)) = some (k1, r)) :
    ∃ (kc : Kernel) (child child2 : PCB),
      k_process_create k parent = some (kc, child) ∧ child2.level = child.level ∧
      k1.pcb_list = update_pcb (fun _ => child2) kc.pcb_list child2.pid ∧
      k1.next_pid = kc.next_pid ∧ r = child2.pid := by
  simp only [Option.bind_eq_bind] at h
  cases hc : k_process_create k parent with
  | none => rw [hc] at h; cases h
  | some res =>
    obtain ⟨kc, child⟩ := res
    rw [hc] at h
    simp only [Option.some_bind] at h
    cases h0 : fd_get child fd0 with
    | none => rw [h0] at h; cases h
    | some v0 =>
      rw [h0] at h
      simp only [Option.some_bind] at h
      cases hs0 : fd_set child F_STDIN v0 with
      | none => rw [hs0] at h; cases h
      | some child1 =>
        rw [hs0] at h
        simp only [Option.some_bind] at h
        cases h1 : fd_get child1 fd1 with
        | none => rw [h1] at h; cases h
        | some v1 =>
          rw [h1] at h
          simp only [Option.some_bind] at h
          cases hs1 : fd_set child1 F_STDOUT v1 with
          | none => rw [hs1] at h; cases h
          | some child2 =>
            rw [hs1] at h
            simp only [Option.some_bind] at h
            obtain ⟨_, _, _, hc1⟩ := fd_set_some _ _ _ _ hs0
            obtain ⟨_, _, _, hc2⟩ := fd_set_some _ _ _ _ hs1
            have hlev : child2.level = child.level := by rw [hc2, hc1]; rfl
            cases hout : fd_get child2 F_STDOUT with
            | none => rw [hout] at h; cases h
            | some out =>
              rw [hout] at h
              simp only [Option.some_bind] at h
              by_cases hge : out ≥ 0
              · rw [if_pos hge] at h
                cases hfo : find_file_entry_by_file_id kc.open_files out with
                | none => rw [hfo] at h; simp at h
                | some feo =>
                  rw [hfo] at h
                  simp only [Option.some_bind] at h
                  cases hp : process_create_fileptrs
                      { kc with
                        open_files := update_file_entry (fun e => { e with wr_pid := child2.pid })
                          kc.open_files out
                        pcb_list := update_pcb (fun _ => child2) kc.pcb_list child2.pid }
                      child2 with
                  | none => rw [hp] at h; cases h
                  | some k3 =>
                    rw [hp] at h
                    simp only [Option.some_bind, Option.some.injEq, Prod.mk.injEq] at h
                    obtain ⟨hl, hn⟩ := process_create_fileptrs_registry _ _ _ hp
                    rw [← h.1, ← h.2]
                    exact ⟨kc, child, child2, rfl, hlev, hl, hn, rfl⟩
              · rw [if_neg hge] at h
                cases hp : process_create_fileptrs
                    { kc with
                      open_files := kc.open_files
                      pcb_list := update_pcb (fun _ => child2) kc.pcb_list child2.pid }
                    child2 with
                | none => rw [hp] at h; cases h
                | some k3 =>
                  rw [hp] at h
                  simp only [Option.some_bind, Option.some.injEq, Prod.mk.injEq] at h
                  obtain ⟨hl, hn⟩ := process_create_fileptrs_registry _ _ _ hp
                  rw [← h.1, ← h.2]
                  exact ⟨kc, child, child2, rfl, hlev, hl, hn, rfl⟩

/-- The registry after a call of `p_spawn` that returns, when every PID of the
registry is below `next_pid`: the new PCB is the tail, runs and has the priority 0,
and the PCBs that were there keep their PID, priority and status. -/
theorem p_spawn_level (k k1 : Kernel) (fd0 fd1 r : Int)
    (hlt : ∀ p ∈ k.pcb_list, p.pid < k.next_pid)
    (h : p_spawn k fd0 fd1 = some (k1, r)) :
    r = k.next_pid ∧ k1.next_pid = k.next_pid + 1 ∧
    k1.pcb_list.map PCB.level = k.pcb_list.map PCB.level ++ [(r, 0, T_RUNNING)] := by
  have key : ∀ parent, (∃ (kc : Kernel) (child child2 : PCB),
      k_process_create k parent = some (kc, child) ∧ child2.level = child.level ∧
      k1.pcb_list = update_pcb (fun _ => child2) kc.pcb_list child2.pid ∧
      k1.next_pid = kc.next_pid ∧ r = child2.pid) →
      r = k.next_pid ∧ k1.next_pid = k.next_pid + 1 ∧
      k1.pcb_list.map PCB.level = k.pcb_list.map PCB.level ++ [(r, 0, T_RUNNING)] := by
    rintro parent ⟨kc, child, child2, hkc, hlev, hl, hn, hr⟩
    obtain ⟨hcl, hnext, P, hP, hPl⟩ := k_process_create_level _ _ _ _ hkc
    have hpid2 : child2.pid = k.next_pid := by
      have := congrArg Prod.fst (hlev.trans hcl)
      exact this
    have hpidc : child.pid = k.next_pid := congrArg Prod.fst hcl
    have hPpid : P.map PCB.pid = k.pcb_list.map PCB.pid := by
      have := congrArg (List.map Prod.fst) hPl
      simpa [List.map_map, Function.comp, PCB.level] using this
    have hnot : child2.pid ∉ P.map PCB.pid := by
      rw [hPpid, hpid2]
      intro hmem
      obtain ⟨p, hp, hpp⟩ := List.mem_map.mp hmem
      have := hlt p hp
      omega
    rw [hP, update_pcb_append_last _ _ _ _ hnot (hpidc.trans hpid2.symm)] at hl
    refine ⟨hr.trans hpid2, hn.trans hnext, ?_⟩
    rw [hl, List.map_append, hPl, List.map_singleton, hlev.trans hcl, hr, hpid2]
  unfold p_spawn at h
  cases hcp : k.current_pcb with
  | none =>
    rw [hcp] at h
    exact key none (p_spawn_tail_level k k1 none fd0 fd1 r h)
  | some pid =>
    rw [hcp] at h
    dsimp only at h
    cases hf : findPCBByPID k.pcb_list pid with
    | none => rw [hf] at h; cases h
    | some p =>
      rw [hf] at h
      exact key (some p) (p_spawn_tail_level k k1 (some p) fd0 fd1 r h)

theorem mem_unlink_pcb (l : List PCB) (pid : Int) (p : PCB) (h : p ∈ unlink_pcb l pid) :
    p ∈ l :=
  (unlink_pcb_sublist l pid).subset h

/-- Invariant of the states reached by `p_spawn` and `p_nice`: the priorities are
among `-1`, `0`, `1` and the PIDs are below `next_pid`. -/
theorem nice_reachable_inv (k : Kernel) (h : NiceReachable k) :
    (∀ p ∈ k.pcb_list, p.priority = -1 ∨ p.priority = 0 ∨ p.priority = 1) ∧
    (∀ p ∈ k.pcb_list, p.pid < k.next_pid) := by
  induction h with
  | start img => exact ⟨fun p hp => (by cases hp), fun p hp => (by cases hp)⟩
  | schedule k pid _ ih => exact ih
  | by_spawn k k1 fd0 fd1 r _ hs ih =>
    obtain ⟨hr, hn, hl⟩ := p_spawn_level k k1 fd0 fd1 r ih.2 hs
    have hmem : ∀ p ∈ k1.pcb_list,
        (∃ p0 ∈ k.pcb_list, p.level = p0.level) ∨ p.level = (r, 0, T_RUNNING) := by
      intro p hp
      have : p.level ∈ k1.pcb_list.map PCB.level := List.mem_map_of_mem _ hp
      rw [hl, List.mem_append] at this
      rcases this with h1 | h1
      · obtain ⟨p0, hp0, he⟩ := List.mem_map.mp h1
        exact Or.inl ⟨p0, hp0, he.symm⟩
      · exact Or.inr (List.mem_singleton.mp h1)
    constructor
    · intro p hp
      rcases hmem p hp with ⟨p0, hp0, he⟩ | he
      · have : p.priority = p0.priority := congrArg (fun x => x.2.1) he
        rw [this]
        exact ih.1 p0 hp0
      · have : p.priority = 0 := congrArg (fun x => x.2.1) he
        exact Or.inr (Or.inl this)
    · intro p hp
      rw [hn]
      rcases hmem p hp with ⟨p0, hp0, he⟩ | he
      · have : p.pid = p0.pid := congrArg Prod.fst he
        have := ih.2 p0 hp0
        omega
      · have : p.pid = r := congrArg Prod.fst he
        omega
  | by_nice k k1 pid q r _ hq hn ih =>
    obtain ⟨process, hf, hk1, _⟩ := p_nice_spec k k1 pid q r hn
    have hpm := findPCBByPID_mem _ _ _ hf
    rw [hk1]
    constructor
    · intro p hp
      rcases List.mem_append.mp hp with h1 | h1
      · exact ih.1 p (mem_unlink_pcb _ _ _ h1)
      · rw [List.mem_singleton.mp h1]
        exact hq
    · intro p hp
      rcases List.mem_append.mp hp with h1 | h1
      · exact ih.2 p (mem_unlink_pcb _ _ _ h1)
      · rw [List.mem_singleton.mp h1]
        exact ih.2 process hpm

/-- Claim C23, amended, with the priorities passed to `p_nice` among `-1`, `0`, `1`: in every
state reached from the start of the program by `p_spawn` and by such calls of
`p_nice`, every PCB has a priority among `-1`, `0`, `1`; a call of `p_spawn` that
returns appends a running PCB of priority 0 and keeps the PID, priority and status
of the other PCBs; a call of `p_nice` that returns, with any priority `q`, moves the
PCB to the tail of the list with the priority `q` and changes no other PCB. -/
theorem priority_range (k : Kernel) (h : NiceReachable k) :
    (∀ p ∈ k.pcb_list, p.priority = -1 ∨ p.priority = 0 ∨ p.priority = 1) ∧
    (∀ fd0 fd1 k1 r, p_spawn k fd0 fd1 = some (k1, r) →
      k1.pcb_list.map PCB.level = k.pcb_list.map PCB.level ++ [(r, 0, T_RUNNING)]) ∧
    (∀ pid q k1 r, p_nice k pid q = some (k1, r) →
      r = 0 ∧ ∃ process, findPCBByPID k.pcb_list pid = some process ∧
        k1.pcb_list = unlink_pcb k.pcb_list pid ++ [{ process with priority := q }]) := by
  obtain ⟨hprio, hlt⟩ := nice_reachable_inv k h
  refine ⟨hprio, ?_, ?_⟩
  · intro fd0 fd1 k1 r hs
    exact (p_spawn_level k k1 fd0 fd1 r hlt hs).2.2
  · intro pid q k1 r hn
    obtain ⟨process, hf, hk1, hr⟩ := p_nice_spec k k1 pid q r hn
    exact ⟨hr, process, hf, by rw [hk1]⟩

/-- Witness of the amended claim C23: the first process is spawned and given the priority `-1`, as
`main` does for the shell. -/
theorem priority_range_witness :
    ∃ (k1 k2 : Kernel),
      p_spawn (boot (example_image 6)) 0 1 = some (k1, 1) ∧
      p_nice k1 1 (-1) = some (k2, 0) ∧
      k2.pcb_list.map PCB.level = [(1, -1, T_RUNNING)] ∧
      ∀ p ∈ k2.pcb_list, p.priority = -1 ∨ p.priority = 0 ∨ p.priority = 1 := by
  have hs : (p_spawn (boot (example_image 6)) 0 1).map (fun a => a.2) = some 1 := by decide
  have hn : ((p_spawn (boot (example_image 6)) 0 1).bind
      (fun a => p_nice a.1 1 (-1))).map (fun b => (b.2, b.1.pcb_list.map PCB.level))
      = some (0, [(1, -1, T_RUNNING)]) := by decide
  cases hsp : p_spawn (boot (example_image 6)) 0 1 with
  | none => rw [hsp] at hs; cases hs
  | some a =>
    obtain ⟨k1, r1⟩ := a
    rw [hsp] at hs hn
    simp only [Option.map_some', Option.some.injEq] at hs
    subst hs
    simp only [Option.some_bind] at hn
    cases hnp : p_nice k1 1 (-1) with
    | none => rw [hnp] at hn; cases hn
    | some b =>
      obtain ⟨k2, r⟩ := b
      rw [hnp] at hn
      simp only [Option.map_some', Option.some.injEq, Prod.mk.injEq] at hn
      obtain ⟨hr, hl⟩ := hn
      subst hr
      have hr1 : NiceReachable k1 :=
        NiceReachable.by_spawn _ k1 0 1 1 (NiceReachable.start (example_image 6)) hsp
      have hr2 : NiceReachable k2 :=
        NiceReachable.by_nice k1 k2 1 (-1) 0 hr1 (Or.inl rfl) hnp
      exact ⟨k1, k2, rfl, hnp, hl, (priority_range k2 hr2).1⟩

/-! ## The allocator: least free cell, chains built by `build_chain` -/

/-- The scan of `get_free_block` returns the first cell that holds 0. -/
theorem get_free_block_loop_least (fat : List Nat) :
    ∀ (k i j : Nat), i ≤ j → j < i + k → fat[j]? = some 0 →
      (∀ t, i ≤ t → t < j → fat[t]? ≠ some 0) → get_free_block_loop fat k i = some j := by
  intro k
  induction k with
  | zero => intro i j h1 h2 _ _; omega
  | succ k ih =>
    intro i j h1 h2 hj hmin
    have hjlt : j < fat.length := (List.getElem?_eq_some.mp hj).1
    have hilt : i < fat.length := by omega
    unfold get_free_block_loop
    rw [List.getElem?_eq_getElem hilt]
    simp only
    by_cases hv : fat[i] = 0
    · rw [if_pos hv]
      have hij : i = j := by
        rcases Nat.lt_or_ge i j with h | h
        · exact absurd (by rw [List.getElem?_eq_getElem hilt, hv]) (hmin i (le_refl _) h)
        · omega
      rw [hij]
    · rw [if_neg hv]
      have hne : i ≠ j := by
        intro hij
        rw [← hij, List.getElem?_eq_getElem hilt] at hj
        exact hv (Option.some.inj hj)
      exact ih (i + 1) j (by omega) (by omega) hj
        (fun t ht1 ht2 => hmin t (by omega) ht2)

/-- Function `get_free_block` returns the least index from 1 on whose cell holds 0,
when that index is below the bound `n_blocks * block_size` of the scan. -/
theorem get_free_block_least (fat : List Nat) (m bs j : Nat) (hm : fat[0]? = some m)
    (hb : BLOCK_SIZE m = some bs) (h1 : 1 ≤ j) (hlt : j < FAT_BLOCKS m * bs)
    (hj : fat[j]? = some 0) (hmin : ∀ t, 1 ≤ t → t < j → fat[t]? ≠ some 0) :
    get_free_block fat = some j := by
  unfold get_free_block
  simp only [hm, hb, Option.bind_eq_bind, Option.some_bind]
  exact get_free_block_loop_least fat _ 1 j h1 (by omega) hj hmin

theorem getElem?_tail (l : List Nat) (n : Nat) : l.tail[n]? = l[n + 1]? := by
  cases l with
  | nil => simp
  | cons x xs => simp

/-- A FAT with a free cell has a least free cell. -/
theorem free_cells_least (fat : List Nat) (h : 0 < free_cells fat) :
    ∃ j, 1 ≤ j ∧ fat[j]? = some 0 ∧ ∀ t, 1 ≤ t → t < j → fat[t]? ≠ some 0 := by
  unfold free_cells at h
  have hmem : 0 ∈ fat.tail := List.count_pos_iff.mp h
  obtain ⟨n, hn⟩ := List.mem_iff_getElem?.mp hmem
  rw [getElem?_tail] at hn
  have hex : ∃ j, 1 ≤ j ∧ fat[j]? = some 0 := ⟨n + 1, by omega, hn⟩
  refine ⟨Nat.find hex, (Nat.find_spec hex).1, (Nat.find_spec hex).2, ?_⟩
  intro t ht1 ht2 hc
  exact Nat.find_min hex ht2 ⟨ht1, hc⟩

/-- A free cell that is allocated leaves one free cell less. -/
theorem free_cells_set (fat : List Nat) (c v : Nat) (h1 : 1 ≤ c) (hc : fat[c]? = some 0)
    (hv : v ≠ 0) : free_cells (fat.set c v) + 1 = free_cells fat := by
  unfold free_cells
  cases fat with
  | nil => simp at hc
  | cons x xs =>
    cases c with
    | zero => omega
    | succ c =>
      simp only [List.set_cons_succ, List.tail_cons]
      simp only [List.getElem?_cons_succ] at hc
      have hlt : c < xs.length := (List.getElem?_eq_some.mp hc).1
      have hval : xs[c] = 0 := by
        have := List.getElem?_eq_getElem hlt
        rw [hc] at this
        exact (Option.some.inj this).symm
      have hpos : 0 < List.count 0 xs :=
        List.count_pos_iff.mpr (by rw [← hval]; exact List.getElem_mem hlt)
      rw [List.count_set _ _ _ _ hlt]
      simp only [hval, beq_self_eq_true, if_true]
      have : (v == 0) = false := by simpa using hv
      simp only [this]
      simp only [Bool.false_eq_true, if_false]
      omega

theorem is_chain_congr (fat fat1 : List Nat) :
    ∀ (C : List Nat) (head : Nat), is_chain fat head C → (∀ b ∈ C, fat1[b]? = fat[b]?) →
      is_chain fat1 head C := by
  intro C
  induction C with
  | nil => intro head h _; exact h
  | cons b rest ih =>
    intro head h hsame
    simp only [is_chain] at h ⊢
    obtain ⟨h1, h2, h3, next, hn, hr⟩ := h
    refine ⟨h1, h2, h3, next, ?_, ih next hr (fun x hx => hsame x (List.mem_cons_of_mem _ hx))⟩
    rw [hsame b (List.mem_cons_self _ _)]
    exact hn

/-- The image and the chain that the recursion of `build_chain` produces when the
FAT has enough free cells: the call returns, the chain starts at `curr`, has
`(n - 1) / block_size + 1` blocks for `n` bytes, all distinct and free before, and
the cells outside the chain are unchanged. -/
theorem build_chain_rec_chain (m bs : Nat) (hb : BLOCK_SIZE m = some bs) :
    ∀ (fuel : Nat) (img : Image) (curr : Nat) (data : List Nat),
      data ≠ [] → 1 ≤ curr → img.fat[curr]? = some 0 → img.fat.length ≤ LASTBLOCK →
      img.fat[0]? = some m → img.fat.length ≤ FAT_BLOCKS m * bs →
      (data.length - 1) / bs + 1 ≤ free_cells img.fat →
      (data.length - 1) / bs + 1 ≤ fuel →
      ∃ (img1 : Image) (C : List Nat),
        build_chain_rec fuel img curr data = some img1 ∧
        is_chain img1.fat curr C ∧ C.length = (data.length - 1) / bs + 1 ∧ C.Nodup ∧
        (∀ b ∈ C, img.fat[b]? = some 0) ∧ (∀ i, i ∉ C → img1.fat[i]? = img.fat[i]?) ∧
        img1.fat.length = img.fat.length := by
  have hbspos : 0 < bs := BLOCK_SIZE_pos m bs hb
  have hL : LASTBLOCK = 65535 := rfl
  intro fuel
  induction fuel with
  | zero => intro img curr data _ _ _ _ _ _ _ hf; exact absurd hf (Nat.not_succ_le_zero _)
  | succ fuel ih =>
    intro img curr data hd h1 hfree hlen hm hN hspace hfuel
    have hdl : ¬ data.length = 0 := fun hh => hd (List.length_eq_zero.mp hh)
    have hclt : curr < img.fat.length := (List.getElem?_eq_some.mp hfree).1
    have hcl : curr ≠ LASTBLOCK := by omega
    have hset : fat_set img.fat curr LASTBLOCK = some (img.fat.set curr LASTBLOCK) := by
      unfold fat_set
      rw [if_pos hclt]
      rfl
    have hm1 : (img.fat.set curr LASTBLOCK)[0]? = some m := by
      rw [List.getElem?_set_ne (by omega)]; exact hm
    have hidx : ∀ (fat : List Nat), fat[0]? = some m →
        mem_idx fat curr = some (bs * FAT_BLOCKS m + bs * curr - bs) := by
      intro fat hf
      unfold mem_idx
      simp only [hf, hb, Option.bind_eq_bind, Option.some_bind]
      have : ¬ bs * FAT_BLOCKS m + bs * curr < bs := by
        have := Nat.mul_le_mul_left bs h1
        rw [Nat.mul_one] at this
        omega
      rw [if_neg this]
    have hreg : ∀ (fat : List Nat) (c : Nat), fat[0]? = some m → fat.length = img.fat.length →
        c ≤ bs → in_data_region fat (bs * FAT_BLOCKS m + bs * curr - bs) c = some true := by
      intro fat c hf hl hc
      unfold in_data_region
      simp only [hf, hb, Option.bind_eq_bind, Option.some_bind, Option.some.injEq,
        decide_eq_true_eq]
      have hA := Nat.mul_le_mul_left bs h1
      rw [Nat.mul_one] at hA
      have hB : bs * curr ≤ bs * (fat.length - 1) :=
        Nat.mul_le_mul_left bs (by rw [hl]; omega)
      constructor
      · omega
      · omega
    simp only [build_chain_rec, hdl, if_false, Option.bind_eq_bind, hm, Option.some_bind, hb,
      hset]
    by_cases hle : data.length ≤ bs
    · rw [if_pos hle]
      simp only [hidx _ hm1, Option.some_bind]
      rw [seek_write_of_region _ _ _ (hreg _ _ hm1 (List.length_set _ _ _) hle)]
      refine ⟨_, [curr], rfl, ?_, ?_, List.nodup_singleton _, ?_, ?_, ?_⟩
      · exact ⟨rfl, hcl, h1, LASTBLOCK, List.getElem?_set_self hclt, rfl⟩
      · have : (data.length - 1) / bs = 0 := Nat.div_eq_of_lt (by omega)
        rw [this]; rfl
      · intro b hb1
        rw [List.mem_singleton.mp hb1]; exact hfree
      · intro i hi
        exact List.getElem?_set_ne (fun hh => hi (by rw [hh]; exact List.mem_singleton_self _))
      · exact List.length_set _ _ _
    · rw [if_neg hle]
      have hnb : (data.length - 1) / bs = (data.length - bs - 1) / bs + 1 := by
        have : data.length - 1 = data.length - bs - 1 + bs := by omega
        rw [this, Nat.add_div_right _ hbspos]
      have hfc : free_cells (img.fat.set curr LASTBLOCK) + 1 = free_cells img.fat :=
        free_cells_set _ _ _ h1 hfree (by decide)
      obtain ⟨next, hn1, hnfree, hnmin⟩ :=
        free_cells_least (img.fat.set curr LASTBLOCK) (by
          rw [hnb] at hspace
          generalize (data.length - bs - 1) / bs = q at hspace
          omega)
      have hnlt : next < (img.fat.set curr LASTBLOCK).length :=
        (List.getElem?_eq_some.mp hnfree).1
      rw [List.length_set] at hnlt
      rw [get_free_block_least _ m bs next hm1 hb hn1 (by omega) hnfree hnmin]
      simp only [Option.some_bind]
      have hdrop : data.drop bs ≠ [] := by
        intro hh
        have := congrArg List.length hh
        simp only [List.length_drop, List.length_nil] at this
        omega
      obtain ⟨img2, C2, hr, hch, hC2len, hC2nd, hC2free, hC2out, hlen2⟩ :=
        ih { img with fat := img.fat.set curr LASTBLOCK } next (data.drop bs) hdrop hn1 hnfree
          (by show (img.fat.set curr LASTBLOCK).length ≤ LASTBLOCK
              rw [List.length_set]; exact hlen)
          hm1
          (by show (img.fat.set curr LASTBLOCK).length ≤ FAT_BLOCKS m * bs
              rw [List.length_set]; exact hN)
          (by show _ ≤ free_cells (img.fat.set curr LASTBLOCK)
              rw [List.length_drop]
              rw [hnb] at hspace
              generalize (data.length - bs - 1) / bs = q at hspace ⊢
              omega)
          (by rw [List.length_drop]
              rw [hnb] at hfuel
              generalize (data.length - bs - 1) / bs = q at hfuel ⊢
              omega)
      rw [hr]
      simp only [Option.some_bind]
      have hlen2' : img2.fat.length = img.fat.length := by
        rw [hlen2]; exact List.length_set _ _ _
      have hcnot : curr ∉ C2 := by
        intro hmem
        have := hC2free curr hmem
        have h2 : (img.fat.set curr LASTBLOCK)[curr]? = some LASTBLOCK :=
          List.getElem?_set_self hclt
        rw [h2] at this
        cases this
      have hm2 : img2.fat[0]? = some m := by
        have h0 : (0 : Nat) ∉ C2 := by
          intro hmem
          have := (is_chain_mem _ _ _ hch 0 hmem).1
          omega
        rw [hC2out 0 h0]; exact hm1
      have hset3 : fat_set img2.fat curr next = some (img2.fat.set curr next) := by
        unfold fat_set
        rw [if_pos (by rw [hlen2']; exact hclt), Nat.mod_eq_of_lt (by omega)]
      have hm3 : (img2.fat.set curr next)[0]? = some m := by
        rw [List.getElem?_set_ne (by omega)]; exact hm2
      simp only [hset3, Option.some_bind, hidx _ hm3]
      have htl : (data.take bs).length = bs := by
        rw [List.length_take]; omega
      rw [seek_write_of_region _ _ _ (hreg _ _ hm3
        (by rw [List.length_set]; exact hlen2') (by rw [htl]))]
      refine ⟨_, curr :: C2, rfl, ?_, ?_, List.nodup_cons.mpr ⟨hcnot, hC2nd⟩, ?_, ?_, ?_⟩
      · refine ⟨rfl, hcl, h1, next, List.getElem?_set_self (by rw [hlen2']; exact hclt), ?_⟩
        apply is_chain_congr img2.fat _ C2 next hch
        intro b hb2
        exact List.getElem?_set_ne (fun hh => hcnot (by rw [hh]; exact hb2))
      · simp only [List.length_cons, hC2len, List.length_drop, hnb]
      · intro b hb2
        rcases List.mem_cons.mp hb2 with h | h
        · rw [h]; exact hfree
        · have := hC2free b h
          have hbc : b ≠ curr := fun hh => hcnot (by rw [← hh]; exact h)
          have h3 : (img.fat.set curr LASTBLOCK)[b]? = img.fat[b]? :=
            List.getElem?_set_ne (fun hh => hbc hh.symm)
          rw [← h3]; exact this
      · intro i hi
        have hic : i ≠ curr := fun hh => hi (by rw [hh]; exact List.mem_cons_self _ _)
        have hi2 : i ∉ C2 := fun hh => hi (List.mem_cons_of_mem _ hh)
        show (img2.fat.set curr next)[i]? = img.fat[i]?
        rw [List.getElem?_set_ne (fun hh => hic hh.symm), hC2out i hi2]
        exact List.getElem?_set_ne (fun hh => hic hh.symm)
      · show (img2.fat.set curr next).length = img.fat.length
        rw [List.length_set]; exact hlen2'

/-! ## Claims C25, C26, C27: free-block search and chains -/

/-- Claim C25 at a failing input: the FAT of the full example image has `N = 1 * 256 / 2 = 128` cells, none
of which is free; the scan of `get_free_block` runs up to the index
`n_blocks * block_size - 1 = 255` and leaves the FAT at the index 128, so the call
has no defined result instead of returning 0. -/
theorem get_free_block_full_fat :
    example_image_full.fat.length = 128 ∧ example_image_full.fat[0]? = some 256 ∧
    FAT_BLOCKS 256 = 1 ∧ BLOCK_SIZE 256 = some 256 ∧
    (∀ i, i < 128 → example_image_full.fat[i]? ≠ some 0) ∧
    example_image_full.fat[128]? = none ∧
    get_free_block example_image_full.fat = none := by
  decide

/-- Claim C26 at failing inputs: no operation that needs a block of a full FAT returns. With the cell 3 the
only free one, `build_chain` from block 3 for 300 bytes has no defined result; on
the image without a free cell neither have `fs_cp` of `foo` to the new file `bar`
nor `fs_cat` of a string into the new file `bar`. -/
theorem no_space_undefined :
    (∀ i, 1 ≤ i → i < 128 → example_image_one_free.fat[i]? = some 0 → i = 3) ∧
    (build_chain example_image_one_free 3 (List.replicate 300 65)).isNone = true ∧
    (∀ i, i < 128 → example_image_full.fat[i]? ≠ some 0) ∧
    (fs_cp example_image_full foo bar 9).isNone = true ∧
    (fs_cat example_image_full 0 1 [104, 105, 0] [] bar 9).isNone = true := by
  decide

/-- A call of `build_chain` for data that fits in one block. -/
theorem build_chain_one_block (img : Image) (curr m bs : Nat) (data : List Nat)
    (hm : img.fat[0]? = some m) (hb : BLOCK_SIZE m = some bs) (h1 : 1 ≤ curr)
    (hclt : curr < img.fat.length) (hd : data ≠ []) (hle : data.length ≤ bs) :
    build_chain img curr data = some
      { fat := img.fat.set curr LASTBLOCK
        disk := disk_write img.disk (bs * FAT_BLOCKS m + bs * curr - bs) data } := by
  have hdl : ¬ data.length = 0 := fun hh => hd (List.length_eq_zero.mp hh)
  have hset : fat_set img.fat curr LASTBLOCK = some (img.fat.set curr LASTBLOCK) := by
    unfold fat_set
    rw [if_pos hclt]
    rfl
  have hm1 : (img.fat.set curr LASTBLOCK)[0]? = some m := by
    rw [List.getElem?_set_ne (by omega)]; exact hm
  have hA := Nat.mul_le_mul_left bs h1
  rw [Nat.mul_one] at hA
  have hidx : mem_idx (img.fat.set curr LASTBLOCK) curr
      = some (bs * FAT_BLOCKS m + bs * curr - bs) := by
    unfold mem_idx
    simp only [hm1, hb, Option.bind_eq_bind, Option.some_bind]
    rw [if_neg (by omega)]
  have hreg : in_data_region (img.fat.set curr LASTBLOCK)
      (bs * FAT_BLOCKS m + bs * curr - bs) data.length = some true := by
    unfold in_data_region
    simp only [hm1, hb, Option.bind_eq_bind, Option.some_bind, Option.some.injEq,
      decide_eq_true_eq, List.length_set]
    have hB : bs * curr ≤ bs * (img.fat.length - 1) := Nat.mul_le_mul_left bs (by omega)
    constructor
    · omega
    · omega
  unfold build_chain
  cases hn : data.length with
  | zero => exact absurd hn hdl
  | succ n =>
    rw [hn] at hle
    simp only [build_chain_rec, hn, Nat.add_one_ne_zero, if_false, Option.bind_eq_bind, hm,
      Option.some_bind, hb, hset, hle, if_true, hidx]
    rw [seek_write_of_region _ _ _ hreg]

/-- Claim C27 at a failing input: in the largest geometry the FAT has 65536 cells and the
index of the last one is the value `LASTBLOCK`. With that cell free, `build_chain`
from it stores one byte and marks the cell, and `read_chain` from it reads nothing. -/
theorem build_chain_last_index :
    example_image_max.fat.length = 65536 ∧ example_image_max.fat[0]? = some 8196 ∧
    FAT_BLOCKS 8196 = 32 ∧ BLOCK_SIZE 8196 = some 4096 ∧
    example_image_max.fat[65535]? = some 0 ∧
    ∃ img1, build_chain example_image_max 65535 [65] = some img1 ∧
      img1.fat[65535]? = some LASTBLOCK ∧ read_chain img1 65535 1 = some [] := by
  have hfat : example_image_max.fat = [8196, LASTBLOCK] ++ List.replicate 65534 0 := rfl
  have hlen : example_image_max.fat.length = 65536 := by
    rw [hfat, List.length_append, List.length_replicate]
    rfl
  have h0 : example_image_max.fat[0]? = some 8196 := by
    rw [hfat, List.cons_append, List.getElem?_cons_zero]
  have hbs : BLOCK_SIZE 8196 = some 4096 := by decide
  refine ⟨hlen, h0, by decide, hbs, ?_, ?_⟩
  · rw [hfat, List.getElem?_append_right (by decide), List.getElem?_replicate]
    exact if_pos (by decide)
  · refine ⟨_, build_chain_one_block example_image_max 65535 8196 4096 [65] h0 hbs
      (by decide) (by rw [hlen]; decide) (by decide) (by decide), ?_, ?_⟩
    · exact List.getElem?_set_self (by rw [hlen]; decide)
    · unfold read_chain read_chain_rec
      exact if_pos (by decide)

/-- Claim C27, amended, for a FAT of at most 65535 cells that lies inside the range of the scan
of `get_free_block`: for every free cell `head`, from 1 on, and every buffer of
`n >= 1` bytes, when at least `(n - 1) / block_size + 1` cells are free,
`build_chain` returns; the chain from `head` then has that number of blocks, all
distinct and free before, and ends in `LASTBLOCK`; the cells outside the chain and
the number of cells are unchanged; and `read_chain(head, n)` returns the buffer. -/
theorem build_chain_round_trip (img : Image) (head m bs : Nat) (data : List Nat)
    (hm : img.fat[0]? = some m) (hb : BLOCK_SIZE m = some bs)
    (hN : img.fat.length ≤ FAT_BLOCKS m * bs) (hL : img.fat.length ≤ LASTBLOCK)
    (hd : data ≠ []) (hbytes : ∀ x ∈ data, x < 256)
    (h1 : 1 ≤ head) (hfree : img.fat[head]? = some 0)
    (hspace : (data.length - 1) / bs + 1 ≤ free_cells img.fat) :
    ∃ (img1 : Image) (C : List Nat),
      build_chain img head data = some img1 ∧
      is_chain img1.fat head C ∧ C.length = (data.length - 1) / bs + 1 ∧ C.Nodup ∧
      (∀ b ∈ C, img.fat[b]? = some 0) ∧ (∀ i, i ∉ C → img1.fat[i]? = img.fat[i]?) ∧
      img1.fat.length = img.fat.length ∧
      read_chain img1 head data.length = some data := by
  have hpos : 0 < data.length := List.length_pos.mpr hd
  have hfuel : (data.length - 1) / bs + 1 ≤ data.length := by
    have := Nat.div_le_self (data.length - 1) bs
    omega
  obtain ⟨img1, C, hbuild, hch, hlen, hnd, hCfree, hout, hl⟩ :=
    build_chain_rec_chain m bs hb data.length img head data hd h1 hfree hL hm hN hspace hfuel
  refine ⟨img1, C, hbuild, hch, hlen, hnd, hCfree, hout, hl, ?_⟩
  obtain ⟨_, _, hread⟩ := build_chain_rec_spec data.length img img1 head data hd h1 hfree hL hbuild
  have := hread img1 (same_geometry_refl _) (fun i _ => same_block_refl _ _) data.length
    data.length (le_refl _) (le_refl _)
  unfold read_chain
  rw [this, List.take_length]
  congr 1
  have hid : data.map (fun x => x % 256) = data.map id :=
    List.map_congr_left (fun x hx => Nat.mod_eq_of_lt (hbytes x hx))
  rw [hid, List.map_id]

/-- Witness of the amended claim C27: 300 bytes are stored from the free cell 3 of the example image,
whose blocks have 256 bytes; the chain has two blocks. -/
theorem build_chain_round_trip_witness :
    ∃ (img1 : Image) (C : List Nat),
      build_chain (example_image 6) 3 (List.replicate 300 65) = some img1 ∧
      is_chain img1.fat 3 C ∧ C.length = ((List.replicate 300 65).length - 1) / 256 + 1 ∧
      C.Nodup ∧
      (∀ b ∈ C, (example_image 6).fat[b]? = some 0) ∧
      (∀ i, i ∉ C → img1.fat[i]? = (example_image 6).fat[i]?) ∧
      img1.fat.length = (example_image 6).fat.length ∧
      read_chain img1 3 (List.replicate 300 65).length = some (List.replicate 300 65) :=
  build_chain_round_trip (example_image 6) 3 256 256 (List.replicate 300 65)
    (by decide) (by decide) (by decide) (by decide) (by decide) (by decide) (by decide)
    (by decide) (by decide)

/-! ## The bytes of a directory entry -/

theorem le_bytes_le_value (x : List Nat) :
    le_bytes (le_value x) x.length = x.map (fun b => b % 256) := by
  induction x with
  | nil => rfl
  | cons b bs ih =>
    simp only [le_value, List.length_cons, le_bytes, List.map_cons]
    have h1 : (b % 256 + 256 * le_value bs) % 256 = b % 256 := by omega
    have h2 : (b % 256 + 256 * le_value bs) / 256 = le_value bs := by omega
    rw [h1, h2, ih]

theorem getD_map_range (f : Nat → Nat) (n i : Nat) (h : i < n) :
    ((List.range n).map f).getD i 0 = f i := by
  rw [List.getD_eq_getElem _ _ (by simpa using h)]
  simp

theorem map_range_getD (l : List Nat) (k n : Nat) (h : k + n ≤ l.length) :
    (List.range n).map (fun i => l.getD (k + i) 0 % 256)
      = ((l.drop k).take n).map (fun b => b % 256) := by
  apply List.ext_getElem
  · simp only [List.length_map, List.length_range, List.length_take, List.length_drop]
    omega
  · intro i h1 h2
    simp only [List.length_map, List.length_range] at h1
    simp only [List.getElem_map, List.getElem_range, List.getElem_take, List.getElem_drop]
    rw [List.getD_eq_getElem _ _ (by omega)]

/-- The bytes that are written back for an entry that was read are the bytes read. -/
theorem encode_decode (l : List Nat) (hl : l.length = 64) :
    (dir_entry_t.decode l).encode = l.map (fun b => b % 256) := by
  have hN : (List.range 32).map (fun i => (dir_entry_t.decode l).name.getD i 0 % 256)
      = ((l.drop 0).take 32).map (fun b => b % 256) := by
    rw [← map_range_getD l 0 32 (by omega)]
    apply List.map_congr_left
    intro i hi
    have hi32 : i < 32 := List.mem_range.mp hi
    simp only [dir_entry_t.decode]
    rw [getD_map_range _ _ _ hi32, Nat.zero_add, Nat.mod_mod]
  have hB : (List.range 16).map (fun i => (dir_entry_t.decode l)._BUFFER_.getD i 0 % 256)
      = ((l.drop 48).take 16).map (fun b => b % 256) := by
    rw [← map_range_getD l 48 16 (by omega)]
    apply List.map_congr_left
    intro i hi
    have hi16 : i < 16 := List.mem_range.mp hi
    simp only [dir_entry_t.decode]
    rw [getD_map_range _ _ _ hi16, Nat.mod_mod]
  have hS : le_bytes (dir_entry_t.decode l).size 4 = ((l.drop 32).take 4).map (fun b => b % 256) := by
    have := le_bytes_le_value ((l.drop 32).take 4)
    rw [List.length_take, List.length_drop, hl] at this
    exact this
  have hF : le_bytes (dir_entry_t.decode l).firstBlock 2
      = ((l.drop 36).take 2).map (fun b => b % 256) := by
    have := le_bytes_le_value ((l.drop 36).take 2)
    rw [List.length_take, List.length_drop, hl] at this
    exact this
  have hM : le_bytes (dir_entry_t.decode l).mtime 8
      = ((l.drop 40).take 8).map (fun b => b % 256) := by
    have := le_bytes_le_value ((l.drop 40).take 8)
    rw [List.length_take, List.length_drop, hl] at this
    exact this
  have hT : [(dir_entry_t.decode l).type % 256, (dir_entry_t.decode l).perm % 256]
      = ((l.drop 38).take 2).map (fun b => b % 256) := by
    have := map_range_getD l 38 2 (by omega)
    rw [← this]
    simp only [dir_entry_t.decode, Nat.mod_mod]
    rfl
  rw [encode_assoc, hN, hB, hS, hF, hM, hT]
  simp only [← List.map_append]
  congr 1
  have h16 : (l.drop 48).take 16 = l.drop 48 := List.take_of_length_le (by
    rw [List.length_drop]; omega)
  rw [h16]
  have step : ∀ (a n : Nat), (l.drop a).take n ++ l.drop (a + n) = l.drop a := by
    intro a n
    rw [← List.drop_drop]
    exact List.take_append_drop n (l.drop a)
  rw [step 40 8, step 38 2, step 36 2, step 32 4, step 0 32]
  rfl

/-! ## Rewriting a directory entry in place -/

theorem le_value_lt (x : List Nat) : le_value x < 256 ^ x.length := by
  induction x with
  | nil => simp [le_value]
  | cons b bs ih =>
    simp only [le_value, List.length_cons, pow_succ]
    have := Nat.mod_lt b (show 0 < 256 by decide)
    omega

theorem getD_swap_mid (P X Y B : List Nat) (hxy : X.length = Y.length) (i : Nat)
    (hi : i < P.length ∨ P.length + X.length ≤ i) :
    (P ++ (X ++ B)).getD i 0 = (P ++ (Y ++ B)).getD i 0 := by
  rcases hi with h | h
  · rw [List.getD_append _ _ _ _ h, List.getD_append _ _ _ _ h]
  · rw [List.getD_append_right _ _ _ _ (by omega), List.getD_append_right _ _ _ _ (by omega),
      List.getD_append_right _ _ _ _ (by omega), List.getD_append_right _ _ _ _ (by omega), hxy]

theorem disk_read_getD (d : Nat → Nat) (A c j : Nat) (h : j < c) :
    (disk_read d A c).getD j 0 = d (A + j) % 256 := by
  unfold disk_read
  exact getD_map_range _ _ _ h

theorem disk_write_inside (d : Nat → Nat) (A : Nat) (bytes : List Nat) (a : Nat)
    (h : A ≤ a ∧ a < A + bytes.length) :
    disk_write d A bytes a = bytes.getD (a - A) 0 % 256 := by
  unfold disk_write
  rw [if_pos h]

/-- The entry that was read from a slot is written back with a new `mtime`: the
bytes of the host file outside the field `mtime` of the slot keep their values. -/
theorem write_mtime_frame (d : Nat → Nat) (A v : Nat) (a : Nat)
    (ha : ¬ (A + 40 ≤ a ∧ a < A + 48)) :
    disk_write d A
      (dir_entry_t.encode
        { dir_entry_t.decode (disk_read d A DIR_ENTRY_SIZE) with mtime := v }) a % 256
      = d a % 256 := by
  have hD : DIR_ENTRY_SIZE = 64 := rfl
  by_cases hin : A ≤ a ∧ a < A + 64
  · rw [disk_write_inside _ _ _ _ (by rw [encode_length, hD]; exact hin), Nat.mod_mod]
    have hl : (disk_read d A DIR_ENTRY_SIZE).length = 64 := disk_read_length _ _ _
    have henc := encode_decode (disk_read d A DIR_ENTRY_SIZE) hl
    have hswap : (dir_entry_t.encode
        { dir_entry_t.decode (disk_read d A DIR_ENTRY_SIZE) with mtime := v }).getD (a - A) 0
        = (dir_entry_t.encode (dir_entry_t.decode (disk_read d A DIR_ENTRY_SIZE))).getD
            (a - A) 0 := by
      rw [encode_assoc, encode_assoc]
      simp only [← List.append_assoc]
      simp only [List.append_assoc ((_ ++ _ ++ _) ++ _) _ _]
      apply getD_swap_mid
      · rw [le_bytes_length, le_bytes_length]
      · simp only [List.length_append, List.length_map, List.length_range, le_bytes_length,
          List.length_cons, List.length_nil]
        omega
    rw [hswap, henc]
    rw [List.getD_eq_getElem _ _ (by rw [List.length_map, hl]; omega), List.getElem_map,
      Nat.mod_mod]
    have := disk_read_getD d A DIR_ENTRY_SIZE (a - A) (by rw [hD]; omega)
    rw [List.getD_eq_getElem _ _ (by rw [hl]; omega)] at this
    rw [this, Nat.mod_mod]
    congr 2
    omega
  · rw [disk_write_outside _ _ _ _ (by rw [encode_length, hD]; exact hin)]

/-- The result of decoding the bytes of an entry. -/
theorem decode_encode (e : dir_entry_t) :
    dir_entry_t.decode e.encode
      = { name := (List.range 32).map (fun i => e.name.getD i 0 % 256)
          size := e.size % 2 ^ 32
          firstBlock := e.firstBlock % 2 ^ 16
          type := e.type % 256
          perm := e.perm % 256
          mtime := e.mtime % 2 ^ 64
          _BUFFER_ := (List.range 16).map (fun i => e._BUFFER_.getD i 0 % 256) } := by
  have hname := decode_encode_name e
  have hsize := decode_encode_size e
  have hfb := decode_encode_firstBlock e
  have hrest : (dir_entry_t.decode e.encode).type = e.type % 256 ∧
      (dir_entry_t.decode e.encode).perm = e.perm % 256 ∧
      (dir_entry_t.decode e.encode).mtime = e.mtime % 2 ^ 64 ∧
      (dir_entry_t.decode e.encode)._BUFFER_
        = (List.range 16).map (fun i => e._BUFFER_.getD i 0 % 256) := by
    simp only [dir_entry_t.decode]
    rw [encode_assoc]
    have hN : ((List.range 32).map (fun i => e.name.getD i 0 % 256)).length = 32 := by simp
    refine ⟨?_, ?_, ?_, ?_⟩
    · rw [List.getD_append_right _ _ _ _ (by rw [hN]; try decide), hN,
        List.getD_append_right _ _ _ _ (by rw [le_bytes_length]; try decide), le_bytes_length,
        List.getD_append_right _ _ _ _ (by rw [le_bytes_length]; try decide), le_bytes_length]
      simp
    · rw [List.getD_append_right _ _ _ _ (by rw [hN]; try decide), hN,
        List.getD_append_right _ _ _ _ (by rw [le_bytes_length]; try decide), le_bytes_length,
        List.getD_append_right _ _ _ _ (by rw [le_bytes_length]; try decide), le_bytes_length]
      simp
    · rw [show (40 : Nat) = 32 + (4 + (2 + 2)) from rfl, ← List.drop_drop, ← List.drop_drop,
        ← List.drop_drop, List.drop_left' hN, List.drop_left' (le_bytes_length _ _),
        List.drop_left' (le_bytes_length _ _), List.drop_left' (by rfl),
        List.take_left' (le_bytes_length _ _), le_value_le_bytes]
      norm_num
    · apply List.map_congr_left
      intro i hi
      have hi16 : i < 16 := List.mem_range.mp hi
      rw [List.getD_append_right _ _ _ _ (by rw [hN]; omega), hN,
        List.getD_append_right _ _ _ _ (by rw [le_bytes_length]; omega), le_bytes_length,
        List.getD_append_right _ _ _ _ (by rw [le_bytes_length]; omega), le_bytes_length,
        List.getD_append_right _ _ _ _ (by simp; omega),
        List.getD_append_right _ _ _ _ (by rw [le_bytes_length]; simp; omega), le_bytes_length]
      have : 48 + i - 32 - 4 - 2 - [e.type % 256, e.perm % 256].length - 8 = i := by
        simp only [List.length_cons, List.length_nil]; omega
      rw [this, getD_map_range _ _ _ hi16, Nat.mod_mod]
  obtain ⟨ht, hp, hm, hbuf⟩ := hrest
  cases hd : dir_entry_t.decode e.encode with
  | mk n s f t p m b =>
    rw [hd] at hname hsize hfb ht hp hm hbuf
    simp only at hname hsize hfb ht hp hm hbuf
    rw [hname, hsize, hfb, ht, hp, hm, hbuf]

/-- An entry that was read, with a new `mtime`, is read back as it was written. -/
theorem decode_encode_mtime (l : List Nat) (v : Nat) :
    dir_entry_t.decode (dir_entry_t.encode { dir_entry_t.decode l with mtime := v % 2 ^ 64 })
      = { dir_entry_t.decode l with mtime := v % 2 ^ 64 } := by
  rw [decode_encode]
  have h4 := le_value_lt ((l.drop 32).take 4)
  have h2 := le_value_lt ((l.drop 36).take 2)
  have hl4 : ((l.drop 32).take 4).length ≤ 4 := by rw [List.length_take]; omega
  have hl2 : ((l.drop 36).take 2).length ≤ 2 := by rw [List.length_take]; omega
  have hp4 : 256 ^ ((l.drop 32).take 4).length ≤ 2 ^ 32 := by
    calc 256 ^ ((l.drop 32).take 4).length ≤ 256 ^ 4 := Nat.pow_le_pow_right (by decide) hl4
      _ = 2 ^ 32 := by norm_num
  have hp2 : 256 ^ ((l.drop 36).take 2).length ≤ 2 ^ 16 := by
    calc 256 ^ ((l.drop 36).take 2).length ≤ 256 ^ 2 := Nat.pow_le_pow_right (by decide) hl2
      _ = 2 ^ 16 := by norm_num
  have hname := decode_name_norm l
  simp only [dir_entry_t.decode] at hname ⊢
  rw [hname, Nat.mod_eq_of_lt (lt_of_lt_of_le h4 hp4), Nat.mod_eq_of_lt (lt_of_lt_of_le h2 hp2)]
  simp only [Nat.mod_mod]
  congr 1
  apply List.map_congr_left
  intro i hi
  have hi16 : i < 16 := List.mem_range.mp hi
  rw [getD_map_range _ _ _ hi16, Nat.mod_mod]

/-- The lookup that finds an entry finds it in the block of its location. -/
theorem find_file_loop_hit_block (img : Image) (name : List Nat) (bs : Nat) :
    ∀ (fuel curr : Nat) (loc : point_t) (e : dir_entry_t),
      find_file_loop img name bs fuel curr = some (some (loc, e)) →
      ∃ addr, mem_idx img.fat loc.first = some addr ∧
        find_in_block img name loc.first addr (bs / DIR_ENTRY_SIZE) 0 = some (some (loc, e)) := by
  intro fuel
  induction fuel with
  | zero => intro curr loc e h; cases h
  | succ fuel ih =>
    intro curr loc e h
    unfold find_file_loop at h
    by_cases hl : curr = LASTBLOCK
    · rw [if_pos hl] at h; cases h
    · rw [if_neg hl] at h
      simp only [Option.bind_eq_bind] at h
      cases ha : mem_idx img.fat curr with
      | none => rw [ha] at h; cases h
      | some addr =>
        rw [ha] at h
        simp only [Option.some_bind] at h
        cases hr : find_in_block img name curr addr (bs / DIR_ENTRY_SIZE) 0 with
        | none => rw [hr] at h; cases h
        | some r =>
          rw [hr] at h
          simp only [Option.some_bind] at h
          cases r with
          | some hit =>
            simp only [Option.some.injEq] at h
            subst h
            have := (find_in_block_found img name curr addr _ _ loc e hr).1
            rw [this]
            exact ⟨addr, ha, hr⟩
          | none =>
            simp only [] at h
            cases hn : img.fat[curr]? with
            | none => rw [hn] at h; cases h
            | some next =>
              rw [hn] at h
              simp only [Option.some_bind] at h
              exact ih next loc e h

/-- The lookup after the 64 bytes of the entry found were replaced by bytes that
decode to an entry with the same name. -/
theorem find_file_rewrite (img : Image) (name : List Nat) (loc : point_t) (e : dir_entry_t)
    (addr : Nat) (bytes : List Nat) (hlen : bytes.length = DIR_ENTRY_SIZE)
    (hname : (dir_entry_t.decode (bytes.map (fun x => x % 256))).name = e.name)
    (haddr : mem_idx img.fat loc.first = some addr)
    (h : find_file img ROOTDIR name = some (some (loc, e))) :
    find_file { img with disk := disk_write img.disk (addr + loc.second * DIR_ENTRY_SIZE) bytes }
        ROOTDIR name
      = some (some (loc, dir_entry_t.decode (bytes.map (fun x => x % 256)))) := by
  unfold find_file at h ⊢
  show (img.fat[0]?).bind _ = _
  cases hm : img.fat[0]? with
  | none => rw [hm] at h; cases h
  | some m =>
    rw [hm] at h
    simp only [Option.bind_eq_bind, Option.some_bind] at h ⊢
    cases hb : BLOCK_SIZE m with
    | none => rw [hb] at h; cases h
    | some bs =>
      rw [hb] at h
      simp only [Option.some_bind] at h ⊢
      obtain ⟨addr2, ha2, hblock⟩ := find_file_loop_hit_block img name bs _ _ loc e h
      rw [haddr] at ha2
      cases ha2
      exact find_file_loop_rewrite img name bs m hm hb loc e addr bytes hlen hname haddr hblock
        _ _ h

/-- Claim C29: `fs_touch` of a name that `find_file` finds returns `false`; the FAT is
unchanged; every byte of the host file outside the 8 bytes of the field `mtime` of
the entry keeps its value, so the other fields of the entry, the other entries and
the contents of all files are unchanged; and `find_file` then returns the same
location with the same entry except for `mtime`, which holds the time of the call. -/
theorem fs_touch_existing (img : Image) (name : List Nat) (now : Nat) (loc : point_t)
    (e : dir_entry_t) (h : find_file img ROOTDIR name = some (some (loc, e))) :
    ∃ (img1 : Image) (addr : Nat),
      fs_touch img name now = some (img1, false) ∧
      mem_idx img.fat loc.first = some addr ∧
      img1.fat = img.fat ∧
      (∀ a, ¬ (addr + loc.second * DIR_ENTRY_SIZE + 40 ≤ a ∧
              a < addr + loc.second * DIR_ENTRY_SIZE + 48) →
        img1.disk a % 256 = img.disk a % 256) ∧
      find_file img1 ROOTDIR name = some (some (loc, { e with mtime := now % 2 ^ 64 })) := by
  obtain ⟨addr, haddr, hreg, he, _, _⟩ := find_file_found img name loc e h
  obtain ⟨addr2, haddr2, hw⟩ := write_file_found img name loc e { e with mtime := now % 2 ^ 64 } h
  rw [haddr] at haddr2
  cases haddr2
  refine ⟨Image.mk img.fat (disk_write img.disk (addr + loc.second * DIR_ENTRY_SIZE)
      (dir_entry_t.encode { e with mtime := now % 2 ^ 64 })), addr, ?_, haddr, rfl, ?_, ?_⟩
  · unfold fs_touch
    simp only [h, Option.bind_eq_bind, Option.some_bind, hw]
  · intro a ha
    show disk_write img.disk _ _ a % 256 = _
    rw [he]
    exact write_mtime_frame img.disk _ _ a ha
  · have hdec : dir_entry_t.decode
        ((dir_entry_t.encode { e with mtime := now % 2 ^ 64 }).map (fun x => x % 256))
        = { e with mtime := now % 2 ^ 64 } := by
      rw [encode_map_mod, he]
      exact decode_encode_mtime _ _
    have := find_file_rewrite img name loc e addr
      (dir_entry_t.encode { e with mtime := now % 2 ^ 64 }) (encode_length _)
      (by rw [hdec]) haddr h
    rw [hdec] at this
    exact this

/-- Witness of claim C29: `fs_touch` of the file `foo` of the example image. -/
theorem fs_touch_existing_witness :
    ∃ (img1 : Image) (addr : Nat),
      fs_touch (example_image 6) foo 9 = some (img1, false) ∧
      mem_idx (example_image 6).fat 1 = some addr ∧
      img1.fat = (example_image 6).fat ∧
      (∀ a, ¬ (addr + 0 * DIR_ENTRY_SIZE + 40 ≤ a ∧ a < addr + 0 * DIR_ENTRY_SIZE + 48) →
        img1.disk a % 256 = (example_image 6).disk a % 256) ∧
      find_file img1 ROOTDIR foo
        = some (some ({ first := 1, second := 0 }, { example_entry 6 with mtime := 9 % 2 ^ 64 })) :=
  fs_touch_existing (example_image 6) foo 9 { first := 1, second := 0 } (example_entry 6)
    (by decide)

/-! ## Chains without repetition, `delete_chain`, `fs_rm` -/

theorem is_chain_unique (fat : List Nat) :
    ∀ (C1 C2 : List Nat) (head : Nat), is_chain fat head C1 → is_chain fat head C2 → C1 = C2 := by
  intro C1
  induction C1 with
  | nil =>
    intro C2 head h1 h2
    cases C2 with
    | nil => rfl
    | cons b r =>
      simp only [is_chain] at h1 h2
      exact absurd (h2.1.symm.trans h1) h2.2.1
  | cons b rest ih =>
    intro C2 head h1 h2
    cases C2 with
    | nil =>
      simp only [is_chain] at h1 h2
      exact absurd (h1.1.symm.trans h2) h1.2.1
    | cons b2 r2 =>
      simp only [is_chain] at h1 h2
      obtain ⟨e1, _, _, n1, hn1, hr1⟩ := h1
      obtain ⟨e2, _, _, n2, hn2, hr2⟩ := h2
      have hb : b = b2 := e1.symm.trans e2
      subst hb
      rw [hn1] at hn2
      cases hn2
      rw [ih r2 n1 hr1 hr2]

theorem is_chain_suffix (fat : List Nat) :
    ∀ (C : List Nat) (head : Nat), is_chain fat head C → ∀ b ∈ C,
      ∃ pre suf, C = pre ++ b :: suf ∧ is_chain fat b (b :: suf) := by
  intro C
  induction C with
  | nil => intro head _ b hb; cases hb
  | cons c rest ih =>
    intro head h b hb
    rcases List.mem_cons.mp hb with hbc | hbr
    · subst hbc
      refine ⟨[], rest, rfl, ?_⟩
      simp only [is_chain] at h ⊢
      exact ⟨trivial, h.2⟩
    · simp only [is_chain] at h
      obtain ⟨_, _, _, next, _, hr⟩ := h
      obtain ⟨pre, suf, hps, hc⟩ := ih next hr b hbr
      exact ⟨c :: pre, suf, by rw [hps]; rfl, hc⟩

/-- The blocks of a chain are distinct. -/
theorem is_chain_nodup (fat : List Nat) :
    ∀ (C : List Nat) (head : Nat), is_chain fat head C → C.Nodup := by
  intro C
  induction C with
  | nil => intro _ _; exact List.nodup_nil
  | cons c rest ih =>
    intro head h
    have hrest : ∃ next, is_chain fat next rest := by
      simp only [is_chain] at h
      obtain ⟨_, _, _, next, _, hr⟩ := h
      exact ⟨next, hr⟩
    obtain ⟨next, hr⟩ := hrest
    refine List.nodup_cons.mpr ⟨?_, ih next hr⟩
    intro hmem
    obtain ⟨pre, suf, hps, hc⟩ := is_chain_suffix fat rest next hr c hmem
    have hwhole : is_chain fat c (c :: rest) := by
      simp only [is_chain] at h ⊢
      exact ⟨trivial, h.2⟩
    have := is_chain_unique fat _ _ c hc hwhole
    simp only [List.cons.injEq, true_and] at this
    have hlen := congrArg List.length hps
    rw [← this] at hlen
    simp only [List.length_append, List.length_cons] at hlen
    omega

theorem nodup_length_le (C : List Nat) (n : Nat) (hn : C.Nodup) (hlt : ∀ b ∈ C, b < n) :
    C.length ≤ n := by
  have h1 : C.toFinset ⊆ Finset.range n := by
    intro x hx
    exact Finset.mem_range.mpr (hlt x (List.mem_toFinset.mp hx))
  have h2 := Finset.card_le_card h1
  rw [List.toFinset_card_of_nodup hn, Finset.card_range] at h2
  exact h2

theorem is_chain_length_le (fat : List Nat) (C : List Nat) (head : Nat)
    (h : is_chain fat head C) : C.length ≤ fat.length := by
  apply nodup_length_le C fat.length (is_chain_nodup fat C head h)
  intro b hb
  obtain ⟨_, v, hv, _⟩ := is_chain_mem fat C head h b hb
  exact (List.getElem?_eq_some.mp hv).1

/-- The loop of `delete_chain` on a chain: it ends, the cells of the chain hold 0
and the other cells are unchanged. -/
theorem delete_chain_loop_total :
    ∀ (C : List Nat) (fat : List Nat) (head fuel : Nat),
      is_chain fat head C → C.Nodup → C.length < fuel →
      ∃ fat2, delete_chain_loop fuel fat head = some fat2 ∧ fat2.length = fat.length ∧
        (∀ b ∈ C, fat2[b]? = some 0) ∧ (∀ i, i ∉ C → fat2[i]? = fat[i]?) := by
  intro C
  induction C with
  | nil =>
    intro fat head fuel h _ hf
    simp only [is_chain] at h
    cases fuel with
    | zero => simp at hf
    | succ fuel =>
      refine ⟨fat, ?_, rfl, fun b hb => (by cases hb), fun _ _ => rfl⟩
      simp [delete_chain_loop, h]
  | cons c rest ih =>
    intro fat head fuel h hnd hf
    simp only [is_chain] at h
    obtain ⟨hhead, hcl, hc1, next, hnext, hr⟩ := h
    have hclt : c < fat.length := (List.getElem?_eq_some.mp hnext).1
    obtain ⟨hcnot, hnd2⟩ := List.nodup_cons.mp hnd
    cases fuel with
    | zero => simp at hf
    | succ fuel =>
      simp only [List.length_cons] at hf
      have hr2 : is_chain (fat.set c 0) next rest := by
        apply is_chain_congr fat _ rest next hr
        intro b hb
        exact List.getElem?_set_ne (fun hh => hcnot (by rw [hh]; exact hb))
      obtain ⟨fat2, hd, hl, hzero, hout⟩ := ih (fat.set c 0) next fuel hr2 hnd2 (by omega)
      refine ⟨fat2, ?_, ?_, ?_, ?_⟩
      · rw [hhead]
        unfold delete_chain_loop
        rw [if_neg hcl]
        simp only [Option.bind_eq_bind, hnext, Option.some_bind]
        have : fat_set fat c 0 = some (fat.set c 0) := by
          unfold fat_set
          rw [if_pos hclt]
        rw [this]
        exact hd
      · rw [hl, List.length_set]
      · intro b hb
        rcases List.mem_cons.mp hb with h1 | h1
        · rw [h1, hout c hcnot]
          exact List.getElem?_set_self hclt
        · exact hzero b h1
      · intro i hi
        have hic : i ≠ c := fun hh => hi (by rw [hh]; exact List.mem_cons_self _ _)
        rw [hout i (fun hh => hi (List.mem_cons_of_mem _ hh))]
        exact List.getElem?_set_ne (fun hh => hic hh.symm)

/-- Function `delete_chain` on a chain. -/
theorem delete_chain_total (fat : List Nat) (head m bs : Nat) (C : List Nat)
    (hm : fat[0]? = some m) (hb : BLOCK_SIZE m = some bs) (h : is_chain fat head C) :
    ∃ fat2, delete_chain fat head = some fat2 ∧ fat2.length = fat.length ∧
      (∀ b ∈ C, fat2[b]? = some 0) ∧ (∀ i, i ∉ C → fat2[i]? = fat[i]?) := by
  unfold delete_chain
  simp only [hm, hb, Option.bind_eq_bind, Option.some_bind]
  exact delete_chain_loop_total C fat head _ h (is_chain_nodup fat C head h)
    (by have := is_chain_length_le fat C head h; omega)

/-- The bytes of a slot of a block lie in the data region. -/
theorem slot_in_region (fat : List Nat) (b m bs addr off c : Nat) (hm : fat[0]? = some m)
    (hb : BLOCK_SIZE m = some bs) (h1 : 1 ≤ b) (hlt : b < fat.length)
    (ha : mem_idx fat b = some addr) (hoff : off + c ≤ bs) :
    in_data_region fat (addr + off) c = some true := by
  obtain ⟨m1, bs1, hm1, hb1, _, hge, he⟩ := mem_idx_some fat b addr ha
  rw [hm] at hm1
  cases hm1
  rw [hb] at hb1
  cases hb1
  unfold in_data_region
  simp only [hm, hb, Option.bind_eq_bind, Option.some_bind, Option.some.injEq,
    decide_eq_true_eq]
  have hA := Nat.mul_le_mul_left bs h1
  rw [Nat.mul_one] at hA
  have hB : bs * b ≤ bs * (fat.length - 1) := Nat.mul_le_mul_left bs (by omega)
  constructor
  · omega
  · omega

/-- The loop of `find_file` over a block all of whose slots it passes over. -/
theorem find_in_block_none (img : Image) (name : List Nat) (b addr : Nat)
    (ha : mem_idx img.fat b = some addr) :
    ∀ (k i : Nat),
      (∀ j, i ≤ j → j < i + k →
        in_data_region img.fat (addr + j * DIR_ENTRY_SIZE) DIR_ENTRY_SIZE = some true ∧
        slot_passed img name b j = true) →
      find_in_block img name b addr k i = some none := by
  intro k
  induction k with
  | zero => intro i _; rfl
  | succ k ih =>
    intro i hall
    obtain ⟨hreg, hpass⟩ := hall i (le_refl _) (by omega)
    unfold find_in_block
    simp only [Option.bind_eq_bind, seek_read_of_region _ _ _ hreg, Option.some_bind]
    simp only [slot_passed, entry_at, ha, Option.bind_eq_bind, Option.some_bind,
      Bool.or_eq_true, decide_eq_true_eq, beq_iff_eq] at hpass
    have hrec := ih (i + 1) (fun j h1 h2 => hall j (by omega) (by omega))
    rcases hpass with h | h
    · rw [if_pos h]
      exact hrec
    · by_cases hs : schar ((dir_entry_t.decode
          (disk_read img.disk (addr + i * DIR_ENTRY_SIZE) DIR_ENTRY_SIZE)).name.getD 0 0)
          < FILENAME_DEL_INUSE
      · rw [if_pos hs]
        exact hrec
      · rw [if_neg hs, h]
        simp only [Option.some_bind, Bool.false_eq_true, if_false]
        exact hrec

/-- The lookup over a directory chain all of whose slots it passes over returns `false`. -/
theorem find_file_loop_none (img : Image) (name : List Nat) (m bs : Nat)
    (hm : img.fat[0]? = some m) (hb : BLOCK_SIZE m = some bs) :
    ∀ (D : List Nat) (fuel curr : Nat), is_chain img.fat curr D → D.length < fuel →
      (∀ b ∈ D, ∀ i, i < bs / DIR_ENTRY_SIZE → slot_passed img name b i = true) →
      find_file_loop img name bs fuel curr = some none := by
  have hD : DIR_ENTRY_SIZE = 64 := rfl
  intro D
  induction D with
  | nil =>
    intro fuel curr h hf _
    simp only [is_chain] at h
    cases fuel with
    | zero => simp at hf
    | succ fuel => simp [find_file_loop, h]
  | cons d rest ih =>
    intro fuel curr h hf hall
    simp only [is_chain] at h
    obtain ⟨hhead, hdl, hd1, next, hnext, hr⟩ := h
    have hdlt : d < img.fat.length := (List.getElem?_eq_some.mp hnext).1
    cases fuel with
    | zero => simp at hf
    | succ fuel =>
      simp only [List.length_cons] at hf
      have hpass0 := hall d (List.mem_cons_self _ _)
      have hidx : ∃ addr, mem_idx img.fat d = some addr := by
        unfold mem_idx
        simp only [hm, hb, Option.bind_eq_bind, Option.some_bind]
        have hA := Nat.mul_le_mul_left bs hd1
        rw [Nat.mul_one] at hA
        rw [if_neg (by omega)]
        exact ⟨_, rfl⟩
      obtain ⟨addr, ha⟩ := hidx
      have hblock : find_in_block img name d addr (bs / DIR_ENTRY_SIZE) 0 = some none := by
        apply find_in_block_none img name d addr ha
        intro j _ hj
        rw [Nat.zero_add] at hj
        refine ⟨?_, hpass0 j hj⟩
        apply slot_in_region img.fat d m bs addr _ _ hm hb hd1 hdlt ha
        have h2 := Nat.div_mul_le_self bs DIR_ENTRY_SIZE
        have h3 : (j + 1) * DIR_ENTRY_SIZE ≤ bs / DIR_ENTRY_SIZE * DIR_ENTRY_SIZE :=
          Nat.mul_le_mul_right _ (by omega)
        rw [hD] at h2 h3 ⊢
        omega
      rw [hhead]
      unfold find_file_loop
      rw [if_neg hdl]
      simp only [Option.bind_eq_bind, ha, Option.some_bind, hblock, hnext]
      exact ih fuel next hr (by omega) (fun b hb2 => hall b (List.mem_cons_of_mem _ hb2))

/-! ## Claim C28: `fs_rm` -/

theorem encode_decode_getD (d : Nat → Nat) (A j : Nat) (hj : j < 64) :
    (dir_entry_t.encode (dir_entry_t.decode (disk_read d A DIR_ENTRY_SIZE))).getD j 0
      = d (A + j) % 256 := by
  have hl : (disk_read d A DIR_ENTRY_SIZE).length = 64 := disk_read_length _ _ _
  rw [encode_decode _ hl, List.getD_eq_getElem _ _ (by rw [List.length_map, hl]; exact hj),
    List.getElem_map]
  have := disk_read_getD d A DIR_ENTRY_SIZE j hj
  rw [List.getD_eq_getElem _ _ (by rw [hl]; exact hj)] at this
  rw [this, Nat.mod_mod]

theorem getD_swap_head (X Y B : List Nat) (hxy : X.length = Y.length) (i : Nat)
    (hi : X.length ≤ i) : (X ++ B).getD i 0 = (Y ++ B).getD i 0 := by
  rw [List.getD_append_right X _ _ _ hi, List.getD_append_right Y _ _ _ (by omega), hxy]

theorem decode_name_length (l : List Nat) : (dir_entry_t.decode l).name.length = 32 := by
  simp [dir_entry_t.decode]

/-- The entry that was read from a slot is written back with the first byte of its
name set to `v`: that byte of the host file holds `v` and the other bytes keep
their values. -/
theorem write_name0_frame (d : Nat → Nat) (A v : Nat) :
    disk_write d A
      (dir_entry_t.encode
        { dir_entry_t.decode (disk_read d A DIR_ENTRY_SIZE) with
          name := (dir_entry_t.decode (disk_read d A DIR_ENTRY_SIZE)).name.set 0 v }) A
      = v % 256 ∧
    ∀ a, a ≠ A →
      disk_write d A
        (dir_entry_t.encode
          { dir_entry_t.decode (disk_read d A DIR_ENTRY_SIZE) with
            name := (dir_entry_t.decode (disk_read d A DIR_ENTRY_SIZE)).name.set 0 v }) a % 256
        = d a % 256 := by
  have hD : DIR_ENTRY_SIZE = 64 := rfl
  have hnl := decode_name_length (disk_read d A DIR_ENTRY_SIZE)
  constructor
  · rw [disk_write_inside _ _ _ _ (by rw [encode_length, hD]; omega), Nat.sub_self,
      encode_assoc, List.getD_append _ _ _ _ (by simp), getD_map_range _ _ _ (by decide)]
    simp only
    rw [List.getD_eq_getElem _ _ (by rw [List.length_set, hnl]; decide), List.getElem_set_self,
      Nat.mod_mod]
  · intro a ha
    by_cases hin : A ≤ a ∧ a < A + 64
    · rw [disk_write_inside _ _ _ _ (by rw [encode_length, hD]; exact hin), Nat.mod_mod]
      have hsame : (dir_entry_t.encode
          { dir_entry_t.decode (disk_read d A DIR_ENTRY_SIZE) with
            name := (dir_entry_t.decode (disk_read d A DIR_ENTRY_SIZE)).name.set 0 v }).getD
            (a - A) 0
          = (dir_entry_t.encode (dir_entry_t.decode (disk_read d A DIR_ENTRY_SIZE))).getD
            (a - A) 0 := by
        rw [encode_assoc, encode_assoc]
        by_cases h32 : a - A < 32
        · rw [List.getD_append _ _ _ _ (by simpa using h32),
            List.getD_append _ _ _ _ (by simpa using h32), getD_map_range _ _ _ h32,
            getD_map_range _ _ _ h32]
          simp only
          rw [List.getD_eq_getElem?_getD, List.getD_eq_getElem?_getD,
            List.getElem?_set_ne (by omega)]
        · apply getD_swap_head
          · simp
          · simp; omega
      rw [hsame, encode_decode_getD d A (a - A) (by omega), Nat.mod_mod]
      congr 2
      omega
    · rw [disk_write_outside _ _ _ _ (by rw [encode_length, hD]; exact hin)]

theorem disk_read_congr_mod (d d1 : Nat → Nat) (addr count : Nat)
    (h : ∀ a, addr ≤ a → a < addr + count → d1 a % 256 = d a % 256) :
    disk_read d1 addr count = disk_read d addr count := by
  unfold disk_read
  apply List.map_congr_left
  intro i hi
  exact h (addr + i) (Nat.le_add_right _ _) (by have := List.mem_range.mp hi; omega)

/-- The location that `find_file` returns is a slot of its block. -/
theorem find_file_slot (img : Image) (name : List Nat) (loc : point_t) (e : dir_entry_t)
    (m bs : Nat) (hm : img.fat[0]? = some m) (hb : BLOCK_SIZE m = some bs)
    (h : find_file img ROOTDIR name = some (some (loc, e))) :
    loc.second < bs / DIR_ENTRY_SIZE := by
  unfold find_file at h
  simp only [hm, hb, Option.bind_eq_bind, Option.some_bind] at h
  obtain ⟨_, _, hlt, _⟩ := find_file_loop_found img name bs _ _ loc e h
  exact hlt

/-- Claim C28: `fs_rm` of a name that `find_file` does not find returns `false` and
changes nothing. For a name that `find_file` finds in the slot `loc`, when the
directory is a chain `D`, the content of the file is a chain `C` that shares no
block with the directory, and no other slot of the directory holds a live entry
with that name: `fs_rm` returns `true`; the first byte of the name in the slot is
`FILENAME_DEL_UNUSED` and every other byte of the host file keeps its value; the
cells of `C` hold 0 and the other cells are unchanged; and `find_file` then
returns `false` for the name. -/
theorem fs_rm_spec (img : Image) (name : List Nat) :
    (find_file img ROOTDIR name = some none → fs_rm img name = some (img, false)) ∧
    ∀ (loc : point_t) (e : dir_entry_t) (D C : List Nat),
      find_file img ROOTDIR name = some (some (loc, e)) →
      is_chain img.fat ROOTDIR D → is_chain img.fat e.firstBlock C → (∀ b ∈ C, b ∉ D) →
      no_other_entry img D name loc →
      ∃ (img1 : Image) (addr : Nat),
        fs_rm img name = some (img1, true) ∧ mem_idx img.fat loc.first = some addr ∧
        img1.disk (addr + loc.second * DIR_ENTRY_SIZE) = FILENAME_DEL_UNUSED ∧
        (∀ a, a ≠ addr + loc.second * DIR_ENTRY_SIZE → img1.disk a % 256 = img.disk a % 256) ∧
        (∀ b ∈ C, img1.fat[b]? = some 0) ∧ (∀ i, i ∉ C → img1.fat[i]? = img.fat[i]?) ∧
        img1.fat.length = img.fat.length ∧
        find_file img1 ROOTDIR name = some none := by
  have hDE : DIR_ENTRY_SIZE = 64 := rfl
  constructor
  · intro h
    unfold fs_rm
    simp only [h, Option.bind_eq_bind, Option.some_bind]
  · intro loc e D C h hD hC hdisj huniq
    obtain ⟨addr, haddr, hreg, he, _, _⟩ := find_file_found img name loc e h
    obtain ⟨m, bs, hm, hb, hbspos, _, _⟩ := mem_idx_some img.fat loc.first addr haddr
    have hsec := find_file_slot img name loc e m bs hm hb h
    have hsec2 : (loc.second + 1) * 64 ≤ bs := by
      have h2 := Nat.div_mul_le_self bs DIR_ENTRY_SIZE
      have h3 : (loc.second + 1) * DIR_ENTRY_SIZE ≤ bs / DIR_ENTRY_SIZE * DIR_ENTRY_SIZE :=
        Nat.mul_le_mul_right _ (by omega)
      rw [hDE] at h2 h3
      omega
    obtain ⟨fat2, hdel, hlen2, hzero, hout⟩ := delete_chain_total img.fat e.firstBlock m bs C hm hb hC
    have h0C : (0 : Nat) ∉ C := by
      intro hmem
      have := (is_chain_mem _ _ _ hC 0 hmem).1
      omega
    have hm2 : fat2[0]? = some m := by rw [hout 0 h0C]; exact hm
    have hfat0 : fat2[0]? = img.fat[0]? := hm2.trans hm.symm
    have haddr2 : ∀ b, mem_idx fat2 b = mem_idx img.fat b := mem_idx_congr img.fat fat2 hfat0
    have hw : write_file { img with fat := fat2 } loc
        { e with name := e.name.set 0 FILENAME_DEL_UNUSED }
        = some (Image.mk fat2 (disk_write img.disk (addr + loc.second * DIR_ENTRY_SIZE)
            (dir_entry_t.encode { e with name := e.name.set 0 FILENAME_DEL_UNUSED }))) := by
      unfold write_file
      simp only [haddr2, haddr, Option.bind_eq_bind, Option.some_bind]
      apply seek_write_of_region
      rw [encode_length]
      show in_data_region fat2 _ _ = _
      rw [in_data_region_congr img.fat fat2 hfat0 hlen2]
      exact hreg
    obtain ⟨hbyte0, hframe⟩ :=
      write_name0_frame img.disk (addr + loc.second * DIR_ENTRY_SIZE) FILENAME_DEL_UNUSED
    rw [← he] at hbyte0 hframe
    refine ⟨Image.mk fat2 (disk_write img.disk (addr + loc.second * DIR_ENTRY_SIZE)
        (dir_entry_t.encode { e with name := e.name.set 0 FILENAME_DEL_UNUSED })), addr,
      ?_, haddr, hbyte0, hframe, hzero, hout, hlen2, ?_⟩
    · unfold fs_rm
      simp only [h, Option.bind_eq_bind, Option.some_bind, hdel, hw]
    · unfold find_file
      simp only [hm2, hb, Option.bind_eq_bind, Option.some_bind]
      have hD2 : is_chain fat2 ROOTDIR D := by
        apply is_chain_congr img.fat fat2 D ROOTDIR hD
        intro b hb2
        exact hout b (fun hc => hdisj b hc hb2)
      apply find_file_loop_none _ name m bs hm2 hb D _ _ hD2
        (by have := is_chain_length_le fat2 D ROOTDIR hD2
            show D.length < fat2.length + 1
            omega)
      intro b hbD i hi
      have hspb : slots_per_block img = bs / DIR_ENTRY_SIZE := by
        simp only [slots_per_block, hm, hb, Option.bind_eq_bind, Option.some_bind]
      have hi2 : (i + 1) * 64 ≤ bs := by
        have h2 := Nat.div_mul_le_self bs DIR_ENTRY_SIZE
        have h3 : (i + 1) * DIR_ENTRY_SIZE ≤ bs / DIR_ENTRY_SIZE * DIR_ENTRY_SIZE :=
          Nat.mul_le_mul_right _ (by omega)
        rw [hDE] at h2 h3
        omega
      rcases huniq b hbD i (by rw [hspb]; exact hi) with ⟨hb1, hi1⟩ | hpass
      · -- the slot of the removed entry
        subst hb1
        subst hi1
        simp only [slot_passed, entry_at, haddr2, haddr, Option.bind_eq_bind, Option.some_bind,
          Bool.or_eq_true, decide_eq_true_eq, beq_iff_eq]
        left
        simp only [dir_entry_t.decode]
        rw [getD_map_range _ _ _ (by decide), disk_read_getD _ _ _ _ (by decide), Nat.add_zero,
          hbyte0]
        decide
      · -- another slot
        obtain ⟨hb1, vb, hvb, _⟩ := is_chain_mem _ _ _ hD b hbD
        have hblt : b < img.fat.length := (List.getElem?_eq_some.mp hvb).1
        have hidx : ∃ addrb, mem_idx img.fat b = some addrb := by
          unfold mem_idx
          simp only [hm, hb, Option.bind_eq_bind, Option.some_bind]
          have hA := Nat.mul_le_mul_left bs hb1
          rw [Nat.mul_one] at hA
          rw [if_neg (by omega)]
          exact ⟨_, rfl⟩
        obtain ⟨addrb, hab⟩ := hidx
        by_cases hsame : b = loc.first ∧ i = loc.second
        · obtain ⟨hb1', hi1'⟩ := hsame
          subst hb1'
          subst hi1'
          simp only [slot_passed, entry_at, haddr2, haddr, Option.bind_eq_bind, Option.some_bind,
            Bool.or_eq_true, decide_eq_true_eq, beq_iff_eq]
          left
          simp only [dir_entry_t.decode]
          rw [getD_map_range _ _ _ (by decide), disk_read_getD _ _ _ _ (by decide),
            Nat.add_zero, hbyte0]
          decide
        · have hrd : disk_read
              (disk_write img.disk (addr + loc.second * DIR_ENTRY_SIZE)
                (dir_entry_t.encode { e with name := e.name.set 0 FILENAME_DEL_UNUSED }))
              (addrb + i * DIR_ENTRY_SIZE) DIR_ENTRY_SIZE
              = disk_read img.disk (addrb + i * DIR_ENTRY_SIZE) DIR_ENTRY_SIZE := by
            apply disk_read_congr_mod
            intro a ha1 ha2
            apply hframe
            rw [hDE] at ha1 ha2 ⊢
            by_cases hbl : b = loc.first
            · subst hbl
              rw [haddr] at hab
              cases hab
              have hil : i ≠ loc.second := fun hh => hsame ⟨rfl, hh⟩
              omega
            · intro hA
              have := mem_idx_disjoint img.fat b loc.first addrb addr m bs hm hb hab haddr hbl a
                ⟨by omega, by omega⟩
              apply this
              rw [hA]
              constructor
              · omega
              · have : (loc.second + 1) * 64 = loc.second * 64 + 64 := by ring
                omega
          simp only [slot_passed, entry_at, haddr2, hab, Option.bind_eq_bind,
            Option.some_bind] at hpass ⊢
          rw [hrd]
          exact hpass

/-- Witness of claim C28 on the example image: `fs_rm` of `bar`, which does not exist,
and of `foo`. -/
theorem fs_rm_spec_witness :
    fs_rm (example_image 6) bar = some (example_image 6, false) ∧
    ∃ (img1 : Image) (addr : Nat),
      fs_rm (example_image 6) foo = some (img1, true) ∧
      mem_idx (example_image 6).fat 1 = some addr ∧
      img1.disk (addr + 0 * DIR_ENTRY_SIZE) = FILENAME_DEL_UNUSED ∧
      (∀ a, a ≠ addr + 0 * DIR_ENTRY_SIZE → img1.disk a % 256 = (example_image 6).disk a % 256) ∧
      (∀ b ∈ [2], img1.fat[b]? = some 0) ∧
      (∀ i, i ∉ [2] → img1.fat[i]? = (example_image 6).fat[i]?) ∧
      img1.fat.length = (example_image 6).fat.length ∧
      find_file img1 ROOTDIR foo = some none :=
  ⟨(fs_rm_spec (example_image 6) bar).1 (by decide),
   (fs_rm_spec (example_image 6) foo).2 { first := 1, second := 0 } (example_entry 6) [1] [2]
    (by decide)
    ⟨rfl, by decide, by decide, LASTBLOCK, by decide, rfl⟩
    ⟨rfl, by decide, by decide, LASTBLOCK, by decide, rfl⟩
    (by decide) (by unfold no_other_entry; decide)⟩

/-! ## Claim C30: copy inside the image -/

/-- Claim C30 at a failing input: the empty file `bar` is created in the example image by `fs_touch` and
copied to the new file `baz` by `fs_cp`, which returns `true`. The entry of `bar`
has the first block `LASTBLOCK`, which is no cell of the FAT; the entry of `baz`
has the size 0 and the first block 3, and the cell 3 of the FAT holds 0: the first
block of the copy is a free cell. -/
theorem fs_cp_empty_source :
    ((fs_touch (example_image 6) bar 8).bind fun t =>
      (fs_cp t.1 bar baz 9).bind fun c =>
        (entry_head c.1 baz).map fun h => (t.2, entry_head t.1 bar, c.2, h))
      = some (true, some (some (LASTBLOCK, none, 0)), true, some (3, some 0, 0)) := by
  decide

/-! ## The output file of `fs_cat` in its overwrite mode -/

theorem read_chain_rec_lt (img : Image) :
    ∀ (fuel head n : Nat) (l : List Nat), read_chain_rec img fuel head n = some l →
      ∀ x ∈ l, x < 256 := by
  intro fuel
  induction fuel with
  | zero =>
    intro head n l h x hx
    simp only [read_chain_rec, Option.some.injEq] at h
    rw [← h] at hx
    cases hx
  | succ fuel ih =>
    intro head n l h x hx
    unfold read_chain_rec at h
    by_cases h1 : head = LASTBLOCK
    · rw [if_pos h1] at h
      cases h
      cases hx
    · rw [if_neg h1] at h
      by_cases h2 : n = 0
      · rw [if_pos h2] at h
        cases h
        cases hx
      · rw [if_neg h2] at h
        simp only [Option.bind_eq_bind] at h
        cases hm : img.fat[0]? with
        | none => rw [hm] at h; cases h
        | some m =>
          rw [hm] at h
          simp only [Option.some_bind] at h
          cases hb : BLOCK_SIZE m with
          | none => rw [hb] at h; cases h
          | some bs =>
            rw [hb] at h
            simp only [Option.some_bind] at h
            cases ha : mem_idx img.fat head with
            | none => rw [ha] at h; cases h
            | some addr =>
              rw [ha] at h
              simp only [Option.some_bind] at h
              have hrd : ∀ c l2, seek_read img addr c = some l2 → ∀ y ∈ l2, y < 256 := by
                intro c l2 hr y hy
                obtain ⟨_, hl2⟩ := seek_read_some _ _ _ _ hr
                rw [hl2] at hy
                unfold disk_read at hy
                obtain ⟨i, _, hi⟩ := List.mem_map.mp hy
                rw [← hi]
                exact Nat.mod_lt _ (by decide)
              by_cases hle : n ≤ bs
              · rw [if_pos hle] at h
                exact hrd _ _ h x hx
              · rw [if_neg hle] at h
                cases hblk : seek_read img addr bs with
                | none => rw [hblk] at h; cases h
                | some blk =>
                  rw [hblk] at h
                  simp only [Option.some_bind] at h
                  cases hn : img.fat[head]? with
                  | none => rw [hn] at h; cases h
                  | some next =>
                    rw [hn] at h
                    simp only [Option.some_bind] at h
                    cases hr : read_chain_rec img fuel next (n - bs) with
                    | none => rw [hr] at h; cases h
                    | some rest =>
                      rw [hr] at h
                      simp only [Option.some_bind, Option.some.injEq] at h
                      rw [← h] at hx
                      rcases List.mem_append.mp hx with h3 | h3
                      · exact hrd _ _ hblk x h3
                      · exact ih _ _ _ hr x h3

/-- The output file after `fs_cat` has overwritten it: the entry is in the same
slot, its size is the number of bytes of the output and its chain holds the output. -/
theorem cat_overwrite_spec (img img1 : Image) (name output : List Nat) (now : Nat)
    (loc : point_t) (e : dir_entry_t) (D C : List Nat)
    (hD : is_chain img.fat ROOTDIR D) (hC : is_chain img.fat e.firstBlock C)
    (hdisj : ∀ b ∈ C, b ∉ D) (hL : img.fat.length ≤ LASTBLOCK)
    (hbytes : ∀ x ∈ output, x < 256) (hsize : output.length < 2 ^ 32)
    (hfind : find_file img ROOTDIR name = some (some (loc, e)))
    (h : cat_overwrite img output name now = some img1) :
    ∃ e2, find_file img1 ROOTDIR name = some (some (loc, e2)) ∧ e2.size = output.length ∧
      read_chain img1 e2.firstBlock e2.size = some output := by
  have hLB : LASTBLOCK = 65535 := rfl
  have hDE : DIR_ENTRY_SIZE = 64 := rfl
  obtain ⟨addr, haddr, _, _, _, _⟩ := find_file_found img name loc e hfind
  obtain ⟨m, bs, hm, hb, hbspos, _, _⟩ := mem_idx_some img.fat loc.first addr haddr
  -- the location is a slot of a block of the directory
  have hloc : loc.first ∈ D ∧ loc.second < bs / DIR_ENTRY_SIZE := by
    have hf := hfind
    unfold find_file at hf
    simp only [hm, hb, Option.bind_eq_bind, Option.some_bind] at hf
    obtain ⟨_, _, hlt, _⟩ := find_file_loop_found img name bs _ _ loc e hf
    exact ⟨(find_file_loop_hit img name bs D _ _ loc e hD hf).1, hlt⟩
  have hsec : (loc.second + 1) * 64 ≤ bs := by
    have h2 := Nat.div_mul_le_self bs DIR_ENTRY_SIZE
    have h3 : (loc.second + 1) * DIR_ENTRY_SIZE ≤ bs / DIR_ENTRY_SIZE * DIR_ENTRY_SIZE :=
      Nat.mul_le_mul_right _ (by have := hloc.2; omega)
    rw [hDE] at h2 h3
    omega
  unfold cat_overwrite at h
  simp only [find_or_add, hfind, Option.bind_eq_bind, Option.some_bind] at h
  obtain ⟨fat2, hdel, hlen2, _, hout⟩ := delete_chain_total img.fat e.firstBlock m bs C hm hb hC
  rw [hdel] at h
  simp only [Option.some_bind] at h
  cases hg : get_free_block fat2 with
  | none => rw [hg] at h; cases h
  | some new_head =>
    rw [hg] at h
    simp only [Option.some_bind] at h
    cases hbc : build_chain { img with fat := fat2 } new_head (output ++ [0]) with
    | none => rw [hbc] at h; cases h
    | some img3 =>
      rw [hbc] at h
      simp only [Option.some_bind] at h
      have hdata : output ++ [0] ≠ [] := by simp
      unfold build_chain at hbc
      have hnh : 1 ≤ new_head ∧ fat2[new_head]? = some 0 := by
        rcases get_free_block_spec fat2 new_head hg with h0 | h0
        · rw [h0, build_chain_rec_zero _ _ _ hdata] at hbc; cases hbc
        · exact h0
      obtain ⟨hgeoA3, hfr, hrd⟩ := build_chain_rec_spec _ { img with fat := fat2 } img3 new_head
        (output ++ [0]) hdata hnh.1 hnh.2 (by show fat2.length ≤ LASTBLOCK; omega) hbc
      have h0C : (0 : Nat) ∉ C := by
        intro hmem
        have := (is_chain_mem _ _ _ hC 0 hmem).1
        omega
      have hgeoA : same_geometry img { img with fat := fat2 } := ⟨hout 0 h0C, hlen2⟩
      have hgeo3 : same_geometry img img3 := same_geometry_trans _ _ _ hgeoA hgeoA3
      have hDnz : ∀ b ∈ D, fat2[b]? ≠ some 0 := by
        intro b hbD
        obtain ⟨_, v, hv, hv0⟩ := is_chain_mem _ _ _ hD b hbD
        rw [hout b (fun hc => hdisj b hc hbD), hv]
        intro hh
        exact hv0 (Option.some.inj hh)
      have hsbD : ∀ b ∈ D, same_block img img3 b := by
        intro b hbD
        have hA : same_block img { img with fat := fat2 } b :=
          ⟨hout b (fun hc => hdisj b hc hbD), fun _ _ _ _ _ _ _ _ _ => rfl⟩
        exact same_block_trans _ _ _ b hgeoA hA (hfr b (hDnz b hbD))
      have hfind3 : find_file img3 ROOTDIR name = some (some (loc, e)) := by
        have hf := hfind
        unfold find_file at hf ⊢
        rw [hgeo3.1, hgeo3.2]
        simp only [hm, hb, Option.bind_eq_bind, Option.some_bind] at hf ⊢
        rw [find_file_loop_congr img img3 name bs m hgeo3 hm hb D _ _ hD hsbD]
        exact hf
      obtain ⟨addr3, haddr3, hreg3, he3, _, _⟩ := find_file_found img3 name loc e hfind3
      have ha3 : addr3 = addr := by
        rw [mem_idx_congr img.fat img3.fat hgeo3.1, haddr] at haddr3
        exact (Option.some.inj haddr3).symm
      subst ha3
      obtain ⟨addr4, haddr4, hw⟩ := write_file_found img3 name loc e
        { e with
          firstBlock := new_head % 65536
          mtime := now % 2 ^ 64
          size := output.length % 2 ^ 32 } hfind3
      rw [haddr3] at haddr4
      cases haddr4
      rw [hw] at h
      simp only [Option.some.injEq] at h
      have hnlt : new_head < img.fat.length := by
        have := (List.getElem?_eq_some.mp hnh.2).1
        omega
      have hdec : dir_entry_t.decode
          ((dir_entry_t.encode
            { e with
              firstBlock := new_head % 65536
              mtime := now % 2 ^ 64
              size := output.length % 2 ^ 32 }).map (fun x => x % 256))
          = { e with
              firstBlock := new_head
              mtime := now % 2 ^ 64
              size := output.length } := by
        rw [encode_map_mod, decode_encode]
        have hname := decode_name_norm
          (disk_read img3.disk (addr3 + loc.second * DIR_ENTRY_SIZE) DIR_ENTRY_SIZE)
        rw [← he3] at hname
        have htp : e.type % 256 = e.type ∧ e.perm % 256 = e.perm ∧
            (List.range 16).map (fun i => e._BUFFER_.getD i 0 % 256) = e._BUFFER_ := by
          rw [he3]
          simp only [dir_entry_t.decode, Nat.mod_mod, true_and]
          apply List.map_congr_left
          intro i hi
          have hi16 : i < 16 := List.mem_range.mp hi
          rw [getD_map_range _ _ _ hi16, Nat.mod_mod]
        simp only
        rw [hname, htp.1, htp.2.1, htp.2.2]
        simp only [Nat.mod_mod]
        rw [Nat.mod_eq_of_lt hsize,
          Nat.mod_eq_of_lt (show new_head < 65536 by omega),
          Nat.mod_eq_of_lt (show new_head < 2 ^ 16 by norm_num; omega)]
      have hrw := find_file_rewrite img3 name loc e addr3
        (dir_entry_t.encode
          { e with
            firstBlock := new_head % 65536
            mtime := now % 2 ^ 64
            size := output.length % 2 ^ 32 }) (encode_length _) (by rw [hdec]) haddr3 hfind3
      rw [hdec, h] at hrw
      refine ⟨_, hrw, rfl, ?_⟩
      show read_chain img1 new_head output.length = some output
      unfold read_chain
      have hg31 : same_geometry img3 img1 := by rw [← h]; exact ⟨rfl, rfl⟩
      have hrb := hrd img1 hg31 (by
          intro i hi
          have hi2 : fat2[i]? = some 0 := hi
          have hil : i ≠ loc.first := fun hh => hDnz loc.first hloc.1 (by rw [← hh]; exact hi2)
          rw [← h]
          refine ⟨rfl, ?_⟩
          intro m3 bs3 addri hm3 hb3 hai a ha1 ha2
          have hm3' : img3.fat[0]? = some m := hgeo3.1.trans hm
          rw [hm3'] at hm3
          cases hm3
          rw [hb] at hb3
          cases hb3
          apply disk_write_outside
          rw [encode_length, hDE]
          intro hc
          have := mem_idx_disjoint img3.fat i loc.first addri addr3 m bs hm3' hb hai haddr3 hil a
            ⟨ha1, ha2⟩
          apply this
          have : (loc.second + 1) * 64 = loc.second * 64 + 64 := by ring
          constructor
          · omega
          · omega)
        output.length output.length (by simp) (le_refl _)
      rw [hrb, List.take_left' rfl]
      congr 1
      have hid : output.map (fun x => x % 256) = output.map id :=
        List.map_congr_left (fun x hx => Nat.mod_eq_of_lt (hbytes x hx))
      rw [hid, List.map_id]

/-! ## C strings and the buffer of `f_write` -/

theorem c_str_append_of_nonzero (P s : List Nat) (hP : ∀ x ∈ P, x ≠ 0) :
    c_str (P ++ s) = P ++ c_str s := by
  induction P with
  | nil => rfl
  | cons p ps ih =>
    show c_str (p :: (ps ++ s)) = p :: (ps ++ c_str s)
    rw [c_str, if_neg (hP p (List.mem_cons_self _ _)),
      ih (fun x hx => hP x (List.mem_cons_of_mem _ hx))]

theorem c_str_zero_cut (s r : List Nat) : c_str (s ++ 0 :: r) = c_str s := by
  induction s with
  | nil => simp [c_str]
  | cons b bs ih =>
    show c_str (b :: (bs ++ 0 :: r)) = c_str (b :: bs)
    rw [c_str, c_str]
    by_cases hb : b = 0
    · rw [if_pos hb, if_pos hb]
    · rw [if_neg hb, if_neg hb, ih]

theorem c_str_take (s : List Nat) : ∀ (m : Nat), c_str (s.take m) = (c_str s).take m := by
  induction s with
  | nil => intro m; simp [c_str]
  | cons b bs ih =>
    intro m
    cases m with
    | zero => simp [c_str]
    | succ m =>
      simp only [List.take_succ_cons, c_str]
      by_cases hb : b = 0
      · rw [if_pos hb, if_pos hb]; rfl
      · rw [if_neg hb, if_neg hb, ih m]; rfl

theorem c_str_mem (s : List Nat) : ∀ x ∈ c_str s, x ∈ s := by
  induction s with
  | nil => intro x hx; cases hx
  | cons b bs ih =>
    intro x hx
    simp only [c_str] at hx
    by_cases hb : b = 0
    · rw [if_pos hb] at hx; cases hx
    · rw [if_neg hb] at hx
      rcases List.mem_cons.mp hx with h | h
      · rw [h]; exact List.mem_cons_self _ _
      · exact List.mem_cons_of_mem _ (ih x h)

theorem c_str_length_le (s : List Nat) : (c_str s).length ≤ s.length := by
  induction s with
  | nil => exact Nat.le_refl _
  | cons b bs ih =>
    simp only [c_str]
    by_cases hb : b = 0
    · rw [if_pos hb]; simp
    · rw [if_neg hb]; simp only [List.length_cons]; omega

/-- The C string in the buffer `temp_buf` of `f_write`: the bytes of the file before
the offset, which hold no zero, and then the C string of the bytes copied. -/
theorem c_str_temp_buf (cap : Nat) (old src : List Nat) (pos : Nat)
    (hpos : pos ≤ old.length) (hz : ∀ x ∈ old.take pos, x ≠ 0) :
    c_str (terminate_at (splice cap old pos src) (pos + src.length))
      = old.take pos ++ c_str src := by
  unfold terminate_at splice
  simp only
  have h1 : (old ++ List.replicate (cap - old.length) 0).take pos = old.take pos :=
    List.take_append_of_le_length hpos
  rw [h1]
  have h2 : (old.take pos ++ src ++
      (old ++ List.replicate (cap - old.length) 0).drop (pos + src.length)).take
        (pos + src.length) = old.take pos ++ src := by
    apply List.take_left'
    rw [List.length_append, List.length_take, Nat.min_eq_left hpos]
  rw [h2, List.append_assoc, List.append_assoc, c_str_append_of_nonzero _ _ hz]
  congr 1
  exact c_str_zero_cut _ _

/-! ## `f_lseek` and `f_read` on an open file, the image after `f_write` -/

theorem store_ptr_entry (k : Kernel) (id pid v : Int) (fe : file_t) (fp : fileptr_t)
    (hent : find_file_entry_by_file_id k.open_files id = some fe)
    (hoff : get_fileptr fe.fileptr_head pid = some fp) :
    find_file_entry_by_file_id (store_ptr k id pid v).open_files id
      = some { fe with fileptr_head := set_fileptr fe.fileptr_head pid v } ∧
    get_fileptr (set_fileptr fe.fileptr_head pid v) pid = some { fp with ptr := v } :=
  ⟨find_update_file_entry
      (fun e => { e with fileptr_head := set_fileptr e.fileptr_head pid v }) _ _ fe
      (fun _ => rfl) hent,
    get_fileptr_set_fileptr _ _ _ fp hoff⟩

/-- A call `f_lseek(fd, t, F_SEEK_SET)` with `0 <= t <= size`. -/
theorem f_lseek_set (k : Kernel) (pcb : PCB) (fe : file_t) (loc : point_t) (e : dir_entry_t)
    (fp : fileptr_t) (fd t : Int)
    (hfd : f_isatty fd = false)
    (hcur : cur_pcb k = some pcb)
    (hslot : fd_get pcb fd = some fe.file_id)
    (hent : find_file_entry_by_file_id k.open_files fe.file_id = some fe)
    (hdir : find_file k.img ROOTDIR fe.filename = some (some (loc, e)))
    (hoff : get_fileptr fe.fileptr_head pcb.pid = some fp)
    (h0 : 0 ≤ t) (hle : t ≤ e.size) (hmax : t ≤ INT_MAX) :
    f_lseek k fd t F_SEEK_SET = some (store_ptr k fe.file_id pcb.pid t, t) := by
  have hfe := find_file_entry_eq k pcb fe fd hcur hslot hent
  have hc : t ≥ 0 ∧ to_u32 t ≤ e.size := by
    have := to_u32_of_nonneg t h0 hmax
    exact ⟨h0, by omega⟩
  simp [f_lseek, hfd, hfe, hdir, hcur, hoff, F_SEEK_SET, F_SEEK_CURR, F_SEEK_END, hc]

/-- A call `f_read(fd, n, buf)` with `n >= 0` on an open file whose chain holds the
`size` bytes `content`, at an offset inside the file: the bytes delivered are the
bytes of the content from the offset on, at most `n`, and their number is returned. -/
theorem f_read_at (k : Kernel) (pcb : PCB) (fe : file_t) (loc : point_t) (e : dir_entry_t)
    (fp : fileptr_t) (fd n : Int) (content : List Nat)
    (hcur : cur_pcb k = some pcb)
    (hslot : fd_get pcb fd = some fe.file_id)
    (hid : 0 ≤ fe.file_id)
    (hent : find_file_entry_by_file_id k.open_files fe.file_id = some fe)
    (hdir : find_file k.img ROOTDIR fe.filename = some (some (loc, e)))
    (hoff : get_fileptr fe.fileptr_head pcb.pid = some fp)
    (hrd : read_chain k.img e.firstBlock e.size = some content)
    (hsz : e.size = content.length)
    (h0 : 0 ≤ fp.ptr) (hle : fp.ptr ≤ content.length) (hn : 0 ≤ n)
    (hsum : fp.ptr + n ≤ INT_MAX) :
    f_read k fd n = some
      (store_ptr k fe.file_id pcb.pid
        (fp.ptr + (((content.drop fp.ptr.toNat).take n.toNat).length : Int)),
       (((content.drop fp.ptr.toNat).take n.toNat).length : Int),
       (content.drop fp.ptr.toNat).take n.toNat) := by
  have hfe := find_file_entry_eq k pcb fe fd hcur hslot hent
  have h1 : ¬ (fe.file_id = STDOUT_ID ∨ fe.file_id = STDERR_ID) := by
    unfold STDOUT_ID STDERR_ID; omega
  have h2 : ¬ (fe.file_id = STDIN_ID) := by unfold STDIN_ID; omega
  have hIM : INT_MAX = 2147483647 := rfl
  have hIm : INT_MIN = -2147483648 := rfl
  have hchk : int_chk (fp.ptr + n) = some (fp.ptr + n) := by
    unfold int_chk
    rw [if_pos ⟨by omega, hsum⟩]
  have hlen : ((content.drop fp.ptr.toNat).take n.toNat).length
      = min n.toNat (content.length - fp.ptr.toNat) := by
    rw [List.length_take, List.length_drop]
  have hu1 := to_u32_of_nonneg (fp.ptr + n) (by omega) hsum
  have hu2 := to_u32_of_nonneg fp.ptr h0 (by omega)
  simp only [f_read, hcur, hslot, h1, h2, hfe, hdir, hrd, hoff, hchk, Option.bind_eq_bind,
    Option.some_bind, if_false]
  by_cases hg : to_u32 (fp.ptr + n) > e.size
  · have hgt : fp.ptr + n > (content.length : Int) := by omega
    have hbtr : u32_to_int (e.size + 4294967296 - to_u32 fp.ptr)
        = ((content.length - fp.ptr.toNat : Nat) : Int) := by
      unfold u32_to_int
      have hp : to_u32 fp.ptr = fp.ptr.toNat := by omega
      rw [hp, hsz]
      have : (content.length + 4294967296 - fp.ptr.toNat) % 4294967296
          = content.length - fp.ptr.toNat := by omega
      rw [this, if_pos (by omega)]
    have hmin : min n.toNat (content.length - fp.ptr.toNat) = content.length - fp.ptr.toNat := by
      omega
    rw [if_pos hg, hbtr, hlen, hmin]
    have hchk2 : int_chk (fp.ptr + ((content.length - fp.ptr.toNat : Nat) : Int))
        = some (fp.ptr + ((content.length - fp.ptr.toNat : Nat) : Int)) := by
      unfold int_chk
      rw [if_pos ⟨by omega, by omega⟩]
    by_cases hz : ((content.length - fp.ptr.toNat : Nat) : Int) ≤ 0
    · rw [if_pos hz]
      simp only [Option.some_bind, hchk2]
      have hd : content.drop fp.ptr.toNat = [] := by
        apply List.drop_eq_nil_of_le
        omega
      rw [hd]
      simp
    · rw [if_neg hz, if_pos ⟨h0, by omega⟩]
      simp only [Option.some_bind, hchk2, Int.toNat_ofNat]
      have : (content.drop fp.ptr.toNat).take n.toNat
          = (content.drop fp.ptr.toNat).take (content.length - fp.ptr.toNat) := by
        rw [List.take_of_length_le (by rw [List.length_drop]; omega),
          List.take_of_length_le (by rw [List.length_drop])]
      rw [this]
  · have hngt : fp.ptr + n ≤ (content.length : Int) := by omega
    have hmin : min n.toNat (content.length - fp.ptr.toNat) = n.toNat := by omega
    rw [if_neg hg, hlen, hmin]
    have hnn : ((n.toNat : Nat) : Int) = n := Int.toNat_of_nonneg hn
    have hchk2 : int_chk (fp.ptr + n) = some (fp.ptr + n) := hchk
    by_cases hz : n ≤ 0
    · rw [if_pos hz]
      have hn0 : n = 0 := by omega
      simp only [Option.some_bind, hchk2]
      rw [hn0]
      simp
    · rw [if_neg hz, if_pos ⟨h0, hngt⟩]
      simp only [Option.some_bind, hchk2, hnn]

/-! ## The state after `f_write` -/

theorem fs_cat_overwrite (img : Image) (buf name : List Nat) (now : Nat)
    (res : Image × Option (List Nat)) (h : fs_cat img 0 1 buf [] name now = some res) :
    cat_overwrite img (c_str buf) name now = some res.1 := by
  unfold fs_cat at h
  simp only [if_true, Option.bind_eq_bind, Option.some_bind] at h
  cases hc : cat_overwrite img (c_str buf) name now with
  | none => rw [hc] at h; cases h
  | some img1 =>
    rw [hc] at h
    simp only [Option.some_bind] at h
    rw [if_neg (by decide)] at h
    injection h with h
    rw [← h]

/-- A call of `f_write` by the writer that has a defined result: the write stays inside
the buffer, `btw = n` bytes are copied from `str`, the image is the result of `fs_cat`
in its overwrite mode on the C string of `temp_buf`, and the offset has advanced by
`btw`. -/
theorem f_write_image (k k1 : Kernel) (pcb : PCB) (fe : file_t) (loc : point_t)
    (e : dir_entry_t) (fp : fileptr_t) (fd n r : Int) (str old : List Nat) (now : Nat)
    (hcur : cur_pcb k = some pcb)
    (hslot : fd_get pcb fd = some fe.file_id)
    (hid : 0 ≤ fe.file_id)
    (hent : find_file_entry_by_file_id k.open_files fe.file_id = some fe)
    (hwr : fe.wr_pid = pcb.pid)
    (hdir : find_file k.img ROOTDIR fe.filename = some (some (loc, e)))
    (hoff : get_fileptr fe.fileptr_head pcb.pid = some fp)
    (hold : read_chain k.img e.firstBlock e.size = some old)
    (hok : f_write k fd str n now = some (k1, r)) :
    ∃ (btw : Int) (cap : Nat) (img1 : Image),
      btw = n ∧ 0 ≤ fp.ptr ∧ btw.toNat ≤ str.length ∧
      fp.ptr.toNat + btw.toNat ≤ cap ∧ cap ≤ 2147483648 ∧ fp.ptr + btw ≤ INT_MAX ∧
      cat_overwrite k.img
        (c_str (terminate_at (splice cap old fp.ptr.toNat (str.take btw.toNat))
          (fp.ptr.toNat + btw.toNat))) fe.filename now = some img1 ∧
      k1 = store_ptr { k with img := img1 } fe.file_id pcb.pid (fp.ptr + btw) := by
  have hfe := find_file_entry_eq k pcb fe fd hcur hslot hent
  have h1 : ¬ (fe.file_id = STDOUT_ID ∨ fe.file_id = STDERR_ID) := by
    unfold STDOUT_ID STDERR_ID; omega
  have h2 : ¬ (fe.file_id = STDIN_ID) := by unfold STDIN_ID; omega
  have hIM : INT_MAX = 2147483647 := rfl
  simp only [f_write, hcur, hslot, h1, h2, hfe, hwr, hdir, hoff, Option.bind_eq_bind,
    Option.some_bind, if_false, ne_eq, not_true_eq_false] at hok
  cases hsum : int_chk (fp.ptr + n) with
  | none => simp [hsum] at hok
  | some sum =>
    obtain ⟨hsumeq, hlo, hhi⟩ := int_chk_some _ _ hsum
    subst hsumeq
    simp only [hsum, Option.some_bind] at hok
    by_cases hg : to_u32 (fp.ptr + n) > e.size
    · -- the branch that extends the file
      simp only [hg, decide_True, if_true] at hok
      cases hb : int_chk (n + 1) with
      | none => simp [hb] at hok
      | some btw =>
        obtain ⟨hbeq, _, _⟩ := int_chk_some _ _ hb
        subst hbeq
        simp only [hb, Option.some_bind] at hok
        split at hok
        · cases hok
        · rename_i hneg
          simp only [hold, Option.some_bind] at hok
          split at hok
          · cases hok
          · rename_i hfit
            exfalso
            apply hfit
            right; right
            omega
    · -- the branch that keeps the size
      simp only [hg, decide_False, if_false, Bool.false_eq_true] at hok
      split at hok
      · cases hok
      · rename_i hneg
        simp only [hold, Option.some_bind] at hok
        split at hok
        · cases hok
        · rename_i hfit
          cases hcat : fs_cat k.img 0 1
              (terminate_at (splice ((u32_to_int e.size).toNat + 1) old fp.ptr.toNat
                (List.take n.toNat str)) (fp.ptr.toNat + n.toNat)) []
              fe.filename now with
          | none => simp [hcat] at hok
          | some res =>
            simp only [hcat, Option.some_bind, hsum] at hok
            injection hok with hok
            injection hok with hk hr
            have hcap : (u32_to_int e.size).toNat + 1 ≤ 2147483648 := by
              have : u32_to_int e.size ≤ 2147483647 := by
                unfold u32_to_int
                split <;> omega
              omega
            refine ⟨n, (u32_to_int e.size).toNat + 1, res.1, rfl, by omega, by omega,
              by omega, hcap, hhi, fs_cat_overwrite _ _ _ _ _ hcat, hk.symm⟩

/-! ## Claim C1: write, seek, read -/

/-- Claim C1 at a failing input: on the example kernel process 1, the writer of the
two-byte file `foo`, stands at offset 2 and writes the one-byte buffer `[33]` with
`n = 1`. The write extends the file, so `f_write` copies `n + 1` bytes and reads
`str[1]`, a byte after the buffer: no result is defined. -/
theorem f_write_reads_past_buffer :
    (f_write (example_kernel 1 2 6) 3 [33] 1 9).isNone = true := by decide

/-- Write inside the file, seek and read: the writer of an open file of the image
stands at offset `pos` with `0 <= pos <= size`; the directory chain and the chain of
the file are disjoint, no byte of the file before `pos` is zero, and `str` holds the
bytes readable from the buffer. If `f_write(fd, str, n)` with `n >= 0` has a defined
result, then `f_lseek(fd, pos, F_SEEK_SET)` returns `pos` and `f_read(fd, n, buf)`
delivers the first `n` bytes of the C string at `str` and returns their number. -/
theorem f_write_round_trip (k k1 : Kernel) (pcb : PCB) (fe : file_t) (loc : point_t)
    (e : dir_entry_t) (fp : fileptr_t) (fd n r : Int) (str old D C : List Nat) (now : Nat)
    (hfd : f_isatty fd = false)
    (hcur : cur_pcb k = some pcb)
    (hslot : fd_get pcb fd = some fe.file_id)
    (hid : 0 ≤ fe.file_id)
    (hent : find_file_entry_by_file_id k.open_files fe.file_id = some fe)
    (hwr : fe.wr_pid = pcb.pid)
    (hdir : find_file k.img ROOTDIR fe.filename = some (some (loc, e)))
    (hoff : get_fileptr fe.fileptr_head pcb.pid = some fp)
    (hD : is_chain k.img.fat ROOTDIR D) (hC : is_chain k.img.fat e.firstBlock C)
    (hdisj : ∀ b ∈ C, b ∉ D) (hL : k.img.fat.length ≤ LASTBLOCK)
    (hold : read_chain k.img e.firstBlock e.size = some old)
    (hpos : fp.ptr ≤ old.length)
    (hz : ∀ x ∈ old.take fp.ptr.toNat, x ≠ 0)
    (hbytes : ∀ x ∈ str, x < 256)
    (hn : 0 ≤ n)
    (hok : f_write k fd str n now = some (k1, r)) :
    ∃ k2 k3, f_lseek k1 fd fp.ptr F_SEEK_SET = some (k2, fp.ptr) ∧
      f_read k2 fd n = some
        (k3, (((c_str str).take n.toNat).length : Int), (c_str str).take n.toNat) := by
  obtain ⟨btw, cap, img1, hbtw, hp0, hblen, hcap, hcap2, hmax, hcat, hk1⟩ :=
    f_write_image k k1 pcb fe loc e fp fd n r str old now hcur hslot hid hent hwr hdir hoff
      hold hok
  have hIM : INT_MAX = 2147483647 := rfl
  have hposN : fp.ptr.toNat ≤ old.length := by omega
  have hlen : ((str.take btw.toNat).length) = btw.toNat := by
    rw [List.length_take]; omega
  have hbuf := c_str_temp_buf cap old (str.take btw.toNat) fp.ptr.toNat hposN hz
  rw [hlen] at hbuf
  rw [hbuf] at hcat
  have hpre : (old.take fp.ptr.toNat).length = fp.ptr.toNat := by
    rw [List.length_take]; omega
  have hcl : (c_str (str.take btw.toNat)).length ≤ btw.toNat := by
    have := c_str_length_le (str.take btw.toNat)
    omega
  have hold256 : ∀ x ∈ old, x < 256 := by
    unfold read_chain at hold
    exact read_chain_rec_lt _ _ _ _ _ hold
  have hout : ∀ x ∈ old.take fp.ptr.toNat ++ c_str (str.take btw.toNat), x < 256 := by
    intro x hx
    rcases List.mem_append.mp hx with hx | hx
    · exact hold256 x (List.mem_of_mem_take hx)
    · exact hbytes x (List.mem_of_mem_take (c_str_mem _ x hx))
  have hsize : (old.take fp.ptr.toNat ++ c_str (str.take btw.toNat)).length < 2 ^ 32 := by
    rw [List.length_append, hpre]
    have : (2 : Nat) ^ 32 = 4294967296 := by norm_num
    omega
  obtain ⟨e2, hfind2, hsz2, hrd2⟩ :=
    cat_overwrite_spec k.img img1 fe.filename _ now loc e D C hD hC hdisj hL hout hsize hdir hcat
  have hlen2 : e2.size = fp.ptr.toNat + (c_str (str.take btw.toNat)).length := by
    rw [hsz2, List.length_append, hpre]
  -- the state after the write
  obtain ⟨hent1, hoff1⟩ :=
    store_ptr_entry { k with img := img1 } fe.file_id pcb.pid (fp.ptr + btw) fe fp hent hoff
  rw [← hk1] at hent1
  have hcur1 : cur_pcb k1 = some pcb := by rw [hk1]; exact hcur
  have himg1 : k1.img = img1 := by rw [hk1]; rfl
  have hseek := f_lseek_set k1 pcb
    { fe with fileptr_head := set_fileptr fe.fileptr_head pcb.pid (fp.ptr + btw) } loc e2
    { fp with ptr := fp.ptr + btw } fd fp.ptr hfd hcur1 hslot hent1
    (by rw [himg1]; exact hfind2) hoff1 hp0 (by rw [hlen2]; push_cast; omega) (by omega)
  -- the state after the seek
  obtain ⟨hent2, hoff2⟩ :=
    store_ptr_entry k1 fe.file_id pcb.pid fp.ptr
      { fe with fileptr_head := set_fileptr fe.fileptr_head pcb.pid (fp.ptr + btw) }
      { fp with ptr := fp.ptr + btw } hent1 hoff1
  have hread := f_read_at (store_ptr k1 fe.file_id pcb.pid fp.ptr) pcb
    { fe with fileptr_head :=
        set_fileptr (set_fileptr fe.fileptr_head pcb.pid (fp.ptr + btw)) pcb.pid fp.ptr }
    loc e2 { fp with ptr := fp.ptr } fd n
    (old.take fp.ptr.toNat ++ c_str (str.take btw.toNat))
    hcur1 hslot hid hent2
    (by show find_file k1.img ROOTDIR fe.filename = _; rw [himg1]; exact hfind2) hoff2
    (by show read_chain k1.img _ _ = _; rw [himg1]; exact hrd2) hsz2 hp0
    (by rw [List.length_append, hpre]; push_cast; omega) hn
    (by show fp.ptr + n ≤ INT_MAX; omega)
  have hres : ((old.take fp.ptr.toNat ++ c_str (str.take btw.toNat)).drop fp.ptr.toNat).take
      n.toNat = (c_str str).take n.toNat := by
    rw [List.drop_left' hpre, c_str_take, List.take_take]
    have : min n.toNat btw.toNat = n.toNat := by
      rw [hbtw]; omega
    rw [this]
  simp only [hres] at hread
  exact ⟨_, _, hseek, hread⟩

/-- Example of a write inside the file: on the example kernel process 1 stands at
offset 0 of the two-byte file `foo` and writes one byte of the buffer `[33, 0]`; the
seek to offset 0 and the read of one byte deliver `[33]`. -/
theorem f_write_round_trip_witness :
    ∃ (k1 : Kernel) (r : Int), f_write (example_kernel 1 0 6) 3 [33, 0] 1 9 = some (k1, r) ∧
      ∃ k2 k3, f_lseek k1 3 0 F_SEEK_SET = some (k2, 0) ∧
        f_read k2 3 1 = some (k3, 1, [33]) := by
  have hs : (f_write (example_kernel 1 0 6) 3 [33, 0] 1 9).isSome = true := by decide
  obtain ⟨⟨k1, r⟩, h⟩ := Option.isSome_iff_exists.mp hs
  exact ⟨k1, r, h,
    f_write_round_trip (example_kernel 1 0 6) k1 (example_pcb 1 [0])
      { filename := foo, file_id := 0, wr_pid := 1, fileptr_head := [{ pid := 1, ptr := 0 }] }
      { first := 1, second := 0 } (example_entry 6) { pid := 1, ptr := 0 } 3 1 r [33, 0]
      [104, 105] [1] [2] 9
      (by decide) (by decide) (by decide) (by decide) (by decide) (by decide) (by decide)
      (by decide)
      ⟨rfl, by decide, by decide, LASTBLOCK, by decide, rfl⟩
      ⟨rfl, by decide, by decide, LASTBLOCK, by decide, rfl⟩
      (by decide) (by decide) (by decide) (by decide) (by decide) (by decide) (by decide) h⟩

/-! ## Claims C38 and C39: the caller of `p_waitpid`, the target of `p_kill` -/

/-- Claim C38 at a failing input: the blocking `p_waitpid(-1)` sets the status of the
caller to `T_WAITED` before it looks at the children and never sets it back. On
the example kernel process 1 has no children: the call returns `-1` with the caller
marked `T_WAITED`. In the example family process 1 has the zombie child 2: the first
scan finds it, the call returns 2, and the caller is marked `T_WAITED` as well. The
claim requires the status `T_RUNNING` on both returns. -/
theorem p_waitpid_returns_waiting :
    (p_waitpid (example_kernel 1 0 6) (-1) false).map
        (fun r => (r.2, r.1.pcb_list.map PCB.level))
      = some (wait_result.returned (-1) none, [(1, 0, T_WAITED), (2, 0, T_RUNNING)]) ∧
    (p_waitpid example_kernel_family (-1) false).map
        (fun r => (r.2, r.1.pcb_list.map PCB.level))
      = some (wait_result.returned 2 (some T_ZOMBIED), [(1, 0, T_WAITED), (3, 0, T_RUNNING)]) := by
  decide

/-- Claim C39 at a failing input: on the example kernel process 1 holds the file `foo`
(file_id 0) through descriptor 3, is its writer and has the offset 0; process 2
runs. `p_kill(1, S_SIGSTOP)` calls `process_delete_fileptrs` before it looks at the
signal: the offset of process 1 is deleted and the writer slot is cleared.
`p_kill(1, S_SIGCONT)` afterwards leaves the table so, and process 1, which still
has the file_id 0 in its descriptor 3, has no offset for it. -/
theorem p_kill_stop_deletes_offsets :
    (example_kernel 2 0 6).open_files
      = [{ filename := foo, file_id := 0, wr_pid := 1, fileptr_head := [{ pid := 1, ptr := 0 }] }] ∧
    (p_kill (example_kernel 2 0 6) 1 S_SIGSTOP).map (fun r => (r.2, r.1.open_files))
      = some (0, [{ filename := foo, file_id := 0, wr_pid := -1, fileptr_head := [] }]) ∧
    ((p_kill (example_kernel 2 0 6) 1 S_SIGSTOP).bind
        (fun r => p_kill r.1 1 S_SIGCONT)).map
        (fun r => (r.2, (findPCBByPID r.1.pcb_list 1).bind (fun p => fd_get p 3),
          offset_of r.1 0 1, r.1.open_files))
      = some (0, some 0, none,
          [{ filename := foo, file_id := 0, wr_pid := -1, fileptr_head := [] }]) := by
  decide

/-! ## Claim C35: the rotation of the levels -/

/-- Claim C35: the step `priority = ((priority + 2) % 3) - 1` maps `-1` to `0`, `0`
to `1` and `1` to `-1`. In a registry with a running PCB whose priority is among
`-1`, `0`, `1`, the loop of the scheduler that starts at a level `p0` among the three
stops within three tests, that is after at most two rotations, at a level `p` with a
running PCB; `p` is `p0` or is reached from it in one or two rotations. Of the 19
values of `roulette`, 9 give the level `-1`, 6 the level `0` and 4 the level `1`. -/
theorem level_rotation_terminates (list : List PCB) (pcb : PCB) (p0 : Int)
    (hmem : pcb ∈ list) (hrun : pcb.status = T_RUNNING)
    (hprio : pcb.priority = -1 ∨ pcb.priority = 0 ∨ pcb.priority = 1)
    (hp0 : p0 = -1 ∨ p0 = 0 ∨ p0 = 1) :
    (Int.tmod (-1 + 2) 3 - 1 = 0 ∧ Int.tmod (0 + 2) 3 - 1 = 1 ∧ Int.tmod (1 + 2) 3 - 1 = -1) ∧
    (∃ p, choose_level list 3 p0 = some p ∧ 0 < count_running_priority list p ∧
      (p = p0 ∨ p = Int.tmod (p0 + 2) 3 - 1 ∨
        p = Int.tmod (Int.tmod (p0 + 2) 3 - 1 + 2) 3 - 1)) ∧
    ((List.range (9 + 6 + 4)).countP (fun r => decide (roulette_priority r = -1)) = 9 ∧
     (List.range (9 + 6 + 4)).countP (fun r => decide (roulette_priority r = 0)) = 6 ∧
     (List.range (9 + 6 + 4)).countP (fun r => decide (roulette_priority r = 1)) = 4) := by
  have hpos : 0 < count_running_priority list pcb.priority := by
    induction list with
    | nil => cases hmem
    | cons x xs ih =>
      simp only [count_running_priority]
      rcases List.mem_cons.mp hmem with h | h
      · subst h
        rw [if_pos ⟨hrun, rfl⟩]
        omega
      · have := ih h
        omega
  refine ⟨by decide, ?_, by decide⟩
  have e1 : Int.tmod (-1 + 2) 3 - 1 = 0 := by decide
  have e2 : Int.tmod (0 + 2) 3 - 1 = 1 := by decide
  have e3 : Int.tmod (1 + 2) 3 - 1 = -1 := by decide
  have key : ∀ q : Int, (q = -1 ∨ q = 0 ∨ q = 1) →
      count_running_priority list q = 0 ∨ 0 < count_running_priority list q := by
    intro q _
    omega
  -- the three levels in the order of the rotation from `p0`
  have hcases : ∀ a b c : Int, Int.tmod (a + 2) 3 - 1 = b → Int.tmod (b + 2) 3 - 1 = c →
      (pcb.priority = a ∨ pcb.priority = b ∨ pcb.priority = c) →
      ∃ p, choose_level list 3 a = some p ∧ 0 < count_running_priority list p ∧
        (p = a ∨ p = Int.tmod (a + 2) 3 - 1 ∨ p = Int.tmod (Int.tmod (a + 2) 3 - 1 + 2) 3 - 1) := by
    intro a b c hab hbc hp
    by_cases ha : count_running_priority list a = 0
    · by_cases hb : count_running_priority list b = 0
      · have hc : 0 < count_running_priority list c := by
          rcases hp with h | h | h
          · rw [h] at hpos; omega
          · rw [h] at hpos; omega
          · rw [h] at hpos; exact hpos
        refine ⟨c, ?_, hc, Or.inr (Or.inr (by rw [hab, hbc]))⟩
        simp only [choose_level, ha, if_true, hab, hb, hbc]
        rw [if_neg (by omega)]
      · refine ⟨b, ?_, by omega, Or.inr (Or.inl hab.symm)⟩
        simp only [choose_level, ha, if_true, hab]
        rw [if_neg hb]
    · refine ⟨a, ?_, by omega, Or.inl rfl⟩
      simp only [choose_level]
      rw [if_neg ha]
  rcases hp0 with h | h | h
  · subst h
    exact hcases (-1) 0 1 e1 e2 (by rcases hprio with h | h | h <;> simp [h])
  · subst h
    exact hcases 0 1 (-1) e2 e3 (by rcases hprio with h | h | h <;> simp [h])
  · subst h
    exact hcases 1 (-1) 0 e3 e1 (by rcases hprio with h | h | h <;> simp [h])

/-- Witness of claim C35: in the example tree the three processes run at the level 0;
the loop that starts at the level 1 stops at the level 0 after two rotations. -/
theorem level_rotation_terminates_witness :
    ∃ p, choose_level (example_kernel_tree 1).pcb_list 3 1 = some p ∧
      0 < count_running_priority (example_kernel_tree 1).pcb_list p ∧
      (p = 1 ∨ p = Int.tmod (1 + 2) 3 - 1 ∨ p = Int.tmod (Int.tmod (1 + 2) 3 - 1 + 2) 3 - 1) :=
  (level_rotation_terminates (example_kernel_tree 1).pcb_list
    { example_pcb 1 [] with children := [2] } 1 (by decide) (by decide) (by decide)
    (by decide)).2.1

/-! ## Claims C32 and C40: the image that `mkfs` writes -/

theorem flatten_replicate_replicate (k n x : Nat) :
    (List.replicate k (List.replicate n x)).flatten = List.replicate (k * n) x := by
  induction k with
  | zero => simp
  | succ k ih =>
    rw [List.replicate_succ, List.flatten_cons, ih, Nat.succ_mul, Nat.add_comm,
      List.replicate_add]

theorem length_flatten_le_bytes (cells : List Nat) :
    ((cells.map (fun c => le_bytes c 2)).flatten).length = 2 * cells.length := by
  induction cells with
  | nil => rfl
  | cons c cs ih =>
    rw [List.map_cons, List.flatten_cons, List.length_append, ih, le_bytes_length,
      List.length_cons]
    omega

/-- The metadata cell that `mkfs` computes with a shift and a bitwise or. -/
theorem mkfs_metadata (B e : Nat) (hB : B ≤ 32) (he : e ≤ 4) :
    ((B <<< BITS_PER_BYTE) ||| e) = B * 256 + e := by
  interval_cases B <;> interval_cases e <;> rfl

/-- The array of cells that `mkfs` writes. -/
theorem mkfs_fat_region_eq (B e : Nat) (hB1 : 1 ≤ B) (hB2 : B ≤ 32) (he : e ≤ 4) :
    mkfs_fat_region B e
      = [(B <<< BITS_PER_BYTE) ||| e, LASTBLOCK] ++ List.replicate (B * (256 * 2 ^ e) / 2 - 2) 0 := by
  unfold mkfs_fat_region
  simp only
  have hS : BYTE_SIZE <<< e = 256 * 2 ^ e := by
    rw [Nat.shiftLeft_eq]; rfl
  rw [hS]
  have hmod : ((B <<< BITS_PER_BYTE) ||| e) % 65536 = (B <<< BITS_PER_BYTE) ||| e := by
    rw [mkfs_metadata B e hB2 he]
    exact Nat.mod_eq_of_lt (by omega)
  rw [hmod]
  have hN : ∃ n, B * (256 * 2 ^ e) / 2 = n + 2 := by
    refine ⟨B * (256 * 2 ^ e) / 2 - 2, ?_⟩
    have h2 : 1 ≤ 2 ^ e := Nat.one_le_two_pow
    have h3 : 256 * 1 ≤ 256 * 2 ^ e := Nat.mul_le_mul_left 256 h2
    have h4 : 1 * (256 * 2 ^ e) ≤ B * (256 * 2 ^ e) := Nat.mul_le_mul_right _ hB1
    omega
  obtain ⟨n, hn⟩ := hN
  rw [hn]
  simp [List.replicate_succ]

/-- The cells of a FAT written by `mkfs` in a configuration other than 32 blocks of
4096 bytes have indices below `LASTBLOCK`. -/
theorem mkfs_cells_below_sentinel (B e : Nat) (hB1 : 1 ≤ B) (hB2 : B ≤ 32) (he : e ≤ 4)
    (hne : ¬ (B = 32 ∧ e = 4)) : (mkfs_fat_region B e).length ≤ LASTBLOCK := by
  rw [mkfs_fat_region_eq B e hB1 hB2 he]
  simp only [List.length_append, List.length_cons, List.length_nil, List.length_replicate]
  unfold LASTBLOCK
  interval_cases e <;> omega

/-- The bytes that `mkfs` writes: the cells, then the zero bytes of the data region. -/
theorem mkfs_eq (B e : Nat) (hB1 : 1 ≤ B) (hB2 : B ≤ 32) (he : e ≤ 4) :
    mkfs (B : Int) (e : Int)
      = some (((mkfs_fat_region B e).map (fun c => le_bytes c 2)).flatten ++
          List.replicate ((B * (256 * 2 ^ e) / 2 - 1) * (256 * 2 ^ e)) 0) := by
  have hshift : BYTE_SIZE <<< e = 256 * 2 ^ e := by
    rw [Nat.shiftLeft_eq]; rfl
  have hSpos : 0 < 256 * 2 ^ e := by
    have h2 : 1 ≤ 2 ^ e := Nat.one_le_two_pow
    omega
  unfold mkfs
  rw [if_neg (by omega), if_neg (by omega)]
  simp only [Int.toNat_ofNat, hshift]
  rw [Nat.mul_div_cancel_left _ hSpos, flatten_replicate_replicate]

/-- Claim C32: for `B` in 1..32 and `e` in 0..4, with `S = 256 * 2^e` and `N = B*S/2`,
`mkfs` writes a file of `B*S + (N-1)*S` bytes. Its first `B*S` bytes are the cells
of the FAT, low byte first: cell 0 is `(B << 8) | e`, cell 1 is `0xFFFF`, the other
`N - 2` cells are 0. The `(N-1)*S` bytes after them are 0. `FAT_BLOCKS` and
`BLOCK_SIZE` of cell 0 are `B` and `S`, and on these cells `mem_idx(b)` is
`B*S + (b-1)*S` for every `b`. -/
theorem mkfs_layout (B e S N : Nat) (hB1 : 1 ≤ B) (hB2 : B ≤ 32) (he : e ≤ 4)
    (hS : S = 256 * 2 ^ e) (hN : N = B * S / 2) :
    ∃ file cells, mkfs (B : Int) (e : Int) = some file ∧
      cells = [(B <<< 8) ||| e, 0xFFFF] ++ List.replicate (N - 2) 0 ∧
      cells.length = N ∧
      file.length = B * S + (N - 1) * S ∧
      file.take (B * S) = (cells.map (fun c => le_bytes c 2)).flatten ∧
      file.drop (B * S) = List.replicate ((N - 1) * S) 0 ∧
      FAT_BLOCKS ((B <<< 8) ||| e) = B ∧
      BLOCK_SIZE ((B <<< 8) ||| e) = some S ∧
      ∀ b : Nat, ∃ a, mem_idx cells b = some a ∧ (a : Int) = B * S + ((b : Int) - 1) * S := by
  have hmeta : ((B <<< 8) ||| e) = B * 256 + e := mkfs_metadata B e hB2 he
  have hshift : BYTE_SIZE <<< e = S := by
    rw [Nat.shiftLeft_eq, hS]; rfl
  have hSpos : 256 ≤ S := by
    rw [hS]
    have h2 : 1 ≤ 2 ^ e := Nat.one_le_two_pow
    omega
  have hSeven : S % 2 = 0 := by
    have h2 : 256 * 2 ^ e = 2 * (128 * 2 ^ e) := by ring
    rw [hS, h2, Nat.mul_mod_right]
  have hBS : S ≤ B * S := by
    have := Nat.mul_le_mul_right S hB1
    omega
  have hN2 : 2 * N = B * S := by
    rw [hN]
    have : (B * S) % 2 = 0 := by
      rw [Nat.mul_mod, hSeven]; simp
    omega
  have hNge : 128 ≤ N := by omega
  have hregion := mkfs_fat_region_eq B e hB1 hB2 he
  rw [← hS, ← hN] at hregion
  have hlen : (mkfs_fat_region B e).length = N := by
    rw [hregion]
    simp only [List.length_append, List.length_cons, List.length_nil, List.length_replicate]
    omega
  have hfatbytes : ((mkfs_fat_region B e).map (fun c => le_bytes c 2)).flatten.length = B * S := by
    rw [length_flatten_le_bytes, hlen, hN2]
  have hdiv : S * (N - 1) / S = N - 1 := Nat.mul_div_cancel_left _ (by omega)
  have hmk : mkfs (B : Int) (e : Int)
      = some (((mkfs_fat_region B e).map (fun c => le_bytes c 2)).flatten ++
          List.replicate ((N - 1) * S) 0) := by
    rw [mkfs_eq B e hB1 hB2 he, ← hS, ← hN]
  refine ⟨_, mkfs_fat_region B e, hmk, hregion, hlen, ?_, ?_, ?_, ?_, ?_, ?_⟩
  · rw [List.length_append, hfatbytes, List.length_replicate]
  · exact List.take_left' hfatbytes
  · exact List.drop_left' hfatbytes
  · rw [hmeta]
    unfold FAT_BLOCKS BITS_PER_BYTE
    omega
  · rw [hmeta]
    unfold BLOCK_SIZE
    have hmod : (B * 256 + e) % 256 = e := by omega
    rw [hmod, if_pos (by omega), hS]
    rfl
  · intro b
    have h0 : (mkfs_fat_region B e)[0]? = some (B * 256 + e) := by
      rw [hregion]
      show some ((B <<< 8) ||| e) = some (B * 256 + e)
      rw [hmeta]
    have hfb : FAT_BLOCKS (B * 256 + e) = B := by
      unfold FAT_BLOCKS BITS_PER_BYTE
      omega
    have hbs : BLOCK_SIZE (B * 256 + e) = some S := by
      unfold BLOCK_SIZE
      have hmod : (B * 256 + e) % 256 = e := by omega
      rw [hmod, if_pos (by omega), hS]
      rfl
    unfold mem_idx
    simp only [h0, hfb, hbs, Option.bind_eq_bind, Option.some_bind]
    have h1 : S ≤ S * B + S * b := by
      rw [Nat.mul_comm S B]
      exact Nat.le_trans hBS (Nat.le_add_right _ _)
    rw [if_neg (by omega)]
    refine ⟨_, rfl, ?_⟩
    rw [Int.ofNat_sub h1]
    push_cast
    ring

/-- Witness of claim C32: one FAT block of 256 bytes, hence 128 cells. -/
theorem mkfs_layout_witness :
    ∃ file cells, mkfs ((1 : Nat) : Int) ((0 : Nat) : Int) = some file ∧
      cells = [(1 <<< 8) ||| 0, 0xFFFF] ++ List.replicate (128 - 2) 0 ∧
      cells.length = 128 ∧
      file.length = 1 * 256 + (128 - 1) * 256 ∧
      file.take (1 * 256) = (cells.map (fun c => le_bytes c 2)).flatten ∧
      file.drop (1 * 256) = List.replicate ((128 - 1) * 256) 0 ∧
      FAT_BLOCKS ((1 <<< 8) ||| 0) = 1 ∧
      BLOCK_SIZE ((1 <<< 8) ||| 0) = some 256 ∧
      ∀ b : Nat, ∃ a, mem_idx cells b = some a ∧
        (a : Int) = (1 : Nat) * (256 : Nat) + ((b : Int) - 1) * (256 : Nat) :=
  mkfs_layout 1 0 256 128 (by decide) (by decide) (by decide) (by decide) (by decide)

/-- The image that `fs_mount` maps after `mkfs` with one FAT block of 256 bytes. -/
theorem mkfs_mount_small :
    (mkfs 1 0).bind fs_mount
      = some (Image.mk ([256, LASTBLOCK] ++ List.replicate 126 0)
          (fun a => (((mkfs_fat_region 1 0).map (fun c => le_bytes c 2)).flatten ++
            List.replicate 32512 0).getD a 0)) := by
  have hmk := mkfs_eq 1 0 (by decide) (by decide) (by decide)
  have hmk2 : mkfs 1 0 = some (((mkfs_fat_region 1 0).map (fun c => le_bytes c 2)).flatten ++
      List.replicate 32512 0) := hmk
  rw [hmk2, Option.some_bind]
  have hlen : (((mkfs_fat_region 1 0).map (fun c => le_bytes c 2)).flatten ++
      List.replicate 32512 0).length = 32768 := by
    rw [List.length_append, length_flatten_le_bytes, List.length_replicate,
      mkfs_fat_region_eq 1 0 (by decide) (by decide) (by decide), List.length_append,
      List.length_replicate]
    rfl
  have hmeta : le_value ((((mkfs_fat_region 1 0).map (fun c => le_bytes c 2)).flatten ++
      List.replicate 32512 0).take 2) = 256 := by decide
  unfold fs_mount
  simp only [hmeta, hlen, Option.bind_eq_bind]
  have hbs : BLOCK_SIZE 256 = some 256 := by decide
  rw [hbs, Option.some_bind, if_neg (by decide)]
  have hcells : (List.range (FAT_BLOCKS 256 * 256 / 2)).map
      (fun i => le_value (((((mkfs_fat_region 1 0).map (fun c => le_bytes c 2)).flatten ++
        List.replicate 32512 0).drop (2 * i)).take 2))
      = [256, LASTBLOCK] ++ List.replicate 126 0 := by decide
  rw [hcells]


/-- Claim C40 at a failing input: `mkfs` accepts 32 FAT blocks of 4096 bytes. The FAT
it writes has `N = 32 * 4096 / 2 = 65536` cells, so `LASTBLOCK = 0xFFFF = N - 1` is
the index of a cell, which is free after `mkfs`. On the FAT of that geometry in
which only the last cell is free, `get_free_block` returns `LASTBLOCK`, the value
that ends a chain. -/
theorem sentinel_names_last_cell :
    (mkfs 32 4).isSome = true ∧
    (mkfs_fat_region 32 4).length = 65536 ∧
    LASTBLOCK < (mkfs_fat_region 32 4).length ∧
    (mkfs_fat_region 32 4)[LASTBLOCK]? = some 0 ∧
    get_free_block example_fat_last_free = some LASTBLOCK := by
  have hreg : mkfs_fat_region 32 4 = [8196, LASTBLOCK] ++ List.replicate 65534 0 :=
    mkfs_fat_region_eq 32 4 (by decide) (by decide) (by decide)
  have hlen : (mkfs_fat_region 32 4).length = 65536 := by
    rw [hreg, List.length_append, List.length_replicate]
    rfl
  have hfat : example_fat_last_free = [8196] ++ List.replicate 65534 LASTBLOCK ++ [0] := rfl
  have hl1 : ([8196] ++ List.replicate 65534 LASTBLOCK).length = 65535 := by
    rw [List.length_append, List.length_replicate]
    rfl
  refine ⟨by decide, hlen, by rw [hlen]; decide, ?_, ?_⟩
  · rw [hreg, List.getElem?_append_right (by decide), List.getElem?_replicate]
    exact if_pos (by decide)
  · apply get_free_block_least example_fat_last_free 8196 4096 LASTBLOCK
    · rw [hfat, List.append_assoc, List.cons_append, List.getElem?_cons_zero]
    · decide
    · decide
    · decide
    · rw [hfat, List.getElem?_append_right (by rw [hl1]; decide), hl1]
      rfl
    · intro t h1 h2
      have ht : t < ([8196] ++ List.replicate 65534 LASTBLOCK).length := by
        rw [hl1]; unfold LASTBLOCK at h2; omega
      rw [hfat, List.getElem?_append_left ht,
        List.getElem?_append_right (by simpa using h1), List.getElem?_replicate]
      have h3 : t - [8196].length < 65534 := by
        simp only [List.length_cons, List.length_nil]
        unfold LASTBLOCK at h2
        omega
      rw [if_pos h3]
      decide

/-! ## Claims C31 and C33: append after a full block, chains after a copy -/

/-- Claim C31 at a failing input: on the example image `fs_cat` in the overwrite mode
writes 256 bytes `A` to `foo`, one full block; it stores the terminator with them,
so the chain has the blocks 2 and 3 for the size 256. `fs_cat` in the append mode
with the payload `B` finds the first block full, builds the new block 4 and links
it after block 3: the size is 257, the chain has three blocks where the claim has
`ceil(257/256) = 2`, and the file reads back as the 256 bytes `A` followed by the
zero byte of block 3, not by `B`. -/
theorem fs_cat_append_after_full_block :
    ((fs_cat (example_image 6) 0 1 (List.replicate 256 65 ++ [0]) [] foo 8).bind fun w =>
      (fs_cat w.1 0 2 [66, 0] [] foo 9).bind fun r =>
        (file_content r.1 foo).map fun c =>
          (file_content w.1 foo, w.1.fat.take 6, c, r.1.fat.take 6))
      = some (some (256, List.replicate 256 65), [256, LASTBLOCK, 3, LASTBLOCK, 0, 0],
          (257, List.replicate 256 65 ++ [0]), [256, LASTBLOCK, 3, 4, LASTBLOCK, 0]) := by
  decide

/-- Claim C33 at a failing input: `mkfs` writes an image with one FAT block of 256
bytes and `fs_mount` maps it; `fs_touch` creates the empty file `foo` and `fs_cp`
copies it to `bar`. `fs_cp` takes a free block for the copy and `build_chain`
returns at once for zero bytes, so the entry of `bar` has the first block 2 while
the cell 2 of the FAT holds 0: the first block of a live entry is a free cell.
`fs_cat` in the overwrite mode then creates `baz` and is given the same block 2:
the live entries `bar` and `baz` have the same first block. -/
theorem fs_cp_breaks_chains :
    ((mkfs 1 0).bind fs_mount).bind (fun img =>
      (fs_touch img foo 8).bind fun t =>
        (fs_cp t.1 foo bar 9).bind fun c =>
          (fs_cat c.1 0 1 [88, 0] [] baz 10).map fun w =>
            (img.fat.take 4, entry_head c.1 bar, entry_head w.1 bar, entry_head w.1 baz))
      = some ([256, LASTBLOCK, 0, 0], some (some (2, some 0, 0)),
          some (some (2, some LASTBLOCK, 0)), some (some (2, some LASTBLOCK, 1))) := by
  rw [mkfs_mount_small, Option.some_bind]
  decide

/-! ## Claim C37: exit of an orphan -/

/-- Claim C37 at a failing input: in the example tree process 2 exits and its parent,
process 1, reaps it with `p_waitpid(2, nohang)`; `removePCBFromList` sets the parent
PID of process 3, the child of 2, to `-1`. Process 3 then calls `p_exit`: no PCB has
the PID `-1`, so `removePCBFromList` is called for the caller, and as the parent PID
is not 0 it looks for the PCB `-1` and reads `parent->numChildren` through the null
pointer. The call has no defined result, where the claim has it complete. -/
theorem p_exit_orphan_undefined :
    ((p_exit (example_kernel_tree 2)).bind fun k1 =>
      (p_waitpid (run_as k1 1) 2 true).map fun r =>
        (r.2, r.1.pcb_list.map PCB.summary))
      = some (wait_result.returned 2 (some T_ZOMBIED),
          [(1, 0, [], T_RUNNING), (3, -1, [], T_RUNNING)]) ∧
    ((p_exit (example_kernel_tree 2)).bind fun k1 =>
      (p_waitpid (run_as k1 1) 2 true).bind fun r =>
        (p_exit (run_as r.1 3)).map fun _ => ()) = none := by
  decide

/-! ## Claim C36: insertion in the registry and removal from it -/

theorem unlink_pcb_pids (l : List PCB) (pid : Int) :
    (unlink_pcb l pid).map PCB.pid = (l.map PCB.pid).erase pid := by
  induction l with
  | nil => rfl
  | cons x xs ih =>
    simp only [unlink_pcb, List.map_cons]
    by_cases hx : x.pid = pid
    · rw [if_pos hx, hx, List.erase_cons_head]
    · rw [if_neg hx, List.map_cons, ih, List.erase_cons_tail (by simpa using hx)]

theorem orphan_children_pids (cs : List Int) :
    ∀ (l l2 : List PCB), orphan_children cs l = some l2 →
      l2.map PCB.pid = l.map PCB.pid := by
  induction cs with
  | nil => intro l l2 h; simp only [orphan_children, Option.some.injEq] at h; rw [h]
  | cons c cs ih =>
    intro l l2 h
    simp only [orphan_children, Option.bind_eq_bind] at h
    cases hf : findPCBByPID l c with
    | none => rw [hf] at h; cases h
    | some pc =>
      rw [hf] at h
      simp only [Option.some_bind] at h
      rw [ih _ _ h]
      exact update_pcb_map PCB.pid (fun p => { p with parent_pid := -1 }) (fun _ => rfl) l c

/-- The PIDs of the registry after `removePCBFromList`, in the order of the list:
the PIDs of the registry without the first occurrence of the PID removed. -/
theorem removePCBFromList_pids (l l1 : List PCB) (pid : Int) (pcb : PCB)
    (hf : findPCBByPID l pid = some pcb) (h : removePCBFromList l pid = some l1) :
    l1.map PCB.pid = (l.map PCB.pid).erase pid := by
  rw [← unlink_pcb_pids]
  unfold removePCBFromList at h
  cases l with
  | nil => cases hf
  | cons x xs =>
    simp only [Option.bind_eq_bind, hf, Option.some_bind] at h
    by_cases hnil : unlink_pcb (x :: xs) pid = []
    · rw [if_pos hnil] at h
      cases h
      rfl
    · rw [if_neg hnil] at h
      by_cases hz : pcb.status = T_ZOMBIED
      · rw [if_pos hz] at h
        cases ho : orphan_children pcb.children (unlink_pcb (x :: xs) pid) with
        | none => rw [ho] at h; cases h
        | some l2 =>
          rw [ho] at h
          simp only [Option.some_bind] at h
          have h2 := orphan_children_pids _ _ _ ho
          by_cases hp : pcb.parent_pid ≠ 0
          · rw [if_pos hp] at h
            cases hpar : findPCBByPID l2 pcb.parent_pid with
            | none => rw [hpar] at h; cases h
            | some parent =>
              rw [hpar] at h
              simp only [Option.some_bind] at h
              split at h
              · cases h
              · injection h with h
                rw [← h, ← h2]
                exact update_pcb_map PCB.pid
                  (fun p : PCB => { p with
                    children := (p.children.set (child_index parent.children pcb.pid).toNat
                      (parent.children.getD (parent.children.length - 1) 0)).take (p.children.length - 1) })
                  (fun _ => rfl) l2 pcb.parent_pid
          · rw [if_neg hp] at h
            injection h with h
            rw [← h, h2]
      · rw [if_neg hz] at h
        injection h with h
        rw [← h]

/-- Claim C36: `addPCBToList` makes the PCB the tail of the list, after the PCBs that
were there. For a zombie `z` of a registry with distinct PIDs whose parent `pcb` is
another PCB of the registry that has `z` among its children, and whose own children
are PCBs of the registry, `removePCBFromList` returns; the PIDs of the new list are
those of the old one without `z`, in the same order; the children of `z` have the
parent `-1`; the parent has one child less, its children are children it had, and,
when they were distinct, they are its children other than `z`; the other PCBs are as
before. -/
theorem registry_insert_remove (l : List PCB) (pcb z added : PCB)
    (hz : findPCBByPID l z.pid = some z) (hzs : z.status = T_ZOMBIED)
    (hp : findPCBByPID l pcb.pid = some pcb)
    (hnd : (l.map PCB.pid).Nodup)
    (hpar : z.parent_pid = pcb.pid) (hp0 : pcb.pid ≠ 0) (hne : pcb.pid ≠ z.pid)
    (hmem : z.pid ∈ pcb.children)
    (hch : ∀ c ∈ z.children, c ≠ z.pid ∧ c ≠ pcb.pid ∧ (findPCBByPID l c).isSome = true) :
    addPCBToList l added = l ++ [added] ∧
    ∃ l1 cs, removePCBFromList l z.pid = some l1 ∧
      l1.map PCB.pid = (l.map PCB.pid).erase z.pid ∧
      findPCBByPID l1 z.pid = none ∧
      findPCBByPID l1 pcb.pid = some { pcb with children := cs } ∧
      cs.length + 1 = pcb.children.length ∧
      (∀ c, c ∈ cs → c ∈ pcb.children) ∧
      (pcb.children.Nodup → z.pid ∉ cs ∧ ∀ c ∈ pcb.children, c ≠ z.pid → c ∈ cs) ∧
      (∀ c ∈ z.children, findPCBByPID l1 c
        = (findPCBByPID l c).map (fun p => { p with parent_pid := -1 })) ∧
      (∀ q, q ≠ z.pid → q ≠ pcb.pid → q ∉ z.children →
        findPCBByPID l1 q = findPCBByPID l q) := by
  obtain ⟨l1, cs, h1, h2, h3, h4, h5, h6, h7, h8⟩ :=
    removePCBFromList_zombie l pcb z hz hzs hp hnd hpar hp0 hne hmem hch
  exact ⟨rfl, l1, cs, h1, removePCBFromList_pids l l1 z.pid z hz h1, h2, h3, h4, h5, h6, h7, h8⟩

/-- Witness of claim C36: in the example family the zombie 2, child of process 1 and
parent of process 3, is removed; a PCB with the PID 4 is added. -/
theorem registry_insert_remove_witness :
    addPCBToList example_kernel_family.pcb_list (example_pcb 4 [])
      = example_kernel_family.pcb_list ++ [example_pcb 4 []] ∧
    ∃ l1 cs, removePCBFromList example_kernel_family.pcb_list 2 = some l1 ∧
      l1.map PCB.pid = (example_kernel_family.pcb_list.map PCB.pid).erase 2 ∧
      findPCBByPID l1 2 = none ∧
      findPCBByPID l1 1 = some { example_pcb 1 [] with children := cs } ∧
      cs.length + 1 = 1 ∧
      (∀ c, c ∈ cs → c ∈ [2]) ∧
      (([2] : List Int).Nodup → (2 : Int) ∉ cs ∧ ∀ c ∈ ([2] : List Int), c ≠ 2 → c ∈ cs) ∧
      (∀ c ∈ ([3] : List Int), findPCBByPID l1 c
        = (findPCBByPID example_kernel_family.pcb_list c).map
            (fun p => { p with parent_pid := -1 })) ∧
      (∀ q, q ≠ 2 → q ≠ 1 → q ∉ ([3] : List Int) →
        findPCBByPID l1 q = findPCBByPID example_kernel_family.pcb_list q) :=
  registry_insert_remove example_kernel_family.pcb_list
    { example_pcb 1 [] with children := [2] }
    { example_pcb 2 [] with parent_pid := 1, children := [3], status := T_ZOMBIED }
    (example_pcb 4 [])
    (by decide) (by decide) (by decide) (by decide) (by decide) (by decide) (by decide)
    (by decide) (by decide)

/-! ## Claim C34: `fill_chain` -/

theorem disk_read_add (d : Nat → Nat) (addr a b : Nat) :
    disk_read d addr (a + b) = disk_read d addr a ++ disk_read d (addr + a) b := by
  unfold disk_read
  rw [List.range_add, List.map_append, List.map_map]
  congr 1
  apply List.map_congr_left
  intro i _
  simp [Nat.add_assoc]

theorem mem_idx_of_pos (fat : List Nat) (m bs b : Nat) (hm : fat[0]? = some m)
    (hb : BLOCK_SIZE m = some bs) (h1 : 1 ≤ b) :
    mem_idx fat b = some (bs * FAT_BLOCKS m + bs * b - bs) := by
  unfold mem_idx
  simp only [hm, hb, Option.bind_eq_bind, Option.some_bind]
  have : bs * 1 ≤ bs * b := Nat.mul_le_mul_left bs h1
  rw [if_neg (by omega)]

/-- One step of `read_chain` in a block that holds the last bytes. -/
theorem read_chain_rec_last (img : Image) (f head n m bs addr : Nat)
    (hm : img.fat[0]? = some m) (hb : BLOCK_SIZE m = some bs)
    (ha : mem_idx img.fat head = some addr) (hh : head ≠ LASTBLOCK) (h1 : 1 ≤ head)
    (hlt : head < img.fat.length) (hn : n ≤ bs) (hf : n ≤ f) :
    read_chain_rec img f head n = some (disk_read img.disk addr n) := by
  cases n with
  | zero =>
    cases f with
    | zero => rfl
    | succ f => simp [read_chain_rec, hh, disk_read]
  | succ n =>
    cases f with
    | zero => omega
    | succ f =>
      have hreg : in_data_region img.fat (addr + 0) (n + 1) = some true :=
        slot_in_region img.fat head m bs addr 0 (n + 1) hm hb h1 hlt ha (by omega)
      rw [Nat.add_zero] at hreg
      simp only [read_chain_rec, hh, if_false, Nat.add_one_ne_zero, hm, Option.bind_eq_bind,
        Option.some_bind, hb, ha, hn, if_true]
      exact seek_read_of_region img addr (n + 1) hreg

/-- One step of `read_chain` in a block that is read whole. -/
theorem read_chain_rec_step (img : Image) (f head n m bs addr next : Nat)
    (hm : img.fat[0]? = some m) (hb : BLOCK_SIZE m = some bs)
    (ha : mem_idx img.fat head = some addr) (hh : head ≠ LASTBLOCK) (h1 : 1 ≤ head)
    (hnext : img.fat[head]? = some next) (hn : bs < n) :
    read_chain_rec img (f + 1) head n
      = (read_chain_rec img f next (n - bs)).map (fun rest => disk_read img.disk addr bs ++ rest) := by
  have hlt : head < img.fat.length := (List.getElem?_eq_some.mp hnext).1
  have hreg : in_data_region img.fat (addr + 0) bs = some true :=
    slot_in_region img.fat head m bs addr 0 bs hm hb h1 hlt ha (by omega)
  rw [Nat.add_zero] at hreg
  have hn0 : ¬ n = 0 := by omega
  have hnle : ¬ n ≤ bs := by omega
  simp only [read_chain_rec, hh, if_false, hn0, hm, Option.bind_eq_bind, Option.some_bind, hb,
    ha, hnle, seek_read_of_region img addr bs hreg, hnext]
  cases read_chain_rec img f next (n - bs) <;> rfl

/-- The bytes of the last block that a chain of `chain_size` bytes uses are the same
when a whole block is taken off a longer chain. -/
theorem last_block_bytes_sub (bs cs : Nat) (hbs : 0 < bs) (h : bs < cs) :
    (if cs - bs = 0 then 0 else (cs - bs - 1) % bs + 1)
      = (if cs = 0 then 0 else (cs - 1) % bs + 1) := by
  rw [if_neg (by omega), if_neg (by omega)]
  have : cs - 1 = (cs - bs - 1) + bs := by omega
  rw [this, Nat.add_mod_right]

/-- Recursion of `fill_chain` on a chain `C` that has room for `chain_size` bytes, with
a buffer that is not empty: the image after the call differs in the disk only, the
count is the free room of the last block used or the length of the buffer, the bytes
of the chain are read as before and the bytes written follow them. -/
theorem fill_chain_rec_spec (img : Image) (buffer : List Nat) (m bs : Nat)
    (hm : img.fat[0]? = some m) (hb : BLOCK_SIZE m = some bs) (hbuf : buffer ≠ []) :
    ∀ (C : List Nat) (head chain_size fuel : Nat),
      is_chain img.fat head C → C ≠ [] → chain_size ≤ C.length * bs → chain_size < fuel →
      ∃ (d1 : Nat → Nat) (old : List Nat) (w : Nat),
        fill_chain_rec buffer fuel img head chain_size = some (Image.mk img.fat d1, w) ∧
        w = min buffer.length (bs - (if chain_size = 0 then 0 else (chain_size - 1) % bs + 1)) ∧
        old.length = chain_size ∧
        (∀ f, chain_size ≤ f → read_chain_rec img f head chain_size = some old) ∧
        (∀ f, chain_size ≤ f →
          read_chain_rec (Image.mk img.fat d1) f head chain_size = some old) ∧
        (∀ f, chain_size + w ≤ f →
          read_chain_rec (Image.mk img.fat d1) f head (chain_size + w)
            = some (old ++ (buffer.take w).map (fun x => x % 256))) ∧
        (∀ a, (∀ c ∈ C, ∀ addr, mem_idx img.fat c = some addr → ¬ (addr ≤ a ∧ a < addr + bs)) →
          d1 a = img.disk a) := by
  have hbspos : 0 < bs := BLOCK_SIZE_pos m bs hb
  have hlen0 : ¬ buffer.length = 0 := fun h => hbuf (List.length_eq_zero.mp h)
  intro C
  induction C with
  | nil => intro _ _ _ _ h; exact absurd rfl h
  | cons b rest ih =>
    intro head cs fuel hc _ hsz hfuel
    have hnd : (b :: rest).Nodup := is_chain_nodup img.fat (b :: rest) head hc
    simp only [is_chain] at hc
    obtain ⟨hhead, hbl, hb1, next, hnext, hrest⟩ := hc
    subst hhead
    have hblt : head < img.fat.length := (List.getElem?_eq_some.mp hnext).1
    have haddr := mem_idx_of_pos img.fat m bs head hm hb hb1
    generalize haddrv : bs * FAT_BLOCKS m + bs * head - bs = addr at haddr
    cases fuel with
    | zero => omega
    | succ fuel =>
      by_cases hle : cs ≤ bs
      · by_cases heq : cs = bs
        · -- the block is full
          subst heq
          have hw : min buffer.length
              (cs - (if cs = 0 then 0 else (cs - 1) % cs + 1)) = 0 := by
            rw [if_neg (by omega), Nat.mod_eq_of_lt (by omega)]
            omega
          have hold := fun f (hf : cs ≤ f) =>
            read_chain_rec_last img f head cs m cs addr hm hb haddr hbl hb1 hblt (Nat.le_refl _) hf
          refine ⟨img.disk, disk_read img.disk addr cs, 0, ?_, hw.symm, disk_read_length _ _ _,
            hold, hold, ?_, fun _ _ => rfl⟩
          · simp only [fill_chain_rec, hbl, if_false, hlen0, hm, Option.bind_eq_bind,
              Option.some_bind, hb, Nat.le_refl, if_true]
          · intro f hf
            rw [Nat.add_zero] at hf ⊢
            rw [List.take_zero, List.map_nil, List.append_nil]
            exact hold f hf
        · -- the bytes go into this block
          have hclt : cs < bs := by omega
          have hused : (if cs = 0 then 0 else (cs - 1) % bs + 1) = cs := by
            by_cases h0 : cs = 0
            · rw [if_pos h0, h0]
            · rw [if_neg h0, Nat.mod_eq_of_lt (by omega)]
              omega
          have hwle : min buffer.length (bs - cs) ≤ buffer.length := Nat.min_le_left _ _
          have hwle2 : cs + min buffer.length (bs - cs) ≤ bs := by
            have := Nat.min_le_right buffer.length (bs - cs)
            omega
          have hwpos : 0 < min buffer.length (bs - cs) := by
            have : 0 < buffer.length := Nat.pos_of_ne_zero hlen0
            omega
          have htl : (buffer.take (min buffer.length (bs - cs))).length
              = min buffer.length (bs - cs) := by
            rw [List.length_take]; omega
          have hreg : in_data_region img.fat (addr + cs)
              (buffer.take (min buffer.length (bs - cs))).length = some true := by
            rw [htl]
            exact slot_in_region img.fat head m bs addr cs _ hm hb hb1 hblt haddr hwle2
          have hfill : fill_chain_rec buffer (fuel + 1) img head cs
              = some (Image.mk img.fat
                  (disk_write img.disk (addr + cs) (buffer.take (min buffer.length (bs - cs)))),
                min buffer.length (bs - cs)) := by
            simp only [fill_chain_rec, hbl, if_false, hlen0, hm, Option.bind_eq_bind,
              Option.some_bind, hb, hle, if_true, heq, haddr]
            by_cases hroom : bs - cs ≤ buffer.length
            · rw [if_pos hroom]
              have hmin : min buffer.length (bs - cs) = bs - cs := Nat.min_eq_right hroom
              rw [hmin] at hreg ⊢
              rw [seek_write_of_region img _ _ hreg]
              rfl
            · rw [if_neg hroom]
              have hmin : min buffer.length (bs - cs) = buffer.length :=
                Nat.min_eq_left (by omega)
              rw [hmin, List.take_length] at hreg
              rw [hmin, List.take_length, seek_write_of_region img _ _ hreg]
              rfl
          have hsame : ∀ n, n ≤ cs →
              disk_read (disk_write img.disk (addr + cs)
                (buffer.take (min buffer.length (bs - cs)))) addr n
              = disk_read img.disk addr n := by
            intro n hn
            apply disk_read_congr
            intro a _ ha2
            exact disk_write_outside _ _ _ _ (by omega)
          have hold := fun f (hf : cs ≤ f) =>
            read_chain_rec_last img f head cs m bs addr hm hb haddr hbl hb1 hblt hle hf
          refine ⟨_, disk_read img.disk addr cs, min buffer.length (bs - cs), hfill,
            by rw [hused], disk_read_length _ _ _, hold, ?_, ?_, ?_⟩
          · intro f hf
            rw [read_chain_rec_last (Image.mk img.fat
              (disk_write img.disk (addr + cs) (buffer.take (min buffer.length (bs - cs))))) f head cs m bs addr
              hm hb haddr hbl hb1 hblt hle hf]
            exact congrArg some (hsame cs (Nat.le_refl _))
          · intro f hf
            rw [read_chain_rec_last (Image.mk img.fat
              (disk_write img.disk (addr + cs) (buffer.take (min buffer.length (bs - cs))))) f head _ m bs addr
              hm hb haddr hbl hb1 hblt hwle2 hf]
            apply congrArg some
            show disk_read (disk_write img.disk (addr + cs)
              (buffer.take (min buffer.length (bs - cs)))) addr (cs + min buffer.length (bs - cs)) = _
            rw [disk_read_add, hsame cs (Nat.le_refl _),
              disk_read_write _ _ _ _ (Nat.le_of_eq htl.symm), List.take_take, Nat.min_self]
          · intro a ha
            have hnot := ha head (List.mem_cons_self _ _) addr haddr
            exact disk_write_outside _ _ _ _ (by rw [htl]; omega)
      · -- the recursion on the next block
        have hgt : bs < cs := by omega
        have hrne : rest ≠ [] := by
          intro h
          rw [h] at hsz
          simp only [List.length_cons, List.length_nil] at hsz
          omega
        have hsz2 : cs - bs ≤ rest.length * bs := by
          rw [List.length_cons, Nat.succ_mul] at hsz
          omega
        obtain ⟨d1, old, w, hfill, hw, holdlen, hold, hold1, hnew, hframe⟩ :=
          ih next (cs - bs) fuel hrest hrne hsz2 (by omega)
        have hbn : head ∉ rest := (List.nodup_cons.mp hnd).1
        have hblk : disk_read d1 addr bs = disk_read img.disk addr bs := by
          apply disk_read_congr
          intro a ha1 ha2
          apply hframe
          intro c hc caddr hcaddr
          exact mem_idx_disjoint img.fat head c addr caddr m bs hm hb haddr hcaddr
            (fun h => hbn (h ▸ hc)) a ⟨ha1, ha2⟩
        refine ⟨d1, disk_read img.disk addr bs ++ old, w, ?_, ?_, ?_, ?_, ?_, ?_, ?_⟩
        · rw [← hfill]
          simp only [fill_chain_rec, hbl, if_false, hlen0, hm, Option.bind_eq_bind,
            Option.some_bind, hb, hle, hnext]
        · rw [hw, last_block_bytes_sub bs cs hbspos hgt]
        · rw [List.length_append, disk_read_length, holdlen]
          omega
        · intro f hf
          cases f with
          | zero => omega
          | succ f =>
            rw [read_chain_rec_step img f head cs m bs addr next hm hb haddr hbl hb1 hnext hgt,
              hold f (by omega)]
            rfl
        · intro f hf
          cases f with
          | zero => omega
          | succ f =>
            rw [read_chain_rec_step (Image.mk img.fat d1) f head cs m bs addr next hm hb haddr
              hbl hb1 hnext hgt, hold1 f (by omega)]
            exact congrArg some (congrArg (fun x => x ++ old) hblk)
        · intro f hf
          cases f with
          | zero => omega
          | succ f =>
            rw [read_chain_rec_step (Image.mk img.fat d1) f head (cs + w) m bs addr next hm hb
              haddr hbl hb1 hnext (by omega)]
            have hsub : cs + w - bs = cs - bs + w := by omega
            rw [hsub, hnew f (by omega)]
            show some (disk_read d1 addr bs ++ (old ++ _)) = _
            rw [hblk, List.append_assoc]
        · intro a ha
          exact hframe a (fun c hc => ha c (List.mem_cons_of_mem _ hc))

theorem last_block_bytes_mod (bs cs : Nat) (hbs : 0 < bs) :
    (if cs = 0 then 0 else (cs - 1) % bs + 1) = if 0 < cs ∧ cs % bs = 0 then bs else cs % bs := by
  by_cases h0 : cs = 0
  · subst h0
    simp
  · rw [if_neg h0]
    have hdm := Nat.div_add_mod cs bs
    by_cases hr : cs % bs = 0
    · rw [if_pos ⟨Nat.pos_of_ne_zero h0, hr⟩]
      rw [hr, Nat.add_zero] at hdm
      have hq : 0 < cs / bs := by
        rcases Nat.eq_zero_or_pos (cs / bs) with h | h
        · rw [h, Nat.mul_zero] at hdm; omega
        · exact h
      have hcs : cs - 1 = (bs - 1) + bs * (cs / bs - 1) := by
        have : bs * (cs / bs - 1) + bs = bs * (cs / bs) := by
          rw [← Nat.mul_succ]
          congr 1
          omega
        omega
      rw [hcs, Nat.add_mul_mod_self_left, Nat.mod_eq_of_lt (by omega)]
      omega
    · rw [if_neg (fun h => hr h.2)]
      have hrlt : cs % bs < bs := Nat.mod_lt _ hbs
      have hcs : cs - 1 = (cs % bs - 1) + bs * (cs / bs) := by omega
      rw [hcs, Nat.add_mul_mod_self_left, Nat.mod_eq_of_lt (by omega)]
      omega

/-- Claim C34 at a failing input: in the example image `build_chain` stores 256 bytes
in the free block 3, a chain of one block that is full. `fill_chain` on that chain
with `chain_size = 256` and a buffer of one byte returns 0 and writes nothing: for
`chain_size == block_size` the function returns at once. The count of the claim,
`min(buffer_len, S - (chain_bytes mod S))`, is `min(1, 256 - 0) = 1`. -/
theorem fill_chain_full_block :
    ((build_chain (example_image 6) 3 (List.replicate 256 65)).bind fun img1 =>
      (fill_chain img1 3 256 [66]).map fun r =>
        (img1.fat.take 5, r.2))
      = some ([256, LASTBLOCK, LASTBLOCK, LASTBLOCK, 0], 0) ∧
    fill_chain_count_spec 256 256 1 = 1 := by
  decide

/-- Claim C34, amended: `head` starts a chain `C` of the FAT with room for `chain_size`
bytes, and `S` is the block size. `fill_chain` returns and leaves the FAT as it is.
When `chain_size` is 0 or no multiple of `S` the count returned is
`min(buffer_len, S - (chain_size mod S))`; when `chain_size` is a positive multiple
of `S` the count is 0. The `chain_size` bytes of the chain are read as before, the
bytes counted are the first bytes of the buffer and are read right after them, and
the bytes of the disk outside the blocks of the chain are unchanged. -/
theorem fill_chain_tail (img : Image) (head chain_size m bs : Nat) (buffer C : List Nat)
    (hm : img.fat[0]? = some m) (hb : BLOCK_SIZE m = some bs)
    (hC : is_chain img.fat head C) (hne : C ≠ []) (hsz : chain_size ≤ C.length * bs) :
    ∃ (img1 : Image) (old : List Nat) (w : Nat),
      fill_chain img head chain_size buffer = some (img1, w) ∧
      img1.fat = img.fat ∧
      (chain_size = 0 ∨ chain_size % bs ≠ 0 → w = min buffer.length (bs - chain_size % bs)) ∧
      (0 < chain_size ∧ chain_size % bs = 0 → w = 0) ∧
      read_chain img head chain_size = some old ∧ old.length = chain_size ∧
      read_chain img1 head chain_size = some old ∧
      read_chain img1 head (chain_size + w)
        = some (old ++ (buffer.take w).map (fun x => x % 256)) ∧
      (∀ a, (∀ c ∈ C, ∀ addr, mem_idx img.fat c = some addr → ¬ (addr ≤ a ∧ a < addr + bs)) →
        img1.disk a = img.disk a) := by
  have hbspos : 0 < bs := BLOCK_SIZE_pos m bs hb
  have hcount : ∀ w, w = min buffer.length
        (bs - (if chain_size = 0 then 0 else (chain_size - 1) % bs + 1)) →
      (chain_size = 0 ∨ chain_size % bs ≠ 0 → w = min buffer.length (bs - chain_size % bs)) ∧
      (0 < chain_size ∧ chain_size % bs = 0 → w = 0) := by
    intro w hw
    rw [last_block_bytes_mod bs chain_size hbspos] at hw
    constructor
    · intro h
      rw [if_neg (by rcases h with h | h <;> omega)] at hw
      exact hw
    · intro h
      rw [if_pos h] at hw
      omega
  by_cases hbuf : buffer = []
  · -- nothing to write
    subst hbuf
    obtain ⟨_, old, _, _, _, holdlen, hold, _, _, _⟩ :=
      fill_chain_rec_spec img [0] m bs hm hb (by simp) C head chain_size (chain_size + 1) hC hne
        hsz (Nat.lt_succ_self _)
    have hhead : head ≠ LASTBLOCK := by
      cases C with
      | nil => exact absurd rfl hne
      | cons b rest =>
        simp only [is_chain] at hC
        rw [hC.1]
        exact hC.2.1
    have hr : read_chain img head chain_size = some old := hold chain_size (Nat.le_refl _)
    refine ⟨img, old, 0, ?_, rfl, ?_, fun _ => rfl, hr, holdlen, hr, ?_, fun _ _ => rfl⟩
    · unfold fill_chain
      simp [fill_chain_rec, hhead]
    · intro _
      simp
    · rw [Nat.add_zero, List.take_zero, List.map_nil, List.append_nil]
      exact hr
  · obtain ⟨d1, old, w, hfill, hw, holdlen, hold, hold1, hnew, hframe⟩ :=
      fill_chain_rec_spec img buffer m bs hm hb hbuf C head chain_size (chain_size + 1) hC hne
        hsz (Nat.lt_succ_self _)
    exact ⟨Image.mk img.fat d1, old, w, hfill, rfl, (hcount w hw).1, (hcount w hw).2,
      hold chain_size (Nat.le_refl _), holdlen, hold1 chain_size (Nat.le_refl _),
      hnew (chain_size + w) (Nat.le_refl _), hframe⟩

/-- Witness of the amended claim C34: in the example image the chain of `foo` is the
block 2 and holds the 2 bytes `hi`; the buffer has the two bytes `!"`. -/
theorem fill_chain_tail_witness :
    ∃ (img1 : Image) (old : List Nat) (w : Nat),
      fill_chain (example_image 6) 2 2 [33, 34] = some (img1, w) ∧
      img1.fat = (example_image 6).fat ∧
      (2 = 0 ∨ 2 % 256 ≠ 0 → w = min [33, 34].length (256 - 2 % 256)) ∧
      (0 < 2 ∧ 2 % 256 = 0 → w = 0) ∧
      read_chain (example_image 6) 2 2 = some old ∧ old.length = 2 ∧
      read_chain img1 2 2 = some old ∧
      read_chain img1 2 (2 + w) = some (old ++ ([33, 34].take w).map (fun x => x % 256)) ∧
      (∀ a, (∀ c ∈ [2], ∀ addr, mem_idx (example_image 6).fat c = some addr →
          ¬ (addr ≤ a ∧ a < addr + 256)) →
        img1.disk a = (example_image 6).disk a) :=
  fill_chain_tail (example_image 6) 2 2 256 256 [33, 34] [2] (by decide) (by decide)
    ⟨rfl, by decide, by decide, LASTBLOCK, by decide, rfl⟩ (by decide) (by decide)

/-! ## The scenarios of the claims C31 and C37 that the code handles -/

/-- The scenario of claim C31 on the example image: `foo` holds `ABC`, written in the
overwrite mode, and 261 bytes `D` are appended. The size is 264, the chain has the
blocks 2 and 3, and the file reads back as `ABC` followed by the 261 bytes. -/
theorem fs_cat_append_scenario :
    ((fs_cat (example_image 6) 0 1 [65, 66, 67, 0] [] foo 8).bind fun w =>
      (fs_cat w.1 0 2 (List.replicate 261 68 ++ [0]) [] foo 9).bind fun r =>
        (file_content r.1 foo).map fun c => (c, r.1.fat.take 5))
      = some ((264, [65, 66, 67] ++ List.replicate 261 68),
          [256, LASTBLOCK, 3, LASTBLOCK, 0]) := by
  decide

/-- Exit of a top-level process on the example kernel: process 1, whose parent PID is
0, holds `foo` and is its writer. `p_exit` returns; the registry is left with
process 2, unchanged, and the entry of `foo` has no offset and no writer. -/
theorem p_exit_top_level_example :
    (p_exit (example_kernel 1 0 6)).map
        (fun k => (k.pcb_list.map PCB.summary, k.open_files))
      = some ([(2, 0, [], T_RUNNING)],
          [{ filename := foo, file_id := 0, wr_pid := -1, fileptr_head := [] }]) := by
  decide

/-! ## Claims C5 and C10: a redirected descriptor, the head of the list of offsets -/

/-- Claim C5 at a failing input: on the example kernel process 1 holds the two-byte
file `foo` (file_id 0) through descriptor 3 and spawns a child with `fd1 = 3`. Slot 1
of the child 3 is bound to the file and the child has the offset 0 in it. For the
child, `f_read(1, 2)` reads the two bytes of the file, but `f_lseek(1, 1, F_SEEK_SET)`
returns `-1` with `ERR_F_LSEEK_TERMINAL` and leaves the offset at 0: `f_lseek` asks
`f_isatty`, which looks at the number of the descriptor and not at what the slot is
bound to. The claim requires the value 1 and the offset 1, as `0 <= 1 <= 2`. -/
theorem f_lseek_redirected_descriptor :
    file_content (example_kernel 1 0 6).img foo = some (2, [104, 105]) ∧
    (p_spawn (example_kernel 1 0 6) 0 3).map
        (fun s => (s.2, (findPCBByPID s.1.pcb_list 3).map (fun p => p.fileDescriptors.take 4),
          offset_of s.1 0 3))
      = some (3, some [STDIN_ID, 0, STDERR_ID, 0], some 0) ∧
    ((p_spawn (example_kernel 1 0 6) 0 3).bind fun s =>
      (f_read (run_as s.1 3) 1 2).map fun r => r.2) = some (2, [104, 105]) ∧
    ((p_spawn (example_kernel 1 0 6) 0 3).bind fun s =>
      (f_lseek (run_as s.1 3) 1 1 F_SEEK_SET).map fun r =>
        (r.2, r.1.ERRNO, offset_of r.1 0 3))
      = some (-1, ERR_F_LSEEK_TERMINAL, some 0) := by
  decide

/-- Function `f_close` by the process whose offset is the head of the list while other
offsets remain, on the last descriptor that the process has for the file: the node
is freed through the copy of the entry and the entry of the table keeps the pointer
to it; no state is defined. -/
theorem f_close_head_freed (k : Kernel) (fd : Int) (pcb pcb1 : PCB) (file_id : Int)
    (fe : file_t) (x y : fileptr_t) (ys : List fileptr_t)
    (hfd : f_isatty fd = false)
    (hfind : find_file_entry k fd = some (file_id, fe))
    (hcur : cur_pcb k = some pcb)
    (hset : fd_set pcb fd NOFILE = some pcb1)
    (hdup : is_duplicate_fd pcb1 file_id = some false)
    (hhead : fe.fileptr_head = x :: y :: ys) (hx : x.pid = pcb.pid) :
    f_close k fd = none := by
  simp [f_close, hfd, hfind, hcur, hset, hdup, hhead, hx, delete_fileptr]

/-- Claim C10 at a failing input: from the start of the program on the example image
`p_spawn` creates process 1, which opens `foo` for writing through descriptor 3 and
spawns the child 2. The child inherits the descriptor, and its offset is put at the
head of the list of the entry. In that state, which is reached by calls with a
defined result, the child closes descriptor 3: `f_close` frees the head node through
its local copy of the entry, and the entry of the table keeps the pointer to the
freed node. The table then holds no list of offsets for `foo` and the call has no
defined state, where the claim has the invariant hold after every sequence of calls. -/
theorem f_close_head_offset_dangling :
    ∃ k : Kernel, Reachable k ∧
      k.current_pcb = some 2 ∧
      k.open_files = [{ filename := foo, file_id := 0, wr_pid := 1,
                        fileptr_head := [{ pid := 2, ptr := 0 }, { pid := 1, ptr := 0 }] }] ∧
      f_close k 3 = none := by
  have h1 : (p_spawn (boot (example_image 6)) 0 1).map
      (fun a => (a.2, a.1.pcb_list.map PCB.pid)) = some (1, [1]) := by decide
  have h2 : ((p_spawn (boot (example_image 6)) 0 1).bind
      (fun a => f_open (run_as a.1 1) foo F_WRITE 9)).map
      (fun b => (b.2, b.1.pcb_list.map PCB.pid)) = some (3, [1]) := by decide
  have h3 : (((p_spawn (boot (example_image 6)) 0 1).bind
      (fun a => f_open (run_as a.1 1) foo F_WRITE 9)).bind
      (fun b => p_spawn b.1 0 1)).map
      (fun d => (d.2, d.1.pcb_list.map PCB.pid, d.1.open_files, cur_pcb (run_as d.1 2),
        find_file_entry (run_as d.1 2) 3))
      = some (2, [1, 2],
          [{ filename := foo, file_id := 0, wr_pid := 1,
             fileptr_head := [{ pid := 2, ptr := 0 }, { pid := 1, ptr := 0 }] }],
          some { parent_pid := 1, pid := 2, children := [], fileDescriptors := example_fds [0],
                 priority := 0, status := T_RUNNING },
          some (0, { filename := foo, file_id := 0, wr_pid := 1,
                     fileptr_head := [{ pid := 2, ptr := 0 }, { pid := 1, ptr := 0 }] })) := by
    decide
  cases hs1 : p_spawn (boot (example_image 6)) 0 1 with
  | none => rw [hs1] at h1; cases h1
  | some a =>
    obtain ⟨k1, r1⟩ := a
    rw [hs1] at h1 h2 h3
    simp only [Option.map_some', Option.some.injEq, Prod.mk.injEq] at h1
    simp only [Option.some_bind] at h2 h3
    cases hs2 : f_open (run_as k1 1) foo F_WRITE 9 with
    | none => rw [hs2] at h2; cases h2
    | some b =>
      obtain ⟨k2, r2⟩ := b
      rw [hs2] at h2 h3
      simp only [Option.map_some', Option.some.injEq, Prod.mk.injEq] at h2
      simp only [Option.some_bind] at h3
      cases hs3 : p_spawn k2 0 1 with
      | none => rw [hs3] at h3; cases h3
      | some d =>
        obtain ⟨k3, r3⟩ := d
        rw [hs3] at h3
        simp only [Option.map_some', Option.some.injEq, Prod.mk.injEq] at h3
        obtain ⟨_, hpids, hof, hcur, hfind⟩ := h3
        have hm1 : (1 : Int) ∈ k1.pcb_list.map PCB.pid := by rw [h1.2]; simp
        obtain ⟨p1, hp1, hpid1⟩ := List.mem_map.mp hm1
        have hm2 : (2 : Int) ∈ k3.pcb_list.map PCB.pid := by rw [hpids]; simp
        obtain ⟨p2, hp2, hpid2⟩ := List.mem_map.mp hm2
        have hr1 : Reachable k1 :=
          Reachable.by_spawn _ k1 0 1 r1 (Reachable.start (example_image 6)) hs1
        have hr1a : Reachable (run_as k1 1) := by
          have := Reachable.schedule k1 p1 hr1 hp1
          rw [hpid1] at this
          exact this
        have hr2 : Reachable k2 := Reachable.by_open _ k2 foo F_WRITE 9 r2 hr1a hs2
        have hr3 : Reachable k3 := Reachable.by_spawn _ k3 0 1 r3 hr2 hs3
        have hr3a : Reachable (run_as k3 2) := by
          have := Reachable.schedule k3 p2 hr3 hp2
          rw [hpid2] at this
          exact this
        have hlen : (example_fds [0]).length = MAX_FDS :=
          example_fds_length _ (by simp only [List.length_singleton]; decide)
        have hset : fd_set
            { parent_pid := 1, pid := 2, children := [], fileDescriptors := example_fds [0],
              priority := 0, status := T_RUNNING } 3 NOFILE
            = some { parent_pid := 1, pid := 2, children := [],
                     fileDescriptors := example_fds [NOFILE], priority := 0,
                     status := T_RUNNING } := by
          have h := fd_set_of_lt
            { parent_pid := 1, pid := 2, children := [], fileDescriptors := example_fds [0],
              priority := 0, status := T_RUNNING } 3 NOFILE hlen (by decide)
          rw [show ((3 : Nat) : Int) = 3 from rfl] at h
          rw [h]
          simp only [example_fds_set]
        have hdup : is_duplicate_fd
            { parent_pid := 1, pid := 2, children := [], fileDescriptors := example_fds [NOFILE],
              priority := 0, status := T_RUNNING } 0 = some false :=
          is_duplicate_fd_false _ 0 (example_fds_length _ (by decide))
            (fun v hv => by
              rcases example_fds_mem [NOFILE] v hv with h1 | h1
              · simp only [List.mem_singleton] at h1
                rw [h1]; decide
              · rw [h1]; decide)
        refine ⟨run_as k3 2, hr3a, rfl, hof, ?_⟩
        exact f_close_head_freed (run_as k3 2) 3 _ _ 0
          { filename := foo, file_id := 0, wr_pid := 1,
            fileptr_head := [{ pid := 2, ptr := 0 }, { pid := 1, ptr := 0 }] }
          { pid := 2, ptr := 0 } { pid := 1, ptr := 0 } [] (by decide) hfind hcur hset hdup
          rfl rfl

/-- An offset past the end of the file without a write that extends it: in the example
kernel in which process 1 writes `foo` and process 2 reads it, process 2 reads the two
bytes of the file, so that its offset is 2; process 1 writes one byte at offset 0,
which cuts the file to the size 1; the next `f_read` of process 2 returns `-1`. -/
theorem f_read_past_end_after_cut :
    ((f_read (example_kernel_shared 2) 3 2).bind fun a =>
      (f_write (run_as a.1 1) 3 [88, 0] 1 9).bind fun b =>
        (f_read (run_as b.1 2) 3 1).map fun c =>
          (a.2.1, offset_of a.1 0 2, b.2, file_content b.1.img foo, offset_of b.1 0 2,
            c.2.1, c.2.2))
      = some (2, some 2, 1, some (1, [88]), some 2, -1, []) := by
  decide

end PennOS
